import Mathlib

/-!
# libxc interface of PySCF (`lib/dft/libxc_itrf.c`): derivative-tensor evaluation and merge

A shallow embedding of the evaluation and merge engine of `libxc_itrf.c`.

Conventions of the embedding.

* C `int` values that can be negative (`nvar`, `deriv`, `spin`, family tags, functional ids)
  are `Int`; integer division is the truncating `Int.tdiv` of C.  Point counts and array
  indices are `Nat`.
* A `double *` is a map `Nat → α` from element index to value, `α` being the scalar type;
  `p + off` is `ptr_add p off`, and a write through a shifted pointer is put back with
  `store_at`.  A pointer that may be `NULL` is an `Option`.
* The three chunked evaluators are embedded a second time with the output buffers as addresses
  in one memory (`_eval_xc_lda_ptr`, `_eval_xc_gga_ptr`, `_eval_xc_mgga_ptr`): `NULL` is
  address `0`, the local pointer variables are part of the state, the kernel writes through
  the pointers it receives, and the pointer arguments of every kernel invocation are logged.
  `lda_ptr_refines`, `gga_ptr_refines` and `mgga_ptr_refines` relate the two embeddings.
* The libxc library itself (functional lookup and the three evaluation kernels) is external to
  the repository and is a parameter, `xc_library`.
* `#pragma omp` regions are run in the sequential order of their loops; the number of threads
  reported by `omp_get_num_threads` is the parameter `nthreads`.
* `exit(1)` and a failed `assert` end the run; `LIBXC_eval_xc` returns the way the run ended
  together with the content of the output tensor at that moment.
* Conditional compilation: the family tags `XC_FAMILY_HYB_LDA`, `XC_FAMILY_HYB_GGA` and
  `XC_FAMILY_HYB_MGGA` are defined, the GGA kernel takes the third-order arrays, and the
  range-separation parameter is the field `cam_omega` (the branch `XC_MAJOR_VERSION < 6`; the
  other branch does the same on `hyb_omega[0]`).
* `malloc` returns memory of unspecified content: the content of each allocated array is a
  parameter (`heap`).
-/

namespace Libxc

/-! ## Constants of the libxc header -/

/-- Modelled from the spec: the spin mode tag `XC_UNPOLARIZED` of the libxc header `xc.h`,
which is not part of the repository (the source comments `spin == 1` for the restricted
case). -/
def XC_UNPOLARIZED : Int := 1

/-- Modelled from the spec: the spin mode tag `XC_POLARIZED` of the libxc header `xc.h`,
which is not part of the repository. -/
def XC_POLARIZED : Int := 2

/-- Family tag, value as listed in the comment above `LIBXC_xc_type`. -/
def XC_FAMILY_LDA : Int := 1
/-- Family tag, value as listed in the comment above `LIBXC_xc_type`. -/
def XC_FAMILY_GGA : Int := 2
/-- Family tag, value as listed in the comment above `LIBXC_xc_type`. -/
def XC_FAMILY_MGGA : Int := 4
/-- Family tag, value as listed in the comment above `LIBXC_xc_type`. -/
def XC_FAMILY_LCA : Int := 8
/-- Family tag, value as listed in the comment above `LIBXC_xc_type`. -/
def XC_FAMILY_OEP : Int := 16
/-- Family tag, value as listed in the comment above `LIBXC_xc_type`. -/
def XC_FAMILY_HYB_GGA : Int := 32
/-- Family tag, value as listed in the comment above `LIBXC_xc_type`. -/
def XC_FAMILY_HYB_MGGA : Int := 64
/-- Family tag, value as listed in the comment above `LIBXC_xc_type`. -/
def XC_FAMILY_HYB_LDA : Int := 128

/-! ## The external library -/

/-- The fields of libxc's `xc_func_type` that `libxc_itrf.c` reads or writes:
`info->number`, `info->family`, `info->flags`, `cam_omega` and the auxiliary functionals
`func_aux[0 .. n_func_aux)`; and `nspin`, the spin mode `xc_func_init` was called with, which
only the library's kernels read. -/
inductive xc_func_type (α : Type) where
  | mk (number : Int) (family : Int) (flags : Int) (nspin : Int) (cam_omega : α)
      (func_aux : List (xc_func_type α))

/-- Field `info->number`. -/
def xc_func_type.number {α : Type} : xc_func_type α → Int
  | .mk n _ _ _ _ _ => n

/-- Field `info->family`. -/
def xc_func_type.family {α : Type} : xc_func_type α → Int
  | .mk _ f _ _ _ _ => f

/-- Field `info->flags`. -/
def xc_func_type.flags {α : Type} : xc_func_type α → Int
  | .mk _ _ fl _ _ _ => fl

/-- Field `nspin`. -/
def xc_func_type.nspin {α : Type} : xc_func_type α → Int
  | .mk _ _ _ sp _ _ => sp

/-- Field `cam_omega`. -/
def xc_func_type.cam_omega {α : Type} : xc_func_type α → α
  | .mk _ _ _ _ w _ => w

/-- Field `func_aux`, as the list of its `n_func_aux` entries. -/
def xc_func_type.func_aux {α : Type} : xc_func_type α → List (xc_func_type α)
  | .mk _ _ _ _ _ aux => aux

/-- Assignment `p->cam_omega = w`. -/
def xc_func_type.set_cam_omega {α : Type} (w : α) : xc_func_type α → xc_func_type α
  | .mk n f fl sp _ aux => .mk n f fl sp w aux

/-- Replacement of the auxiliary list (the pointed-to auxiliaries after their update). -/
def xc_func_type.set_func_aux {α : Type} (aux : List (xc_func_type α)) :
    xc_func_type α → xc_func_type α
  | .mk n f fl sp w _ => .mk n f fl sp w aux

/-- What one kernel call hands back: the energy array `zk` and, for each derivative order, its
arrays in the order of the kernel's argument list (`v 0 = vrho`, `v 1 = vsigma`, `v 2 = vlapl`,
`v 3 = vtau`; `f 0 = v2rho2`, ...; `k 0 = v3rho3`, ...).  Entry `i * s + l` of an array is
component `l` of point `i` of the call, `s` being the array's component count. -/
structure xc_out (α : Type) where
  zk : Nat → α
  v : Nat → Nat → α
  f : Nat → Nat → α
  k : Nat → Nat → α

/-- The libxc library: `xc_func_init (id, spin)` (`none` when the id is unknown) and the
kernels `xc_lda`, `xc_gga`, `xc_mgga`, each taking the functional, the number of points and
the input arrays of the call. -/
structure xc_library (α : Type) where
  xc_func_init : Int → Int → Option (xc_func_type α)
  xc_lda : xc_func_type α → Nat → (Nat → α) → xc_out α
  xc_gga : xc_func_type α → Nat → (Nat → α) → (Nat → α) → xc_out α
  xc_mgga : xc_func_type α → Nat → (Nat → α) → (Nat → α) → (Nat → α) → (Nat → α) → xc_out α

/-- The four scratch buffers `ex`, `vxc`, `fxc`, `kxc` of one evaluation; a derivative buffer
that was not requested is `NULL`. -/
structure xc_bufs (α : Type) where
  ex : Nat → α
  vxc : Option (Nat → α)
  fxc : Option (Nat → α)
  kxc : Option (Nat → α)

/-- One entry of the parallel arrays `fn_id[i]`, `fac[i]`, `omega[i]`. -/
structure xc_term (α : Type) where
  fn_id : Int
  fac : α
  omega : α

/-- How a run of `LIBXC_eval_xc` ends: a normal return, the failed `assert(deriv <= 3)`,
`exit(1)` after "XC functional %d not found", or `exit(1)` after
"functional %d '%s' is not implmented". -/
inductive xc_exit where
  | returned
  | assert_failed
  | not_found (fn_id : Int)
  | not_implemented (number : Int)
  deriving DecidableEq, Repr

/-! ## Pointers -/

section Defs

variable {α : Type}

/-- Pointer arithmetic `p + off`, as a view. -/
def ptr_add (p : Nat → α) (off : Nat) : Nat → α := fun k => p (off + k)

/-- Memory `mem` after the cells reachable through `mem + off` were replaced by `view`. -/
def store_at (mem : Nat → α) (off : Nat) (view : Nat → α) : Nat → α :=
  fun k => if k < off then mem k else view (k - off)

/-- Memory `buf` after a kernel wrote the `len` values `vals 0 .. vals (len-1)` through the
pointer `buf + base`. -/
def store_block (buf : Nat → α) (base len : Nat) (vals : Nat → α) : Nat → α :=
  fun p => if base ≤ p ∧ p < base + len then vals (p - base) else buf p

/-! ## `xc_output_length` -/

/-- `xc_output_length`: `len = 1; for (i = 1; i <= nvar; i++) { len *= deriv + i; len /= i; }`,
the loop counter being `i = k + 1`. -/
def xc_output_length (nvar deriv : Int) : Int :=
  (List.range nvar.toNat).foldl
    (fun (len : Int) (k : Nat) => (len * (deriv + ((k : Int) + 1))).tdiv ((k : Int) + 1)) 1

/-- `xc_output_length` on 32-bit `int`: the same loop, `none` as soon as a product leaves the
range of `int`. -/
def xc_output_length_int32 (nvar deriv : Int) : Option Int :=
  (List.range nvar.toNat).foldl
    (fun (len : Option Int) (k : Nat) =>
      len.bind fun l =>
        let prod := l * (deriv + ((k : Int) + 1))
        if -2147483648 ≤ prod ∧ prod ≤ 2147483647 then some (prod.tdiv ((k : Int) + 1))
        else none)
    (some 1)

/-! ## `LIBXC_input_length` -/

/-- The preprocessor definition `MAX(X,Y) ((X) > (Y) ? (X) : (Y))`. -/
def MAX (x y : Int) : Int := if x > y then x else y

/-- Body of the loop of `LIBXC_input_length` once `xc_func_init` succeeded: the two `switch`
statements on the family (neither has a `default`). -/
def input_length_step (spin : Int) (family : Int) (nvar : Int) : Int :=
  if spin = XC_POLARIZED then
    if family = XC_FAMILY_LDA ∨ family = XC_FAMILY_HYB_LDA then MAX nvar 2
    else if family = XC_FAMILY_GGA ∨ family = XC_FAMILY_HYB_GGA then MAX nvar 5
    else if family = XC_FAMILY_MGGA ∨ family = XC_FAMILY_HYB_MGGA then MAX nvar 9
    else nvar
  else
    if family = XC_FAMILY_LDA ∨ family = XC_FAMILY_HYB_LDA then MAX nvar 1
    else if family = XC_FAMILY_GGA ∨ family = XC_FAMILY_HYB_GGA then MAX nvar 2
    else if family = XC_FAMILY_MGGA ∨ family = XC_FAMILY_HYB_MGGA then MAX nvar 4
    else nvar

/-- The loop of `LIBXC_input_length` from the running value `nvar` on; an unknown id ends the
run with `exit(1)`. -/
def input_length_loop (lib : xc_library α) (spin : Int) :
    List (xc_term α) → Int → Except xc_exit Int
  | [], nvar => .ok nvar
  | t :: rest, nvar =>
    match lib.xc_func_init t.fn_id spin with
    | none => .error (.not_found t.fn_id)
    | some func => input_length_loop lib spin rest (input_length_step spin func.family nvar)

/-- `LIBXC_input_length(nfn, fn_id, fac, spin)`. -/
def LIBXC_input_length (lib : xc_library α) (fns : List (xc_term α)) (spin : Int) :
    Except xc_exit Int :=
  input_length_loop lib spin fns 0

/-- The families of the LDA branch of the `switch` statements: `XC_FAMILY_LDA` and
`XC_FAMILY_HYB_LDA`. -/
def is_lda_family (family : Int) : Prop := family = XC_FAMILY_LDA ∨ family = XC_FAMILY_HYB_LDA

/-- The families of the GGA branch: `XC_FAMILY_GGA` and `XC_FAMILY_HYB_GGA`. -/
def is_gga_family (family : Int) : Prop := family = XC_FAMILY_GGA ∨ family = XC_FAMILY_HYB_GGA

/-- The families of the MGGA branch: `XC_FAMILY_MGGA` and `XC_FAMILY_HYB_MGGA`. -/
def is_mgga_family (family : Int) : Prop :=
  family = XC_FAMILY_MGGA ∨ family = XC_FAMILY_HYB_MGGA

/-- The six families `_eval_xc` evaluates. -/
def supported_family (family : Int) : Prop :=
  is_lda_family family ∨ is_gga_family family ∨ is_mgga_family family

instance (family : Int) : Decidable (is_lda_family family) := by
  unfold is_lda_family; infer_instance

instance (family : Int) : Decidable (is_gga_family family) := by
  unfold is_gga_family; infer_instance

instance (family : Int) : Decidable (is_mgga_family family) := by
  unfold is_mgga_family; infer_instance

instance (family : Int) : Decidable (supported_family family) := by
  unfold supported_family; infer_instance

/-! ## `axpy` and `merge_xc` -/

/-- `axpy`: `for j < nsrc: for i < np: dst[j*np+i] += fac * src[i*nsrc+j]`.  The argument
`ndst` is not used by the source. -/
def axpy [Add α] [Mul α] (dst src : Nat → α) (fac : α) (np : Nat) (_ndst : Int) (nsrc : Nat) :
    Nat → α :=
  (List.range nsrc).foldl
    (fun d j =>
      (List.range np).foldl
        (fun d i => Function.update d (j * np + i) (d (j * np + i) + fac * src (i * nsrc + j)))
        d)
    dst

/-- The tables `seg0`, `vseg1`, `fseg1`, `kseg1` of `merge_xc`. -/
def merge_seg0 : List Nat := [1, 1, 1, 1, 1, 1, 1, 1, 1, 1]
/-- Table `vseg1` of `merge_xc`. -/
def merge_vseg1 : List Nat := [2, 3, 2, 2]
/-- Table `fseg1` of `merge_xc`. -/
def merge_fseg1 : List Nat := [3, 6, 6, 3, 3, 4, 4, 4, 6, 6]
/-- Table `kseg1` of `merge_xc`. -/
def merge_kseg1 : List Nat := [4, 9, 12, 10]

/-- Table `vseg` selected by `spin` in `merge_xc`. -/
def merge_vseg (spin : Int) : List Nat := if spin = XC_POLARIZED then merge_vseg1 else merge_seg0
/-- Table `fseg` selected by `spin` in `merge_xc`. -/
def merge_fseg (spin : Int) : List Nat := if spin = XC_POLARIZED then merge_fseg1 else merge_seg0
/-- Table `kseg` selected by `spin` in `merge_xc`. -/
def merge_kseg (spin : Int) : List Nat := if spin = XC_POLARIZED then merge_kseg1 else merge_seg0

/-- The `switch (type)` of `merge_xc`: `(vsegtot, fsegtot, ksegtot)`. -/
def merge_segtot (type : Int) : Nat × Nat × Nat :=
  if type = XC_FAMILY_GGA ∨ type = XC_FAMILY_HYB_GGA then (2, 3, 4)
  else if type = XC_FAMILY_MGGA ∨ type = XC_FAMILY_HYB_MGGA then (4, 10, 0)
  else (1, 1, 1)

/-- Body of each of the three loops of `merge_xc`:
`axpy(dst+offset, buf, fac, np, ndst, seg[i]); offset += np * seg[i]; buf += np * seg[i];`
on the state `(dst, offset, advance of buf)`. -/
def merge_order_step [Add α] [Mul α] (buf : Nat → α) (fac : α) (np : Nat) (ndst : Int)
    (seg : List Nat) (st : (Nat → α) × Nat × Nat) (i : Nat) : (Nat → α) × Nat × Nat :=
  (store_at st.1 st.2.1
      (axpy (ptr_add st.1 st.2.1) (ptr_add buf st.2.2) fac np ndst (seg.getD i 0)),
    st.2.1 + np * seg.getD i 0, st.2.2 + np * seg.getD i 0)

/-- One of the three loops of `merge_xc`, `for (i = 0; i < segtot; i++) { ... }`, started at
`offset`. -/
def merge_order [Add α] [Mul α] (dst buf : Nat → α) (fac : α) (np : Nat) (ndst : Int)
    (seg : List Nat) (segtot : Nat) (offset : Nat) : Nat → α :=
  ((List.range segtot).foldl (merge_order_step buf fac np ndst seg) (dst, offset, 0)).1

/-- Number of components in the sub-blocks before sub-block `j` of a table: the sum of
`seg[0 .. j)`. -/
def seg_base (seg : List Nat) (j : Nat) : Nat :=
  ((List.range j).map fun i => seg.getD i 0).sum

/-- A guarded loop of `merge_xc`: `if (buf != NULL) { offset = ...; for (...) {...} }`. -/
def merge_order_opt [Add α] [Mul α] (dst : Nat → α) (buf : Option (Nat → α)) (fac : α)
    (np : Nat) (ndst : Int) (seg : List Nat) (segtot : Nat) (offset : Nat) : Nat → α :=
  match buf with
  | some buf => merge_order dst buf fac np ndst seg segtot offset
  | none => dst

/-- `merge_xc(dst, ebuf, vbuf, fbuf, kbuf, fac, np, ndst, nvar, spin, type)`: the energy
`axpy`, then the guarded loops over `vbuf` (from `offset = np`), `fbuf` (from
`offset = np * xc_output_length(nvar, 1)`) and `kbuf` (from
`offset = np * xc_output_length(nvar, 2)`). -/
def merge_xc [Add α] [Mul α] (dst ebuf : Nat → α) (vbuf fbuf kbuf : Option (Nat → α))
    (fac : α) (np : Nat) (ndst : Int) (nvar : Int) (spin : Int) (type : Int) : Nat → α :=
  let vsegtot := (merge_segtot type).1
  let fsegtot := (merge_segtot type).2.1
  let ksegtot := (merge_segtot type).2.2
  let dst := axpy dst ebuf fac np ndst 1
  let dst := merge_order_opt dst vbuf fac np ndst (merge_vseg spin) vsegtot np
  let dst := merge_order_opt dst fbuf fac np ndst (merge_fseg spin) fsegtot
    (np * (xc_output_length nvar 1).toNat)
  merge_order_opt dst kbuf fac np ndst (merge_kseg spin) ksegtot
    (np * (xc_output_length nvar 2).toNat)

/-! ## Variable builders -/

/-- The loop `rho[i*2+0] = a[i]; rho[i*2+1] = b[i]` for `i < np` on freshly allocated memory
`heap` (used for `rho`, `lapl` and `tau` in polarized mode). -/
def build_interleaved (np : Nat) (a b heap : Nat → α) : Nat → α :=
  (List.range np).foldl
    (fun r i => Function.update (Function.update r (i * 2 + 0) (a i)) (i * 2 + 1) (b i))
    heap

/-- The polarized `sigma` loop of `_eval_xc_gga` and `_eval_xc_mgga`, with
`gxu = rho_u + np`, `gyu = rho_u + np*2`, `gzu = rho_u + np*3` and likewise for `rho_d`. -/
def build_sigma_polarized [Add α] [Mul α] (np : Nat) (rho_u rho_d heap : Nat → α) : Nat → α :=
  let gxu := ptr_add rho_u np
  let gyu := ptr_add rho_u (np * 2)
  let gzu := ptr_add rho_u (np * 3)
  let gxd := ptr_add rho_d np
  let gyd := ptr_add rho_d (np * 2)
  let gzd := ptr_add rho_d (np * 3)
  (List.range np).foldl
    (fun s i =>
      Function.update
        (Function.update
          (Function.update s (i * 3 + 0) (gxu i * gxu i + gyu i * gyu i + gzu i * gzu i))
          (i * 3 + 1) (gxu i * gxd i + gyu i * gyd i + gzu i * gzd i))
        (i * 3 + 2) (gxd i * gxd i + gyd i * gyd i + gzd i * gzd i))
    heap

/-- The unpolarized `sigma` loop of `_eval_xc_gga` and `_eval_xc_mgga`. -/
def build_sigma_unpolarized [Add α] [Mul α] (np : Nat) (rho_u heap : Nat → α) : Nat → α :=
  let gxu := ptr_add rho_u np
  let gyu := ptr_add rho_u (np * 2)
  let gzu := ptr_add rho_u (np * 3)
  (List.range np).foldl
    (fun s i => Function.update s i (gxu i * gxu i + gyu i * gyu i + gzu i * gzu i))
    heap

/-! ## Chunked evaluators -/

/-- The `omp parallel` region shared, word for word, by the three evaluators:
`nblk = omp_get_num_threads(); if (np < nblk) nblk = 1; blk_size = np / nblk;`, the loop over
`iblk < nblk`, then the remainder `np_res = np - nblk * blk_size` if it is positive.
`call start n` is the kernel invocation on the `n` points from `start` on. -/
def chunked (nthreads np : Nat) (call : Nat → Nat → xc_bufs α → xc_bufs α) (b : xc_bufs α) :
    xc_bufs α :=
  let nblk := if np < nthreads then 1 else nthreads
  let blk_size := np / nblk
  let b := (List.range nblk).foldl (fun b iblk => call (iblk * blk_size) blk_size b) b
  let np_res := np - nblk * blk_size
  if np_res > 0 then call (nblk * blk_size) np_res b else b

/-- Table `seg` (`rho, vxc, fxc, kxc`) of `_eval_xc_lda`. -/
def lda_seg (spin : Int) : List Nat := if spin = XC_POLARIZED then [2, 2, 3, 4] else [1, 1, 1, 1]

/-- One kernel invocation of `_eval_xc_lda` on the points `start .. start + n`: the pointers
`prho, pex, pvxc, pfxc, pkxc` are the arrays advanced by `start * seg[.]`, a `NULL` buffer
stays `NULL`. -/
def lda_call (lib : xc_library α) (func_x : xc_func_type α) (seg : List Nat) (rho : Nat → α)
    (start n : Nat) (b : xc_bufs α) : xc_bufs α :=
  let out := lib.xc_lda func_x n (ptr_add rho (start * seg.getD 0 0))
  { ex := store_block b.ex start n out.zk
    vxc := b.vxc.map fun vxc => store_block vxc (start * seg.getD 1 0) (n * seg.getD 1 0) (out.v 0)
    fxc := b.fxc.map fun fxc => store_block fxc (start * seg.getD 2 0) (n * seg.getD 2 0) (out.f 0)
    kxc := b.kxc.map fun kxc =>
      store_block kxc (start * seg.getD 3 0) (n * seg.getD 3 0) (out.k 0) }

/-- `_eval_xc_lda`. -/
def _eval_xc_lda (lib : xc_library α) (nthreads : Nat) (heap : Nat → Nat → α)
    (func_x : xc_func_type α) (spin : Int) (np : Nat) (rho_u rho_d : Nat → α)
    (b : xc_bufs α) : xc_bufs α :=
  let rho := if spin = XC_POLARIZED then build_interleaved np rho_u rho_d (heap 4) else rho_u
  chunked nthreads np (lda_call lib func_x (lda_seg spin) rho) b

/-- Table `seg` (`rho, sigma`) of `_eval_xc_gga`. -/
def gga_seg (spin : Int) : List Nat := if spin = XC_POLARIZED then [2, 3] else [1, 1]
/-- Table `vseg` (`vrho, vsigma`) of `_eval_xc_gga`. -/
def gga_vseg (spin : Int) : List Nat := if spin = XC_POLARIZED then [2, 3] else [1, 1]
/-- Table `fseg` (`v2rho2, v2rhosigma, v2sigma2`) of `_eval_xc_gga`. -/
def gga_fseg (spin : Int) : List Nat := if spin = XC_POLARIZED then [3, 6, 6] else [1, 1, 1]
/-- Table `kseg` (`v3rho3, v3rho2sigma, v3rhosigma2, v3sigma3`) of `_eval_xc_gga`. -/
def gga_kseg (spin : Int) : List Nat :=
  if spin = XC_POLARIZED then [4, 9, 12, 10] else [1, 1, 1, 1]

/-- One kernel invocation of `_eval_xc_gga` on the points `start .. start + n`, with the
sub-array pointers `vsigma = vxc + np*vseg[0]`, `v2rhosigma = fxc + np*fseg[0]`,
`v2sigma2 = v2rhosigma + np*fseg[1]`, `v3rho2sigma = kxc + np*kseg[0]`,
`v3rhosigma2 = v3rho2sigma + np*kseg[1]`, `v3sigma3 = v3rhosigma2 + np*kseg[2]`, each advanced
by `start *` its own entry of the table. -/
def gga_call (lib : xc_library α) (func_x : xc_func_type α) (seg vseg fseg kseg : List Nat)
    (np : Nat) (rho sigma : Nat → α) (start n : Nat) (b : xc_bufs α) : xc_bufs α :=
  let out := lib.xc_gga func_x n (ptr_add rho (start * seg.getD 0 0))
    (ptr_add sigma (start * seg.getD 1 0))
  let vsigma := np * vseg.getD 0 0
  let v2rhosigma := np * fseg.getD 0 0
  let v2sigma2 := v2rhosigma + np * fseg.getD 1 0
  let v3rho2sigma := np * kseg.getD 0 0
  let v3rhosigma2 := v3rho2sigma + np * kseg.getD 1 0
  let v3sigma3 := v3rhosigma2 + np * kseg.getD 2 0
  { ex := store_block b.ex start n out.zk
    vxc := b.vxc.map fun vxc =>
      store_block
        (store_block vxc (start * vseg.getD 0 0) (n * vseg.getD 0 0) (out.v 0))
        (vsigma + start * vseg.getD 1 0) (n * vseg.getD 1 0) (out.v 1)
    fxc := b.fxc.map fun fxc =>
      store_block
        (store_block
          (store_block fxc (start * fseg.getD 0 0) (n * fseg.getD 0 0) (out.f 0))
          (v2rhosigma + start * fseg.getD 1 0) (n * fseg.getD 1 0) (out.f 1))
        (v2sigma2 + start * fseg.getD 2 0) (n * fseg.getD 2 0) (out.f 2)
    kxc := b.kxc.map fun kxc =>
      store_block
        (store_block
          (store_block
            (store_block kxc (start * kseg.getD 0 0) (n * kseg.getD 0 0) (out.k 0))
            (v3rho2sigma + start * kseg.getD 1 0) (n * kseg.getD 1 0) (out.k 1))
          (v3rhosigma2 + start * kseg.getD 2 0) (n * kseg.getD 2 0) (out.k 2))
        (v3sigma3 + start * kseg.getD 3 0) (n * kseg.getD 3 0) (out.k 3) }

/-- `_eval_xc_gga`. -/
def _eval_xc_gga [Add α] [Mul α] (lib : xc_library α) (nthreads : Nat) (heap : Nat → Nat → α)
    (func_x : xc_func_type α) (spin : Int) (np : Nat) (rho_u rho_d : Nat → α)
    (b : xc_bufs α) : xc_bufs α :=
  let rho := if spin = XC_POLARIZED then build_interleaved np rho_u rho_d (heap 4) else rho_u
  let sigma :=
    if spin = XC_POLARIZED then build_sigma_polarized np rho_u rho_d (heap 5)
    else build_sigma_unpolarized np rho_u (heap 5)
  chunked nthreads np
    (gga_call lib func_x (gga_seg spin) (gga_vseg spin) (gga_fseg spin) (gga_kseg spin)
      np rho sigma) b

/-- Table `seg` (`rho, sigma, lapl, tau`) of `_eval_xc_mgga`. -/
def mgga_seg (spin : Int) : List Nat := if spin = XC_POLARIZED then [2, 3, 2, 2] else [1, 1, 1, 1]
/-- Table `vseg` (`vrho, vsigma, vlapl, vtau`) of `_eval_xc_mgga`. -/
def mgga_vseg (spin : Int) : List Nat := if spin = XC_POLARIZED then [2, 3, 2, 2] else [1, 1, 1, 1]
/-- Table `fseg` of `_eval_xc_mgga`. -/
def mgga_fseg (spin : Int) : List Nat :=
  if spin = XC_POLARIZED then [3, 6, 6, 3, 3, 4, 4, 4, 6, 6] else [1, 1, 1, 1, 1, 1, 1, 1, 1, 1]

/-- The pointer arrays `v[nv]`, `f[nf]` of `_eval_xc_mgga`, as offsets from the buffer:
`v[0] = buffer; for (i = 0; i < n-1; i++) v[i+1] = v[i] + np * seg[i];`. -/
def mgga_ptrs (np : Nat) (seg : List Nat) (n : Nat) : List Nat :=
  (List.range (n - 1)).foldl (fun v i => v ++ [v.getD i 0 + np * seg.getD i 0]) [0]

/-- The loop `for (i = 0; i < n; i++) pv[i] = v[i] + start * seg[i];` of `_eval_xc_mgga`
followed by the kernel's writes of `cnt * seg[i]` values through each `pv[i]`. -/
def mgga_store (buf : Nat → α) (ptrs seg : List Nat) (n : Nat) (arr : Nat → Nat → α)
    (start cnt : Nat) : Nat → α :=
  (List.range n).foldl
    (fun buf i =>
      store_block buf (ptrs.getD i 0 + start * seg.getD i 0) (cnt * seg.getD i 0) (arr i))
    buf

/-- One kernel invocation of `_eval_xc_mgga` on the points `start .. start + n`
(`nv = 4`, `nf = 10`); `kxc` is not handed to the kernel. -/
def mgga_call (lib : xc_library α) (func_x : xc_func_type α) (seg vseg fseg : List Nat)
    (np : Nat) (rho sigma lapl tau : Nat → α) (start n : Nat) (b : xc_bufs α) : xc_bufs α :=
  let out := lib.xc_mgga func_x n (ptr_add rho (start * seg.getD 0 0))
    (ptr_add sigma (start * seg.getD 1 0)) (ptr_add lapl (start * seg.getD 2 0))
    (ptr_add tau (start * seg.getD 3 0))
  { ex := store_block b.ex start n out.zk
    vxc := b.vxc.map fun vxc => mgga_store vxc (mgga_ptrs np vseg 4) vseg 4 out.v start n
    fxc := b.fxc.map fun fxc => mgga_store fxc (mgga_ptrs np fseg 10) fseg 10 out.f start n
    kxc := b.kxc }

/-- `_eval_xc_mgga`. -/
def _eval_xc_mgga [Add α] [Mul α] (lib : xc_library α) (nthreads : Nat) (heap : Nat → Nat → α)
    (func_x : xc_func_type α) (spin : Int) (np : Nat) (rho_u rho_d : Nat → α)
    (b : xc_bufs α) : xc_bufs α :=
  let rho := if spin = XC_POLARIZED then build_interleaved np rho_u rho_d (heap 4) else rho_u
  let sigma :=
    if spin = XC_POLARIZED then build_sigma_polarized np rho_u rho_d (heap 5)
    else build_sigma_unpolarized np rho_u (heap 5)
  let lapl :=
    if spin = XC_POLARIZED then
      build_interleaved np (ptr_add rho_u (np * 4)) (ptr_add rho_d (np * 4)) (heap 6)
    else ptr_add rho_u (np * 4)
  let tau :=
    if spin = XC_POLARIZED then
      build_interleaved np (ptr_add rho_u (np * 5)) (ptr_add rho_d (np * 5)) (heap 7)
    else ptr_add rho_u (np * 5)
  chunked nthreads np
    (mgga_call lib func_x (mgga_seg spin) (mgga_vseg spin) (mgga_fseg spin)
      np rho sigma lapl tau) b

/-- `_eval_xc`: the `switch` on `func_x->info->family`; the `default` branch prints
"functional %d '%s' is not implmented" and calls `exit(1)`. -/
def _eval_xc [Add α] [Mul α] (lib : xc_library α) (nthreads : Nat) (heap : Nat → Nat → α)
    (func_x : xc_func_type α) (spin : Int) (np : Nat) (rho_u rho_d : Nat → α)
    (b : xc_bufs α) : Except xc_exit (xc_bufs α) :=
  if func_x.family = XC_FAMILY_LDA ∨ func_x.family = XC_FAMILY_HYB_LDA then
    .ok (_eval_xc_lda lib nthreads heap func_x spin np rho_u rho_d b)
  else if func_x.family = XC_FAMILY_GGA ∨ func_x.family = XC_FAMILY_HYB_GGA then
    .ok (_eval_xc_gga lib nthreads heap func_x spin np rho_u rho_d b)
  else if func_x.family = XC_FAMILY_MGGA ∨ func_x.family = XC_FAMILY_HYB_MGGA then
    .ok (_eval_xc_mgga lib nthreads heap func_x spin np rho_u rho_d b)
  else .error (.not_implemented func_x.number)

/-! ## `LIBXC_eval_xc` -/

/-- The range-separation step of `LIBXC_eval_xc`:
`if (omega[i] != 0) { if (func.cam_omega != 0) func.cam_omega = omega[i];
for (j = 0; j < func.n_func_aux; j++) if (func.func_aux[j]->cam_omega != 0)
func.func_aux[j]->cam_omega = omega[i]; }`. -/
def set_omega [Zero α] [DecidableEq α] (func : xc_func_type α) (omega_i : α) :
    xc_func_type α :=
  if omega_i ≠ 0 then
    let func := if func.cam_omega ≠ 0 then func.set_cam_omega omega_i else func
    func.set_func_aux
      (func.func_aux.map fun aux => if aux.cam_omega ≠ 0 then aux.set_cam_omega omega_i else aux)
  else func

/-- The loop `for (i = 0; i < nfn; i++)` of `LIBXC_eval_xc` from the current scratch buffers
and output on: lookup, range-separation step, `_eval_xc`, `merge_xc`. -/
def eval_loop [Add α] [Mul α] [Zero α] [DecidableEq α] (lib : xc_library α) (nthreads : Nat)
    (heap : Nat → Nat → α) (spin : Int) (np : Nat) (rho_u rho_d : Nat → α) (outlen nvar : Int) :
    List (xc_term α) → xc_bufs α → (Nat → α) → xc_exit × (Nat → α)
  | [], _, output => (.returned, output)
  | t :: rest, b, output =>
    match lib.xc_func_init t.fn_id spin with
    | none => (.not_found t.fn_id, output)
    | some func0 =>
      let func := set_omega func0 t.omega
      match _eval_xc lib nthreads heap func spin np rho_u rho_d b with
      | .error e => (e, output)
      | .ok b =>
        eval_loop lib nthreads heap spin np rho_u rho_d outlen nvar rest b
          (merge_xc output b.ex b.vxc b.fxc b.kxc t.fac np outlen nvar spin func.family)

/-- `LIBXC_eval_xc(nfn, fn_id, fac, omega, spin, deriv, np, rho_u, rho_d, output)`: the way
the run ends and the output tensor at that moment.  `heap k` is the content of the freshly
allocated array number `k`: `ebuf`, `vbuf`, `fbuf`, `kbuf` are numbers `0` to `3`, and `rho`,
`sigma`, `lapl`, `tau` of the evaluators numbers `4` to `7`. -/
def LIBXC_eval_xc [Add α] [Mul α] [Zero α] [DecidableEq α] (lib : xc_library α)
    (nthreads : Nat) (heap : Nat → Nat → α) (fns : List (xc_term α)) (spin deriv : Int) (np : Nat)
    (rho_u rho_d output : Nat → α) : xc_exit × (Nat → α) :=
  if deriv > 3 then (.assert_failed, output)
  else
    match LIBXC_input_length lib fns spin with
    | .error e => (e, output)
    | .ok nvar =>
      if nvar = 0 then (.returned, output)
      else
        let outlen := xc_output_length nvar deriv
        let b : xc_bufs α :=
          { ex := heap 0
            vxc := if deriv > 0 then some (heap 1) else none
            fxc := if deriv > 1 then some (heap 2) else none
            kxc := if deriv > 2 then some (heap 3) else none }
        eval_loop lib nthreads heap spin np rho_u rho_d outlen nvar fns b output

/-! ## Kernels that work point by point -/

/-- The inputs of point `i` in an input array with `s` values per point. -/
def point_inputs (view : Nat → α) (s i : Nat) : List α :=
  (List.range s).map fun c => view (i * s + c)

/-- The arrays `out` of a kernel call on `n` points hold, for every point `i < n`, the values
`gout i` computed for that point: the energy in `zk[i]` and component `l` of array `j` of each
order in entry `i * s_j + l`, the tables `vs`, `fs`, `ks` giving the component counts. -/
def out_pointwise (out : xc_out α) (n : Nat) (gout : Nat → xc_out α) (vs fs ks : List Nat) :
    Prop :=
  ∀ i, i < n →
    out.zk i = (gout i).zk 0
    ∧ (∀ j l, j < vs.length → l < vs.getD j 0 →
        out.v j (i * vs.getD j 0 + l) = (gout i).v j l)
    ∧ (∀ j l, j < fs.length → l < fs.getD j 0 →
        out.f j (i * fs.getD j 0 + l) = (gout i).f j l)
    ∧ (∀ j l, j < ks.length → l < ks.getD j 0 →
        out.k j (i * ks.getD j 0 + l) = (gout i).k j l)

/-- The LDA kernel `kern` computes the outputs of each grid point from the inputs of that
point alone, by the function `g`. -/
def lda_pointwise (kern : Nat → (Nat → α) → xc_out α) (seg : List Nat)
    (g : List α → xc_out α) : Prop :=
  ∀ n rho, out_pointwise (kern n rho) n (fun i => g (point_inputs rho (seg.getD 0 0) i))
    [seg.getD 1 0] [seg.getD 2 0] [seg.getD 3 0]

/-- The GGA kernel `kern` computes the outputs of each grid point from the inputs of that
point alone, by the function `g`. -/
def gga_pointwise (kern : Nat → (Nat → α) → (Nat → α) → xc_out α) (seg vseg fseg kseg : List Nat)
    (g : List α → List α → xc_out α) : Prop :=
  ∀ n rho sigma,
    out_pointwise (kern n rho sigma) n
      (fun i => g (point_inputs rho (seg.getD 0 0) i) (point_inputs sigma (seg.getD 1 0) i))
      vseg fseg kseg

/-- The meta-GGA kernel `kern` computes the outputs of each grid point from the inputs of that
point alone, by the function `g`. -/
def mgga_pointwise (kern : Nat → (Nat → α) → (Nat → α) → (Nat → α) → (Nat → α) → xc_out α)
    (seg vseg fseg : List Nat) (g : List α → List α → List α → List α → xc_out α) : Prop :=
  ∀ n rho sigma lapl tau,
    out_pointwise (kern n rho sigma lapl tau) n
      (fun i => g (point_inputs rho (seg.getD 0 0) i) (point_inputs sigma (seg.getD 1 0) i)
        (point_inputs lapl (seg.getD 2 0) i) (point_inputs tau (seg.getD 3 0) i))
      vseg fseg []

/-- The kernels of `lib` work point by point on the functional `func` in spin mode `spin`. -/
def library_pointwise (lib : xc_library α) (func : xc_func_type α) (spin : Int) : Prop :=
  (∃ g, lda_pointwise (lib.xc_lda func) (lda_seg spin) g)
  ∧ (∃ g, gga_pointwise (lib.xc_gga func) (gga_seg spin) (gga_vseg spin) (gga_fseg spin)
      (gga_kseg spin) g)
  ∧ (∃ g, mgga_pointwise (lib.xc_mgga func) (mgga_seg spin) (mgga_vseg spin) (mgga_fseg spin) g)

/-- The arrays of a kernel that evaluates `gout i` at point `i`. -/
def kernel_of_points (gout : Nat → xc_out α) (vs fs ks : List Nat) : xc_out α where
  zk := fun i => (gout i).zk 0
  v := fun j q => (gout (q / vs.getD j 0)).v j (q % vs.getD j 0)
  f := fun j q => (gout (q / fs.getD j 0)).f j (q % fs.getD j 0)
  k := fun j q => (gout (q / ks.getD j 0)).k j (q % ks.getD j 0)

/-! ## Writes of a chunk, by sub-array

The cells a kernel call on the points `a .. b` writes in one buffer, described by the
sub-arrays of the buffer: each is a base offset `P`, a component count `s` and the values `A`
by offset inside the sub-array. -/

/-- The write of the points `a .. b` of the sub-array at `P` with `s` components per point. -/
def sub_store (buf : Nat → α) (P s : Nat) (A : Nat → α) (a b : Nat) : Nat → α :=
  fun p => if P + a * s ≤ p ∧ p < P + b * s then A (p - P) else buf p

/-- The writes of the points `a .. b` of all sub-arrays of a buffer, in the order of the
list. -/
def sub_stores (l : List (Nat × Nat × (Nat → α))) (a b : Nat) (buf : Nat → α) : Nat → α :=
  l.foldl (fun buf x => sub_store buf x.1 x.2.1 x.2.2 a b) buf

/-- No cell belongs to two sub-arrays of the list, each taken over `np` points. -/
def layout_disjoint (np : Nat) (l : List (Nat × Nat × (Nat → α))) : Prop :=
  l.Pairwise fun x y =>
    ∀ p, x.1 ≤ p ∧ p < x.1 + np * x.2.1 → ¬ (y.1 ≤ p ∧ p < y.1 + np * y.2.1)

/-- The writes of the points `a .. b` in the four scratch buffers, a `NULL` buffer staying
`NULL`. -/
def fill_bufs (le lv lf lk : List (Nat × Nat × (Nat → α))) (a b : Nat) (bufs : xc_bufs α) :
    xc_bufs α where
  ex := sub_stores le a b bufs.ex
  vxc := bufs.vxc.map (sub_stores lv a b)
  fxc := bufs.fxc.map (sub_stores lf a b)
  kxc := bufs.kxc.map (sub_stores lk a b)

/-- The values of sub-array `j` of one derivative order by offset inside the sub-array, for a
kernel that computes `gout i` at the global point `i`. -/
def sub_values (arr : xc_out α → Nat → Nat → α) (gout : Nat → xc_out α) (s j : Nat) : Nat → α :=
  fun q => arr (gout (q / s)) j (q % s)

/-- The sub-arrays of a buffer whose sub-array `j` starts at `ptrs[j]` and has `seg[j]`
components per point, for `j < n`. -/
def layout_of (arr : xc_out α → Nat → Nat → α) (gout : Nat → xc_out α) (ptrs seg : List Nat)
    (n : Nat) : List (Nat × Nat × (Nat → α)) :=
  (List.range n).map fun j =>
    (ptrs.getD j 0, seg.getD j 0, sub_values arr gout (seg.getD j 0) j)

/-! ## A small library instance

Used to instantiate the theorems below at concrete inputs. -/

/-- Outputs of the sample kernels at one point with inputs `inputs`: every value is a fixed
multiple of the sum of the inputs plus the functional's `cam_omega`. -/
def demo_point (func : xc_func_type Int) (inputs : List Int) : xc_out Int where
  zk := fun _ => inputs.sum + func.cam_omega
  v := fun j l => ((1000 + 100 * j + l + 1 : Nat) : Int) * (inputs.sum + func.cam_omega)
  f := fun j l => ((2000 + 100 * j + l + 1 : Nat) : Int) * (inputs.sum + func.cam_omega)
  k := fun j l => ((3000 + 100 * j + l + 1 : Nat) : Int) * (inputs.sum + func.cam_omega)

/-- A sample library over the integers.  Ids `1`, `101`, `202`, `402` are an LDA, a GGA, a
meta-GGA and a range-separated hybrid GGA (with one range-separated auxiliary); id `900`
is a functional of the family `XC_FAMILY_OEP`; every other id is unknown.  The kernels
compute the outputs of a point from the inputs of that point, reading the component counts
off the spin mode the functional was initialised with. -/
def demo_library : xc_library Int where
  xc_func_init := fun id spin =>
    if id = 1 then some (.mk 1 XC_FAMILY_LDA 0 spin 0 [])
    else if id = 101 then some (.mk 101 XC_FAMILY_GGA 0 spin 0 [])
    else if id = 202 then some (.mk 202 XC_FAMILY_MGGA 0 spin 0 [])
    else if id = 402 then
      some (.mk 402 XC_FAMILY_HYB_GGA 0 spin 3 [.mk 0 XC_FAMILY_GGA 0 spin 3 []])
    else if id = 900 then some (.mk 900 XC_FAMILY_OEP 0 spin 0 [])
    else none
  xc_lda := fun func _ rho =>
    kernel_of_points
      (fun i => demo_point func (point_inputs rho ((lda_seg func.nspin).getD 0 0) i))
      [(lda_seg func.nspin).getD 1 0] [(lda_seg func.nspin).getD 2 0]
      [(lda_seg func.nspin).getD 3 0]
  xc_gga := fun func _ rho sigma =>
    kernel_of_points
      (fun i => demo_point func
        (point_inputs rho ((gga_seg func.nspin).getD 0 0) i
          ++ point_inputs sigma ((gga_seg func.nspin).getD 1 0) i))
      (gga_vseg func.nspin) (gga_fseg func.nspin) (gga_kseg func.nspin)
  xc_mgga := fun func _ rho sigma lapl tau =>
    kernel_of_points
      (fun i => demo_point func
        (point_inputs rho ((mgga_seg func.nspin).getD 0 0) i
          ++ point_inputs sigma ((mgga_seg func.nspin).getD 1 0) i
          ++ point_inputs lapl ((mgga_seg func.nspin).getD 2 0) i
          ++ point_inputs tau ((mgga_seg func.nspin).getD 3 0) i))
      (mgga_vseg func.nspin) (mgga_fseg func.nspin) []

/-! ## Definitions for the statements about `LIBXC_input_length` and the chunks -/

/-- The variable count of a family in a spin mode, as the specification lists it: unpolarized
LDA 1, GGA 2, MGGA 4; polarized LDA 2, GGA 5, MGGA 9; a hybrid counts as its base family; any
other family adds no variable. -/
def variable_count (spin family : Int) : Int :=
  if spin = XC_POLARIZED then
    (if is_lda_family family then 2 else if is_gga_family family then 5
      else if is_mgga_family family then 9 else 0)
  else
    (if is_lda_family family then 1 else if is_gga_family family then 2
      else if is_mgga_family family then 4 else 0)

/-- The largest variable count among the families of a list, `0` for the empty list. -/
def max_variable_count (spin : Int) (families : List Int) : Int :=
  families.foldr (fun family m => max (variable_count spin family) m) 0

/-- The number of equal-size blocks of the parallel region:
`nblk = omp_get_num_threads(); if (np < nblk) nblk = 1;`. -/
def chunk_nblk (nthreads np : Nat) : Nat := if np < nthreads then 1 else nthreads

/-- The size of the equal-size blocks: `blk_size = np / nblk`. -/
def chunk_blk_size (nthreads np : Nat) : Nat := np / chunk_nblk nthreads np

/-- The families of the functionals of a list that the library knows, in list order. -/
def listed_families (lib : xc_library α) (spin : Int) (fns : List (xc_term α)) : List Int :=
  fns.filterMap fun t => (lib.xc_func_init t.fn_id spin).map xc_func_type.family

/-! ## The cells `merge_xc` assigns -/

/-- The indices of `dst` that `axpy` assigns, in loop order: `dst[j*np+i]` for `j < nsrc` and
`i < np`. -/
def axpy_writes (np nsrc : Nat) : List Nat :=
  (List.range nsrc).flatMap fun j => (List.range np).map fun i => j * np + i

/-- The cells of the output that one of the three loops of `merge_xc` assigns: round `i` runs
`axpy` on `dst + offset` with `seg[i]` components and then advances `offset` by
`np * seg[i]`.  The state is the cells assigned so far and the running `offset`. -/
def merge_order_writes (np : Nat) (seg : List Nat) (segtot offset : Nat) : List Nat :=
  ((List.range segtot).foldl
    (fun (st : List Nat × Nat) (i : Nat) =>
      (st.1 ++ (axpy_writes np (seg.getD i 0)).map (fun p => st.2 + p),
        st.2 + np * seg.getD i 0))
    ([], offset)).1

/-- The cells of the output that `merge_xc` assigns in its pass of each order: the energy
`axpy` (order `0`) and the loops over `vbuf`, `fbuf`, `kbuf` (orders `1`, `2`, `3`), a loop
being skipped when its buffer is `NULL`; `v`, `f`, `k` say which buffers are not `NULL`. -/
def merge_xc_writes (v f k : Bool) (np : Nat) (nvar spin type : Int) (order : Nat) : List Nat :=
  match order with
  | 0 => axpy_writes np 1
  | 1 => if v then merge_order_writes np (merge_vseg spin) (merge_segtot type).1 np else []
  | 2 =>
    if f then
      merge_order_writes np (merge_fseg spin) (merge_segtot type).2.1
        (np * (xc_output_length nvar 1).toNat)
    else []
  | 3 =>
    if k then
      merge_order_writes np (merge_kseg spin) (merge_segtot type).2.2
        (np * (xc_output_length nvar 2).toNat)
    else []
  | _ => []

/-! ## Scratch buffers that hold the same values where `merge_xc` reads -/

/-- Two memories hold the same values in the cells of `D`. -/
def agree_on (D : Nat → Prop) (x y : Nat → α) : Prop := ∀ p, D p → x p = y p

/-- Two optional buffers are `NULL` or not as `present` says, and, when present, hold the same
values in the cells of `D`. -/
def opt_agree (D : Nat → Prop) (present : Bool) (o1 o2 : Option (Nat → α)) : Prop :=
  o1.isSome = present ∧ o2.isSome = present
    ∧ ∀ x y, o1 = some x → o2 = some y → agree_on D x y

/-- The cells of the first `m` points of the sub-arrays of a buffer, each given as
`(base, components per point)`. -/
def region (l : List (Nat × Nat)) (m p : Nat) : Prop :=
  ∃ x ∈ l, x.1 ≤ p ∧ p < x.1 + m * x.2

/-- Two sets of scratch buffers have the `NULL` pattern `v`, `f`, `k` and hold the same values
in the cells of the first `m` points of the sub-arrays `le`, `lv`, `lf`, `lk`. -/
def bufs_agree (le lv lf lk : List (Nat × Nat)) (v f k : Bool) (m : Nat) (b1 b2 : xc_bufs α) :
    Prop :=
  agree_on (region le m) b1.ex b2.ex ∧ opt_agree (region lv m) v b1.vxc b2.vxc
    ∧ opt_agree (region lf m) f b1.fxc b2.fxc ∧ opt_agree (region lk m) k b1.kxc b2.kxc

/-! ## The variable builders of the evaluators, by name -/

/-- The array `rho` that `_eval_xc_gga` hands to the kernel: in polarized mode the freshly
allocated array filled by `rho[i*2+0] = rho_u[i]; rho[i*2+1] = rho_d[i]`, otherwise
`rho = rho_u`. -/
def gga_rho (heap : Nat → Nat → α) (spin : Int) (np : Nat) (rho_u rho_d : Nat → α) : Nat → α :=
  if spin = XC_POLARIZED then build_interleaved np rho_u rho_d (heap 4) else rho_u

/-- The array `sigma` that `_eval_xc_gga` builds. -/
def gga_sigma [Add α] [Mul α] (heap : Nat → Nat → α) (spin : Int) (np : Nat)
    (rho_u rho_d : Nat → α) : Nat → α :=
  if spin = XC_POLARIZED then build_sigma_polarized np rho_u rho_d (heap 5)
  else build_sigma_unpolarized np rho_u (heap 5)

/-- The array `rho` that `_eval_xc_mgga` hands to the kernel. -/
def mgga_rho (heap : Nat → Nat → α) (spin : Int) (np : Nat) (rho_u rho_d : Nat → α) : Nat → α :=
  if spin = XC_POLARIZED then build_interleaved np rho_u rho_d (heap 4) else rho_u

/-- The array `sigma` that `_eval_xc_mgga` builds. -/
def mgga_sigma [Add α] [Mul α] (heap : Nat → Nat → α) (spin : Int) (np : Nat)
    (rho_u rho_d : Nat → α) : Nat → α :=
  if spin = XC_POLARIZED then build_sigma_polarized np rho_u rho_d (heap 5)
  else build_sigma_unpolarized np rho_u (heap 5)

/-- The array `lapl` of `_eval_xc_mgga`: in polarized mode the freshly allocated array filled
by `lapl[i*2+0] = lapl_u[i]; lapl[i*2+1] = lapl_d[i]` with `lapl_u = rho_u + np * 4` and
`lapl_d = rho_d + np * 4`, otherwise `lapl = rho_u + np * 4`.  The functional `func_x` is in
scope in the source and is not consulted. -/
def mgga_lapl (_func_x : xc_func_type α) (heap : Nat → Nat → α) (spin : Int) (np : Nat)
    (rho_u rho_d : Nat → α) : Nat → α :=
  if spin = XC_POLARIZED then
    build_interleaved np (ptr_add rho_u (np * 4)) (ptr_add rho_d (np * 4)) (heap 6)
  else ptr_add rho_u (np * 4)

/-- The array `tau` of `_eval_xc_mgga`: in polarized mode the freshly allocated array filled
by `tau[i*2+0] = tau_u[i]; tau[i*2+1] = tau_d[i]` with `tau_u = rho_u + np * 5` and
`tau_d = rho_d + np * 5`, otherwise `tau = rho_u + np * 5`.  The functional `func_x` is in
scope in the source and is not consulted. -/
def mgga_tau (_func_x : xc_func_type α) (heap : Nat → Nat → α) (spin : Int) (np : Nat)
    (rho_u rho_d : Nat → α) : Nat → α :=
  if spin = XC_POLARIZED then
    build_interleaved np (ptr_add rho_u (np * 5)) (ptr_add rho_d (np * 5)) (heap 7)
  else ptr_add rho_u (np * 5)

/-! ## The evaluators at the level of pointers

The output buffers `ex`, `vxc`, `fxc`, `kxc` are addresses in one memory, `NULL` being
address `0`, and the library kernel receives the output pointers of the invocation: it writes
its arrays through the pointers that are not `NULL` (the convention of libxc, under which a
caller asks for an order by passing its arrays).  The GGA kernel is the one with the
third-order arguments. -/

/-- The null pointer. -/
def NULL : Nat := 0

/-- The output pointers one kernel invocation receives: `pex` and the pointers of the orders
1, 2, 3 in the order of the kernel's argument list. -/
structure kernel_args where
  pex : Nat
  pv : List Nat
  pf : List Nat
  pk : List Nat
  deriving DecidableEq, Repr

/-- State of the parallel region of an evaluator: the memory, the local pointer variables of
the orders 1, 2, 3 (declared before the loop over the blocks and kept from one invocation to
the next), and the pointer arguments of the kernel invocations made so far. -/
structure ptr_state (α : Type) where
  mem : Nat → α
  pv : List Nat
  pf : List Nat
  pk : List Nat
  calls : List kernel_args

/-- What the library kernel leaves in memory for one group of output arrays on `n` points:
through each pointer that is not `NULL` it writes the `n * seg[j]` values of its array `j`. -/
def kernel_store (mem : Nat → α) (ptrs : List Nat) (seg : List Nat) (n : Nat)
    (arr : Nat → Nat → α) : Nat → α :=
  (List.range ptrs.length).foldl
    (fun mem j =>
      if ptrs.getD j 0 ≠ NULL then store_block mem (ptrs.getD j 0) (n * seg.getD j 0) (arr j)
      else mem)
    mem

/-- The `omp parallel` region of the evaluators on any state:
`nblk = omp_get_num_threads(); if (np < nblk) nblk = 1; blk_size = np / nblk;`, the loop over
`iblk < nblk`, then the remainder `np_res = np - nblk * blk_size` if it is positive. -/
def chunked_state {σ : Type} (nthreads np : Nat) (call : Nat → Nat → σ → σ) (s : σ) : σ :=
  let nblk := if np < nthreads then 1 else nthreads
  let blk_size := np / nblk
  let s := (List.range nblk).foldl (fun s iblk => call (iblk * blk_size) blk_size s) s
  let np_res := np - nblk * blk_size
  if np_res > 0 then call (nblk * blk_size) np_res s else s

/-- One kernel invocation of `_eval_xc_lda` on the points `start .. start + n`:
`pex = ex + start; if (vxc != NULL) { pvxc = vxc + start * seg[1]; }` (likewise `pfxc`,
`pkxc`), then `xc_lda(func_x, n, prho, pex, pvxc, pfxc, pkxc)`. -/
def lda_invoke (lib : xc_library α) (func_x : xc_func_type α) (seg : List Nat) (rho : Nat → α)
    (ex vxc fxc kxc : Nat) (start n : Nat) (st : ptr_state α) : ptr_state α :=
  let pex := ex + start
  let pv := if vxc ≠ NULL then [vxc + start * seg.getD 1 0] else st.pv
  let pf := if fxc ≠ NULL then [fxc + start * seg.getD 2 0] else st.pf
  let pk := if kxc ≠ NULL then [kxc + start * seg.getD 3 0] else st.pk
  let out := lib.xc_lda func_x n (ptr_add rho (start * seg.getD 0 0))
  let mem := kernel_store st.mem [pex] [1] n (fun _ => out.zk)
  let mem := kernel_store mem pv [seg.getD 1 0] n out.v
  let mem := kernel_store mem pf [seg.getD 2 0] n out.f
  let mem := kernel_store mem pk [seg.getD 3 0] n out.k
  { mem := mem, pv := pv, pf := pf, pk := pk, calls := st.calls ++ [⟨pex, pv, pf, pk⟩] }

/-- `_eval_xc_lda` on memory `mem`: the local pointers are declared
`*pvxc=NULL, *pfxc=NULL, *pkxc=NULL`. -/
def _eval_xc_lda_ptr (lib : xc_library α) (nthreads : Nat) (heap : Nat → Nat → α)
    (func_x : xc_func_type α) (spin : Int) (np : Nat) (rho_u rho_d : Nat → α)
    (ex vxc fxc kxc : Nat) (mem : Nat → α) : ptr_state α :=
  let rho := if spin = XC_POLARIZED then build_interleaved np rho_u rho_d (heap 4) else rho_u
  chunked_state nthreads np (lda_invoke lib func_x (lda_seg spin) rho ex vxc fxc kxc)
    { mem := mem, pv := [NULL], pf := [NULL], pk := [NULL], calls := [] }

/-- One kernel invocation of `_eval_xc_gga` on the points `start .. start + n`; `v`, `f`, `k`
hold the array pointers `vxc, vsigma`, `fxc, v2rhosigma, v2sigma2` and
`kxc, v3rho2sigma, v3rhosigma2, v3sigma3`:
`if (vxc != NULL) { pvxc = vxc + start * vseg[0]; pvsigma = vsigma + start * vseg[1]; }`
(likewise under `fxc != NULL` and `kxc != NULL`), then the kernel call. -/
def gga_invoke (lib : xc_library α) (func_x : xc_func_type α) (seg vseg fseg kseg : List Nat)
    (rho sigma : Nat → α) (ex vxc fxc kxc : Nat) (v f k : List Nat) (start n : Nat)
    (st : ptr_state α) : ptr_state α :=
  let pex := ex + start
  let pv :=
    if vxc ≠ NULL then (List.range 2).map fun i => v.getD i 0 + start * vseg.getD i 0
    else st.pv
  let pf :=
    if fxc ≠ NULL then (List.range 3).map fun i => f.getD i 0 + start * fseg.getD i 0
    else st.pf
  let pk :=
    if kxc ≠ NULL then (List.range 4).map fun i => k.getD i 0 + start * kseg.getD i 0
    else st.pk
  let out := lib.xc_gga func_x n (ptr_add rho (start * seg.getD 0 0))
    (ptr_add sigma (start * seg.getD 1 0))
  let mem := kernel_store st.mem [pex] [1] n (fun _ => out.zk)
  let mem := kernel_store mem pv vseg n out.v
  let mem := kernel_store mem pf fseg n out.f
  let mem := kernel_store mem pk kseg n out.k
  { mem := mem, pv := pv, pf := pf, pk := pk, calls := st.calls ++ [⟨pex, pv, pf, pk⟩] }

/-- `_eval_xc_gga` on memory `mem`: the sub-array pointers are declared `= NULL` and set by
`if (vxc != NULL) { vsigma = vxc + np * vseg[0]; }`,
`if (fxc != NULL) { v2rhosigma = fxc + np * fseg[0]; v2sigma2 = v2rhosigma + np * fseg[1]; }`,
`if (kxc != NULL) { v3rho2sigma = kxc + np * kseg[0]; v3rhosigma2 = v3rho2sigma + np * kseg[1];
v3sigma3 = v3rhosigma2 + np * kseg[2]; }`; the local pointers of the parallel region are
declared `= NULL`. -/
def _eval_xc_gga_ptr [Add α] [Mul α] (lib : xc_library α) (nthreads : Nat)
    (heap : Nat → Nat → α) (func_x : xc_func_type α) (spin : Int) (np : Nat)
    (rho_u rho_d : Nat → α) (ex vxc fxc kxc : Nat) (mem : Nat → α) : ptr_state α :=
  let vseg := gga_vseg spin
  let fseg := gga_fseg spin
  let kseg := gga_kseg spin
  let vsigma := if vxc ≠ NULL then vxc + np * vseg.getD 0 0 else NULL
  let v2rhosigma := if fxc ≠ NULL then fxc + np * fseg.getD 0 0 else NULL
  let v2sigma2 := if fxc ≠ NULL then v2rhosigma + np * fseg.getD 1 0 else NULL
  let v3rho2sigma := if kxc ≠ NULL then kxc + np * kseg.getD 0 0 else NULL
  let v3rhosigma2 := if kxc ≠ NULL then v3rho2sigma + np * kseg.getD 1 0 else NULL
  let v3sigma3 := if kxc ≠ NULL then v3rhosigma2 + np * kseg.getD 2 0 else NULL
  chunked_state nthreads np
    (gga_invoke lib func_x (gga_seg spin) vseg fseg kseg (gga_rho heap spin np rho_u rho_d)
      (gga_sigma heap spin np rho_u rho_d) ex vxc fxc kxc [vxc, vsigma]
      [fxc, v2rhosigma, v2sigma2] [kxc, v3rho2sigma, v3rhosigma2, v3sigma3])
    { mem := mem, pv := [NULL, NULL], pf := [NULL, NULL, NULL],
      pk := [NULL, NULL, NULL, NULL], calls := [] }

/-- The pointer arrays `v[nv]`, `f[nf]` of `_eval_xc_mgga` once set:
`v[0] = buffer; for (i = 0; i < n-1; i++) v[i+1] = v[i] + np * seg[i];`. -/
def ptr_array (buffer np : Nat) (seg : List Nat) (n : Nat) : List Nat :=
  (List.range (n - 1)).foldl (fun v i => v ++ [v.getD i 0 + np * seg.getD i 0]) [buffer]

/-- One kernel invocation of `_eval_xc_mgga` on the points `start .. start + n`
(`nv = 4`, `nf = 10`):
`if (vxc != NULL) { for (i = 0; i < nv; i++) pv[i] = v[i] + start * vseg[i]; }` (likewise
`pf` under `fxc != NULL`), then the kernel call with `pv[0..4)` and `pf[0..10)`; the kernel has
no third-order argument. -/
def mgga_invoke (lib : xc_library α) (func_x : xc_func_type α) (seg vseg fseg : List Nat)
    (rho sigma lapl tau : Nat → α) (ex vxc fxc : Nat) (v f : List Nat) (start n : Nat)
    (st : ptr_state α) : ptr_state α :=
  let pex := ex + start
  let pv :=
    if vxc ≠ NULL then (List.range 4).map fun i => v.getD i 0 + start * vseg.getD i 0
    else st.pv
  let pf :=
    if fxc ≠ NULL then (List.range 10).map fun i => f.getD i 0 + start * fseg.getD i 0
    else st.pf
  let out := lib.xc_mgga func_x n (ptr_add rho (start * seg.getD 0 0))
    (ptr_add sigma (start * seg.getD 1 0)) (ptr_add lapl (start * seg.getD 2 0))
    (ptr_add tau (start * seg.getD 3 0))
  let mem := kernel_store st.mem [pex] [1] n (fun _ => out.zk)
  let mem := kernel_store mem pv vseg n out.v
  let mem := kernel_store mem pf fseg n out.f
  { mem := mem, pv := pv, pf := pf, pk := st.pk, calls := st.calls ++ [⟨pex, pv, pf, []⟩] }

/-- `_eval_xc_mgga` on memory `mem`: the arrays `v[nv]`, `f[nf]` are set only inside
`if (vxc != NULL)` and `if (fxc != NULL)` and hold the indeterminate values `v_uninit`,
`f_uninit` otherwise; the local arrays are cleared by
`for (i = 0; i < nv; i++) {pv[i] = NULL;}` and `for (i = 0; i < nf; i++) {pf[i] = NULL;}`;
`kxc` is not used. -/
def _eval_xc_mgga_ptr [Add α] [Mul α] (lib : xc_library α) (nthreads : Nat)
    (heap : Nat → Nat → α) (func_x : xc_func_type α) (spin : Int) (np : Nat)
    (rho_u rho_d : Nat → α) (ex vxc fxc _kxc : Nat) (v_uninit f_uninit : List Nat)
    (mem : Nat → α) : ptr_state α :=
  let v := if vxc ≠ NULL then ptr_array vxc np (mgga_vseg spin) 4 else v_uninit
  let f := if fxc ≠ NULL then ptr_array fxc np (mgga_fseg spin) 10 else f_uninit
  chunked_state nthreads np
    (mgga_invoke lib func_x (mgga_seg spin) (mgga_vseg spin) (mgga_fseg spin)
      (mgga_rho heap spin np rho_u rho_d) (mgga_sigma heap spin np rho_u rho_d)
      (mgga_lapl func_x heap spin np rho_u rho_d) (mgga_tau func_x heap spin np rho_u rho_d)
      ex vxc fxc v f)
    { mem := mem, pv := (List.range 4).map fun _ => NULL,
      pf := (List.range 10).map fun _ => NULL, pk := [], calls := [] }

/-! ## The scratch buffers behind the pointers -/

/-- The buffer behind a pointer into memory: `NULL` for the null pointer, otherwise the cells
from the pointer on. -/
def buffer_at (mem : Nat → α) (p : Nat) : Option (Nat → α) :=
  if p ≠ NULL then some (ptr_add mem p) else none

/-- The four scratch buffers behind the pointers `ex`, `vxc`, `fxc`, `kxc`. -/
def bufs_at (mem : Nat → α) (ex vxc fxc kxc : Nat) : xc_bufs α :=
  { ex := ptr_add mem ex, vxc := buffer_at mem vxc, fxc := buffer_at mem fxc,
    kxc := buffer_at mem kxc }

/-- The buffer `o` is what memory holds behind the pointer `p`, on its first `len` cells:
`NULL` for the null pointer, otherwise an array with the values of the cells `p .. p + len`. -/
def holds_at (mem : Nat → α) (p len : Nat) (o : Option (Nat → α)) : Prop :=
  (p = NULL → o = none) ∧ (p ≠ NULL → ∃ r, o = some r ∧ ∀ k, k < len → mem (p + k) = r k)

/-! ## The classification queries -/

/-- `LIBXC_is_lda(xc_id)`: `xc_func_init(&func, xc_id, XC_UNPOLARIZED)`, `exit(1)` after
"XC functional %d not found", then `switch (family) { case XC_FAMILY_LDA: lda = 1; break;
default: lda = 0; }`. -/
def LIBXC_is_lda (lib : xc_library α) (xc_id : Int) : Except xc_exit Int :=
  match lib.xc_func_init xc_id XC_UNPOLARIZED with
  | none => .error (.not_found xc_id)
  | some func => .ok (if func.family = XC_FAMILY_LDA then 1 else 0)

/-- `LIBXC_is_gga(xc_id)`: the cases `XC_FAMILY_GGA` and `XC_FAMILY_HYB_GGA` give `1`. -/
def LIBXC_is_gga (lib : xc_library α) (xc_id : Int) : Except xc_exit Int :=
  match lib.xc_func_init xc_id XC_UNPOLARIZED with
  | none => .error (.not_found xc_id)
  | some func =>
    .ok (if func.family = XC_FAMILY_GGA ∨ func.family = XC_FAMILY_HYB_GGA then 1 else 0)

/-- `LIBXC_is_meta_gga(xc_id)`: the cases `XC_FAMILY_MGGA` and `XC_FAMILY_HYB_MGGA` give
`1`. -/
def LIBXC_is_meta_gga (lib : xc_library α) (xc_id : Int) : Except xc_exit Int :=
  match lib.xc_func_init xc_id XC_UNPOLARIZED with
  | none => .error (.not_found xc_id)
  | some func =>
    .ok (if func.family = XC_FAMILY_MGGA ∨ func.family = XC_FAMILY_HYB_MGGA then 1 else 0)

/-- The sample library with one more functional, id `177`, of the family
`XC_FAMILY_HYB_LDA`. -/
def demo_library_hyb_lda : xc_library Int where
  xc_func_init := fun id spin =>
    if id = 177 then some (.mk 177 XC_FAMILY_HYB_LDA 0 spin 0 [])
    else demo_library.xc_func_init id spin
  xc_lda := demo_library.xc_lda
  xc_gga := demo_library.xc_gga
  xc_mgga := demo_library.xc_mgga

/-! ## `contract_vhf_dm` (`lib/pbc/hf_grad.c`) -/

/-- One statement `buf[idx] += val` on a buffer of known length: `none` when `idx` is outside
the buffer. -/
def accumulate_at [Add α] (buf : List α) (idx : Nat) (val : α) : Option (List α) :=
  match buf.get? idx with
  | some old => some (buf.set idx (old + val))
  | none => none

/-- The loops of `contract_vhf_dm` for one shell pair with contribution, on a buffer of
`comp * natm` entries:
`for (ic = 0; ic < comp; ic++) { for (i = 0; i < ni; i++) { buf[iatm*3+ic] += ddot_(...); } }`,
`dots ic i` being the value of the `ddot_` call; `none` when a write falls outside the
buffer. -/
def contract_shell_pair [Add α] (comp iatm ni : Nat) (dots : Nat → Nat → α) (buf : List α) :
    Option (List α) :=
  (List.range comp).foldl
    (fun (st : Option (List α)) (ic : Nat) =>
      (List.range ni).foldl
        (fun (st : Option (List α)) (i : Nat) =>
          st.bind fun buf => accumulate_at buf (iatm * 3 + ic) (dots ic i))
        st)
    (some buf)

/-- The per-thread accumulation buffer of `contract_vhf_dm`:
`calloc(comp*natm, sizeof(double))`. -/
def vhf_buffer [Zero α] (comp natm : Nat) : List α := List.replicate (comp * natm) 0

end Defs

/-! # Theorems -/

section OutputLength

/-- The loop of `xc_output_length` computes a binomial coefficient: the division is exact at
every step. -/
theorem xc_output_length_choose (n d : Nat) :
    xc_output_length n d = ((d + n).choose n : Int) := by
  unfold xc_output_length
  simp only [Int.toNat_ofNat]
  induction n with
  | zero => simp
  | succ m ih =>
    rw [List.range_succ, List.foldl_append, ih]
    simp only [List.foldl_cons, List.foldl_nil]
    have h : ((d + m).choose m : Int) * ((d : Int) + ((m : Int) + 1))
        = ((d + (m + 1)).choose (m + 1) : Int) * ((m : Int) + 1) := by
      have h1 := Nat.succ_mul_choose_eq (d + m) m
      have h2 : ((d + m).choose m) * (d + (m + 1))
          = ((d + (m + 1)).choose (m + 1)) * (m + 1) := by
        simp only [Nat.succ_eq_add_one] at h1
        rw [← add_assoc, ← h1]; ring
      exact_mod_cast h2
    rw [h, Int.mul_tdiv_cancel]
    omega

/-- Hockey-stick identity in the form the output tensor uses: the sizes of the segments of
orders `0 .. d` in `n ≥ 1` variables add up to `C(n + d, d)`. -/
theorem sum_multiset_coeff (n d : Nat) (hn : 1 ≤ n) :
    (∑ k in Finset.range (d + 1), (n + k - 1).choose k) = (n + d).choose d := by
  induction d with
  | zero => simp
  | succ e ih =>
    rw [Finset.sum_range_succ, ih]
    obtain ⟨m, rfl⟩ : ∃ m, n = m + 1 := ⟨n - 1, by omega⟩
    have h1 : m + 1 + (e + 1) - 1 = (m + e) + 1 := by omega
    have h2 : m + 1 + e = (m + e) + 1 := by omega
    have h3 : m + 1 + (e + 1) = (m + e + 1) + 1 := by omega
    rw [h1, h2, h3, Nat.choose_succ_succ (m + e + 1) e, add_comm]

theorem xc_output_length_sum (n d : Nat) (hn : 1 ≤ n) :
    xc_output_length n d
      = ((∑ k in Finset.range (d + 1), (n + k - 1).choose k : Nat) : Int) := by
  rw [xc_output_length_choose, sum_multiset_coeff n d hn, add_comm d n,
    ← Nat.choose_symm_add]

/-- On the range of arguments `LIBXC_eval_xc` can pass, no product of the loop leaves the range
of a 32-bit `int`. -/
theorem xc_output_length_int32_eq (n d : Nat) (hn : n ≤ 9) (hd : d ≤ 3) :
    xc_output_length_int32 n d = some (xc_output_length n d) := by
  interval_cases n <;> interval_cases d <;> decide

end OutputLength

section Axpy

variable {α : Type} [Add α] [Mul α]

/-- The inner loop of `axpy` for component `j`, run for `n` points. -/
theorem axpy_inner_apply (d src : Nat → α) (fac : α) (np nsrc j n p : Nat) :
    (List.range n).foldl
        (fun d i => Function.update d (j * np + i) (d (j * np + i) + fac * src (i * nsrc + j)))
        d p
      = if j * np ≤ p ∧ p < j * np + n then d p + fac * src ((p - j * np) * nsrc + j)
        else d p := by
  induction n generalizing p with
  | zero =>
    rw [if_neg (by omega)]
    rfl
  | succ n ih =>
    rw [List.range_succ, List.foldl_append]
    simp only [List.foldl_cons, List.foldl_nil, Function.update_apply]
    by_cases hp : p = j * np + n
    · subst hp
      rw [if_pos rfl, ih, if_neg (by omega), if_pos (by omega)]
      rw [Nat.add_sub_cancel_left]
    · rw [if_neg hp, ih]
      by_cases h : j * np ≤ p ∧ p < j * np + n
      · rw [if_pos h, if_pos (by omega)]
      · rw [if_neg h, if_neg (by omega)]

/-- The two loops of `axpy`, the outer one run for the first `m` components. -/
theorem axpy_outer_apply (dst src : Nat → α) (fac : α) (np nsrc m p : Nat) :
    (List.range m).foldl
        (fun d j =>
          (List.range np).foldl
            (fun d i =>
              Function.update d (j * np + i) (d (j * np + i) + fac * src (i * nsrc + j)))
            d)
        dst p
      = if p < m * np then dst p + fac * src ((p % np) * nsrc + p / np) else dst p := by
  induction m generalizing p with
  | zero => simp
  | succ m ih =>
    rw [List.range_succ, List.foldl_append]
    simp only [List.foldl_cons, List.foldl_nil]
    rw [axpy_inner_apply, ih]
    by_cases h : m * np ≤ p ∧ p < m * np + np
    · rw [if_pos h, if_neg (by omega), if_pos (by rw [Nat.succ_mul]; omega)]
      have hnp : 0 < np := by omega
      have hdiv : p / np = m := by
        apply Nat.div_eq_of_lt_le
        · exact h.1
        · rw [Nat.add_mul, Nat.one_mul]; exact h.2
      have hmod : p % np = p - m * np := by
        have := Nat.div_add_mod p np
        rw [hdiv, Nat.mul_comm] at this
        omega
      rw [hdiv, hmod]
    · rw [if_neg h]
      by_cases h2 : p < m * np
      · rw [if_pos h2, if_pos (by rw [Nat.succ_mul]; omega)]
      · rw [if_neg h2, if_neg (by rw [Nat.succ_mul]; omega)]

/-- Closed form of `axpy`. -/
theorem axpy_apply (dst src : Nat → α) (fac : α) (np : Nat) (ndst : Int) (nsrc p : Nat) :
    axpy dst src fac np ndst nsrc p
      = if p < nsrc * np then dst p + fac * src ((p % np) * nsrc + p / np) else dst p := by
  unfold axpy
  exact axpy_outer_apply dst src fac np nsrc nsrc p

theorem axpy_apply_of_lt (dst src : Nat → α) (fac : α) (np : Nat) (ndst : Int) (nsrc j i : Nat)
    (hj : j < nsrc) (hi : i < np) :
    axpy dst src fac np ndst nsrc (j * np + i) = dst (j * np + i) + fac * src (i * nsrc + j) := by
  rw [axpy_apply, if_pos]
  · have h1 : (j * np + i) % np = i := by
      rw [Nat.add_comm, Nat.add_mul_mod_self_right, Nat.mod_eq_of_lt hi]
    have h2 : (j * np + i) / np = j := by
      rw [Nat.add_comm, Nat.add_mul_div_right _ _ (by omega), Nat.div_eq_of_lt hi, Nat.zero_add]
    rw [h1, h2]
  · calc j * np + i < j * np + np := by omega
      _ = (j + 1) * np := by ring
      _ ≤ nsrc * np := Nat.mul_le_mul_right _ hj

theorem axpy_apply_of_ge (dst src : Nat → α) (fac : α) (np : Nat) (ndst : Int) (nsrc p : Nat)
    (hp : nsrc * np ≤ p) : axpy dst src fac np ndst nsrc p = dst p := by
  rw [axpy_apply, if_neg (by omega)]

end Axpy

section Merge

variable {α : Type} [Add α] [Mul α]

theorem seg_base_succ (seg : List Nat) (j : Nat) :
    seg_base seg (j + 1) = seg_base seg j + seg.getD j 0 := by
  unfold seg_base
  rw [List.range_succ, List.map_append, List.sum_append]
  simp

theorem seg_base_mono (seg : List Nat) {j m : Nat} (h : j ≤ m) :
    seg_base seg j ≤ seg_base seg m := by
  induction m with
  | zero =>
    have : j = 0 := by omega
    subst this; exact le_refl _
  | succ m ih =>
    by_cases hj : j = m + 1
    · subst hj; exact le_refl _
    · have := ih (by omega)
      rw [seg_base_succ]; omega

/-- The state of a loop of `merge_xc` after `m` rounds. -/
theorem merge_order_fold_succ (buf : Nat → α) (fac : α) (np : Nat) (ndst : Int)
    (seg : List Nat) (st : (Nat → α) × Nat × Nat) (m : Nat) :
    (List.range (m + 1)).foldl (merge_order_step buf fac np ndst seg) st
      = merge_order_step buf fac np ndst seg
          ((List.range m).foldl (merge_order_step buf fac np ndst seg) st) m := by
  rw [List.range_succ, List.foldl_append]
  rfl

theorem merge_order_fold_offsets (buf : Nat → α) (fac : α) (np : Nat) (ndst : Int)
    (seg : List Nat) (dst : Nat → α) (offset boff m : Nat) :
    ((List.range m).foldl (merge_order_step buf fac np ndst seg) (dst, offset, boff)).2
      = (offset + np * seg_base seg m, boff + np * seg_base seg m) := by
  induction m with
  | zero => simp [seg_base]
  | succ m ih =>
    rw [merge_order_fold_succ]
    simp only [merge_order_step, ih, seg_base_succ]
    ext <;> simp <;> ring

/-- One round of a loop of `merge_xc`, read at index `p`. -/
theorem merge_order_step_apply (buf : Nat → α) (fac : α) (np : Nat) (ndst : Int)
    (seg : List Nat) (d : Nat → α) (off boff i p : Nat) :
    (merge_order_step buf fac np ndst seg (d, off, boff) i).1 p
      = if off ≤ p ∧ p < off + seg.getD i 0 * np then
          d p + fac * buf (boff + (((p - off) % np) * seg.getD i 0 + (p - off) / np))
        else d p := by
  simp only [merge_order_step, store_at]
  by_cases h : p < off
  · rw [if_pos h, if_neg (by omega)]
  · rw [if_neg h, axpy_apply]
    simp only [ptr_add]
    have e : off + (p - off) = p := by omega
    by_cases h2 : p - off < seg.getD i 0 * np
    · rw [if_pos h2, if_pos (by omega), e]
    · rw [if_neg h2, if_neg (by omega), e]

/-- A loop of `merge_xc` leaves every cell outside `[offset, offset + np * (total size))`
as it was. -/
theorem merge_order_frame (dst buf : Nat → α) (fac : α) (np : Nat) (ndst : Int)
    (seg : List Nat) (segtot offset p : Nat)
    (hp : p < offset ∨ offset + np * seg_base seg segtot ≤ p) :
    merge_order dst buf fac np ndst seg segtot offset p = dst p := by
  unfold merge_order
  induction segtot with
  | zero => rfl
  | succ m ih =>
    rw [merge_order_fold_succ]
    have hoff := merge_order_fold_offsets buf fac np ndst seg dst offset 0 m
    generalize hS : (List.range m).foldl (merge_order_step buf fac np ndst seg) (dst, offset, 0)
      = S at hoff ih
    obtain ⟨D, o, b⟩ := S
    simp only [Prod.mk.injEq] at hoff
    obtain ⟨ho, hb⟩ := hoff
    subst ho hb
    rw [merge_order_step_apply]
    rw [seg_base_succ] at hp
    have hmul : np * (seg_base seg m + seg.getD m 0)
        = np * seg_base seg m + seg.getD m 0 * np := by ring
    rw [if_neg (by omega)]
    exact ih (by omega)

/-- A loop of `merge_xc` adds `fac * buf[np*B_j + i*s_j + l]` to the cell
`offset + (B_j + l)*np + i`, for local component `l` of sub-block `j` and point `i`. -/
theorem merge_order_apply (dst buf : Nat → α) (fac : α) (np : Nat) (ndst : Int)
    (seg : List Nat) (segtot offset j l i : Nat)
    (hj : j < segtot) (hl : l < seg.getD j 0) (hi : i < np) :
    merge_order dst buf fac np ndst seg segtot offset (offset + (seg_base seg j + l) * np + i)
      = dst (offset + (seg_base seg j + l) * np + i)
        + fac * buf (np * seg_base seg j + i * seg.getD j 0 + l) := by
  unfold merge_order
  induction segtot with
  | zero => omega
  | succ m ih =>
    rw [merge_order_fold_succ]
    have hoff := merge_order_fold_offsets buf fac np ndst seg dst offset 0 m
    have hfr := merge_order_frame dst buf fac np ndst seg m offset
      (offset + (seg_base seg j + l) * np + i)
    unfold merge_order at hfr
    generalize hS : (List.range m).foldl (merge_order_step buf fac np ndst seg) (dst, offset, 0)
      = S at hoff ih hfr
    obtain ⟨D, o, b⟩ := S
    simp only [Prod.mk.injEq] at hoff
    obtain ⟨ho, hb⟩ := hoff
    subst ho hb
    rw [merge_order_step_apply]
    by_cases hjm : j = m
    · subst hjm
      have e1 : offset + (seg_base seg j + l) * np + i - (offset + np * seg_base seg j)
          = l * np + i := by
        have : (seg_base seg j + l) * np = np * seg_base seg j + l * np := by ring
        omega
      have hlt : l * np + i < seg.getD j 0 * np := by
        calc l * np + i < l * np + np := by omega
          _ = (l + 1) * np := by ring
          _ ≤ seg.getD j 0 * np := Nat.mul_le_mul_right _ hl
      have hmod : (l * np + i) % np = i := by
        rw [Nat.add_comm, Nat.add_mul_mod_self_right, Nat.mod_eq_of_lt hi]
      have hdiv : (l * np + i) / np = l := by
        rw [Nat.add_comm, Nat.add_mul_div_right _ _ (by omega), Nat.div_eq_of_lt hi,
          Nat.zero_add]
      have hge : offset + np * seg_base seg j ≤ offset + (seg_base seg j + l) * np + i := by
        have : (seg_base seg j + l) * np = np * seg_base seg j + l * np := by ring
        omega
      have hD := hfr (Or.inr hge)
      simp only at hD
      rw [if_pos ⟨hge, by omega⟩, e1, hmod, hdiv, hD]
      simp only [Nat.zero_add, Nat.add_assoc]
    · have hjm2 : j < m := by omega
      have hle : seg_base seg (j + 1) ≤ seg_base seg m := seg_base_mono seg hjm2
      rw [seg_base_succ] at hle
      have hlt : (seg_base seg j + l) * np + i < np * seg_base seg m := by
        calc (seg_base seg j + l) * np + i < (seg_base seg j + l) * np + np := by omega
          _ = (seg_base seg j + l + 1) * np := by ring
          _ ≤ seg_base seg m * np := Nat.mul_le_mul_right _ (by omega)
          _ = np * seg_base seg m := Nat.mul_comm _ _
      rw [if_neg (by omega)]
      exact ih hjm2

end Merge

section MergeXc

variable {α : Type} [Add α] [Mul α]

theorem xc_output_length_one (nvar : Nat) : (xc_output_length nvar 1).toNat = 1 + nvar := by
  rw [show (1 : Int) = ((1 : Nat) : Int) from rfl, xc_output_length_choose, Int.toNat_ofNat,
    ← Nat.choose_symm_add, Nat.choose_one_right]

theorem xc_output_length_two (nvar : Nat) :
    (xc_output_length nvar 2).toNat = 1 + nvar + nvar * (nvar + 1) / 2 := by
  rw [show (2 : Int) = ((2 : Nat) : Int) from rfl, xc_output_length_choose, Int.toNat_ofNat,
    ← Nat.choose_symm_add,
    show 2 + nvar = (nvar + 1) + 1 by omega, Nat.choose_succ_succ, Nat.choose_one_right,
    Nat.choose_two_right, Nat.add_sub_cancel, Nat.mul_comm (nvar + 1) nvar]
  omega

theorem merge_order_opt_frame (dst : Nat → α) (buf : Option (Nat → α)) (fac : α) (np : Nat)
    (ndst : Int) (seg : List Nat) (segtot offset p : Nat)
    (hp : p < offset ∨ offset + np * seg_base seg segtot ≤ p) :
    merge_order_opt dst buf fac np ndst seg segtot offset p = dst p := by
  cases buf with
  | none => rfl
  | some b => exact merge_order_frame dst b fac np ndst seg segtot offset p hp

/-- In unpolarized mode (any `spin` other than `XC_POLARIZED`) the tables and the variable
count are those of `XC_UNPOLARIZED`. -/
theorem unpolarized_tables (spin : Int) (hs : spin ≠ XC_POLARIZED) :
    merge_vseg spin = merge_vseg XC_UNPOLARIZED ∧ merge_fseg spin = merge_fseg XC_UNPOLARIZED
      ∧ merge_kseg spin = merge_kseg XC_UNPOLARIZED
      ∧ ∀ fam nvar, input_length_step spin fam nvar
          = input_length_step XC_UNPOLARIZED fam nvar := by
  have hne : ¬ XC_UNPOLARIZED = XC_POLARIZED := by decide
  refine ⟨?_, ?_, ?_, ?_⟩
  · simp only [merge_vseg, if_neg hs, if_neg hne]
  · simp only [merge_fseg, if_neg hs, if_neg hne]
  · simp only [merge_kseg, if_neg hs, if_neg hne]
  · intro fam nvar
    simp only [input_length_step, if_neg hs, if_neg hne]

/-- The sub-block sizes of a supported family add up to its variable count `own` at order 1
and to `own (own + 1) / 2` at order 2. -/
theorem merge_totals_eq (spin type : Int) (hsup : supported_family type) :
    ∃ own : Nat, input_length_step spin type 0 = (own : Int)
      ∧ seg_base (merge_vseg spin) (merge_segtot type).1 = own
      ∧ seg_base (merge_fseg spin) (merge_segtot type).2.1 = own * (own + 1) / 2 := by
  refine ⟨(input_length_step spin type 0).toNat, ?_⟩
  by_cases hs : spin = XC_POLARIZED
  · subst hs
    rcases hsup with (h | h) | (h | h) | (h | h) <;> subst h <;> decide
  · obtain ⟨hv, hf, _, hstep⟩ := unpolarized_tables spin hs
    rw [hv, hf, hstep]
    rcases hsup with (h | h) | (h | h) | (h | h) <;> subst h <;> decide

/-- The sub-block totals of a supported family fit the segments of a tensor in at least as
many variables as the family has. -/
theorem merge_totals_le (spin type : Int) (nvar : Nat) (hsup : supported_family type)
    (hn : input_length_step spin type 0 ≤ (nvar : Int)) :
    seg_base (merge_vseg spin) (merge_segtot type).1 ≤ nvar
      ∧ seg_base (merge_fseg spin) (merge_segtot type).2.1 ≤ nvar * (nvar + 1) / 2 := by
  obtain ⟨own, h0, h1, h2⟩ := merge_totals_eq spin type hsup
  rw [h0] at hn
  have hle : own ≤ nvar := by exact_mod_cast hn
  rw [h1, h2]
  exact ⟨hle, Nat.div_le_div_right (Nat.mul_le_mul hle (Nat.succ_le_succ hle))⟩

/-- Index arithmetic of a target cell: cell `(S + c) * np + i` with `c < tot` and `i < np`
lies in `[np * S, np * S + np * tot)`. -/
theorem cell_bounds (np S c tot i : Nat) (hc : c < tot) (hi : i < np) :
    np * S ≤ (S + c) * np + i ∧ (S + c) * np + i < np * S + np * tot := by
  have h1 : (S + c) * np = np * S + c * np := by ring
  have h2 : c * np + np ≤ np * tot := by
    calc c * np + np = (c + 1) * np := by ring
      _ ≤ tot * np := Nat.mul_le_mul_right _ hc
      _ = np * tot := Nat.mul_comm _ _
  omega

theorem seg_base_add_lt (seg : List Nat) (j l tot : Nat) (hj : j < tot)
    (hl : l < seg.getD j 0) : seg_base seg j + l < seg_base seg tot := by
  have := seg_base_mono seg (show j + 1 ≤ tot from hj)
  rw [seg_base_succ] at this
  omega

end MergeXc

section MergeXc2

variable {α : Type} [Add α] [Mul α]

/-- `merge_xc` is its four accumulation passes in sequence, the passes of orders 1, 2, 3
starting at component `1`, `1 + nvar` and `1 + nvar + nvar (nvar + 1) / 2`. -/
theorem merge_xc_passes (dst ebuf : Nat → α) (vbuf fbuf kbuf : Option (Nat → α)) (fac : α)
    (np : Nat) (ndst : Int) (nvar : Nat) (spin type : Int) :
    merge_xc dst ebuf vbuf fbuf kbuf fac np ndst nvar spin type
      = merge_order_opt
          (merge_order_opt
            (merge_order_opt (axpy dst ebuf fac np ndst 1) vbuf fac np ndst (merge_vseg spin)
              (merge_segtot type).1 (np * 1))
            fbuf fac np ndst (merge_fseg spin) (merge_segtot type).2.1 (np * (1 + nvar)))
          kbuf fac np ndst (merge_kseg spin) (merge_segtot type).2.2
          (np * (1 + nvar + nvar * (nvar + 1) / 2)) := by
  simp only [merge_xc, xc_output_length_one, xc_output_length_two, Nat.mul_one]

theorem merge_order_opt_apply (d buf : Nat → α) (fac : α) (np : Nat) (ndst : Int)
    (seg : List Nat) (segtot S j l i : Nat) (hj : j < segtot) (hl : l < seg.getD j 0)
    (hi : i < np) :
    merge_order_opt d (some buf) fac np ndst seg segtot (np * S)
        ((S + (seg_base seg j + l)) * np + i)
      = d ((S + (seg_base seg j + l)) * np + i)
        + fac * buf (np * seg_base seg j + i * seg.getD j 0 + l) := by
  have e : (S + (seg_base seg j + l)) * np + i = np * S + (seg_base seg j + l) * np + i := by
    ring
  rw [e]
  exact merge_order_apply d buf fac np ndst seg segtot (np * S) j l i hj hl hi

theorem merge_order_opt_frame_mul (d : Nat → α) (buf : Option (Nat → α)) (fac : α) (np : Nat)
    (ndst : Int) (seg : List Nat) (segtot S p : Nat)
    (hp : p < np * S ∨ np * (S + seg_base seg segtot) ≤ p) :
    merge_order_opt d buf fac np ndst seg segtot (np * S) p = d p := by
  apply merge_order_opt_frame
  rw [Nat.mul_add] at hp
  exact hp

theorem axpy_energy (d ebuf : Nat → α) (fac : α) (np : Nat) (ndst : Int) (i : Nat)
    (hi : i < np) : axpy d ebuf fac np ndst 1 i = d i + fac * ebuf i := by
  have := axpy_apply_of_lt d ebuf fac np ndst 1 0 i (by omega) hi
  simpa using this

/-- The energy cells after `merge_xc`. -/
theorem merge_xc_energy (dst ebuf : Nat → α) (vbuf fbuf kbuf : Option (Nat → α)) (fac : α)
    (np : Nat) (ndst : Int) (nvar : Nat) (spin type : Int) (i : Nat) (hi : i < np) :
    merge_xc dst ebuf vbuf fbuf kbuf fac np ndst nvar spin type i = dst i + fac * ebuf i := by
  have hle : ∀ S, 1 ≤ S → i < np * S := fun S hS =>
    lt_of_lt_of_le hi (Nat.le_mul_of_pos_right np hS)
  rw [merge_xc_passes, merge_order_opt_frame_mul _ _ _ _ _ _ _ _ _ (Or.inl (hle _ (by omega))),
    merge_order_opt_frame_mul _ _ _ _ _ _ _ _ _ (Or.inl (hle _ (by omega))),
    merge_order_opt_frame_mul _ _ _ _ _ _ _ _ _ (Or.inl (hle _ (by omega))),
    axpy_energy _ _ _ _ _ _ hi]

theorem axpy_energy_frame (d ebuf : Nat → α) (fac : α) (np : Nat) (ndst : Int) (p : Nat)
    (hp : np ≤ p) : axpy d ebuf fac np ndst 1 p = d p :=
  axpy_apply_of_ge d ebuf fac np ndst 1 p (by omega)

/-- The first-order cells after `merge_xc`, when the family's sub-blocks fit the tensor. -/
theorem merge_xc_order1 (dst ebuf vb : Nat → α) (fbuf kbuf : Option (Nat → α)) (fac : α)
    (np : Nat) (ndst : Int) (nvar : Nat) (spin type : Int)
    (hV : seg_base (merge_vseg spin) (merge_segtot type).1 ≤ nvar)
    (j l i : Nat) (hj : j < (merge_segtot type).1) (hl : l < (merge_vseg spin).getD j 0)
    (hi : i < np) :
    merge_xc dst ebuf (some vb) fbuf kbuf fac np ndst nvar spin type
        ((1 + (seg_base (merge_vseg spin) j + l)) * np + i)
      = dst ((1 + (seg_base (merge_vseg spin) j + l)) * np + i)
        + fac * vb (np * seg_base (merge_vseg spin) j + i * (merge_vseg spin).getD j 0 + l) := by
  have hc := seg_base_add_lt (merge_vseg spin) j l _ hj hl
  have hb := cell_bounds np 1 _ _ i hc hi
  have hlt2 : (1 + (seg_base (merge_vseg spin) j + l)) * np + i < np * (1 + nvar) := by
    have : np * seg_base (merge_vseg spin) (merge_segtot type).1 ≤ np * nvar :=
      Nat.mul_le_mul_left _ hV
    rw [Nat.mul_add]; omega
  have hlt3 : (1 + (seg_base (merge_vseg spin) j + l)) * np + i
      < np * (1 + nvar + nvar * (nvar + 1) / 2) := by
    have : np * (1 + nvar) ≤ np * (1 + nvar + nvar * (nvar + 1) / 2) :=
      Nat.mul_le_mul_left _ (by omega)
    omega
  rw [merge_xc_passes, merge_order_opt_frame_mul _ _ _ _ _ _ _ _ _ (Or.inl hlt3),
    merge_order_opt_frame_mul _ _ _ _ _ _ _ _ _ (Or.inl hlt2),
    merge_order_opt_apply _ _ _ _ _ _ _ _ _ _ _ hj hl hi,
    axpy_energy_frame _ _ _ _ _ _ (by omega)]

/-- The second-order cells after `merge_xc`, when the family's sub-blocks fit the tensor. -/
theorem merge_xc_order2 (dst ebuf fb : Nat → α) (vbuf kbuf : Option (Nat → α)) (fac : α)
    (np : Nat) (ndst : Int) (nvar : Nat) (spin type : Int)
    (hV : seg_base (merge_vseg spin) (merge_segtot type).1 ≤ nvar)
    (hF : seg_base (merge_fseg spin) (merge_segtot type).2.1 ≤ nvar * (nvar + 1) / 2)
    (j l i : Nat) (hj : j < (merge_segtot type).2.1) (hl : l < (merge_fseg spin).getD j 0)
    (hi : i < np) :
    merge_xc dst ebuf vbuf (some fb) kbuf fac np ndst nvar spin type
        ((1 + nvar + (seg_base (merge_fseg spin) j + l)) * np + i)
      = dst ((1 + nvar + (seg_base (merge_fseg spin) j + l)) * np + i)
        + fac * fb (np * seg_base (merge_fseg spin) j + i * (merge_fseg spin).getD j 0 + l) := by
  have hc := seg_base_add_lt (merge_fseg spin) j l _ hj hl
  have hb := cell_bounds np (1 + nvar) _ _ i hc hi
  have hlt3 : (1 + nvar + (seg_base (merge_fseg spin) j + l)) * np + i
      < np * (1 + nvar + nvar * (nvar + 1) / 2) := by
    have : np * seg_base (merge_fseg spin) (merge_segtot type).2.1
        ≤ np * (nvar * (nvar + 1) / 2) := Nat.mul_le_mul_left _ hF
    rw [Nat.mul_add]; omega
  have hge1 : np * (1 + seg_base (merge_vseg spin) (merge_segtot type).1)
      ≤ (1 + nvar + (seg_base (merge_fseg spin) j + l)) * np + i := by
    have : np * (1 + seg_base (merge_vseg spin) (merge_segtot type).1) ≤ np * (1 + nvar) :=
      Nat.mul_le_mul_left _ (by omega)
    omega
  have hge0 : np ≤ (1 + nvar + (seg_base (merge_fseg spin) j + l)) * np + i := by
    have : np * 1 ≤ np * (1 + nvar) := Nat.mul_le_mul_left _ (by omega)
    omega
  rw [merge_xc_passes, merge_order_opt_frame_mul _ _ _ _ _ _ _ _ _ (Or.inl hlt3),
    merge_order_opt_apply _ _ _ _ _ _ _ _ _ _ _ hj hl hi,
    merge_order_opt_frame_mul _ _ _ _ _ _ _ _ _ (Or.inr hge1),
    axpy_energy_frame _ _ _ _ _ _ hge0]

/-- The third-order cells after `merge_xc`, when the family's sub-blocks fit the tensor. -/
theorem merge_xc_order3 (dst ebuf kb : Nat → α) (vbuf fbuf : Option (Nat → α)) (fac : α)
    (np : Nat) (ndst : Int) (nvar : Nat) (spin type : Int)
    (hV : seg_base (merge_vseg spin) (merge_segtot type).1 ≤ nvar)
    (hF : seg_base (merge_fseg spin) (merge_segtot type).2.1 ≤ nvar * (nvar + 1) / 2)
    (j l i : Nat) (hj : j < (merge_segtot type).2.2) (hl : l < (merge_kseg spin).getD j 0)
    (hi : i < np) :
    merge_xc dst ebuf vbuf fbuf (some kb) fac np ndst nvar spin type
        ((1 + nvar + nvar * (nvar + 1) / 2 + (seg_base (merge_kseg spin) j + l)) * np + i)
      = dst ((1 + nvar + nvar * (nvar + 1) / 2 + (seg_base (merge_kseg spin) j + l)) * np + i)
        + fac * kb (np * seg_base (merge_kseg spin) j + i * (merge_kseg spin).getD j 0 + l) := by
  have hc := seg_base_add_lt (merge_kseg spin) j l _ hj hl
  have hb := cell_bounds np (1 + nvar + nvar * (nvar + 1) / 2) _ _ i hc hi
  have hge2 : np * (1 + nvar + seg_base (merge_fseg spin) (merge_segtot type).2.1)
      ≤ (1 + nvar + nvar * (nvar + 1) / 2 + (seg_base (merge_kseg spin) j + l)) * np + i := by
    have : np * (1 + nvar + seg_base (merge_fseg spin) (merge_segtot type).2.1)
        ≤ np * (1 + nvar + nvar * (nvar + 1) / 2) := Nat.mul_le_mul_left _ (by omega)
    omega
  have hge1 : np * (1 + seg_base (merge_vseg spin) (merge_segtot type).1)
      ≤ (1 + nvar + nvar * (nvar + 1) / 2 + (seg_base (merge_kseg spin) j + l)) * np + i := by
    have : np * (1 + seg_base (merge_vseg spin) (merge_segtot type).1)
        ≤ np * (1 + nvar + nvar * (nvar + 1) / 2) := Nat.mul_le_mul_left _ (by omega)
    omega
  have hge0 : np
      ≤ (1 + nvar + nvar * (nvar + 1) / 2 + (seg_base (merge_kseg spin) j + l)) * np + i := by
    have : np * 1 ≤ np * (1 + nvar + nvar * (nvar + 1) / 2) :=
      Nat.mul_le_mul_left _ (by omega)
    omega
  rw [merge_xc_passes, merge_order_opt_apply _ _ _ _ _ _ _ _ _ _ _ hj hl hi,
    merge_order_opt_frame_mul _ _ _ _ _ _ _ _ _ (Or.inr hge2),
    merge_order_opt_frame_mul _ _ _ _ _ _ _ _ _ (Or.inr hge1),
    axpy_energy_frame _ _ _ _ _ _ hge0]

end MergeXc2

section Linear

variable {α : Type} [CommRing α]

/-- `axpy` is linear in the pair (destination, scale). -/
theorem axpy_smul (d src : Nat → α) (w fac : α) (np : Nat) (ndst : Int) (nsrc p : Nat) :
    axpy (fun q => w * d q) src (w * fac) np ndst nsrc p
      = w * axpy d src fac np ndst nsrc p := by
  rw [axpy_apply, axpy_apply]
  split
  · ring
  · rfl

theorem merge_order_step_smul (buf : Nat → α) (w fac : α) (np : Nat) (ndst : Int)
    (seg : List Nat) (D : Nat → α) (off boff i : Nat) :
    merge_order_step buf (w * fac) np ndst seg (fun q => w * D q, off, boff) i
      = (fun q => w * (merge_order_step buf fac np ndst seg (D, off, boff) i).1 q,
          (merge_order_step buf fac np ndst seg (D, off, boff) i).2) := by
  simp only [merge_order_step]
  refine Prod.ext ?_ rfl
  funext p
  simp only [store_at]
  split
  · rfl
  · exact axpy_smul (ptr_add D off) (ptr_add buf boff) w fac np ndst _ _

theorem merge_order_fold_smul (buf : Nat → α) (w fac : α) (np : Nat) (ndst : Int)
    (seg : List Nat) (l : List Nat) (D : Nat → α) (off boff : Nat) :
    l.foldl (merge_order_step buf (w * fac) np ndst seg) (fun q => w * D q, off, boff)
      = (fun q => w * (l.foldl (merge_order_step buf fac np ndst seg) (D, off, boff)).1 q,
          (l.foldl (merge_order_step buf fac np ndst seg) (D, off, boff)).2) := by
  induction l generalizing D off boff with
  | nil => rfl
  | cons i l ih =>
    simp only [List.foldl_cons]
    rw [merge_order_step_smul]
    generalize merge_order_step buf fac np ndst seg (D, off, boff) i = S
    obtain ⟨D2, o2, b2⟩ := S
    exact ih D2 o2 b2

theorem merge_order_opt_smul (d : Nat → α) (buf : Option (Nat → α)) (w fac : α) (np : Nat)
    (ndst : Int) (seg : List Nat) (segtot offset : Nat) :
    merge_order_opt (fun q => w * d q) buf (w * fac) np ndst seg segtot offset
      = fun q => w * merge_order_opt d buf fac np ndst seg segtot offset q := by
  cases buf with
  | none => rfl
  | some b =>
    simp only [merge_order_opt, merge_order]
    rw [merge_order_fold_smul]

/-- `merge_xc` is linear in the pair (output tensor, weight). -/
theorem merge_xc_smul (d ebuf : Nat → α) (vbuf fbuf kbuf : Option (Nat → α)) (w fac : α)
    (np : Nat) (ndst nvar spin type : Int) :
    merge_xc (fun q => w * d q) ebuf vbuf fbuf kbuf (w * fac) np ndst nvar spin type
      = fun q => w * merge_xc d ebuf vbuf fbuf kbuf fac np ndst nvar spin type q := by
  simp only [merge_xc]
  have h0 : axpy (fun q => w * d q) ebuf (w * fac) np ndst 1
      = fun q => w * axpy d ebuf fac np ndst 1 q := by
    funext p; exact axpy_smul d ebuf w fac np ndst 1 p
  rw [h0, merge_order_opt_smul, merge_order_opt_smul, merge_order_opt_smul]

/-- With scale `0`, `axpy` changes nothing. -/
theorem axpy_zero (d src : Nat → α) (np : Nat) (ndst : Int) (nsrc : Nat) :
    axpy d src 0 np ndst nsrc = d := by
  funext p
  rw [axpy_apply]
  split
  · simp
  · rfl

theorem merge_order_fold_zero (buf : Nat → α) (np : Nat) (ndst : Int)
    (seg : List Nat) (l : List Nat) (D : Nat → α) (off boff : Nat) :
    (l.foldl (merge_order_step buf 0 np ndst seg) (D, off, boff)).1 = D := by
  induction l generalizing off boff with
  | nil => rfl
  | cons i l ih =>
    simp only [List.foldl_cons]
    have h : merge_order_step buf 0 np ndst seg (D, off, boff) i
        = (D, off + np * seg.getD i 0, boff + np * seg.getD i 0) := by
      simp only [merge_order_step, axpy_zero]
      refine Prod.ext ?_ rfl
      funext p
      simp only [store_at, ptr_add]
      split
      · rfl
      · congr 1; omega
    rw [h]
    exact ih _ _

theorem merge_order_opt_zero (d : Nat → α) (buf : Option (Nat → α)) (np : Nat)
    (ndst : Int) (seg : List Nat) (segtot offset : Nat) :
    merge_order_opt d buf 0 np ndst seg segtot offset = d := by
  cases buf with
  | none => rfl
  | some b => exact merge_order_fold_zero b np ndst seg _ d offset 0

/-- With weight `0`, `merge_xc` changes nothing. -/
theorem merge_xc_zero (d ebuf : Nat → α) (vbuf fbuf kbuf : Option (Nat → α))
    (np : Nat) (ndst nvar spin type : Int) :
    merge_xc d ebuf vbuf fbuf kbuf 0 np ndst nvar spin type = d := by
  simp only [merge_xc, axpy_zero, merge_order_opt_zero]

end Linear

section InputLength

variable {α : Type}

/-- `LIBXC_input_length` on one functional that `xc_func_init` knows. -/
theorem input_length_single (lib : xc_library α) (t : xc_term α) (spin : Int)
    (func : xc_func_type α) (hinit : lib.xc_func_init t.fn_id spin = some func) :
    LIBXC_input_length lib [t] spin = .ok (input_length_step spin func.family 0) := by
  simp [LIBXC_input_length, input_length_loop, hinit]

end InputLength

section Eval

variable {α : Type} [Add α] [Mul α] [Zero α] [DecidableEq α]

end Eval

/-! # The claims -/

section ClaimsOutputLength

/-- C1 (as stated, refuted): `xc_output_length(2, 1)` is `3`, not the multiset coefficient
`C(2+1-1, 1) = 2` the claim names. -/
theorem xc_output_length_ne_multiset_coeff :
    xc_output_length 2 1 = 3 ∧ xc_output_length 2 1 ≠ ((Nat.choose (2 + 1 - 1) 1 : Nat) : Int)
      ∧ xc_output_length 2 1 ≠ 2 := by
  decide

/-- C1 (amended): for `nvar` in `1..9` and `deriv` in `0..3`, `xc_output_length(nvar, deriv)`
is `C(nvar+deriv, deriv)`, the sum of the multiset coefficients `C(nvar+k-1, k)` over
`k = 0..deriv`, also when computed on 32-bit `int`; it returns `3` for `(2, 1)`, `21` for
`(5, 2)` and `10` for `(9, 1)`. -/
theorem xc_output_length_eq_choose (nvar deriv : Int) (h1 : 1 ≤ nvar) (h2 : nvar ≤ 9)
    (h3 : 0 ≤ deriv) (h4 : deriv ≤ 3) :
    xc_output_length nvar deriv = (((nvar + deriv).toNat.choose deriv.toNat : Nat) : Int)
      ∧ xc_output_length nvar deriv
          = ((∑ k in Finset.range (deriv.toNat + 1), (nvar.toNat + k - 1).choose k : Nat) : Int)
      ∧ xc_output_length_int32 nvar deriv = some (xc_output_length nvar deriv)
      ∧ xc_output_length 2 1 = 3 ∧ xc_output_length 5 2 = 21 ∧ xc_output_length 9 1 = 10 := by
  obtain ⟨n, rfl⟩ := Int.eq_ofNat_of_zero_le (le_trans (by decide) h1)
  obtain ⟨d, rfl⟩ := Int.eq_ofNat_of_zero_le h3
  have hn1 : 1 ≤ n := by omega
  have hn9 : n ≤ 9 := by omega
  have hd3 : d ≤ 3 := by omega
  refine ⟨?_, ?_, xc_output_length_int32_eq n d hn9 hd3, by decide, by decide, by decide⟩
  · rw [xc_output_length_choose]
    have : ((n : Int) + (d : Int)).toNat = n + d := by omega
    rw [this, Int.toNat_ofNat, add_comm d n, ← Nat.choose_symm_add]
  · rw [xc_output_length_sum n d hn1]
    simp only [Int.toNat_ofNat]

/-- The statement of `xc_output_length_eq_choose` at `nvar = 5`, `deriv = 2`. -/
theorem xc_output_length_eq_choose_witness :
    xc_output_length 5 2 = (((5 + 2 : Int).toNat.choose (2 : Int).toNat : Nat) : Int)
      ∧ xc_output_length 5 2
          = ((∑ k in Finset.range ((2 : Int).toNat + 1), ((5 : Int).toNat + k - 1).choose k
              : Nat) : Int)
      ∧ xc_output_length_int32 5 2 = some (xc_output_length 5 2)
      ∧ xc_output_length 2 1 = 3 ∧ xc_output_length 5 2 = 21 ∧ xc_output_length 9 1 = 10 :=
  xc_output_length_eq_choose 5 2 (by decide) (by decide) (by decide) (by decide)

/-- C2: for `nvar ≥ 1` and `deriv ≥ 0`, `xc_output_length(nvar, deriv)` is the sum over
`k = 0..deriv` of `C(nvar+k-1, k)` (segments of `1`, `nvar`, `nvar(nvar+1)/2`, ... per point);
it is `1` at `deriv = 0`; unpolarized LDA (`nvar = 1`) at `deriv = 1` gives `2`, hence `8`
entries for `4` points, and polarized GGA (`nvar = 5`) at `deriv = 0` gives `3` entries for
`3` points.  For `nvar ≤ 9` and `deriv ≤ 3`, the arguments `LIBXC_eval_xc` can pass, the
32-bit computation is the same. -/
theorem xc_output_length_eq_sum_orders (nvar deriv : Nat) (h : 1 ≤ nvar) :
    xc_output_length nvar deriv
        = ((∑ k in Finset.range (deriv + 1), (nvar + k - 1).choose k : Nat) : Int)
      ∧ ((nvar + 0 - 1).choose 0 = 1 ∧ (nvar + 1 - 1).choose 1 = nvar
          ∧ (nvar + 2 - 1).choose 2 = nvar * (nvar + 1) / 2)
      ∧ xc_output_length nvar 0 = 1
      ∧ (input_length_step XC_UNPOLARIZED XC_FAMILY_LDA 0 = 1 ∧ xc_output_length 1 1 = 2
          ∧ 4 * xc_output_length 1 1 = 8)
      ∧ (input_length_step XC_POLARIZED XC_FAMILY_GGA 0 = 5 ∧ 3 * xc_output_length 5 0 = 3)
      ∧ (nvar ≤ 9 → deriv ≤ 3 →
          xc_output_length_int32 nvar deriv = some (xc_output_length nvar deriv)) := by
  refine ⟨xc_output_length_sum nvar deriv h, ⟨by simp, ?_, ?_⟩, ?_, by decide, by decide,
    xc_output_length_int32_eq nvar deriv⟩
  · simp
  · rw [show nvar + 2 - 1 = nvar + 1 from rfl, Nat.choose_two_right, Nat.add_sub_cancel,
      Nat.mul_comm]
  · have := xc_output_length_choose nvar 0
    simpa using this

/-- The statement of `xc_output_length_eq_sum_orders` at `nvar = 4`, `deriv = 2`. -/
theorem xc_output_length_eq_sum_orders_witness :
    xc_output_length (4 : Nat) (2 : Nat)
        = ((∑ k in Finset.range (2 + 1), (4 + k - 1).choose k : Nat) : Int)
      ∧ xc_output_length_int32 (4 : Nat) (2 : Nat) = some (xc_output_length (4 : Nat) (2 : Nat)) :=
  have h := xc_output_length_eq_sum_orders 4 2 (by decide)
  ⟨h.1, h.2.2.2.2.2 (by decide) (by decide)⟩

end ClaimsOutputLength

section ClaimsAxpy
variable {α : Type}

/-- C3: `axpy(dst, src, fac, np, ndst, nsrc)` yields
`dst'[j*np + i] = dst[j*np + i] + fac * src[i*nsrc + j]` for every component `j < nsrc` and
point `i < np`, leaves every other entry of `dst` (index `≥ nsrc*np`) unchanged, and does not
depend on the unused argument `ndst`; this for every scalar type with an addition and a
multiplication.  `src` is only read: it is an argument of the embedding, not part of its
result. -/
theorem axpy_transpose_accumulate [Add α] [Mul α] (dst src : Nat → α) (fac : α) (np : Nat)
    (ndst : Int) (nsrc : Nat) :
    (∀ j i, j < nsrc → i < np →
        axpy dst src fac np ndst nsrc (j * np + i)
          = dst (j * np + i) + fac * src (i * nsrc + j))
      ∧ (∀ p, nsrc * np ≤ p → axpy dst src fac np ndst nsrc p = dst p)
      ∧ (∀ ndst2 : Int, axpy dst src fac np ndst2 nsrc = axpy dst src fac np ndst nsrc) :=
  ⟨fun j i hj hi => axpy_apply_of_lt dst src fac np ndst nsrc j i hj hi,
    fun p hp => axpy_apply_of_ge dst src fac np ndst nsrc p hp, fun _ => rfl⟩

/-- The statement of `axpy_transpose_accumulate` at `np = 2`, `nsrc = 3`, component `1`,
point `1`, and at the untouched cell `7`. -/
theorem axpy_transpose_accumulate_witness :
    axpy (fun p => (p : Int)) (fun p => 10 * (p : Int)) 3 2 0 3 (1 * 2 + 1)
        = (fun p => (p : Int)) (1 * 2 + 1) + 3 * (fun p => 10 * (p : Int)) (1 * 3 + 1)
      ∧ axpy (fun p => (p : Int)) (fun p => 10 * (p : Int)) 3 2 0 3 7
        = (fun p => (p : Int)) 7 :=
  ⟨(axpy_transpose_accumulate (fun p => (p : Int)) (fun p => 10 * (p : Int)) 3 2 0 3).1 1 1
      (by decide) (by decide),
    (axpy_transpose_accumulate (fun p => (p : Int)) (fun p => 10 * (p : Int)) 3 2 0 3).2.1 7
      (by decide)⟩

/-- C5: for every spin mode and supported family, the sub-block sizes `merge_xc` walks at
order `k` add up to `C(n + k - 1, k)`, `n` being the family's own variable count as
`LIBXC_input_length` reports it for that functional alone (`1/2/4` unpolarized and `2/5/9`
polarized for LDA/GGA/MGGA): at orders 1, 2 and 3 for LDA and GGA, at orders 1 and 2 for MGGA.
Polarized GGA has `2 + 3 = 5` at order 1 and `4 + 9 + 12 + 10 = 35` at order 3, polarized
MGGA `45` at order 2. -/
theorem merge_segments_sum (lib : xc_library α) (t : xc_term α) (spin : Int)
    (func : xc_func_type α) (hinit : lib.xc_func_init t.fn_id spin = some func)
    (hsup : supported_family func.family) :
    ∃ n : Nat, LIBXC_input_length lib [t] spin = .ok (n : Int)
      ∧ n = (if spin = XC_POLARIZED then
              (if is_lda_family func.family then 2 else if is_gga_family func.family then 5
                else 9)
            else
              (if is_lda_family func.family then 1 else if is_gga_family func.family then 2
                else 4))
      ∧ seg_base (merge_vseg spin) (merge_segtot func.family).1 = (n + 1 - 1).choose 1
      ∧ seg_base (merge_fseg spin) (merge_segtot func.family).2.1 = (n + 2 - 1).choose 2
      ∧ (¬ is_mgga_family func.family →
          seg_base (merge_kseg spin) (merge_segtot func.family).2.2 = (n + 3 - 1).choose 3)
      ∧ seg_base (merge_vseg XC_POLARIZED) (merge_segtot XC_FAMILY_GGA).1 = 2 + 3
      ∧ seg_base (merge_kseg XC_POLARIZED) (merge_segtot XC_FAMILY_GGA).2.2 = 4 + 9 + 12 + 10
      ∧ seg_base (merge_fseg XC_POLARIZED) (merge_segtot XC_FAMILY_MGGA).2.1 = 45 := by
  refine ⟨(input_length_step spin func.family 0).toNat, ?_⟩
  rw [input_length_single lib t spin func hinit]
  generalize func.family = fam at hsup
  by_cases hs : spin = XC_POLARIZED
  · subst hs
    rcases hsup with (h | h) | (h | h) | (h | h) <;> subst h <;>
      exact ⟨by rw [Int.toNat_of_nonneg (by decide)], by decide⟩
  · have hv : merge_vseg spin = merge_seg0 := by simp [merge_vseg, hs]
    have hf : merge_fseg spin = merge_seg0 := by simp [merge_fseg, hs]
    have hk : merge_kseg spin = merge_seg0 := by simp [merge_kseg, hs]
    have hstep : ∀ fam, input_length_step spin fam 0
        = input_length_step XC_UNPOLARIZED fam 0 := by
      intro fam
      have hne : ¬ XC_UNPOLARIZED = XC_POLARIZED := by decide
      simp only [input_length_step, if_neg hs, if_neg hne]
    rw [hv, hf, hk, hstep, if_neg hs]
    rcases hsup with (h | h) | (h | h) | (h | h) <;> subst h <;>
      exact ⟨by rw [Int.toNat_of_nonneg (by decide)], by decide⟩

end ClaimsAxpy

section ClaimsMerge
variable {α : Type}

/-- C4: the layout `merge_xc` writes.  `merge_xc` is the energy pass followed by the passes of
orders 1, 2, 3, which start at component `S_1 = 1`, `S_2 = 1 + nvar`,
`S_3 = 1 + nvar + nvar (nvar + 1) / 2`; the energy pass adds `fac * ebuf[i]` to cell `i`; a
pass from component `S` adds `fac * buf[np * B_j + i * s_j + l]` to cell
`(S + B_j + l) * np + i` for every sub-block `j` of the table, local component `l < s_j` and
point `i < np`, and changes nothing outside its range.  After the whole of `merge_xc` the
energy cell `i` holds `dst[i] + fac * ebuf[i]`, and, for a supported family whose own variable
count is at most the call-wide `nvar`, each cell `(S_k + B_j + l) * np + i` of an order whose
buffer is present holds its old value plus `fac * buf_k[np * B_j + i * s_j + l]`. -/
theorem merge_xc_layout [Add α] [Mul α] (dst ebuf : Nat → α) (vbuf fbuf kbuf : Option (Nat → α))
    (fac : α) (np : Nat) (ndst : Int) (nvar : Nat) (spin type : Int)
    (hsup : supported_family type) :
    merge_xc dst ebuf vbuf fbuf kbuf fac np ndst nvar spin type
        = merge_order_opt
            (merge_order_opt
              (merge_order_opt (axpy dst ebuf fac np ndst 1) vbuf fac np ndst (merge_vseg spin)
                (merge_segtot type).1 (np * 1))
              fbuf fac np ndst (merge_fseg spin) (merge_segtot type).2.1 (np * (1 + nvar)))
            kbuf fac np ndst (merge_kseg spin) (merge_segtot type).2.2
            (np * (1 + nvar + nvar * (nvar + 1) / 2))
      ∧ (∀ (d : Nat → α) (i : Nat), i < np → axpy d ebuf fac np ndst 1 i = d i + fac * ebuf i)
      ∧ (∀ (d buf : Nat → α) (seg : List Nat) (segtot S j l i : Nat),
          j < segtot → l < seg.getD j 0 → i < np →
          merge_order_opt d (some buf) fac np ndst seg segtot (np * S)
              ((S + (seg_base seg j + l)) * np + i)
            = d ((S + (seg_base seg j + l)) * np + i)
              + fac * buf (np * seg_base seg j + i * seg.getD j 0 + l))
      ∧ (∀ (d : Nat → α) (buf : Option (Nat → α)) (seg : List Nat) (segtot S p : Nat),
          p < np * S ∨ np * (S + seg_base seg segtot) ≤ p →
          merge_order_opt d buf fac np ndst seg segtot (np * S) p = d p)
      ∧ (∀ i, i < np →
          merge_xc dst ebuf vbuf fbuf kbuf fac np ndst nvar spin type i = dst i + fac * ebuf i)
      ∧ (input_length_step spin type 0 ≤ (nvar : Int) →
          (∀ vb, vbuf = some vb → ∀ j l i,
            j < (merge_segtot type).1 → l < (merge_vseg spin).getD j 0 → i < np →
            merge_xc dst ebuf vbuf fbuf kbuf fac np ndst nvar spin type
                ((1 + (seg_base (merge_vseg spin) j + l)) * np + i)
              = dst ((1 + (seg_base (merge_vseg spin) j + l)) * np + i)
                + fac * vb (np * seg_base (merge_vseg spin) j
                    + i * (merge_vseg spin).getD j 0 + l))
          ∧ (∀ fb, fbuf = some fb → ∀ j l i,
            j < (merge_segtot type).2.1 → l < (merge_fseg spin).getD j 0 → i < np →
            merge_xc dst ebuf vbuf fbuf kbuf fac np ndst nvar spin type
                ((1 + nvar + (seg_base (merge_fseg spin) j + l)) * np + i)
              = dst ((1 + nvar + (seg_base (merge_fseg spin) j + l)) * np + i)
                + fac * fb (np * seg_base (merge_fseg spin) j
                    + i * (merge_fseg spin).getD j 0 + l))
          ∧ (∀ kb, kbuf = some kb → ∀ j l i,
            j < (merge_segtot type).2.2 → l < (merge_kseg spin).getD j 0 → i < np →
            merge_xc dst ebuf vbuf fbuf kbuf fac np ndst nvar spin type
                ((1 + nvar + nvar * (nvar + 1) / 2 + (seg_base (merge_kseg spin) j + l)) * np
                  + i)
              = dst ((1 + nvar + nvar * (nvar + 1) / 2 + (seg_base (merge_kseg spin) j + l))
                    * np + i)
                + fac * kb (np * seg_base (merge_kseg spin) j
                    + i * (merge_kseg spin).getD j 0 + l))) := by
  refine ⟨merge_xc_passes dst ebuf vbuf fbuf kbuf fac np ndst nvar spin type,
    fun d i hi => axpy_energy d ebuf fac np ndst i hi,
    fun d buf seg segtot S j l i hj hl hi =>
      merge_order_opt_apply d buf fac np ndst seg segtot S j l i hj hl hi,
    fun d buf seg segtot S p hp => merge_order_opt_frame_mul d buf fac np ndst seg segtot S p hp,
    fun i hi => merge_xc_energy dst ebuf vbuf fbuf kbuf fac np ndst nvar spin type i hi, ?_⟩
  intro hn
  obtain ⟨hV, hF⟩ := merge_totals_le spin type nvar hsup hn
  refine ⟨?_, ?_, ?_⟩
  · intro vb hvb j l i hj hl hi
    subst hvb
    exact merge_xc_order1 dst ebuf vb fbuf kbuf fac np ndst nvar spin type hV j l i hj hl hi
  · intro fb hfb j l i hj hl hi
    subst hfb
    exact merge_xc_order2 dst ebuf fb vbuf kbuf fac np ndst nvar spin type hV hF j l i hj hl hi
  · intro kb hkb j l i hj hl hi
    subst hkb
    exact merge_xc_order3 dst ebuf kb vbuf fbuf fac np ndst nvar spin type hV hF j l i hj hl hi

/-- A polarized GGA contribution merged into a tensor in `nvar = 9` variables: component
`l = 2` of sub-block `j = 1` (`vsigma`) of point `i = 1` goes to cell `(1 + (2 + 2)) * 2 + 1`,
and sub-block `j = 2` (`v2sigma2`) of the second order to cell `(1 + 9 + (9 + 0)) * 2 + 1`. -/
theorem merge_xc_layout_witness :
    merge_xc (fun p => (p : Int)) (fun p => 3 * (p : Int)) (some fun p => 10 * (p : Int))
        (some fun p => 100 * (p : Int)) none 2 2 0 (9 : Nat) XC_POLARIZED XC_FAMILY_GGA
        ((1 + (seg_base (merge_vseg XC_POLARIZED) 1 + 2)) * 2 + 1)
      = (fun p => (p : Int)) ((1 + (seg_base (merge_vseg XC_POLARIZED) 1 + 2)) * 2 + 1)
        + 2 * (fun p => 10 * (p : Int))
            (2 * seg_base (merge_vseg XC_POLARIZED) 1
              + 1 * (merge_vseg XC_POLARIZED).getD 1 0 + 2)
    ∧ merge_xc (fun p => (p : Int)) (fun p => 3 * (p : Int)) (some fun p => 10 * (p : Int))
        (some fun p => 100 * (p : Int)) none 2 2 0 (9 : Nat) XC_POLARIZED XC_FAMILY_GGA
        ((1 + 9 + (seg_base (merge_fseg XC_POLARIZED) 2 + 0)) * 2 + 1)
      = (fun p => (p : Int)) ((1 + 9 + (seg_base (merge_fseg XC_POLARIZED) 2 + 0)) * 2 + 1)
        + 2 * (fun p => 100 * (p : Int))
            (2 * seg_base (merge_fseg XC_POLARIZED) 2
              + 1 * (merge_fseg XC_POLARIZED).getD 2 0 + 0) :=
  have h := (merge_xc_layout (fun p => (p : Int)) (fun p => 3 * (p : Int))
    (some fun p => 10 * (p : Int)) (some fun p => 100 * (p : Int)) none 2 2 0 9 XC_POLARIZED
    XC_FAMILY_GGA (by decide)).2.2.2.2.2 (by decide)
  ⟨h.1 _ rfl 1 2 1 (by decide) (by decide) (by decide),
    h.2.1 _ rfl 2 0 1 (by decide) (by decide) (by decide)⟩

end ClaimsMerge

section EvalLemmas

variable {α : Type}

/-- The range-separation step leaves the family tag alone. -/
theorem set_omega_family [Zero α] [DecidableEq α] (func : xc_func_type α) (w : α) :
    (set_omega func w).family = func.family := by
  obtain ⟨n, f, fl, sp, om, aux⟩ := func
  unfold set_omega
  split
  · split <;> rfl
  · rfl

/-- `_eval_xc` takes the meta-GGA branch for `XC_FAMILY_MGGA` and `XC_FAMILY_HYB_MGGA`. -/
theorem eval_xc_mgga_branch [Add α] [Mul α] (lib : xc_library α) (nthreads : Nat)
    (heap : Nat → Nat → α) (func_x : xc_func_type α) (spin : Int) (np : Nat) (rho_u rho_d : Nat → α)
    (b : xc_bufs α) (h : is_mgga_family func_x.family) :
    _eval_xc lib nthreads heap func_x spin np rho_u rho_d b
      = .ok (_eval_xc_mgga lib nthreads heap func_x spin np rho_u rho_d b) := by
  unfold _eval_xc
  rcases h with h | h <;> rw [h] <;> rfl

end EvalLemmas

section ClaimsEval

variable {α : Type}

/-- C7 (the code at the failing input): a call whose only functional is of the unsupported
family `XC_FAMILY_OEP` (id `900` of the sample library) returns normally and leaves the
output as it was, for every spin mode, `np` and thread count, because
`LIBXC_input_length` returns `0`; the "not implemented" exit of `_eval_xc` is reached only
when a supported functional is in the list too, as for `[1, 900]`. -/
theorem eval_xc_unsupported_only_returns (nthreads : Nat) (heap : Nat → Nat → Int) (spin : Int)
    (np : Nat) (rho_u rho_d output : Nat → Int) :
    LIBXC_eval_xc demo_library nthreads heap [⟨900, 1, 0⟩] spin 0 np rho_u rho_d output
        = (xc_exit.returned, output)
      ∧ (LIBXC_eval_xc demo_library nthreads heap [⟨1, 1, 0⟩, ⟨900, 1, 0⟩] spin 0 np
          rho_u rho_d output).1 = xc_exit.not_implemented 900 := by
  have h900 : ∀ s, input_length_step spin XC_FAMILY_OEP s = s := by
    intro s
    unfold input_length_step
    split <;> rfl
  have h1 : input_length_step spin XC_FAMILY_LDA 0 ≠ 0 := by
    unfold input_length_step
    split <;> decide
  constructor
  · unfold LIBXC_eval_xc
    rw [if_neg (by decide),
      input_length_single demo_library ⟨900, 1, 0⟩ spin (.mk 900 XC_FAMILY_OEP 0 spin 0 []) rfl]
    simp only [xc_func_type.family, h900]
    rfl
  · unfold LIBXC_eval_xc
    rw [if_neg (by decide)]
    have hlen : LIBXC_input_length demo_library [⟨1, 1, 0⟩, ⟨900, 1, 0⟩] spin
        = .ok (input_length_step spin XC_FAMILY_LDA 0) := by
      simp [LIBXC_input_length, input_length_loop, demo_library, xc_func_type.family, h900]
    rw [hlen]
    simp only [if_neg h1]
    rfl

/-- C9: over exact arithmetic, one functional evaluated with weight `w` from a zeroed output
tensor ends the same way as with weight `1` and leaves, entry by entry, `w` times the tensor
that weight `1` leaves (for every functional id, spin mode, `deriv`, `np` and record). -/
theorem eval_xc_weight_scaling [CommRing α] [DecidableEq α] (lib : xc_library α)
    (nthreads : Nat) (heap : Nat → Nat → α) (fn_id : Int) (w omega : α) (spin deriv : Int) (np : Nat)
    (rho_u rho_d : Nat → α) :
    (LIBXC_eval_xc lib nthreads heap [⟨fn_id, w, omega⟩] spin deriv np rho_u rho_d
        (fun _ => 0)).1
      = (LIBXC_eval_xc lib nthreads heap [⟨fn_id, 1, omega⟩] spin deriv np rho_u rho_d
        (fun _ => 0)).1
    ∧ ∀ p,
      (LIBXC_eval_xc lib nthreads heap [⟨fn_id, w, omega⟩] spin deriv np rho_u rho_d
          (fun _ => 0)).2 p
        = w * (LIBXC_eval_xc lib nthreads heap [⟨fn_id, 1, omega⟩] spin deriv np rho_u rho_d
          (fun _ => 0)).2 p := by
  unfold LIBXC_eval_xc
  by_cases hd : deriv > 3
  · simp [hd]
  · simp only [if_neg hd, LIBXC_input_length, input_length_loop]
    cases hinit : lib.xc_func_init fn_id spin with
    | none => simp
    | some func0 =>
      simp only []
      by_cases hn : input_length_step spin func0.family 0 = 0
      · simp [hn]
      · simp only [if_neg hn, eval_loop, hinit]
        generalize _eval_xc lib nthreads heap (set_omega func0 omega) spin np rho_u rho_d _ = r
        cases r with
        | error e => simp
        | ok b =>
          refine ⟨rfl, fun p => ?_⟩
          simp only [eval_loop]
          have h := congrFun (merge_xc_smul (fun _ => (0 : α)) b.ex b.vxc b.fxc b.kxc w 1 np
            (xc_output_length (input_length_step spin func0.family 0) deriv)
            (input_length_step spin func0.family 0) spin (set_omega func0 omega).family) p
          simp only [mul_zero, mul_one] at h
          exact h

end ClaimsEval

section ZeroWeight

variable {α : Type} [CommRing α] [DecidableEq α]

/-- The loop of `LIBXC_eval_xc` over functionals of weight `0` leaves the output alone,
however it ends. -/
theorem eval_loop_zero_weight (lib : xc_library α) (nthreads : Nat) (heap : Nat → Nat → α)
    (spin : Int) (np : Nat) (rho_u rho_d : Nat → α) (outlen nvar : Int)
    (fns : List (xc_term α)) (hz : ∀ t ∈ fns, t.fac = 0) (b : xc_bufs α) (output : Nat → α) :
    (eval_loop lib nthreads heap spin np rho_u rho_d outlen nvar fns b output).2 = output := by
  induction fns generalizing b with
  | nil => rfl
  | cons t rest ih =>
    unfold eval_loop
    cases lib.xc_func_init t.fn_id spin with
    | none => rfl
    | some func0 =>
      simp only []
      cases _eval_xc lib nthreads heap (set_omega func0 t.omega) spin np rho_u rho_d b with
      | error e => rfl
      | ok b2 =>
        simp only []
        rw [hz t (List.mem_cons_self _ _), merge_xc_zero]
        exact ih (fun t ht => hz t (List.mem_cons_of_mem _ ht)) b2

end ZeroWeight

section ClaimsZero

variable {α : Type}

/-- C10: over exact arithmetic, a call of `LIBXC_eval_xc` in which every functional has weight
`0` leaves every entry of the output tensor at its pre-call value (zero when the caller zeroed
it), for every functional list, spin mode, `deriv`, `np` and record, and however the run
ends. -/
theorem eval_xc_zero_weight [CommRing α] [DecidableEq α] (lib : xc_library α) (nthreads : Nat)
    (heap : Nat → Nat → α) (fns : List (xc_term α)) (hz : ∀ t ∈ fns, t.fac = 0) (spin deriv : Int)
    (np : Nat) (rho_u rho_d output : Nat → α) :
    (LIBXC_eval_xc lib nthreads heap fns spin deriv np rho_u rho_d output).2 = output := by
  unfold LIBXC_eval_xc
  split
  · rfl
  · cases LIBXC_input_length lib fns spin with
    | error e => rfl
    | ok nvar =>
      simp only []
      split
      · rfl
      · exact eval_loop_zero_weight lib nthreads heap spin np rho_u rho_d _ _ fns hz _ output

/-- The statement of `eval_xc_zero_weight` for the polarized GGA `101` of the sample library
with weight `0`, `deriv = 2`, `np = 3`. -/
theorem eval_xc_zero_weight_witness :
    (LIBXC_eval_xc demo_library 2 (fun _ _ => 7) [⟨101, 0, 0⟩] XC_POLARIZED 2 3
        (fun p => (p : Int)) (fun p => 2 * (p : Int)) (fun _ => 0)).2 = fun _ => 0 :=
  eval_xc_zero_weight demo_library 2 (fun _ _ => 7) [⟨101, 0, 0⟩]
    (by intro t ht; simp only [List.mem_singleton] at ht; rw [ht]) XC_POLARIZED 2 3
    (fun p => (p : Int)) (fun p => 2 * (p : Int)) (fun _ => 0)

/-- The statement of `merge_segments_sum` for the polarized GGA `101` of the sample
library. -/
theorem merge_segments_sum_witness :
    ∃ n : Nat, LIBXC_input_length demo_library [⟨101, 1, 0⟩] XC_POLARIZED = .ok (n : Int)
      ∧ n = 5
      ∧ seg_base (merge_vseg XC_POLARIZED) (merge_segtot XC_FAMILY_GGA).1 = (n + 1 - 1).choose 1
      ∧ seg_base (merge_fseg XC_POLARIZED) (merge_segtot XC_FAMILY_GGA).2.1
          = (n + 2 - 1).choose 2
      ∧ seg_base (merge_kseg XC_POLARIZED) (merge_segtot XC_FAMILY_GGA).2.2
          = (n + 3 - 1).choose 3 :=
  have h := merge_segments_sum demo_library (⟨101, 1, 0⟩ : xc_term Int) XC_POLARIZED
    (.mk 101 XC_FAMILY_GGA 0 XC_POLARIZED 0 []) rfl (by decide)
  h.elim fun n hn => ⟨n, hn.1, hn.2.1, hn.2.2.1, hn.2.2.2.1, hn.2.2.2.2.1 (by decide)⟩

end ClaimsZero

section Chunks

variable {α : Type}

/-- Two adjacent ranges of points of one sub-array written one after the other are the
write of their union. -/
theorem sub_store_merge (buf : Nat → α) (P s : Nat) (A : Nat → α) (a b c : Nat)
    (hab : a ≤ b) (hbc : b ≤ c) :
    sub_store (sub_store buf P s A a b) P s A b c = sub_store buf P s A a c := by
  funext p
  simp only [sub_store]
  have h1 : a * s ≤ b * s := Nat.mul_le_mul_right _ hab
  have h2 : b * s ≤ c * s := Nat.mul_le_mul_right _ hbc
  by_cases hbc2 : P + b * s ≤ p ∧ p < P + c * s
  · rw [if_pos hbc2, if_pos ⟨by omega, hbc2.2⟩]
  · rw [if_neg hbc2]
    by_cases hab2 : P + a * s ≤ p ∧ p < P + b * s
    · rw [if_pos hab2, if_pos ⟨hab2.1, by omega⟩]
    · rw [if_neg hab2, if_neg (by omega)]

/-- The writes of a chunk act cell by cell. -/
theorem sub_stores_apply (l : List (Nat × Nat × (Nat → α))) (a b : Nat) (buf : Nat → α)
    (p : Nat) :
    sub_stores l a b buf p
      = l.foldl (fun v x => if x.1 + a * x.2.1 ≤ p ∧ p < x.1 + b * x.2.1 then x.2.2 (p - x.1)
          else v) (buf p) := by
  unfold sub_stores
  induction l generalizing buf with
  | nil => rfl
  | cons x l ih =>
    simp only [List.foldl_cons]
    rw [ih]
    rfl

/-- A cell outside every sub-array of the list is not written. -/
theorem cell_fold_miss (l : List (Nat × Nat × (Nat → α))) (a b p : Nat) (v : α)
    (h : ∀ y ∈ l, ¬ (y.1 + a * y.2.1 ≤ p ∧ p < y.1 + b * y.2.1)) :
    l.foldl (fun v x => if x.1 + a * x.2.1 ≤ p ∧ p < x.1 + b * x.2.1 then x.2.2 (p - x.1)
        else v) v = v := by
  induction l generalizing v with
  | nil => rfl
  | cons x l ih =>
    simp only [List.foldl_cons]
    rw [if_neg (h x (List.mem_cons_self _ _))]
    exact ih v (fun y hy => h y (List.mem_cons_of_mem _ hy))

/-- Two adjacent ranges of points written one after the other, in all sub-arrays of a buffer
whose sub-arrays do not overlap, are the write of their union. -/
theorem sub_stores_merge (np : Nat) (l : List (Nat × Nat × (Nat → α)))
    (hl : layout_disjoint np l) (a b c : Nat) (hab : a ≤ b) (hbc : b ≤ c) (hc : c ≤ np)
    (buf : Nat → α) :
    sub_stores l b c (sub_stores l a b buf) = sub_stores l a c buf := by
  funext p
  rw [sub_stores_apply, sub_stores_apply, sub_stores_apply]
  generalize buf p = v
  induction l generalizing v with
  | nil => rfl
  | cons x l ih =>
    obtain ⟨hx, hl2⟩ := List.pairwise_cons.mp hl
    simp only [List.foldl_cons]
    have hsub : ∀ a2 b2, b2 ≤ np →
        (x.1 + a2 * x.2.1 ≤ p ∧ p < x.1 + b2 * x.2.1) → (x.1 ≤ p ∧ p < x.1 + np * x.2.1) := by
      intro a2 b2 hb2 h
      have : b2 * x.2.1 ≤ np * x.2.1 := Nat.mul_le_mul_right _ hb2
      omega
    have hsuby : ∀ y ∈ l, ∀ a2 b2, b2 ≤ np →
        (y.1 + a2 * y.2.1 ≤ p ∧ p < y.1 + b2 * y.2.1) → (y.1 ≤ p ∧ p < y.1 + np * y.2.1) := by
      intro y _ a2 b2 hb2 h
      have : b2 * y.2.1 ≤ np * y.2.1 := Nat.mul_le_mul_right _ hb2
      omega
    have h1 : a * x.2.1 ≤ b * x.2.1 := Nat.mul_le_mul_right _ hab
    have h2 : b * x.2.1 ≤ c * x.2.1 := Nat.mul_le_mul_right _ hbc
    by_cases hin : x.1 ≤ p ∧ p < x.1 + np * x.2.1
    · -- the cell belongs to `x`: the other sub-arrays never write it
      have hmiss : ∀ a2 b2, b2 ≤ np →
          ∀ y ∈ l, ¬ (y.1 + a2 * y.2.1 ≤ p ∧ p < y.1 + b2 * y.2.1) :=
        fun a2 b2 hb2 y hy hcon => hx y hy p hin (hsuby y hy a2 b2 hb2 hcon)
      rw [cell_fold_miss l a b p _ (hmiss a b (le_trans hbc hc)),
        cell_fold_miss l b c p _ (hmiss b c hc), cell_fold_miss l a c p _ (hmiss a c hc)]
      by_cases hbc2 : x.1 + b * x.2.1 ≤ p ∧ p < x.1 + c * x.2.1
      · rw [if_pos hbc2, if_pos ⟨by omega, hbc2.2⟩]
      · rw [if_neg hbc2]
        by_cases hab2 : x.1 + a * x.2.1 ≤ p ∧ p < x.1 + b * x.2.1
        · rw [if_pos hab2, if_pos ⟨hab2.1, by omega⟩]
        · rw [if_neg hab2, if_neg (by omega)]
    · -- the cell does not belong to `x`
      have hno : ∀ a2 b2, b2 ≤ np → ¬ (x.1 + a2 * x.2.1 ≤ p ∧ p < x.1 + b2 * x.2.1) :=
        fun a2 b2 hb2 hcon => hin (hsub a2 b2 hb2 hcon)
      rw [if_neg (hno a b (le_trans hbc hc)), if_neg (hno a c hc)]
      have key := ih hl2 v
      rw [← key]
      congr 1
      generalize (l.foldl (fun v x => if x.1 + a * x.2.1 ≤ p ∧ p < x.1 + b * x.2.1 then
        x.2.2 (p - x.1) else v) v) = w
      rw [if_neg (hno b c hc)]

/-- An empty range of points writes nothing. -/
theorem sub_stores_empty (l : List (Nat × Nat × (Nat → α))) (a : Nat) (buf : Nat → α) :
    sub_stores l a a buf = buf := by
  funext p
  rw [sub_stores_apply]
  exact cell_fold_miss l a a p _ (fun y _ h => by omega)

theorem fill_bufs_merge (np : Nat) (le lv lf lk : List (Nat × Nat × (Nat → α)))
    (he : layout_disjoint np le) (hv : layout_disjoint np lv) (hf : layout_disjoint np lf)
    (hk : layout_disjoint np lk) (a b c : Nat) (hab : a ≤ b) (hbc : b ≤ c) (hc : c ≤ np)
    (bufs : xc_bufs α) :
    fill_bufs le lv lf lk b c (fill_bufs le lv lf lk a b bufs) = fill_bufs le lv lf lk a c bufs := by
  obtain ⟨ex, vxc, fxc, kxc⟩ := bufs
  simp only [fill_bufs, sub_stores_merge np _ he a b c hab hbc hc]
  congr 1
  · cases vxc <;> simp [sub_stores_merge np _ hv a b c hab hbc hc]
  · cases fxc <;> simp [sub_stores_merge np _ hf a b c hab hbc hc]
  · cases kxc <;> simp [sub_stores_merge np _ hk a b c hab hbc hc]

theorem fill_bufs_empty (le lv lf lk : List (Nat × Nat × (Nat → α))) (a : Nat)
    (bufs : xc_bufs α) : fill_bufs le lv lf lk a a bufs = bufs := by
  obtain ⟨ex, vxc, fxc, kxc⟩ := bufs
  simp only [fill_bufs, sub_stores_empty]
  congr 1
  · cases vxc <;> simp [sub_stores_empty]
  · cases fxc <;> simp [sub_stores_empty]
  · cases kxc <;> simp [sub_stores_empty]

/-- The chunked evaluation of a kernel whose calls write each range of points as `fill` does
amounts to one write of the whole range, whatever the number of threads. -/
theorem chunked_eq_fill (nthreads np : Nat) (hT : 1 ≤ nthreads)
    (call fill : Nat → Nat → xc_bufs α → xc_bufs α)
    (hcall : ∀ start n b, start + n ≤ np → call start n b = fill start (start + n) b)
    (hmerge : ∀ a b c bufs, a ≤ b → b ≤ c → c ≤ np →
      fill b c (fill a b bufs) = fill a c bufs)
    (hempty : ∀ a bufs, fill a a bufs = bufs) (b : xc_bufs α) :
    chunked nthreads np call b = fill 0 np b := by
  unfold chunked
  simp only []
  generalize hnblk : (if np < nthreads then 1 else nthreads) = nblk
  have hpos : 1 ≤ nblk := by
    rw [← hnblk]; split <;> omega
  have hle : nblk * (np / nblk) ≤ np := by
    rw [Nat.mul_comm]; exact Nat.div_mul_le_self np nblk
  have hfold : ∀ m, m ≤ nblk →
      (List.range m).foldl (fun b iblk => call (iblk * (np / nblk)) (np / nblk) b) b
        = fill 0 (m * (np / nblk)) b := by
    intro m hm
    induction m with
    | zero => simp [hempty]
    | succ m ih =>
      rw [List.range_succ, List.foldl_append, ih (by omega)]
      simp only [List.foldl_cons, List.foldl_nil]
      have hbound : (m + 1) * (np / nblk) ≤ np :=
        le_trans (Nat.mul_le_mul_right _ hm) hle
      have e : m * (np / nblk) + np / nblk = (m + 1) * (np / nblk) := by ring
      rw [hcall _ _ _ (by rw [e]; exact hbound), e]
      exact hmerge _ _ _ _ (Nat.zero_le _) (by rw [← e]; exact Nat.le_add_right _ _) hbound
  rw [hfold nblk (le_refl _)]
  split
  · rw [hcall _ _ _ (by omega)]
    have e : nblk * (np / nblk) + (np - nblk * (np / nblk)) = np := by omega
    rw [e]
    exact hmerge _ _ _ _ (Nat.zero_le _) hle (le_refl _)
  · have e : nblk * (np / nblk) = np := by omega
    rw [e]

end Chunks

section Layout

variable {α : Type}

/-- A kernel's write through `buf + (P + start * s)` is the write of the points
`start .. start + n` of the sub-array at `P`, when the values written are those of the
sub-array. -/
theorem store_block_eq_sub_store (buf : Nat → α) (P s start n : Nat) (vals A : Nat → α)
    (h : ∀ q, q < n * s → vals q = A (start * s + q)) :
    store_block buf (P + start * s) (n * s) vals = sub_store buf P s A start (start + n) := by
  funext p
  simp only [store_block, sub_store]
  have e : (start + n) * s = start * s + n * s := by ring
  by_cases hin : P + start * s ≤ p ∧ p < P + start * s + n * s
  · rw [if_pos hin, if_pos ⟨hin.1, by omega⟩, h _ (by omega)]
    congr 1
    omega
  · rw [if_neg hin, if_neg (by omega)]

/-- The values a point-by-point kernel writes for the points of a chunk are the values of the
sub-array at those points. -/
theorem sub_values_of_chunk (arr : xc_out α → Nat → Nat → α) (out : xc_out α)
    (G : Nat → xc_out α) (s j start n : Nat)
    (h : ∀ i l, i < n → l < s → arr out j (i * s + l) = arr (G (start + i)) j l)
    (q : Nat) (hq : q < n * s) : arr out j q = sub_values arr G s j (start * s + q) := by
  have hs : 0 < s := by
    rcases Nat.eq_zero_or_pos s with h0 | h0
    · subst h0; simp at hq
    · exact h0
  have hi : q / s < n := by
    rw [Nat.div_lt_iff_lt_mul hs]; exact hq
  have hl : q % s < s := Nat.mod_lt _ hs
  have hq2 : q / s * s + q % s = q := by
    rw [Nat.mul_comm]; exact Nat.div_add_mod q s
  have e1 : (start * s + q) / s = start + q / s := by
    rw [Nat.add_comm, Nat.add_mul_div_right _ _ hs, Nat.add_comm]
  have e2 : (start * s + q) % s = q % s := by
    rw [Nat.add_comm, Nat.add_mul_mod_self_right]
  unfold sub_values
  rw [e1, e2, ← h _ _ hi hl, hq2]

theorem layout_of_succ (arr : xc_out α → Nat → Nat → α) (gout : Nat → xc_out α)
    (ptrs seg : List Nat) (n : Nat) :
    layout_of arr gout ptrs seg (n + 1)
      = layout_of arr gout ptrs seg n
        ++ [(ptrs.getD n 0, seg.getD n 0, sub_values arr gout (seg.getD n 0) n)] := by
  unfold layout_of
  rw [List.range_succ, List.map_append]
  rfl

theorem sub_stores_append (l1 l2 : List (Nat × Nat × (Nat → α))) (a b : Nat) (buf : Nat → α) :
    sub_stores (l1 ++ l2) a b buf = sub_stores l2 a b (sub_stores l1 a b buf) := by
  unfold sub_stores
  rw [List.foldl_append]

/-- The writes of one kernel call through the pointers `ptrs[j] + start * seg[j]`, `j < cnt`,
are the writes of the points `start .. start + n` of the `cnt` sub-arrays. -/
theorem mgga_store_eq_sub_stores (buf : Nat → α) (ptrs seg : List Nat) (cnt : Nat)
    (arr : xc_out α → Nat → Nat → α) (out : xc_out α) (G : Nat → xc_out α) (start n : Nat)
    (h : ∀ j, j < cnt → ∀ i l, i < n → l < seg.getD j 0 →
      arr out j (i * seg.getD j 0 + l) = arr (G (start + i)) j l) :
    mgga_store buf ptrs seg cnt (arr out) start n
      = sub_stores (layout_of arr G ptrs seg cnt) start (start + n) buf := by
  induction cnt with
  | zero => rfl
  | succ m ih =>
    rw [layout_of_succ, sub_stores_append, ← ih (fun j hj => h j (by omega))]
    unfold mgga_store
    rw [List.range_succ, List.foldl_append]
    simp only [List.foldl_cons, List.foldl_nil, sub_stores]
    exact store_block_eq_sub_store _ _ _ _ _ _ _
      (sub_values_of_chunk arr out G _ m start n (h m (by omega)))

/-- Sub-arrays laid out one after the other, sub-array `j` at `np * (seg[0] + ... + seg[j-1])`,
do not overlap. -/
theorem layout_of_disjoint (arr : xc_out α → Nat → Nat → α) (gout : Nat → xc_out α)
    (np : Nat) (ptrs seg : List Nat) (cnt : Nat)
    (hp : ∀ j, j < cnt → ptrs.getD j 0 = np * seg_base seg j) :
    layout_disjoint np (layout_of arr gout ptrs seg cnt) := by
  unfold layout_disjoint layout_of
  rw [List.pairwise_map]
  have hlt : (List.range cnt).Pairwise (fun j k => j < k) := List.pairwise_lt_range cnt
  refine List.Pairwise.imp_of_mem ?_ hlt
  intro j k hj hk hjk p hin hcon
  simp only at hin hcon
  rw [hp j (List.mem_range.mp hj)] at hin
  rw [hp k (List.mem_range.mp hk)] at hcon
  have hmono : seg_base seg (j + 1) ≤ seg_base seg k := seg_base_mono seg hjk
  rw [seg_base_succ] at hmono
  have : np * (seg_base seg j + seg.getD j 0) ≤ np * seg_base seg k :=
    Nat.mul_le_mul_left _ hmono
  rw [Nat.mul_add] at this
  omega

/-- The pointer arrays of `_eval_xc_mgga`: `v[j] = buffer + np * (seg[0] + ... + seg[j-1])`. -/
theorem mgga_ptrs_eq (np : Nat) (seg : List Nat) (m : Nat) :
    (List.range m).foldl (fun v i => v ++ [v.getD i 0 + np * seg.getD i 0]) [0]
      = (List.range (m + 1)).map fun j => np * seg_base seg j := by
  induction m with
  | zero => simp [seg_base, List.range_succ]
  | succ m ih =>
    rw [List.range_succ, List.foldl_append, ih]
    simp only [List.foldl_cons, List.foldl_nil]
    rw [List.range_succ (m + 1), List.map_append]
    congr 1
    simp only [List.map_cons, List.map_nil, List.cons.injEq, and_true]
    have hget : ((List.range (m + 1)).map fun j => np * seg_base seg j).getD m 0
        = np * seg_base seg m := by
      rw [List.getD_eq_getElem _ _ (by simp)]
      simp
    rw [hget, seg_base_succ, Nat.mul_add]

theorem mgga_ptrs_getD (np : Nat) (seg : List Nat) (n j : Nat) (hn : 1 ≤ n) (hj : j < n) :
    (mgga_ptrs np seg n).getD j 0 = np * seg_base seg j := by
  unfold mgga_ptrs
  rw [mgga_ptrs_eq, List.getD_eq_getElem _ _ (by simp; omega)]
  simp

/-- The inputs of point `i` of a chunk starting at `start` are the inputs of point
`start + i`. -/
theorem point_inputs_ptr_add (view : Nat → α) (s start i : Nat) :
    point_inputs (ptr_add view (start * s)) s i = point_inputs view s (start + i) := by
  unfold point_inputs ptr_add
  apply List.map_congr_left
  intro c _
  congr 1
  ring

end Layout

section Evaluators

variable {α : Type}

theorem mgga_store_one (buf : Nat → α) (s : Nat) (arr : Nat → Nat → α) (start n : Nat) :
    mgga_store buf [0] [s] 1 arr start n = store_block buf (start * s) (n * s) (arr 0) := by
  simp [mgga_store, List.range_succ]

theorem mgga_store_two (buf : Nat → α) (P1 : Nat) (seg : List Nat) (arr : Nat → Nat → α)
    (start n : Nat) :
    mgga_store buf [0, P1] seg 2 arr start n
      = store_block (store_block buf (start * seg.getD 0 0) (n * seg.getD 0 0) (arr 0))
          (P1 + start * seg.getD 1 0) (n * seg.getD 1 0) (arr 1) := by
  simp [mgga_store, List.range_succ]

theorem mgga_store_three (buf : Nat → α) (P1 P2 : Nat) (seg : List Nat) (arr : Nat → Nat → α)
    (start n : Nat) :
    mgga_store buf [0, P1, P2] seg 3 arr start n
      = store_block
          (store_block (store_block buf (start * seg.getD 0 0) (n * seg.getD 0 0) (arr 0))
            (P1 + start * seg.getD 1 0) (n * seg.getD 1 0) (arr 1))
          (P2 + start * seg.getD 2 0) (n * seg.getD 2 0) (arr 2) := by
  simp [mgga_store, List.range_succ]

theorem mgga_store_four (buf : Nat → α) (P1 P2 P3 : Nat) (seg : List Nat)
    (arr : Nat → Nat → α) (start n : Nat) :
    mgga_store buf [0, P1, P2, P3] seg 4 arr start n
      = store_block
          (store_block
            (store_block (store_block buf (start * seg.getD 0 0) (n * seg.getD 0 0) (arr 0))
              (P1 + start * seg.getD 1 0) (n * seg.getD 1 0) (arr 1))
            (P2 + start * seg.getD 2 0) (n * seg.getD 2 0) (arr 2))
          (P3 + start * seg.getD 3 0) (n * seg.getD 3 0) (arr 3) := by
  simp [mgga_store, List.range_succ]

/-- The energy array written by a chunk. -/
theorem ex_store_eq (buf : Nat → α) (out : xc_out α) (G : Nat → xc_out α) (start n : Nat)
    (h : ∀ i, i < n → out.zk i = (G (start + i)).zk 0) :
    store_block buf start n out.zk
      = sub_stores (layout_of (fun o _ l => o.zk l) G [0] [1] 1) start (start + n) buf := by
  rw [← mgga_store_eq_sub_stores buf [0] [1] 1 (fun o _ l => o.zk l) out G start n]
  · rw [mgga_store_one]
    simp
  · intro j hj i l hi hl
    have hj0 : j = 0 := by omega
    subst hj0
    have hl0 : l = 0 := by
      simp at hl; exact hl
    subst hl0
    simpa using h i hi

/-- One kernel call of `_eval_xc_lda` with a point-by-point kernel writes the points
`start .. start + n` of the four buffers. -/
theorem lda_call_eq_fill (lib : xc_library α) (func_x : xc_func_type α) (seg : List Nat)
    (rho : Nat → α) (g : List α → xc_out α) (hg : lda_pointwise (lib.xc_lda func_x) seg g)
    (start n : Nat) (b : xc_bufs α) :
    lda_call lib func_x seg rho start n b
      = fill_bufs
          (layout_of (fun o _ l => o.zk l) (fun i => g (point_inputs rho (seg.getD 0 0) i))
            [0] [1] 1)
          (layout_of (fun o => o.v) (fun i => g (point_inputs rho (seg.getD 0 0) i))
            [0] [seg.getD 1 0] 1)
          (layout_of (fun o => o.f) (fun i => g (point_inputs rho (seg.getD 0 0) i))
            [0] [seg.getD 2 0] 1)
          (layout_of (fun o => o.k) (fun i => g (point_inputs rho (seg.getD 0 0) i))
            [0] [seg.getD 3 0] 1)
          start (start + n) b := by
  have hpw := hg n (ptr_add rho (start * seg.getD 0 0))
  simp only [point_inputs_ptr_add] at hpw
  unfold lda_call fill_bufs
  simp only []
  congr 1
  · exact ex_store_eq _ _ _ start n (fun i hi => (hpw i hi).1)
  · congr 1
    funext vxc
    rw [← mgga_store_eq_sub_stores vxc [0] [seg.getD 1 0] 1 (fun o => o.v) _ _ start n
      (fun j hj i l hi hl => (hpw i hi).2.1 j l (by simpa using hj) hl), mgga_store_one]
  · congr 1
    funext fxc
    rw [← mgga_store_eq_sub_stores fxc [0] [seg.getD 2 0] 1 (fun o => o.f) _ _ start n
      (fun j hj i l hi hl => (hpw i hi).2.2.1 j l (by simpa using hj) hl), mgga_store_one]
  · congr 1
    funext kxc
    rw [← mgga_store_eq_sub_stores kxc [0] [seg.getD 3 0] 1 (fun o => o.k) _ _ start n
      (fun j hj i l hi hl => (hpw i hi).2.2.2 j l (by simpa using hj) hl), mgga_store_one]

/-- One kernel call of `_eval_xc_gga` with a point-by-point kernel writes the points
`start .. start + n` of the four buffers. -/
theorem gga_call_eq_fill (lib : xc_library α) (func_x : xc_func_type α)
    (seg vseg fseg kseg : List Nat) (np : Nat) (rho sigma : Nat → α)
    (g : List α → List α → xc_out α)
    (hg : gga_pointwise (lib.xc_gga func_x) seg vseg fseg kseg g)
    (hv : 2 ≤ vseg.length) (hf : 3 ≤ fseg.length) (hk : 4 ≤ kseg.length)
    (start n : Nat) (b : xc_bufs α) :
    gga_call lib func_x seg vseg fseg kseg np rho sigma start n b
      = fill_bufs
          (layout_of (fun o _ l => o.zk l)
            (fun i => g (point_inputs rho (seg.getD 0 0) i)
              (point_inputs sigma (seg.getD 1 0) i)) [0] [1] 1)
          (layout_of (fun o => o.v)
            (fun i => g (point_inputs rho (seg.getD 0 0) i)
              (point_inputs sigma (seg.getD 1 0) i))
            [0, np * vseg.getD 0 0] vseg 2)
          (layout_of (fun o => o.f)
            (fun i => g (point_inputs rho (seg.getD 0 0) i)
              (point_inputs sigma (seg.getD 1 0) i))
            [0, np * fseg.getD 0 0, np * fseg.getD 0 0 + np * fseg.getD 1 0] fseg 3)
          (layout_of (fun o => o.k)
            (fun i => g (point_inputs rho (seg.getD 0 0) i)
              (point_inputs sigma (seg.getD 1 0) i))
            [0, np * kseg.getD 0 0, np * kseg.getD 0 0 + np * kseg.getD 1 0,
              np * kseg.getD 0 0 + np * kseg.getD 1 0 + np * kseg.getD 2 0] kseg 4)
          start (start + n) b := by
  have hpw := hg n (ptr_add rho (start * seg.getD 0 0)) (ptr_add sigma (start * seg.getD 1 0))
  simp only [point_inputs_ptr_add] at hpw
  unfold gga_call fill_bufs
  simp only []
  congr 1
  · exact ex_store_eq _ _ _ start n (fun i hi => (hpw i hi).1)
  · congr 1
    funext vxc
    rw [← mgga_store_eq_sub_stores vxc _ vseg 2 (fun o => o.v) _ _ start n
      (fun j hj i l hi hl => (hpw i hi).2.1 j l (by omega) hl), mgga_store_two]
  · congr 1
    funext fxc
    rw [← mgga_store_eq_sub_stores fxc _ fseg 3 (fun o => o.f) _ _ start n
      (fun j hj i l hi hl => (hpw i hi).2.2.1 j l (by omega) hl), mgga_store_three]
  · congr 1
    funext kxc
    rw [← mgga_store_eq_sub_stores kxc _ kseg 4 (fun o => o.k) _ _ start n
      (fun j hj i l hi hl => (hpw i hi).2.2.2 j l (by omega) hl), mgga_store_four]

/-- One kernel call of `_eval_xc_mgga` with a point-by-point kernel writes the points
`start .. start + n` of the energy and of the first- and second-order buffers, and leaves
`kxc` alone. -/
theorem mgga_call_eq_fill (lib : xc_library α) (func_x : xc_func_type α)
    (seg vseg fseg : List Nat) (np : Nat) (rho sigma lapl tau : Nat → α)
    (g : List α → List α → List α → List α → xc_out α)
    (hg : mgga_pointwise (lib.xc_mgga func_x) seg vseg fseg g)
    (hv : 4 ≤ vseg.length) (hf : 10 ≤ fseg.length)
    (start n : Nat) (b : xc_bufs α) :
    mgga_call lib func_x seg vseg fseg np rho sigma lapl tau start n b
      = fill_bufs
          (layout_of (fun o _ l => o.zk l)
            (fun i => g (point_inputs rho (seg.getD 0 0) i)
              (point_inputs sigma (seg.getD 1 0) i) (point_inputs lapl (seg.getD 2 0) i)
              (point_inputs tau (seg.getD 3 0) i)) [0] [1] 1)
          (layout_of (fun o => o.v)
            (fun i => g (point_inputs rho (seg.getD 0 0) i)
              (point_inputs sigma (seg.getD 1 0) i) (point_inputs lapl (seg.getD 2 0) i)
              (point_inputs tau (seg.getD 3 0) i))
            (mgga_ptrs np vseg 4) vseg 4)
          (layout_of (fun o => o.f)
            (fun i => g (point_inputs rho (seg.getD 0 0) i)
              (point_inputs sigma (seg.getD 1 0) i) (point_inputs lapl (seg.getD 2 0) i)
              (point_inputs tau (seg.getD 3 0) i))
            (mgga_ptrs np fseg 10) fseg 10)
          [] start (start + n) b := by
  have hpw := hg n (ptr_add rho (start * seg.getD 0 0)) (ptr_add sigma (start * seg.getD 1 0))
    (ptr_add lapl (start * seg.getD 2 0)) (ptr_add tau (start * seg.getD 3 0))
  simp only [point_inputs_ptr_add] at hpw
  unfold mgga_call fill_bufs
  simp only []
  congr 1
  · exact ex_store_eq _ _ _ start n (fun i hi => (hpw i hi).1)
  · congr 1
    funext vxc
    exact mgga_store_eq_sub_stores vxc _ vseg 4 (fun o => o.v) _ _ start n
      (fun j hj i l hi hl => (hpw i hi).2.1 j l (by omega) hl)
  · congr 1
    funext fxc
    exact mgga_store_eq_sub_stores fxc _ fseg 10 (fun o => o.f) _ _ start n
      (fun j hj i l hi hl => (hpw i hi).2.2.1 j l (by omega) hl)
  · cases b.kxc <;> rfl

end Evaluators

section Threads

variable {α : Type}

/-- The chunked evaluation does not depend on the number of threads, for a kernel whose calls
write each range of points as `fill` does. -/
theorem chunked_threads (nthreads np : Nat) (hT : 1 ≤ nthreads)
    (call fill : Nat → Nat → xc_bufs α → xc_bufs α)
    (hcall : ∀ start n b, start + n ≤ np → call start n b = fill start (start + n) b)
    (hmerge : ∀ a b c bufs, a ≤ b → b ≤ c → c ≤ np →
      fill b c (fill a b bufs) = fill a c bufs)
    (hempty : ∀ a bufs, fill a a bufs = bufs) (b : xc_bufs α) :
    chunked nthreads np call b = chunked 1 np call b := by
  rw [chunked_eq_fill nthreads np hT call fill hcall hmerge hempty,
    chunked_eq_fill 1 np (le_refl 1) call fill hcall hmerge hempty]

theorem layout_one_disjoint (arr : xc_out α → Nat → Nat → α) (gout : Nat → xc_out α)
    (np s : Nat) : layout_disjoint np (layout_of arr gout [0] [s] 1) := by
  apply layout_of_disjoint
  intro j hj
  have : j = 0 := by omega
  subst this
  simp [seg_base]

theorem layout_two_disjoint (arr : xc_out α → Nat → Nat → α) (gout : Nat → xc_out α)
    (np : Nat) (seg : List Nat) :
    layout_disjoint np (layout_of arr gout [0, np * seg.getD 0 0] seg 2) := by
  apply layout_of_disjoint
  intro j hj
  interval_cases j <;> simp [seg_base, List.range_succ]

theorem layout_three_disjoint (arr : xc_out α → Nat → Nat → α) (gout : Nat → xc_out α)
    (np : Nat) (seg : List Nat) :
    layout_disjoint np
      (layout_of arr gout [0, np * seg.getD 0 0, np * seg.getD 0 0 + np * seg.getD 1 0]
        seg 3) := by
  apply layout_of_disjoint
  intro j hj
  interval_cases j
  · simp [seg_base]
  · simp [seg_base, List.range_succ]
  · simp only [seg_base, List.range_succ, List.range_zero, List.nil_append, List.map_append,
      List.map_cons, List.map_nil, List.sum_append, List.sum_cons, List.sum_nil]
    simp only [List.getD_cons_succ, List.getD_cons_zero]
    ring

theorem layout_four_disjoint (arr : xc_out α → Nat → Nat → α) (gout : Nat → xc_out α)
    (np : Nat) (seg : List Nat) :
    layout_disjoint np
      (layout_of arr gout
        [0, np * seg.getD 0 0, np * seg.getD 0 0 + np * seg.getD 1 0,
          np * seg.getD 0 0 + np * seg.getD 1 0 + np * seg.getD 2 0] seg 4) := by
  apply layout_of_disjoint
  intro j hj
  interval_cases j <;> simp [seg_base, List.range_succ] <;> ring

theorem layout_mgga_disjoint (arr : xc_out α → Nat → Nat → α) (gout : Nat → xc_out α)
    (np : Nat) (seg : List Nat) (n : Nat) (hn : 1 ≤ n) :
    layout_disjoint np (layout_of arr gout (mgga_ptrs np seg n) seg n) :=
  layout_of_disjoint arr gout np _ seg n (fun j hj => mgga_ptrs_getD np seg n j hn hj)

/-- With a point-by-point kernel `_eval_xc_lda` fills the scratch buffers alike for every
number of threads. -/
theorem eval_xc_lda_threads (lib : xc_library α) (nthreads : Nat) (hT : 1 ≤ nthreads)
    (heap : Nat → Nat → α) (func_x : xc_func_type α) (spin : Int) (np : Nat) (rho_u rho_d : Nat → α)
    (b : xc_bufs α) (g : List α → xc_out α)
    (hg : lda_pointwise (lib.xc_lda func_x) (lda_seg spin) g) :
    _eval_xc_lda lib nthreads heap func_x spin np rho_u rho_d b
      = _eval_xc_lda lib 1 heap func_x spin np rho_u rho_d b := by
  unfold _eval_xc_lda
  simp only []
  exact chunked_threads nthreads np hT _ _
    (fun start n b _ => lda_call_eq_fill lib func_x (lda_seg spin) _ g hg start n b)
    (fun a b c bufs hab hbc hc =>
      fill_bufs_merge np _ _ _ _ (layout_one_disjoint _ _ np _) (layout_one_disjoint _ _ np _)
        (layout_one_disjoint _ _ np _) (layout_one_disjoint _ _ np _) a b c hab hbc hc bufs)
    (fun a bufs => fill_bufs_empty _ _ _ _ a bufs) b

theorem gga_tables_length (spin : Int) :
    (gga_vseg spin).length = 2 ∧ (gga_fseg spin).length = 3 ∧ (gga_kseg spin).length = 4 := by
  unfold gga_vseg gga_fseg gga_kseg
  split <;> exact ⟨rfl, rfl, rfl⟩

theorem mgga_tables_length (spin : Int) :
    (mgga_vseg spin).length = 4 ∧ (mgga_fseg spin).length = 10 := by
  unfold mgga_vseg mgga_fseg
  split <;> exact ⟨rfl, rfl⟩

/-- With a point-by-point kernel `_eval_xc_gga` fills the scratch buffers alike for every
number of threads. -/
theorem eval_xc_gga_threads [Add α] [Mul α] (lib : xc_library α) (nthreads : Nat)
    (hT : 1 ≤ nthreads) (heap : Nat → Nat → α) (func_x : xc_func_type α) (spin : Int) (np : Nat)
    (rho_u rho_d : Nat → α) (b : xc_bufs α) (g : List α → List α → xc_out α)
    (hg : gga_pointwise (lib.xc_gga func_x) (gga_seg spin) (gga_vseg spin) (gga_fseg spin)
      (gga_kseg spin) g) :
    _eval_xc_gga lib nthreads heap func_x spin np rho_u rho_d b
      = _eval_xc_gga lib 1 heap func_x spin np rho_u rho_d b := by
  unfold _eval_xc_gga
  simp only []
  obtain ⟨hv, hf, hk⟩ := gga_tables_length spin
  exact chunked_threads nthreads np hT _ _
    (fun start n b _ =>
      gga_call_eq_fill lib func_x (gga_seg spin) (gga_vseg spin) (gga_fseg spin)
        (gga_kseg spin) np _ _ g hg (by omega) (by omega) (by omega) start n b)
    (fun a b c bufs hab hbc hc =>
      fill_bufs_merge np _ _ _ _ (layout_one_disjoint _ _ np _) (layout_two_disjoint _ _ np _)
        (layout_three_disjoint _ _ np _) (layout_four_disjoint _ _ np _) a b c hab hbc hc bufs)
    (fun a bufs => fill_bufs_empty _ _ _ _ a bufs) b

/-- With a point-by-point kernel `_eval_xc_mgga` fills the scratch buffers alike for every
number of threads. -/
theorem eval_xc_mgga_threads [Add α] [Mul α] (lib : xc_library α) (nthreads : Nat)
    (hT : 1 ≤ nthreads) (heap : Nat → Nat → α) (func_x : xc_func_type α) (spin : Int) (np : Nat)
    (rho_u rho_d : Nat → α) (b : xc_bufs α)
    (g : List α → List α → List α → List α → xc_out α)
    (hg : mgga_pointwise (lib.xc_mgga func_x) (mgga_seg spin) (mgga_vseg spin) (mgga_fseg spin)
      g) :
    _eval_xc_mgga lib nthreads heap func_x spin np rho_u rho_d b
      = _eval_xc_mgga lib 1 heap func_x spin np rho_u rho_d b := by
  unfold _eval_xc_mgga
  simp only []
  obtain ⟨hv, hf⟩ := mgga_tables_length spin
  exact chunked_threads nthreads np hT _ _
    (fun start n b _ =>
      mgga_call_eq_fill lib func_x (mgga_seg spin) (mgga_vseg spin) (mgga_fseg spin) np
        _ _ _ _ g hg (by omega) (by omega) start n b)
    (fun a b c bufs hab hbc hc =>
      fill_bufs_merge np _ _ _ _ (layout_one_disjoint _ _ np _)
        (layout_mgga_disjoint _ _ np _ 4 (by omega))
        (layout_mgga_disjoint _ _ np _ 10 (by omega)) List.Pairwise.nil a b c hab hbc hc bufs)
    (fun a bufs => fill_bufs_empty _ _ _ _ a bufs) b

/-- With point-by-point kernels `_eval_xc` does not depend on the number of threads. -/
theorem eval_xc_threads [Add α] [Mul α] (lib : xc_library α) (nthreads : Nat)
    (hT : 1 ≤ nthreads) (heap : Nat → Nat → α) (func_x : xc_func_type α) (spin : Int) (np : Nat)
    (rho_u rho_d : Nat → α) (b : xc_bufs α) (hpw : library_pointwise lib func_x spin) :
    _eval_xc lib nthreads heap func_x spin np rho_u rho_d b
      = _eval_xc lib 1 heap func_x spin np rho_u rho_d b := by
  obtain ⟨⟨g1, h1⟩, ⟨g2, h2⟩, ⟨g3, h3⟩⟩ := hpw
  unfold _eval_xc
  rw [eval_xc_lda_threads lib nthreads hT heap func_x spin np rho_u rho_d b g1 h1,
    eval_xc_gga_threads lib nthreads hT heap func_x spin np rho_u rho_d b g2 h2,
    eval_xc_mgga_threads lib nthreads hT heap func_x spin np rho_u rho_d b g3 h3]

/-- With point-by-point kernels the loop of `LIBXC_eval_xc` does not depend on the number of
threads. -/
theorem eval_loop_threads [Add α] [Mul α] [Zero α] [DecidableEq α] (lib : xc_library α)
    (nthreads : Nat) (hT : 1 ≤ nthreads) (heap : Nat → Nat → α) (spin : Int) (np : Nat)
    (rho_u rho_d : Nat → α) (outlen nvar : Int) (fns : List (xc_term α))
    (hpw : ∀ t ∈ fns, ∀ func0, lib.xc_func_init t.fn_id spin = some func0 →
      library_pointwise lib (set_omega func0 t.omega) spin)
    (b : xc_bufs α) (output : Nat → α) :
    eval_loop lib nthreads heap spin np rho_u rho_d outlen nvar fns b output
      = eval_loop lib 1 heap spin np rho_u rho_d outlen nvar fns b output := by
  induction fns generalizing b output with
  | nil => rfl
  | cons t rest ih =>
    unfold eval_loop
    cases hinit : lib.xc_func_init t.fn_id spin with
    | none => rfl
    | some func0 =>
      simp only []
      rw [eval_xc_threads lib nthreads hT heap _ spin np rho_u rho_d b
        (hpw t (List.mem_cons_self _ _) func0 hinit)]
      cases _eval_xc lib 1 heap (set_omega func0 t.omega) spin np rho_u rho_d b with
      | error e => rfl
      | ok b2 =>
        simp only []
        exact ih (fun t ht => hpw t (List.mem_cons_of_mem _ ht)) b2 _

end Threads

section Demo

variable {α : Type}

/-- A kernel built from a per-point function works point by point. -/
theorem kernel_of_points_pointwise (gout : Nat → xc_out α) (vs fs ks : List Nat) (n : Nat) :
    out_pointwise (kernel_of_points gout vs fs ks) n gout vs fs ks := by
  have key : ∀ (s i l : Nat), l < s → (i * s + l) / s = i ∧ (i * s + l) % s = l := by
    intro s i l hl
    constructor
    · rw [Nat.add_comm, Nat.add_mul_div_right _ _ (by omega), Nat.div_eq_of_lt hl,
        Nat.zero_add]
    · rw [Nat.add_comm, Nat.add_mul_mod_self_right, Nat.mod_eq_of_lt hl]
  intro i _
  refine ⟨rfl, ?_, ?_, ?_⟩
  · intro j l _ hl
    simp only [kernel_of_points, (key _ i l hl).1, (key _ i l hl).2]
  · intro j l _ hl
    simp only [kernel_of_points, (key _ i l hl).1, (key _ i l hl).2]
  · intro j l _ hl
    simp only [kernel_of_points, (key _ i l hl).1, (key _ i l hl).2]

/-- The kernels of the sample library work point by point, in the spin mode the functional
was initialised with. -/
theorem demo_library_pointwise (func : xc_func_type Int) :
    library_pointwise demo_library func func.nspin := by
  refine ⟨⟨fun inp => demo_point func inp, ?_⟩, ⟨fun r s => demo_point func (r ++ s), ?_⟩,
    ⟨fun r s l t => demo_point func (r ++ s ++ l ++ t), ?_⟩⟩
  · intro n rho
    exact kernel_of_points_pointwise _ _ _ _ n
  · intro n rho sigma
    exact kernel_of_points_pointwise _ _ _ _ n
  · intro n rho sigma lapl tau
    exact kernel_of_points_pointwise _ _ _ _ n

theorem set_omega_nspin [Zero α] [DecidableEq α] (func : xc_func_type α) (w : α) :
    (set_omega func w).nspin = func.nspin := by
  obtain ⟨n, f, fl, sp, om, aux⟩ := func
  unfold set_omega
  split
  · split <;> rfl
  · rfl

theorem demo_init_nspin (fn_id spin : Int) (func : xc_func_type Int)
    (h : demo_library.xc_func_init fn_id spin = some func) : func.nspin = spin := by
  simp only [demo_library] at h
  split_ifs at h <;> (cases h; rfl)

end Demo

section ClaimsThreads

variable {α : Type}

/-- C8: for kernels that compute each grid point's outputs from that point's inputs alone,
every `np` and every number of threads `nthreads ≥ 1`, the scratch buffers (the energy buffer
and each derivative buffer that is present) that `_eval_xc_lda`, `_eval_xc_gga` and
`_eval_xc_mgga` fill are those obtained with one thread; hence `LIBXC_eval_xc` on a single
functional, with weight `1.0` or any other weight, ends the same way and leaves the same
output tensor for every number of threads (the blocks being run in the order of their
loop). -/
theorem chunked_evaluators_thread_independent [Add α] [Mul α] [Zero α] [DecidableEq α]
    (lib : xc_library α) (nthreads : Nat) (hT : 1 ≤ nthreads) (heap : Nat → Nat → α)
    (func_x : xc_func_type α) (spin : Int) (np : Nat) (rho_u rho_d : Nat → α)
    (b : xc_bufs α) :
    (∀ g, lda_pointwise (lib.xc_lda func_x) (lda_seg spin) g →
        _eval_xc_lda lib nthreads heap func_x spin np rho_u rho_d b
          = _eval_xc_lda lib 1 heap func_x spin np rho_u rho_d b)
      ∧ (∀ g, gga_pointwise (lib.xc_gga func_x) (gga_seg spin) (gga_vseg spin) (gga_fseg spin)
            (gga_kseg spin) g →
        _eval_xc_gga lib nthreads heap func_x spin np rho_u rho_d b
          = _eval_xc_gga lib 1 heap func_x spin np rho_u rho_d b)
      ∧ (∀ g, mgga_pointwise (lib.xc_mgga func_x) (mgga_seg spin) (mgga_vseg spin)
            (mgga_fseg spin) g →
        _eval_xc_mgga lib nthreads heap func_x spin np rho_u rho_d b
          = _eval_xc_mgga lib 1 heap func_x spin np rho_u rho_d b)
      ∧ ∀ (fn_id : Int) (w omega : α) (deriv : Int) (output : Nat → α),
          (∀ func0, lib.xc_func_init fn_id spin = some func0 →
            library_pointwise lib (set_omega func0 omega) spin) →
          LIBXC_eval_xc lib nthreads heap [⟨fn_id, w, omega⟩] spin deriv np rho_u rho_d output
            = LIBXC_eval_xc lib 1 heap [⟨fn_id, w, omega⟩] spin deriv np rho_u rho_d output := by
  refine ⟨fun g1 h1 =>
      eval_xc_lda_threads lib nthreads hT heap func_x spin np rho_u rho_d b g1 h1,
    fun g2 h2 => eval_xc_gga_threads lib nthreads hT heap func_x spin np rho_u rho_d b g2 h2,
    fun g3 h3 => eval_xc_mgga_threads lib nthreads hT heap func_x spin np rho_u rho_d b g3 h3,
    ?_⟩
  intro fn_id w omega deriv output hfn
  unfold LIBXC_eval_xc
  split
  · rfl
  · cases LIBXC_input_length lib [⟨fn_id, w, omega⟩] spin with
    | error e => rfl
    | ok nvar =>
      simp only []
      split
      · rfl
      · apply eval_loop_threads lib nthreads hT
        intro t ht func0 hinit
        simp only [List.mem_singleton] at ht
        subst ht
        exact hfn func0 hinit

/-- The statement of `chunked_evaluators_thread_independent` for the sample library with three
threads and five points in polarized mode, the GGA `101` and `deriv = 2`. -/
theorem chunked_evaluators_thread_independent_witness :
    _eval_xc_gga demo_library 3 (fun _ _ => 7) (.mk 101 XC_FAMILY_GGA 0 XC_POLARIZED 0 [])
        XC_POLARIZED 5 (fun p => (p : Int)) (fun p => 2 * (p : Int))
        ⟨fun _ => 0, some fun _ => 0, some fun _ => 0, none⟩
      = _eval_xc_gga demo_library 1 (fun _ _ => 7) (.mk 101 XC_FAMILY_GGA 0 XC_POLARIZED 0 [])
        XC_POLARIZED 5 (fun p => (p : Int)) (fun p => 2 * (p : Int))
        ⟨fun _ => 0, some fun _ => 0, some fun _ => 0, none⟩
    ∧ LIBXC_eval_xc demo_library 3 (fun _ _ => 7) [⟨101, 1, 0⟩] XC_POLARIZED 2 5
        (fun p => (p : Int)) (fun p => 2 * (p : Int)) (fun _ => 0)
      = LIBXC_eval_xc demo_library 1 (fun _ _ => 7) [⟨101, 1, 0⟩] XC_POLARIZED 2 5
        (fun p => (p : Int)) (fun p => 2 * (p : Int)) (fun _ => 0) :=
  have h := chunked_evaluators_thread_independent demo_library 3 (by decide) (fun _ _ => 7)
    (.mk 101 XC_FAMILY_GGA 0 XC_POLARIZED 0 []) XC_POLARIZED 5 (fun p => (p : Int))
    (fun p => 2 * (p : Int)) ⟨fun _ => 0, some fun _ => 0, some fun _ => 0, none⟩
  ⟨h.2.1 (fun r s => demo_point (.mk 101 XC_FAMILY_GGA 0 XC_POLARIZED 0 []) (r ++ s))
      (fun n _ _ => kernel_of_points_pointwise _ _ _ _ n),
    h.2.2.2 101 1 0 2 (fun _ => 0) (fun func0 hinit => by
      have hp := demo_library_pointwise (set_omega func0 0)
      rw [set_omega_nspin, demo_init_nspin 101 XC_POLARIZED func0 hinit] at hp
      exact hp)⟩

end ClaimsThreads

section InputLengthMax

variable {α : Type}

theorem MAX_eq_max (x y : Int) : MAX x y = max x y := by
  unfold MAX
  split <;> omega

/-- The `switch` of `LIBXC_input_length` raises the running value to the variable count of the
family. -/
theorem input_length_step_eq_max (spin family nvar : Int) (h : 0 ≤ nvar) :
    input_length_step spin family nvar = max nvar (variable_count spin family) := by
  unfold input_length_step variable_count is_lda_family is_gga_family is_mgga_family
  simp only [MAX_eq_max]
  split <;> split <;> (try split) <;> (try split) <;> omega

theorem variable_count_nonneg (spin family : Int) : 0 ≤ variable_count spin family := by
  unfold variable_count
  split <;> split <;> (try split) <;> (try split) <;> omega

theorem variable_count_mem (spin family : Int) :
    variable_count spin family ∈ [0, 1, 2, 4, 5, 9] := by
  unfold variable_count
  split <;> split <;> (try split) <;> (try split) <;> simp

theorem max_variable_count_cons (spin family : Int) (l : List Int) :
    max_variable_count spin (family :: l)
      = max (variable_count spin family) (max_variable_count spin l) := rfl

theorem max_variable_count_nonneg (spin : Int) (l : List Int) :
    0 ≤ max_variable_count spin l := by
  induction l with
  | nil => exact le_refl _
  | cons f l ih =>
    rw [max_variable_count_cons]
    exact le_trans ih (le_max_right _ _)

theorem max_variable_count_mem (spin : Int) (l : List Int) :
    max_variable_count spin l ∈ [0, 1, 2, 4, 5, 9] := by
  induction l with
  | nil => simp [max_variable_count]
  | cons f l ih =>
    rw [max_variable_count_cons]
    rcases max_choice (variable_count spin f) (max_variable_count spin l) with h | h
    · rw [h]; exact variable_count_mem spin f
    · rw [h]; exact ih

theorem max_variable_count_perm (spin : Int) {l1 l2 : List Int} (h : l1.Perm l2) :
    max_variable_count spin l1 = max_variable_count spin l2 := by
  unfold max_variable_count
  apply List.Perm.foldr_eq' h
  intro a _ b _ c
  simp only [max_left_comm]

/-- The loop of `LIBXC_input_length` over known functionals, from a non-negative running
value. -/
theorem input_length_loop_eq_max (lib : xc_library α) (spin : Int) (fns : List (xc_term α))
    (hk : ∀ t ∈ fns, (lib.xc_func_init t.fn_id spin).isSome) (nvar : Int) (h0 : 0 ≤ nvar) :
    input_length_loop lib spin fns nvar
      = .ok (max nvar (max_variable_count spin (listed_families lib spin fns))) := by
  induction fns generalizing nvar with
  | nil => simp [input_length_loop, listed_families, max_variable_count, h0]
  | cons t rest ih =>
    have hkt := hk t (List.mem_cons_self _ _)
    obtain ⟨f, hf⟩ := Option.isSome_iff_exists.mp hkt
    unfold input_length_loop
    simp only [hf]
    rw [ih (fun t ht => hk t (List.mem_cons_of_mem _ ht)) _
      (by rw [input_length_step_eq_max _ _ _ h0]; exact le_trans h0 (le_max_left _ _)),
      input_length_step_eq_max _ _ _ h0]
    simp only [listed_families, List.filterMap_cons, hf, Option.map_some']
    rw [max_variable_count_cons, max_assoc]

/-- The loop of `LIBXC_input_length` reads the ids only. -/
theorem input_length_loop_ids (lib : xc_library α) (spin : Int) (fns1 fns2 : List (xc_term α))
    (h : fns1.map (fun t => t.fn_id) = fns2.map (fun t => t.fn_id)) (nvar : Int) :
    input_length_loop lib spin fns1 nvar = input_length_loop lib spin fns2 nvar := by
  induction fns1 generalizing fns2 nvar with
  | nil =>
    cases fns2 with
    | nil => rfl
    | cons t l => simp at h
  | cons t1 l1 ih =>
    cases fns2 with
    | nil => simp at h
    | cons t2 l2 =>
      simp only [List.map_cons, List.cons.injEq] at h
      unfold input_length_loop
      rw [h.1]
      cases lib.xc_func_init t2.fn_id spin with
      | none => rfl
      | some f => exact ih l2 h.2 _

end InputLengthMax

section ClaimsInputLength

variable {α : Type}

/-- C13: for every list of functionals the library knows and every spin mode,
`LIBXC_input_length` returns the maximum over the listed functionals of the variable count of
the family in that spin mode (unpolarized LDA 1, GGA 2, MGGA 4; polarized LDA 2, GGA 5,
MGGA 9; hybrids as their base family; `0` for the empty list); the result is one of
`0, 1, 2, 4, 5, 9`, is the same for every reordering of the list and for every choice of the
weights and range-separation parameters, and does not decrease when a known functional is
appended. -/
theorem input_length_is_max (lib : xc_library α) (fns : List (xc_term α)) (spin : Int)
    (hk : ∀ t ∈ fns, (lib.xc_func_init t.fn_id spin).isSome) :
    LIBXC_input_length lib fns spin
        = .ok (max_variable_count spin (listed_families lib spin fns))
      ∧ max_variable_count spin (listed_families lib spin fns) ∈ [0, 1, 2, 4, 5, 9]
      ∧ LIBXC_input_length lib [] spin = .ok 0
      ∧ (∀ fns2 : List (xc_term α), fns2.Perm fns →
          LIBXC_input_length lib fns2 spin = LIBXC_input_length lib fns spin)
      ∧ (∀ fns2 : List (xc_term α), fns2.map (fun t => t.fn_id) = fns.map (fun t => t.fn_id) →
          LIBXC_input_length lib fns2 spin = LIBXC_input_length lib fns spin)
      ∧ (∀ t : xc_term α, (lib.xc_func_init t.fn_id spin).isSome →
          ∃ n m, LIBXC_input_length lib fns spin = .ok n
            ∧ LIBXC_input_length lib (fns ++ [t]) spin = .ok m ∧ n ≤ m) := by
  have hmain : ∀ l : List (xc_term α), (∀ t ∈ l, (lib.xc_func_init t.fn_id spin).isSome) →
      LIBXC_input_length lib l spin
        = .ok (max_variable_count spin (listed_families lib spin l)) := by
    intro l hl
    unfold LIBXC_input_length
    rw [input_length_loop_eq_max lib spin l hl 0 (le_refl _),
      max_eq_right (max_variable_count_nonneg _ _)]
  refine ⟨hmain fns hk, max_variable_count_mem _ _, rfl, ?_, ?_, ?_⟩
  · intro fns2 hperm
    rw [hmain fns hk, hmain fns2 (fun t ht => hk t (hperm.mem_iff.mp ht))]
    congr 1
    exact max_variable_count_perm spin (List.Perm.filterMap _ hperm)
  · intro fns2 hids
    exact input_length_loop_ids lib spin fns2 fns hids 0
  · intro t ht
    have hk2 : ∀ u ∈ fns ++ [t], (lib.xc_func_init u.fn_id spin).isSome := by
      intro u hu
      rcases List.mem_append.mp hu with h | h
      · exact hk u h
      · rw [List.mem_singleton.mp h]; exact ht
    refine ⟨_, _, hmain fns hk, hmain _ hk2, ?_⟩
    have hperm : (listed_families lib spin (fns ++ [t])).Perm
        (listed_families lib spin ([t] ++ fns)) :=
      List.Perm.filterMap _ List.perm_append_comm
    rw [max_variable_count_perm spin hperm]
    obtain ⟨f, hf⟩ := Option.isSome_iff_exists.mp ht
    simp only [listed_families, List.singleton_append, List.filterMap_cons, hf,
      Option.map_some']
    rw [max_variable_count_cons]
    exact le_max_right _ _

/-- The statement of `input_length_is_max` for the list `[101, 1, 202]` of the sample library
in polarized mode: the result is `9`, and appending the LDA `1` keeps it. -/
theorem input_length_is_max_witness :
    LIBXC_input_length demo_library [⟨101, 1, 0⟩, ⟨1, 1, 0⟩, ⟨202, 1, 0⟩] XC_POLARIZED
        = .ok (max_variable_count XC_POLARIZED
            (listed_families demo_library XC_POLARIZED
              [⟨101, 1, 0⟩, ⟨1, 1, 0⟩, ⟨202, 1, 0⟩]))
      ∧ max_variable_count XC_POLARIZED
          (listed_families demo_library XC_POLARIZED [⟨101, 1, 0⟩, ⟨1, 1, 0⟩, ⟨202, 1, 0⟩]) = 9
      ∧ ∃ n m, LIBXC_input_length demo_library [⟨101, 1, 0⟩, ⟨1, 1, 0⟩, ⟨202, 1, 0⟩]
            XC_POLARIZED = .ok n
          ∧ LIBXC_input_length demo_library
              ([⟨101, 1, 0⟩, ⟨1, 1, 0⟩, ⟨202, 1, 0⟩] ++ [⟨1, 2, 0⟩]) XC_POLARIZED = .ok m
          ∧ n ≤ m :=
  have h := input_length_is_max demo_library [⟨101, 1, 0⟩, ⟨1, 1, 0⟩, ⟨202, 1, 0⟩]
    XC_POLARIZED (by decide)
  ⟨h.1, by decide, h.2.2.2.2.2 ⟨1, 2, 0⟩ (by decide)⟩

end ClaimsInputLength

section Failures

variable {α : Type}

/-- With an unknown id in the list, the loop of `LIBXC_input_length` exits at the first one. -/
theorem input_length_loop_unknown (lib : xc_library α) (spin : Int) (fns : List (xc_term α))
    (hu : ∃ t ∈ fns, lib.xc_func_init t.fn_id spin = none) (nvar : Int) :
    ∃ t ∈ fns, lib.xc_func_init t.fn_id spin = none
      ∧ input_length_loop lib spin fns nvar = .error (.not_found t.fn_id) := by
  induction fns generalizing nvar with
  | nil =>
    obtain ⟨t, ht, _⟩ := hu
    simp at ht
  | cons t rest ih =>
    unfold input_length_loop
    cases hinit : lib.xc_func_init t.fn_id spin with
    | none => exact ⟨t, List.mem_cons_self _ _, hinit, rfl⟩
    | some f =>
      have hu2 : ∃ u ∈ rest, lib.xc_func_init u.fn_id spin = none := by
        obtain ⟨u, hu1, hu3⟩ := hu
        rcases List.mem_cons.mp hu1 with h | h
        · subst h; rw [hinit] at hu3; cases hu3
        · exact ⟨u, h, hu3⟩
      obtain ⟨u, hu1, hu3, hu4⟩ := ih hu2 (input_length_step spin f.family nvar)
      exact ⟨u, List.mem_cons_of_mem _ hu1, hu3, hu4⟩

/-- `LIBXC_input_length` only ever exits with "not found". -/
theorem input_length_loop_error (lib : xc_library α) (spin : Int) (fns : List (xc_term α))
    (nvar : Int) (e : xc_exit) (h : input_length_loop lib spin fns nvar = .error e) :
    ∃ fn_id, e = .not_found fn_id := by
  induction fns generalizing nvar with
  | nil => simp [input_length_loop] at h
  | cons t rest ih =>
    unfold input_length_loop at h
    cases hinit : lib.xc_func_init t.fn_id spin with
    | none =>
      rw [hinit] at h
      simp only [Except.error.injEq] at h
      exact ⟨t.fn_id, h.symm⟩
    | some f =>
      rw [hinit] at h
      exact ih _ h

/-- `_eval_xc` only ever exits with "not implemented". -/
theorem eval_xc_error [Add α] [Mul α] (lib : xc_library α) (nthreads : Nat)
    (heap : Nat → Nat → α) (func_x : xc_func_type α) (spin : Int) (np : Nat)
    (rho_u rho_d : Nat → α) (b : xc_bufs α) (e : xc_exit)
    (h : _eval_xc lib nthreads heap func_x spin np rho_u rho_d b = .error e) :
    e = .not_implemented func_x.number := by
  unfold _eval_xc at h
  split_ifs at h
  simp only [Except.error.injEq] at h
  exact h.symm

/-- The loop of `LIBXC_eval_xc` never ends with the failed assertion. -/
theorem eval_loop_not_assert [Add α] [Mul α] [Zero α] [DecidableEq α] (lib : xc_library α)
    (nthreads : Nat) (heap : Nat → Nat → α) (spin : Int) (np : Nat) (rho_u rho_d : Nat → α)
    (outlen nvar : Int) (fns : List (xc_term α)) (b : xc_bufs α) (output : Nat → α) :
    (eval_loop lib nthreads heap spin np rho_u rho_d outlen nvar fns b output).1
      ≠ .assert_failed := by
  induction fns generalizing b output with
  | nil => simp [eval_loop]
  | cons t rest ih =>
    unfold eval_loop
    cases lib.xc_func_init t.fn_id spin with
    | none => simp
    | some func0 =>
      simp only []
      cases hr : _eval_xc lib nthreads heap (set_omega func0 t.omega) spin np rho_u rho_d b with
      | error e =>
        rw [eval_xc_error lib nthreads heap _ spin np rho_u rho_d b e hr]
        simp
      | ok b2 => exact ih b2 _

end Failures

section ClaimsFailures

variable {α : Type}

/-- C15: for every functional list in which at least one id is unknown to the library, at any
position, `LIBXC_eval_xc` does not return normally and leaves every entry of the output
tensor as it was; for every `deriv ≤ 3` (the values that pass the entry assertion) the run
ends with the lookup error "XC functional not found" for an unknown id of the list. -/
theorem eval_xc_unknown_id [Add α] [Mul α] [Zero α] [DecidableEq α] (lib : xc_library α)
    (nthreads : Nat) (heap : Nat → Nat → α) (fns : List (xc_term α)) (spin deriv : Int)
    (np : Nat) (rho_u rho_d output : Nat → α)
    (hu : ∃ t ∈ fns, lib.xc_func_init t.fn_id spin = none) :
    (LIBXC_eval_xc lib nthreads heap fns spin deriv np rho_u rho_d output).2 = output
      ∧ (LIBXC_eval_xc lib nthreads heap fns spin deriv np rho_u rho_d output).1
          ≠ xc_exit.returned
      ∧ (deriv ≤ 3 → ∃ t ∈ fns, lib.xc_func_init t.fn_id spin = none
          ∧ (LIBXC_eval_xc lib nthreads heap fns spin deriv np rho_u rho_d output).1
              = xc_exit.not_found t.fn_id) := by
  obtain ⟨t, ht, hnone, hloop⟩ := input_length_loop_unknown lib spin fns hu 0
  unfold LIBXC_eval_xc
  by_cases hd : deriv > 3
  · rw [if_pos hd]
    exact ⟨rfl, by simp, fun h => absurd h (by omega)⟩
  · rw [if_neg hd]
    unfold LIBXC_input_length
    rw [hloop]
    exact ⟨rfl, by simp, fun _ => ⟨t, ht, hnone, rfl⟩⟩

/-- The statement of `eval_xc_unknown_id` for the list `[1, 77]` of the sample library, whose
second id is unknown. -/
theorem eval_xc_unknown_id_witness :
    (LIBXC_eval_xc demo_library 2 (fun _ _ => 7) [⟨1, 1, 0⟩, ⟨77, 1, 0⟩] XC_POLARIZED 1 2
        (fun p => (p : Int)) (fun p => (p : Int)) (fun p => (p : Int))).2
        = (fun p : Nat => (p : Int))
      ∧ (LIBXC_eval_xc demo_library 2 (fun _ _ => 7) [⟨1, 1, 0⟩, ⟨77, 1, 0⟩] XC_POLARIZED 1 2
        (fun p => (p : Int)) (fun p => (p : Int)) (fun p => (p : Int))).1
        ≠ xc_exit.returned
      ∧ ∃ t ∈ ([⟨1, 1, 0⟩, ⟨77, 1, 0⟩] : List (xc_term Int)),
          demo_library.xc_func_init t.fn_id XC_POLARIZED = none
          ∧ (LIBXC_eval_xc demo_library 2 (fun _ _ => 7) [⟨1, 1, 0⟩, ⟨77, 1, 0⟩] XC_POLARIZED
              1 2 (fun p => (p : Int)) (fun p => (p : Int)) (fun p => (p : Int))).1
              = xc_exit.not_found t.fn_id :=
  have h := eval_xc_unknown_id demo_library 2 (fun _ _ => 7) [⟨1, 1, 0⟩, ⟨77, 1, 0⟩]
    XC_POLARIZED 1 2 (fun p => (p : Int)) (fun p => (p : Int)) (fun p => (p : Int))
    ⟨⟨77, 1, 0⟩, by simp, rfl⟩
  ⟨h.1, h.2.1, h.2.2 (by decide)⟩

/-- C16: for every `deriv > 3`, `LIBXC_eval_xc` ends with its failed entry assertion and the
output tensor as it was, whatever the library and the functional list (no functional is
looked up); for every `deriv ≤ 3` the run does not end with the failed assertion. -/
theorem eval_xc_deriv_assert [Add α] [Mul α] [Zero α] [DecidableEq α] (lib : xc_library α)
    (nthreads : Nat) (heap : Nat → Nat → α) (fns : List (xc_term α)) (spin deriv : Int)
    (np : Nat) (rho_u rho_d output : Nat → α) :
    (3 < deriv →
        LIBXC_eval_xc lib nthreads heap fns spin deriv np rho_u rho_d output
          = (xc_exit.assert_failed, output))
      ∧ (deriv ≤ 3 →
        (LIBXC_eval_xc lib nthreads heap fns spin deriv np rho_u rho_d output).1
          ≠ xc_exit.assert_failed) := by
  constructor
  · intro hd
    unfold LIBXC_eval_xc
    rw [if_pos hd]
  · intro hd
    unfold LIBXC_eval_xc
    rw [if_neg (by omega)]
    unfold LIBXC_input_length
    cases hl : input_length_loop lib spin fns 0 with
    | error e =>
      obtain ⟨fn_id, he⟩ := input_length_loop_error lib spin fns 0 e hl
      subst he
      simp
    | ok nvar =>
      simp only []
      split
      · simp
      · exact eval_loop_not_assert lib nthreads heap spin np rho_u rho_d _ _ fns _ output

/-- The statement of `eval_xc_deriv_assert` for the sample library at `deriv = 4` and at
`deriv = 3`. -/
theorem eval_xc_deriv_assert_witness :
    LIBXC_eval_xc demo_library 2 (fun _ _ => 7) [⟨1, 1, 0⟩, ⟨77, 1, 0⟩] XC_POLARIZED 4 2
        (fun p => (p : Int)) (fun p => (p : Int)) (fun p => (p : Int))
        = (xc_exit.assert_failed, fun p : Nat => (p : Int))
      ∧ (LIBXC_eval_xc demo_library 2 (fun _ _ => 7) [⟨1, 1, 0⟩] XC_POLARIZED 3 2
        (fun p => (p : Int)) (fun p => (p : Int)) (fun p => (p : Int))).1
        ≠ xc_exit.assert_failed :=
  ⟨(eval_xc_deriv_assert demo_library 2 (fun _ _ => 7) [⟨1, 1, 0⟩, ⟨77, 1, 0⟩] XC_POLARIZED 4 2
      (fun p => (p : Int)) (fun p => (p : Int)) (fun p => (p : Int))).1 (by decide),
    (eval_xc_deriv_assert demo_library 2 (fun _ _ => 7) [⟨1, 1, 0⟩] XC_POLARIZED 3 2
      (fun p => (p : Int)) (fun p => (p : Int)) (fun p => (p : Int))).2 (by decide)⟩

end ClaimsFailures

section ClaimsTables

variable {α : Type}

/-- C19: for every spin mode and derivative order, the sub-block size tables of the chunked
evaluators (`_eval_xc_lda`: entries 1, 2, 3 of `seg`, that is `1,1,1` or `2,3,4`;
`_eval_xc_gga`: `vseg`, `fseg`, `kseg`; `_eval_xc_mgga`: `vseg`, `fseg`) are the first
`vsegtot` / `fsegtot` / `ksegtot` entries of the tables `merge_xc` walks for the same family
(plain or hybrid) and spin; at orders 1 and 2 the LDA list is a prefix of the GGA list and the
GGA list a prefix of the MGGA list, and at order 3 the LDA list is a prefix of the GGA
list. -/
theorem evaluator_tables_match_merge (spin : Int) :
    ([(lda_seg spin).getD 1 0] = (merge_vseg spin).take (merge_segtot XC_FAMILY_LDA).1
        ∧ [(lda_seg spin).getD 2 0] = (merge_fseg spin).take (merge_segtot XC_FAMILY_LDA).2.1
        ∧ [(lda_seg spin).getD 3 0] = (merge_kseg spin).take (merge_segtot XC_FAMILY_LDA).2.2)
      ∧ (gga_vseg spin = (merge_vseg spin).take (merge_segtot XC_FAMILY_GGA).1
        ∧ gga_fseg spin = (merge_fseg spin).take (merge_segtot XC_FAMILY_GGA).2.1
        ∧ gga_kseg spin = (merge_kseg spin).take (merge_segtot XC_FAMILY_GGA).2.2)
      ∧ (mgga_vseg spin = (merge_vseg spin).take (merge_segtot XC_FAMILY_MGGA).1
        ∧ mgga_fseg spin = (merge_fseg spin).take (merge_segtot XC_FAMILY_MGGA).2.1
        ∧ (merge_segtot XC_FAMILY_MGGA).2.2 = 0)
      ∧ (merge_segtot XC_FAMILY_HYB_LDA = merge_segtot XC_FAMILY_LDA
        ∧ merge_segtot XC_FAMILY_HYB_GGA = merge_segtot XC_FAMILY_GGA
        ∧ merge_segtot XC_FAMILY_HYB_MGGA = merge_segtot XC_FAMILY_MGGA)
      ∧ ((lda_seg spin = [1, 1, 1, 1] ∨ lda_seg spin = [2, 2, 3, 4]))
      ∧ ([(lda_seg spin).getD 1 0] <+: gga_vseg spin ∧ gga_vseg spin <+: mgga_vseg spin
        ∧ [(lda_seg spin).getD 2 0] <+: gga_fseg spin ∧ gga_fseg spin <+: mgga_fseg spin
        ∧ [(lda_seg spin).getD 3 0] <+: gga_kseg spin) := by
  by_cases hs : spin = XC_POLARIZED
  · subst hs
    decide
  · simp only [lda_seg, gga_vseg, gga_fseg, gga_kseg, mgga_vseg, mgga_fseg, merge_vseg,
      merge_fseg, merge_kseg, if_neg hs]
    decide

end ClaimsTables

section ClaimsDispatch

variable {α : Type}

/-- C20: `_eval_xc` takes the LDA path when the family is `XC_FAMILY_LDA` or
`XC_FAMILY_HYB_LDA`, the GGA path when it is `XC_FAMILY_GGA` or `XC_FAMILY_HYB_GGA`, the
meta-GGA path when it is `XC_FAMILY_MGGA` or `XC_FAMILY_HYB_MGGA`; the three groups exclude
one another; the call fails, with "not implemented" for the functional's number, exactly when
the family is none of the six (as `XC_FAMILY_LCA` and `XC_FAMILY_OEP`), and then it hands
back no scratch buffers: the failure is the same whatever the buffers, the kernels and the
density record. -/
theorem eval_xc_dispatch [Add α] [Mul α] (lib : xc_library α) (nthreads : Nat)
    (heap : Nat → Nat → α) (func_x : xc_func_type α) (spin : Int) (np : Nat)
    (rho_u rho_d : Nat → α) (b : xc_bufs α) :
    (is_lda_family func_x.family →
        _eval_xc lib nthreads heap func_x spin np rho_u rho_d b
          = .ok (_eval_xc_lda lib nthreads heap func_x spin np rho_u rho_d b))
      ∧ (is_gga_family func_x.family →
        _eval_xc lib nthreads heap func_x spin np rho_u rho_d b
          = .ok (_eval_xc_gga lib nthreads heap func_x spin np rho_u rho_d b))
      ∧ (is_mgga_family func_x.family →
        _eval_xc lib nthreads heap func_x spin np rho_u rho_d b
          = .ok (_eval_xc_mgga lib nthreads heap func_x spin np rho_u rho_d b))
      ∧ (¬ supported_family func_x.family →
        _eval_xc lib nthreads heap func_x spin np rho_u rho_d b
          = .error (.not_implemented func_x.number))
      ∧ ((∃ e, _eval_xc lib nthreads heap func_x spin np rho_u rho_d b = .error e)
          ↔ ¬ supported_family func_x.family)
      ∧ (¬ (is_lda_family func_x.family ∧ is_gga_family func_x.family)
        ∧ ¬ (is_lda_family func_x.family ∧ is_mgga_family func_x.family)
        ∧ ¬ (is_gga_family func_x.family ∧ is_mgga_family func_x.family))
      ∧ (¬ supported_family XC_FAMILY_LCA ∧ ¬ supported_family XC_FAMILY_OEP) := by
  have hex : ¬ (is_lda_family func_x.family ∧ is_gga_family func_x.family)
      ∧ ¬ (is_lda_family func_x.family ∧ is_mgga_family func_x.family)
      ∧ ¬ (is_gga_family func_x.family ∧ is_mgga_family func_x.family) := by
    generalize func_x.family = fam
    refine ⟨?_, ?_, ?_⟩ <;>
      rintro ⟨h1 | h1, h2 | h2⟩ <;> rw [h1] at h2 <;> exact absurd h2 (by decide)
  have hlda : is_lda_family func_x.family →
      _eval_xc lib nthreads heap func_x spin np rho_u rho_d b
        = .ok (_eval_xc_lda lib nthreads heap func_x spin np rho_u rho_d b) := by
    intro h
    have h1 : func_x.family = XC_FAMILY_LDA ∨ func_x.family = XC_FAMILY_HYB_LDA := h
    unfold _eval_xc
    rw [if_pos h1]
  have hgga : is_gga_family func_x.family →
      _eval_xc lib nthreads heap func_x spin np rho_u rho_d b
        = .ok (_eval_xc_gga lib nthreads heap func_x spin np rho_u rho_d b) := by
    intro h
    have h1 : ¬ (func_x.family = XC_FAMILY_LDA ∨ func_x.family = XC_FAMILY_HYB_LDA) :=
      fun h1 => hex.1 ⟨h1, h⟩
    have h2 : func_x.family = XC_FAMILY_GGA ∨ func_x.family = XC_FAMILY_HYB_GGA := h
    unfold _eval_xc
    rw [if_neg h1, if_pos h2]
  have hmgga : is_mgga_family func_x.family →
      _eval_xc lib nthreads heap func_x spin np rho_u rho_d b
        = .ok (_eval_xc_mgga lib nthreads heap func_x spin np rho_u rho_d b) := by
    intro h
    have h1 : ¬ (func_x.family = XC_FAMILY_LDA ∨ func_x.family = XC_FAMILY_HYB_LDA) :=
      fun h1 => hex.2.1 ⟨h1, h⟩
    have h2 : ¬ (func_x.family = XC_FAMILY_GGA ∨ func_x.family = XC_FAMILY_HYB_GGA) :=
      fun h1 => hex.2.2 ⟨h1, h⟩
    have h3 : func_x.family = XC_FAMILY_MGGA ∨ func_x.family = XC_FAMILY_HYB_MGGA := h
    unfold _eval_xc
    rw [if_neg h1, if_neg h2, if_pos h3]
  have hno : ¬ supported_family func_x.family →
      _eval_xc lib nthreads heap func_x spin np rho_u rho_d b
        = .error (.not_implemented func_x.number) := by
    intro h
    have h1 : ¬ (func_x.family = XC_FAMILY_LDA ∨ func_x.family = XC_FAMILY_HYB_LDA) :=
      fun h1 => h (Or.inl h1)
    have h2 : ¬ (func_x.family = XC_FAMILY_GGA ∨ func_x.family = XC_FAMILY_HYB_GGA) :=
      fun h1 => h (Or.inr (Or.inl h1))
    have h3 : ¬ (func_x.family = XC_FAMILY_MGGA ∨ func_x.family = XC_FAMILY_HYB_MGGA) :=
      fun h1 => h (Or.inr (Or.inr h1))
    unfold _eval_xc
    rw [if_neg h1, if_neg h2, if_neg h3]
  refine ⟨hlda, hgga, hmgga, hno, ⟨?_, fun h => ⟨_, hno h⟩⟩, hex, by decide, by decide⟩
  rintro ⟨e, he⟩ hsup
  rcases hsup with h | h | h
  · rw [hlda h] at he; cases he
  · rw [hgga h] at he; cases he
  · rw [hmgga h] at he; cases he

/-- The statement of `eval_xc_dispatch` for a hybrid GGA and for a functional of the family
`XC_FAMILY_OEP`. -/
theorem eval_xc_dispatch_witness :
    _eval_xc demo_library 2 (fun _ _ => 7) (.mk 402 XC_FAMILY_HYB_GGA 0 XC_POLARIZED 3 [])
        XC_POLARIZED 3 (fun p => (p : Int)) (fun p => (p : Int))
        ⟨fun _ => 0, none, none, none⟩
      = .ok (_eval_xc_gga demo_library 2 (fun _ _ => 7)
          (.mk 402 XC_FAMILY_HYB_GGA 0 XC_POLARIZED 3 []) XC_POLARIZED 3 (fun p => (p : Int))
          (fun p => (p : Int)) ⟨fun _ => 0, none, none, none⟩)
    ∧ _eval_xc demo_library 2 (fun _ _ => 7) (.mk 900 XC_FAMILY_OEP 0 XC_POLARIZED 0 [])
        XC_POLARIZED 3 (fun p => (p : Int)) (fun p => (p : Int))
        ⟨fun _ => 0, none, none, none⟩
      = .error (.not_implemented 900) :=
  ⟨(eval_xc_dispatch demo_library 2 (fun _ _ => 7)
      (.mk 402 XC_FAMILY_HYB_GGA 0 XC_POLARIZED 3 []) XC_POLARIZED 3 (fun p => (p : Int))
      (fun p => (p : Int)) ⟨fun _ => 0, none, none, none⟩).2.1 (by decide),
    (eval_xc_dispatch demo_library 2 (fun _ _ => 7)
      (.mk 900 XC_FAMILY_OEP 0 XC_POLARIZED 0 []) XC_POLARIZED 3 (fun p => (p : Int))
      (fun p => (p : Int)) ⟨fun _ => 0, none, none, none⟩).2.2.2.1 (by decide)⟩

end ClaimsDispatch

section ChunkArith

theorem chunk_nblk_pos (nthreads np : Nat) (hT : 1 ≤ nthreads) : 1 ≤ chunk_nblk nthreads np := by
  unfold chunk_nblk
  split <;> omega

theorem chunk_blocks_le (nthreads np : Nat) :
    chunk_nblk nthreads np * chunk_blk_size nthreads np ≤ np := by
  unfold chunk_blk_size
  rw [Nat.mul_comm]
  exact Nat.div_mul_le_self np _

/-- A point below the end of the last equal-size block lies in exactly one of them. -/
theorem block_of_point (nblk blk i : Nat) (hi : i < nblk * blk) :
    ∃ iblk, (iblk < nblk ∧ iblk * blk ≤ i ∧ i < (iblk + 1) * blk)
      ∧ ∀ k, (k < nblk ∧ k * blk ≤ i ∧ i < (k + 1) * blk) → k = iblk := by
  have hblk : 0 < blk := by
    rcases Nat.eq_zero_or_pos blk with h | h
    · subst h; simp at hi
    · exact h
  refine ⟨i / blk, ⟨?_, ?_, ?_⟩, ?_⟩
  · rw [Nat.div_lt_iff_lt_mul hblk]; exact hi
  · exact Nat.div_mul_le_self i blk
  · rw [Nat.add_mul, Nat.one_mul]
    have := Nat.div_add_mod i blk
    have := Nat.mod_lt i hblk
    rw [Nat.mul_comm]
    omega
  · rintro k ⟨_, h1, h2⟩
    exact (Nat.div_eq_of_lt_le h1 h2).symm

end ChunkArith

section ClaimsChunks

variable {α : Type}

/-- C17: for every number of threads `T ≥ 1` and every `np`, the chunked evaluators run
`nblk = T` equal-size blocks when `np ≥ T` and `nblk = 1` otherwise, of `blk_size = np / nblk`
points, block `iblk` being the points `[iblk * blk_size, (iblk + 1) * blk_size)`, and then the
remainder `[nblk * blk_size, np)` when it is not empty.  The blocks follow one another, fit
below `np`, and every point `i < np` lies in exactly one block or else in the remainder and
in no block; the remainder has `np mod nblk < nblk` points; and for `np ≥ 1`, `nblk ≤ np`, so
every block holds at least one point. -/
theorem chunk_partition (nthreads np : Nat) (hT : 1 ≤ nthreads) :
    (∀ (call : Nat → Nat → xc_bufs α → xc_bufs α) (b : xc_bufs α),
        chunked nthreads np call b
          = if np - chunk_nblk nthreads np * chunk_blk_size nthreads np > 0 then
              call (chunk_nblk nthreads np * chunk_blk_size nthreads np)
                (np - chunk_nblk nthreads np * chunk_blk_size nthreads np)
                ((List.range (chunk_nblk nthreads np)).foldl
                  (fun b iblk =>
                    call (iblk * chunk_blk_size nthreads np) (chunk_blk_size nthreads np) b)
                  b)
            else
              (List.range (chunk_nblk nthreads np)).foldl
                (fun b iblk =>
                  call (iblk * chunk_blk_size nthreads np) (chunk_blk_size nthreads np) b)
                b)
      ∧ (nthreads ≤ np → chunk_nblk nthreads np = nthreads)
      ∧ (np < nthreads → chunk_nblk nthreads np = 1)
      ∧ chunk_blk_size nthreads np = np / chunk_nblk nthreads np
      ∧ (∀ iblk, iblk * chunk_blk_size nthreads np + chunk_blk_size nthreads np
          = (iblk + 1) * chunk_blk_size nthreads np)
      ∧ chunk_nblk nthreads np * chunk_blk_size nthreads np ≤ np
      ∧ (∀ i, i < np →
          (i < chunk_nblk nthreads np * chunk_blk_size nthreads np →
            ∃ iblk, (iblk < chunk_nblk nthreads np ∧ iblk * chunk_blk_size nthreads np ≤ i
                ∧ i < (iblk + 1) * chunk_blk_size nthreads np)
              ∧ ∀ k, (k < chunk_nblk nthreads np ∧ k * chunk_blk_size nthreads np ≤ i
                ∧ i < (k + 1) * chunk_blk_size nthreads np) → k = iblk)
          ∧ (chunk_nblk nthreads np * chunk_blk_size nthreads np ≤ i →
            ∀ k, k < chunk_nblk nthreads np →
              ¬ (k * chunk_blk_size nthreads np ≤ i
                ∧ i < (k + 1) * chunk_blk_size nthreads np)))
      ∧ (np - chunk_nblk nthreads np * chunk_blk_size nthreads np = np % chunk_nblk nthreads np
          ∧ np % chunk_nblk nthreads np < chunk_nblk nthreads np)
      ∧ (1 ≤ np → chunk_nblk nthreads np ≤ np ∧ 1 ≤ chunk_blk_size nthreads np) := by
  have hpos := chunk_nblk_pos nthreads np hT
  have hle := chunk_blocks_le nthreads np
  refine ⟨fun call b => rfl, ?_, ?_, rfl, ?_, hle, ?_, ⟨?_, Nat.mod_lt _ hpos⟩, ?_⟩
  · intro h
    unfold chunk_nblk
    rw [if_neg (by omega)]
  · intro h
    unfold chunk_nblk
    rw [if_pos h]
  · intro iblk
    ring
  · intro i _
    refine ⟨fun h => block_of_point _ _ i h, ?_⟩
    intro h k hk hcon
    have : (k + 1) * chunk_blk_size nthreads np
        ≤ chunk_nblk nthreads np * chunk_blk_size nthreads np :=
      Nat.mul_le_mul_right _ hk
    omega
  · unfold chunk_blk_size
    rw [Nat.mod_def]
  · intro h1
    have hn : chunk_nblk nthreads np ≤ np := by
      unfold chunk_nblk
      split <;> omega
    refine ⟨hn, ?_⟩
    unfold chunk_blk_size
    exact Nat.div_pos hn hpos

/-- The statement of `chunk_partition` for three threads and eleven points: three blocks of
three points, point `7` in block `2` only, and a remainder of two points. -/
theorem chunk_partition_witness :
    chunk_nblk 3 11 = 3 ∧ chunk_blk_size 3 11 = 11 / chunk_nblk 3 11
      ∧ chunk_nblk 3 11 * chunk_blk_size 3 11 ≤ 11
      ∧ (∃ iblk, (iblk < chunk_nblk 3 11 ∧ iblk * chunk_blk_size 3 11 ≤ 7
            ∧ 7 < (iblk + 1) * chunk_blk_size 3 11)
          ∧ ∀ k, (k < chunk_nblk 3 11 ∧ k * chunk_blk_size 3 11 ≤ 7
            ∧ 7 < (k + 1) * chunk_blk_size 3 11) → k = iblk)
      ∧ (11 - chunk_nblk 3 11 * chunk_blk_size 3 11 = 11 % chunk_nblk 3 11
          ∧ 11 % chunk_nblk 3 11 < chunk_nblk 3 11)
      ∧ (chunk_nblk 3 11 ≤ 11 ∧ 1 ≤ chunk_blk_size 3 11) :=
  have h := chunk_partition (α := Int) 3 11 (by decide)
  ⟨h.2.1 (by decide), h.2.2.2.1, h.2.2.2.2.2.1, (h.2.2.2.2.2.2.1 7 (by decide)).1 (by decide),
    h.2.2.2.2.2.2.2.1, h.2.2.2.2.2.2.2.2 (by decide)⟩

end ClaimsChunks

section ClaimsRegions

variable {α : Type}

end ClaimsRegions

section MergeWrites

variable {α : Type} [Add α] [Mul α]

theorem mem_axpy_writes (np nsrc p : Nat) : p ∈ axpy_writes np nsrc ↔ p < nsrc * np := by
  unfold axpy_writes
  simp only [List.mem_flatMap, List.mem_range, List.mem_map]
  constructor
  · rintro ⟨j, hj, i, hi, rfl⟩
    calc j * np + i < j * np + np := by omega
      _ = (j + 1) * np := by ring
      _ ≤ nsrc * np := Nat.mul_le_mul_right _ hj
  · intro hp
    have hnp : 0 < np := by
      rcases Nat.eq_zero_or_pos np with h | h
      · subst h; simp at hp
      · exact h
    refine ⟨p / np, (Nat.div_lt_iff_lt_mul hnp).2 hp, p % np, Nat.mod_lt _ hnp, ?_⟩
    rw [Nat.mul_comm]
    exact Nat.div_add_mod p np

theorem merge_order_writes_fold (np : Nat) (seg : List Nat) (offset m : Nat) :
    (((List.range m).foldl
        (fun (st : List Nat × Nat) (i : Nat) =>
          (st.1 ++ (axpy_writes np (seg.getD i 0)).map (fun p => st.2 + p),
            st.2 + np * seg.getD i 0))
        ([], offset)).2 = offset + np * seg_base seg m)
      ∧ ∀ p, p ∈ ((List.range m).foldl
          (fun (st : List Nat × Nat) (i : Nat) =>
            (st.1 ++ (axpy_writes np (seg.getD i 0)).map (fun p => st.2 + p),
              st.2 + np * seg.getD i 0))
          ([], offset)).1 ↔ (offset ≤ p ∧ p < offset + np * seg_base seg m) := by
  induction m with
  | zero =>
    refine ⟨by simp [seg_base], fun p => ?_⟩
    simp [seg_base]
  | succ m ih =>
    rw [List.range_succ, List.foldl_append]
    simp only [List.foldl_cons, List.foldl_nil]
    obtain ⟨ih1, ih2⟩ := ih
    refine ⟨?_, fun p => ?_⟩
    · rw [ih1, seg_base_succ]; ring
    · rw [List.mem_append, ih2 p, ih1, seg_base_succ, List.mem_map]
      simp only [mem_axpy_writes]
      have hmul : np * (seg_base seg m + seg.getD m 0)
          = np * seg_base seg m + seg.getD m 0 * np := by ring
      rw [hmul]
      constructor
      · rintro (⟨h1, h2⟩ | ⟨q, hq, rfl⟩)
        · omega
        · omega
      · rintro ⟨h1, h2⟩
        by_cases h : p < offset + np * seg_base seg m
        · exact Or.inl ⟨h1, h⟩
        · exact Or.inr ⟨p - (offset + np * seg_base seg m), by omega, by omega⟩

/-- The cells a loop of `merge_xc` assigns are those of
`[offset, offset + np * (total size of the sub-blocks))`. -/
theorem mem_merge_order_writes (np : Nat) (seg : List Nat) (segtot offset p : Nat) :
    p ∈ merge_order_writes np seg segtot offset
      ↔ (offset ≤ p ∧ p < offset + np * seg_base seg segtot) :=
  (merge_order_writes_fold np seg offset segtot).2 p

/-- A cell that a guarded loop of `merge_xc` does not assign keeps its value. -/
theorem merge_order_opt_unwritten (dst : Nat → α) (buf : Option (Nat → α)) (fac : α) (np : Nat)
    (ndst : Int) (seg : List Nat) (segtot offset p : Nat)
    (hp : p ∉ (if buf.isSome then merge_order_writes np seg segtot offset else [])) :
    merge_order_opt dst buf fac np ndst seg segtot offset p = dst p := by
  cases buf with
  | none => rfl
  | some b =>
    simp only [Option.isSome_some, if_true, mem_merge_order_writes] at hp
    exact merge_order_frame dst b fac np ndst seg segtot offset p (by omega)

/-- A cell that `merge_xc` assigns in none of its passes keeps its value. -/
theorem merge_xc_unwritten (dst ebuf : Nat → α) (vbuf fbuf kbuf : Option (Nat → α)) (fac : α)
    (np : Nat) (ndst : Int) (nvar spin type : Int) (p : Nat)
    (hp : ∀ order,
      p ∉ merge_xc_writes vbuf.isSome fbuf.isSome kbuf.isSome np nvar spin type order) :
    merge_xc dst ebuf vbuf fbuf kbuf fac np ndst nvar spin type p = dst p := by
  have h0 := hp 0
  have h1 := hp 1
  have h2 := hp 2
  have h3 := hp 3
  simp only [merge_xc_writes] at h0 h1 h2 h3
  simp only [merge_xc]
  rw [merge_order_opt_unwritten _ _ _ _ _ _ _ _ _ h3,
    merge_order_opt_unwritten _ _ _ _ _ _ _ _ _ h2,
    merge_order_opt_unwritten _ _ _ _ _ _ _ _ _ h1]
  rw [mem_axpy_writes] at h0
  exact axpy_apply_of_ge _ _ _ _ _ _ _ (by omega)

theorem xc_output_length_zero (nvar : Nat) : (xc_output_length nvar 0).toNat = 1 := by
  rw [show (0 : Int) = ((0 : Nat) : Int) from rfl, xc_output_length_choose, Int.toNat_ofNat,
    Nat.zero_add, Nat.choose_self]

theorem xc_output_length_three (nvar : Nat) :
    (xc_output_length nvar 3).toNat
      = 1 + nvar + nvar * (nvar + 1) / 2 + (nvar + 2).choose 3 := by
  have h2 := xc_output_length_two nvar
  rw [show (2 : Int) = ((2 : Nat) : Int) from rfl, xc_output_length_choose, Int.toNat_ofNat,
    ← Nat.choose_symm_add] at h2
  rw [show (3 : Int) = ((3 : Nat) : Int) from rfl, xc_output_length_choose, Int.toNat_ofNat,
    ← Nat.choose_symm_add, show 3 + nvar = (nvar + 2) + 1 by omega, Nat.choose_succ_succ,
    show nvar + 2 = 2 + nvar by omega, h2]

/-- The third-order sub-blocks of a supported family fit the third-order segment of a tensor
in at least as many variables as the family has. -/
theorem merge_ktotal_le (spin type : Int) (nvar : Nat) (hsup : supported_family type)
    (hn : input_length_step spin type 0 ≤ (nvar : Int)) :
    seg_base (merge_kseg spin) (merge_segtot type).2.2 ≤ (nvar + 2).choose 3 := by
  have key : ∃ own : Nat, input_length_step spin type 0 = (own : Int)
      ∧ seg_base (merge_kseg spin) (merge_segtot type).2.2 ≤ (own + 2).choose 3 := by
    refine ⟨(input_length_step spin type 0).toNat, ?_⟩
    by_cases hs : spin = XC_POLARIZED
    · subst hs
      rcases hsup with (h | h) | (h | h) | (h | h) <;> subst h <;> decide
    · obtain ⟨_, _, hk, hstep⟩ := unpolarized_tables spin hs
      rw [hk, hstep]
      rcases hsup with (h | h) | (h | h) | (h | h) <;> subst h <;> decide
  obtain ⟨own, h0, h1⟩ := key
  rw [h0] at hn
  have hle : own ≤ nvar := by exact_mod_cast hn
  exact le_trans h1 (Nat.choose_le_choose 3 (by omega))

end MergeWrites

section ClaimsWrites

variable {α : Type}

/-- C14: for every spin mode, every `deriv` in `0..3`, every supported family and every
call-wide `nvar` at least the family's own variable count, with the scratch buffers present as
`LIBXC_eval_xc` allocates them for `deriv`: every cell that a pass of `merge_xc` assigns lies
below `np * xc_output_length(nvar, deriv)`; the energy pass assigns exactly the cells of
`[0, np)`, and the pass of order `k = 1, 2, 3`, when it runs, exactly the cells of
`[np * S_k, np * (S_k + total_k))`, a prefix of the order-`k` segment
`[np * S_k, np * S_(k+1))` where `S_k = xc_output_length(nvar, k - 1)`; there is no pass of a
higher order, and a cell that no pass assigns keeps its value through `merge_xc`. -/
theorem merge_xc_writes_in_segments [Add α] [Mul α] (spin deriv type : Int) (nvar np : Nat)
    (hd0 : 0 ≤ deriv) (hd3 : deriv ≤ 3) (hsup : supported_family type)
    (hn : input_length_step spin type 0 ≤ (nvar : Int)) :
    (∀ order p,
        p ∈ merge_xc_writes (decide (deriv > 0)) (decide (deriv > 1)) (decide (deriv > 2))
          np nvar spin type order →
        p < np * (xc_output_length nvar deriv).toNat)
      ∧ (∀ p, p ∈ merge_xc_writes (decide (deriv > 0)) (decide (deriv > 1)) (decide (deriv > 2))
            np nvar spin type 0 ↔ p < np * (xc_output_length nvar 0).toNat)
      ∧ (∀ p, p ∈ merge_xc_writes (decide (deriv > 0)) (decide (deriv > 1)) (decide (deriv > 2))
            np nvar spin type 1
          ↔ (deriv > 0 ∧ np * (xc_output_length nvar 0).toNat ≤ p
              ∧ p < np * ((xc_output_length nvar 0).toNat
                    + seg_base (merge_vseg spin) (merge_segtot type).1)))
      ∧ (xc_output_length nvar 0).toNat + seg_base (merge_vseg spin) (merge_segtot type).1
          ≤ (xc_output_length nvar 1).toNat
      ∧ (∀ p, p ∈ merge_xc_writes (decide (deriv > 0)) (decide (deriv > 1)) (decide (deriv > 2))
            np nvar spin type 2
          ↔ (deriv > 1 ∧ np * (xc_output_length nvar 1).toNat ≤ p
              ∧ p < np * ((xc_output_length nvar 1).toNat
                    + seg_base (merge_fseg spin) (merge_segtot type).2.1)))
      ∧ (xc_output_length nvar 1).toNat + seg_base (merge_fseg spin) (merge_segtot type).2.1
          ≤ (xc_output_length nvar 2).toNat
      ∧ (∀ p, p ∈ merge_xc_writes (decide (deriv > 0)) (decide (deriv > 1)) (decide (deriv > 2))
            np nvar spin type 3
          ↔ (deriv > 2 ∧ np * (xc_output_length nvar 2).toNat ≤ p
              ∧ p < np * ((xc_output_length nvar 2).toNat
                    + seg_base (merge_kseg spin) (merge_segtot type).2.2)))
      ∧ (xc_output_length nvar 2).toNat + seg_base (merge_kseg spin) (merge_segtot type).2.2
          ≤ (xc_output_length nvar 3).toNat
      ∧ (∀ order, 4 ≤ order →
          merge_xc_writes (decide (deriv > 0)) (decide (deriv > 1)) (decide (deriv > 2))
            np nvar spin type order = [])
      ∧ (∀ (dst ebuf vb fb kb : Nat → α) (fac : α) (ndst : Int) (p : Nat),
          (∀ order,
            p ∉ merge_xc_writes (decide (deriv > 0)) (decide (deriv > 1)) (decide (deriv > 2))
              np nvar spin type order) →
          merge_xc dst ebuf (if deriv > 0 then some vb else none)
            (if deriv > 1 then some fb else none) (if deriv > 2 then some kb else none)
            fac np ndst nvar spin type p = dst p) := by
  obtain ⟨hV, hF⟩ := merge_totals_le spin type nvar hsup hn
  have hK := merge_ktotal_le spin type nvar hsup hn
  have e0 := xc_output_length_zero nvar
  have e1 := xc_output_length_one nvar
  have e2 := xc_output_length_two nvar
  have e3 := xc_output_length_three nvar
  have hS1 : (xc_output_length nvar 0).toNat + seg_base (merge_vseg spin) (merge_segtot type).1
      ≤ (xc_output_length nvar 1).toNat := by omega
  have hS2 : (xc_output_length nvar 1).toNat
      + seg_base (merge_fseg spin) (merge_segtot type).2.1
      ≤ (xc_output_length nvar 2).toNat := by omega
  have hS3 : (xc_output_length nvar 2).toNat
      + seg_base (merge_kseg spin) (merge_segtot type).2.2
      ≤ (xc_output_length nvar 3).toNat := by omega
  have hW0 : ∀ p, p ∈ merge_xc_writes (decide (deriv > 0)) (decide (deriv > 1))
      (decide (deriv > 2)) np nvar spin type 0 ↔ p < np * (xc_output_length nvar 0).toNat := by
    intro p
    simp only [merge_xc_writes, mem_axpy_writes, e0, Nat.one_mul, Nat.mul_one]
  have hW1 : ∀ p, p ∈ merge_xc_writes (decide (deriv > 0)) (decide (deriv > 1))
      (decide (deriv > 2)) np nvar spin type 1
      ↔ (deriv > 0 ∧ np * (xc_output_length nvar 0).toNat ≤ p
          ∧ p < np * ((xc_output_length nvar 0).toNat
                + seg_base (merge_vseg spin) (merge_segtot type).1)) := by
    intro p
    simp only [merge_xc_writes, e0, Nat.mul_one, Nat.mul_add]
    by_cases h : deriv > 0
    · simp only [h, decide_True, if_true, mem_merge_order_writes, true_and]
    · simp only [h, decide_False, false_and, iff_false]
      exact List.not_mem_nil p
  have hW2 : ∀ p, p ∈ merge_xc_writes (decide (deriv > 0)) (decide (deriv > 1))
      (decide (deriv > 2)) np nvar spin type 2
      ↔ (deriv > 1 ∧ np * (xc_output_length nvar 1).toNat ≤ p
          ∧ p < np * ((xc_output_length nvar 1).toNat
                + seg_base (merge_fseg spin) (merge_segtot type).2.1)) := by
    intro p
    simp only [merge_xc_writes, Nat.mul_add]
    by_cases h : deriv > 1
    · simp only [h, decide_True, if_true, mem_merge_order_writes, true_and]
    · simp only [h, decide_False, false_and, iff_false]
      exact List.not_mem_nil p
  have hW3 : ∀ p, p ∈ merge_xc_writes (decide (deriv > 0)) (decide (deriv > 1))
      (decide (deriv > 2)) np nvar spin type 3
      ↔ (deriv > 2 ∧ np * (xc_output_length nvar 2).toNat ≤ p
          ∧ p < np * ((xc_output_length nvar 2).toNat
                + seg_base (merge_kseg spin) (merge_segtot type).2.2)) := by
    intro p
    simp only [merge_xc_writes, Nat.mul_add]
    by_cases h : deriv > 2
    · simp only [h, decide_True, if_true, mem_merge_order_writes, true_and]
    · simp only [h, decide_False, false_and, iff_false]
      exact List.not_mem_nil p
  have hW4 : ∀ order, 4 ≤ order → merge_xc_writes (decide (deriv > 0)) (decide (deriv > 1))
      (decide (deriv > 2)) np nvar spin type order = [] := by
    intro order ho
    match order, ho with
    | n + 4, _ => rfl
  refine ⟨?_, hW0, hW1, hS1, hW2, hS2, hW3, hS3, hW4, ?_⟩
  · intro order p hp
    have m1 := Nat.mul_le_mul_left np hS1
    have m2 := Nat.mul_le_mul_left np hS2
    have m3 := Nat.mul_le_mul_left np hS3
    have m01 : np * (xc_output_length nvar 0).toNat ≤ np * (xc_output_length nvar 1).toNat :=
      Nat.mul_le_mul_left np (by omega)
    have m12 : np * (xc_output_length nvar 1).toNat ≤ np * (xc_output_length nvar 2).toNat :=
      Nat.mul_le_mul_left np (by omega)
    have m23 : np * (xc_output_length nvar 2).toNat ≤ np * (xc_output_length nvar 3).toNat :=
      Nat.mul_le_mul_left np (by omega)
    have hcases : order = 0 ∨ order = 1 ∨ order = 2 ∨ order = 3 ∨ 4 ≤ order := by omega
    rcases hcases with h | h | h | h | h
    · subst h
      have := (hW0 p).1 hp
      rcases (show deriv = 0 ∨ deriv = 1 ∨ deriv = 2 ∨ deriv = 3 by omega) with h | h | h | h
        <;> subst h <;> omega
    · subst h
      obtain ⟨hd, h1, h2⟩ := (hW1 p).1 hp
      rcases (show deriv = 1 ∨ deriv = 2 ∨ deriv = 3 by omega) with h | h | h
        <;> subst h <;> omega
    · subst h
      obtain ⟨hd, h1, h2⟩ := (hW2 p).1 hp
      rcases (show deriv = 2 ∨ deriv = 3 by omega) with h | h
        <;> subst h <;> omega
    · subst h
      obtain ⟨hd, h1, h2⟩ := (hW3 p).1 hp
      have h : deriv = 3 := by omega
      subst h
      omega
    · rw [hW4 order h] at hp
      exact absurd hp (List.not_mem_nil p)
  · intro dst ebuf vb fb kb fac ndst p hp
    apply merge_xc_unwritten
    intro order
    have := hp order
    by_cases h0 : deriv > 0 <;> by_cases h1 : deriv > 1 <;> by_cases h2 : deriv > 2 <;>
      simpa [h0, h1, h2] using this

/-- The statement of `merge_xc_writes_in_segments` for the polarized GGA family in a call with
`nvar = 9`, `deriv = 2` and three points: every assigned cell lies below
`3 * xc_output_length(9, 2)`, and the second-order sub-blocks end inside the second-order
segment. -/
theorem merge_xc_writes_in_segments_witness :
    (∀ order p,
        p ∈ merge_xc_writes (decide ((2 : Int) > 0)) (decide ((2 : Int) > 1))
          (decide ((2 : Int) > 2)) 3 9 XC_POLARIZED XC_FAMILY_GGA order →
        p < 3 * (xc_output_length 9 2).toNat)
      ∧ (xc_output_length 9 1).toNat
          + seg_base (merge_fseg XC_POLARIZED) (merge_segtot XC_FAMILY_GGA).2.1
          ≤ (xc_output_length 9 2).toNat :=
  have h := merge_xc_writes_in_segments (α := Int) XC_POLARIZED 2 XC_FAMILY_GGA 9 3
    (by decide) (by decide) (by decide) (by decide)
  ⟨h.1, h.2.2.2.2.2.1⟩

end ClaimsWrites

section Agreement

variable {α : Type}

theorem agree_on_mono {D E : Nat → Prop} {x y : Nat → α} (h : agree_on D x y)
    (hsub : ∀ p, E p → D p) : agree_on E x y :=
  fun p hp => h p (hsub p hp)

theorem opt_agree_mono {D E : Nat → Prop} {present : Bool} {o1 o2 : Option (Nat → α)}
    (h : opt_agree D present o1 o2) (hsub : ∀ p, E p → D p) : opt_agree E present o1 o2 :=
  ⟨h.1, h.2.1, fun x y hx hy => agree_on_mono (h.2.2 x y hx hy) hsub⟩

/-- The same write into two memories extends the cells on which they agree by the cells
written. -/
theorem store_block_agree (D : Nat → Prop) (x y : Nat → α) (base len : Nat) (vals : Nat → α)
    (h : agree_on D x y) :
    agree_on (fun p => D p ∨ (base ≤ p ∧ p < base + len))
      (store_block x base len vals) (store_block y base len vals) := by
  intro p hp
  unfold store_block
  by_cases hc : base ≤ p ∧ p < base + len
  · rw [if_pos hc, if_pos hc]
  · rw [if_neg hc, if_neg hc]
    rcases hp with hD | hr
    · exact h p hD
    · exact absurd hr hc

theorem fold_store_agree (L : List (Nat × Nat × (Nat → α))) (start n : Nat) (D : Nat → Prop)
    (x y : Nat → α) (h : agree_on D x y) :
    agree_on
      (fun p => D p ∨ ∃ t ∈ L, t.1 + start * t.2.1 ≤ p ∧ p < t.1 + start * t.2.1 + n * t.2.1)
      (L.foldl (fun buf t => store_block buf (t.1 + start * t.2.1) (n * t.2.1) t.2.2) x)
      (L.foldl (fun buf t => store_block buf (t.1 + start * t.2.1) (n * t.2.1) t.2.2) y) := by
  induction L generalizing x y D with
  | nil =>
    intro p hp
    rcases hp with hD | ⟨t, ht, _⟩
    · exact h p hD
    · exact absurd ht (List.not_mem_nil t)
  | cons t L ih =>
    simp only [List.foldl_cons]
    refine agree_on_mono (ih _ _ _ (store_block_agree D x y _ _ t.2.2 h)) ?_
    intro p hp
    rcases hp with hD | ⟨t2, ht2, hr⟩
    · exact Or.inl (Or.inl hD)
    · rcases List.mem_cons.mp ht2 with heq | hmem
      · subst heq
        exact Or.inl (Or.inr hr)
      · exact Or.inr ⟨t2, hmem, hr⟩

theorem region_step (l : List (Nat × Nat)) (start n p : Nat) (h : region l (start + n) p) :
    region l start p
      ∨ ∃ x ∈ l, x.1 + start * x.2 ≤ p ∧ p < x.1 + start * x.2 + n * x.2 := by
  obtain ⟨x, hx, h1, h2⟩ := h
  rw [Nat.add_mul] at h2
  by_cases hc : p < x.1 + start * x.2
  · exact Or.inl ⟨x, hx, h1, hc⟩
  · exact Or.inr ⟨x, hx, by omega, by omega⟩

/-- Writing the points `start .. start + n` of every sub-array of a buffer into two memories
that agree on the first `start` points makes them agree on the first `start + n` points. -/
theorem fold_store_region (L : List (Nat × Nat × (Nat → α))) (start n : Nat) (x y : Nat → α)
    (h : agree_on (region (L.map fun t => (t.1, t.2.1)) start) x y) :
    agree_on (region (L.map fun t => (t.1, t.2.1)) (start + n))
      (L.foldl (fun buf t => store_block buf (t.1 + start * t.2.1) (n * t.2.1) t.2.2) x)
      (L.foldl (fun buf t => store_block buf (t.1 + start * t.2.1) (n * t.2.1) t.2.2) y) := by
  refine agree_on_mono (fold_store_agree L start n _ x y h) ?_
  intro p hp
  rcases region_step _ start n p hp with h1 | ⟨x, hx, hr⟩
  · exact Or.inl h1
  · obtain ⟨t, ht, rfl⟩ := List.mem_map.mp hx
    exact Or.inr ⟨t, ht, hr⟩

theorem opt_agree_map {D E : Nat → Prop} {present : Bool} {o1 o2 : Option (Nat → α)}
    (F : (Nat → α) → (Nat → α)) (h : opt_agree D present o1 o2)
    (hF : ∀ x y, agree_on D x y → agree_on E (F x) (F y)) :
    opt_agree E present (o1.map F) (o2.map F) := by
  obtain ⟨h1, h2, h3⟩ := h
  refine ⟨by rw [Option.isSome_map', h1], by rw [Option.isSome_map', h2], ?_⟩
  intro x y hx hy
  cases o1 with
  | none => simp at hx
  | some a =>
    cases o2 with
    | none => simp at hy
    | some b =>
      simp only [Option.map_some', Option.some.injEq] at hx hy
      subst hx hy
      exact hF a b (h3 a b rfl rfl)

/-- A relation between two runs that every kernel invocation carries from the first `start`
points to the first `start + n` points holds for all `np` points after the parallel region. -/
theorem chunked_rel (Rel : Nat → xc_bufs α → xc_bufs α → Prop)
    (call : Nat → Nat → xc_bufs α → xc_bufs α)
    (hstep : ∀ start n b1 b2, Rel start b1 b2 → Rel (start + n) (call start n b1) (call start n b2))
    (nthreads np : Nat) (b1 b2 : xc_bufs α) (h0 : Rel 0 b1 b2) :
    Rel np (chunked nthreads np call b1) (chunked nthreads np call b2) := by
  have hle := chunk_blocks_le nthreads np
  unfold chunk_blk_size chunk_nblk at hle
  unfold chunked
  simp only []
  generalize (if np < nthreads then 1 else nthreads) = nblk at hle ⊢
  generalize np / nblk = blk at hle ⊢
  have hfold : ∀ k, Rel (k * blk)
      ((List.range k).foldl (fun b iblk => call (iblk * blk) blk b) b1)
      ((List.range k).foldl (fun b iblk => call (iblk * blk) blk b) b2) := by
    intro k
    induction k with
    | zero => simpa using h0
    | succ k ih =>
      rw [List.range_succ, List.foldl_append, List.foldl_append]
      simp only [List.foldl_cons, List.foldl_nil]
      have := hstep (k * blk) blk _ _ ih
      rwa [show k * blk + blk = (k + 1) * blk by ring] at this
  by_cases hres : np - nblk * blk > 0
  · rw [if_pos hres, if_pos hres]
    have := hstep (nblk * blk) (np - nblk * blk) _ _ (hfold nblk)
    rwa [show nblk * blk + (np - nblk * blk) = np by omega] at this
  · rw [if_neg hres, if_neg hres]
    have := hfold nblk
    rwa [show nblk * blk = np by omega] at this

end Agreement

section CallSteps

variable {α : Type}

theorem store_block_region_one (s start n : Nat) (vals x y : Nat → α)
    (h : agree_on (region [(0, s)] start) x y) :
    agree_on (region [(0, s)] (start + n))
      (store_block x (start * s) (n * s) vals) (store_block y (start * s) (n * s) vals) := by
  have := fold_store_region [(0, s, vals)] start n x y h
  simpa [List.foldl] using this

theorem mgga_store_region (ptrs seg : List Nat) (cnt : Nat) (arr : Nat → Nat → α)
    (start n : Nat) (x y : Nat → α)
    (h : agree_on (region ((List.range cnt).map fun i => (ptrs.getD i 0, seg.getD i 0)) start)
      x y) :
    agree_on (region ((List.range cnt).map fun i => (ptrs.getD i 0, seg.getD i 0)) (start + n))
      (mgga_store x ptrs seg cnt arr start n) (mgga_store y ptrs seg cnt arr start n) := by
  have := fold_store_region
    ((List.range cnt).map fun i => (ptrs.getD i 0, seg.getD i 0, arr i)) start n x y
    (by simpa [List.map_map, Function.comp_def] using h)
  simpa [mgga_store, List.foldl_map, List.map_map, Function.comp_def] using this

/-- One kernel invocation of `_eval_xc_lda` carries the agreement of two runs from the first
`start` points to the first `start + n` points. -/
theorem lda_call_step (lib : xc_library α) (func_x : xc_func_type α) (seg : List Nat)
    (rho : Nat → α) (v f k : Bool) (start n : Nat) (b1 b2 : xc_bufs α)
    (h : bufs_agree [(0, 1)] [(0, seg.getD 1 0)] [(0, seg.getD 2 0)] [(0, seg.getD 3 0)]
      v f k start b1 b2) :
    bufs_agree [(0, 1)] [(0, seg.getD 1 0)] [(0, seg.getD 2 0)] [(0, seg.getD 3 0)]
      v f k (start + n) (lda_call lib func_x seg rho start n b1)
      (lda_call lib func_x seg rho start n b2) := by
  obtain ⟨he, hv, hf, hk⟩ := h
  refine ⟨?_, opt_agree_map _ hv ?_, opt_agree_map _ hf ?_, opt_agree_map _ hk ?_⟩
  · have := store_block_region_one 1 start n
      (lib.xc_lda func_x n (ptr_add rho (start * seg.getD 0 0))).zk b1.ex b2.ex he
    simpa [lda_call] using this
  · intro x y hxy
    exact store_block_region_one _ start n _ x y hxy
  · intro x y hxy
    exact store_block_region_one _ start n _ x y hxy
  · intro x y hxy
    exact store_block_region_one _ start n _ x y hxy

/-- One kernel invocation of `_eval_xc_gga` carries the agreement of two runs from the first
`start` points to the first `start + n` points. -/
theorem gga_call_step (lib : xc_library α) (func_x : xc_func_type α)
    (seg vseg fseg kseg : List Nat) (np : Nat) (rho sigma : Nat → α) (v f k : Bool)
    (start n : Nat) (b1 b2 : xc_bufs α)
    (h : bufs_agree [(0, 1)]
      [(0, vseg.getD 0 0), (np * vseg.getD 0 0, vseg.getD 1 0)]
      [(0, fseg.getD 0 0), (np * fseg.getD 0 0, fseg.getD 1 0),
        (np * fseg.getD 0 0 + np * fseg.getD 1 0, fseg.getD 2 0)]
      [(0, kseg.getD 0 0), (np * kseg.getD 0 0, kseg.getD 1 0),
        (np * kseg.getD 0 0 + np * kseg.getD 1 0, kseg.getD 2 0),
        (np * kseg.getD 0 0 + np * kseg.getD 1 0 + np * kseg.getD 2 0, kseg.getD 3 0)]
      v f k start b1 b2) :
    bufs_agree [(0, 1)]
      [(0, vseg.getD 0 0), (np * vseg.getD 0 0, vseg.getD 1 0)]
      [(0, fseg.getD 0 0), (np * fseg.getD 0 0, fseg.getD 1 0),
        (np * fseg.getD 0 0 + np * fseg.getD 1 0, fseg.getD 2 0)]
      [(0, kseg.getD 0 0), (np * kseg.getD 0 0, kseg.getD 1 0),
        (np * kseg.getD 0 0 + np * kseg.getD 1 0, kseg.getD 2 0),
        (np * kseg.getD 0 0 + np * kseg.getD 1 0 + np * kseg.getD 2 0, kseg.getD 3 0)]
      v f k (start + n)
      (gga_call lib func_x seg vseg fseg kseg np rho sigma start n b1)
      (gga_call lib func_x seg vseg fseg kseg np rho sigma start n b2) := by
  obtain ⟨he, hv, hf, hk⟩ := h
  generalize hout : lib.xc_gga func_x n (ptr_add rho (start * seg.getD 0 0))
    (ptr_add sigma (start * seg.getD 1 0)) = out
  refine ⟨?_, ?_, ?_, ?_⟩
  · have := store_block_region_one 1 start n out.zk b1.ex b2.ex he
    simp only [gga_call, hout]
    simpa only [Nat.mul_one] using this
  · simp only [gga_call, hout]
    refine opt_agree_map _ hv ?_
    intro x y hxy
    have := fold_store_region
      [(0, vseg.getD 0 0, out.v 0), (np * vseg.getD 0 0, vseg.getD 1 0, out.v 1)]
      start n x y hxy
    simpa [List.foldl] using this
  · simp only [gga_call, hout]
    refine opt_agree_map _ hf ?_
    intro x y hxy
    have := fold_store_region
      [(0, fseg.getD 0 0, out.f 0), (np * fseg.getD 0 0, fseg.getD 1 0, out.f 1),
        (np * fseg.getD 0 0 + np * fseg.getD 1 0, fseg.getD 2 0, out.f 2)]
      start n x y hxy
    simpa [List.foldl] using this
  · simp only [gga_call, hout]
    refine opt_agree_map _ hk ?_
    intro x y hxy
    have := fold_store_region
      [(0, kseg.getD 0 0, out.k 0), (np * kseg.getD 0 0, kseg.getD 1 0, out.k 1),
        (np * kseg.getD 0 0 + np * kseg.getD 1 0, kseg.getD 2 0, out.k 2),
        (np * kseg.getD 0 0 + np * kseg.getD 1 0 + np * kseg.getD 2 0, kseg.getD 3 0, out.k 3)]
      start n x y hxy
    simpa [List.foldl] using this

/-- One kernel invocation of `_eval_xc_mgga` carries the agreement of two runs from the first
`start` points to the first `start + n` points. -/
theorem mgga_call_step (lib : xc_library α) (func_x : xc_func_type α)
    (seg vseg fseg : List Nat) (np : Nat) (rho sigma lapl tau : Nat → α) (v f k : Bool)
    (start n : Nat) (b1 b2 : xc_bufs α)
    (h : bufs_agree [(0, 1)]
      ((List.range 4).map fun i => ((mgga_ptrs np vseg 4).getD i 0, vseg.getD i 0))
      ((List.range 10).map fun i => ((mgga_ptrs np fseg 10).getD i 0, fseg.getD i 0))
      [] v f k start b1 b2) :
    bufs_agree [(0, 1)]
      ((List.range 4).map fun i => ((mgga_ptrs np vseg 4).getD i 0, vseg.getD i 0))
      ((List.range 10).map fun i => ((mgga_ptrs np fseg 10).getD i 0, fseg.getD i 0))
      [] v f k (start + n)
      (mgga_call lib func_x seg vseg fseg np rho sigma lapl tau start n b1)
      (mgga_call lib func_x seg vseg fseg np rho sigma lapl tau start n b2) := by
  obtain ⟨he, hv, hf, hk⟩ := h
  generalize hout : lib.xc_mgga func_x n (ptr_add rho (start * seg.getD 0 0))
    (ptr_add sigma (start * seg.getD 1 0)) (ptr_add lapl (start * seg.getD 2 0))
    (ptr_add tau (start * seg.getD 3 0)) = out
  refine ⟨?_, ?_, ?_, ?_⟩
  · have := store_block_region_one 1 start n out.zk b1.ex b2.ex he
    simp only [mgga_call, hout]
    simpa only [Nat.mul_one] using this
  · simp only [mgga_call, hout]
    exact opt_agree_map _ hv fun x y hxy => mgga_store_region _ _ 4 _ start n x y hxy
  · simp only [mgga_call, hout]
    exact opt_agree_map _ hf fun x y hxy => mgga_store_region _ _ 10 _ start n x y hxy
  · simp only [mgga_call]
    exact opt_agree_mono hk fun p hp => by
      obtain ⟨x, hx, _⟩ := hp
      exact absurd hx (List.not_mem_nil x)

/-- Before the first point, two sets of buffers with the same `NULL` pattern agree. -/
theorem bufs_agree_zero (le lv lf lk : List (Nat × Nat)) (v f k : Bool) (b1 b2 : xc_bufs α)
    (h1 : b1.vxc.isSome = v ∧ b1.fxc.isSome = f ∧ b1.kxc.isSome = k)
    (h2 : b2.vxc.isSome = v ∧ b2.fxc.isSome = f ∧ b2.kxc.isSome = k) :
    bufs_agree le lv lf lk v f k 0 b1 b2 := by
  have hemp : ∀ (l : List (Nat × Nat)) (p : Nat), ¬ region l 0 p := by
    rintro l p ⟨x, _, h1, h2⟩
    omega
  exact ⟨fun p hp => absurd hp (hemp _ p),
    ⟨h1.1, h2.1, fun _ _ _ _ p hp => absurd hp (hemp _ p)⟩,
    ⟨h1.2.1, h2.2.1, fun _ _ _ _ p hp => absurd hp (hemp _ p)⟩,
    ⟨h1.2.2, h2.2.2, fun _ _ _ _ p hp => absurd hp (hemp _ p)⟩⟩

theorem bufs_agree_mono {le lv lf lk le2 lv2 lf2 lk2 : List (Nat × Nat)} {v f k : Bool}
    {m m2 : Nat} {b1 b2 : xc_bufs α} (h : bufs_agree le lv lf lk v f k m b1 b2)
    (hse : ∀ p, region le2 m2 p → region le m p) (hsv : ∀ p, region lv2 m2 p → region lv m p)
    (hsf : ∀ p, region lf2 m2 p → region lf m p) (hsk : ∀ p, region lk2 m2 p → region lk m p) :
    bufs_agree le2 lv2 lf2 lk2 v f k m2 b1 b2 :=
  ⟨agree_on_mono h.1 hse, opt_agree_mono h.2.1 hsv, opt_agree_mono h.2.2.1 hsf,
    opt_agree_mono h.2.2.2 hsk⟩

end CallSteps

section EvalAgree

variable {α : Type}

theorem region_one (s m p : Nat) : region [(0, s)] m p ↔ p < m * s := by
  unfold region
  simp

theorem cover_two (np a b p : Nat) (h : region [(0, a + b)] np p) :
    region [(0, a), (np * a, b)] np p := by
  rw [region_one, Nat.mul_add] at h
  unfold region
  by_cases h1 : p < np * a
  · exact ⟨(0, a), by simp, by simp, by simpa using h1⟩
  · exact ⟨(np * a, b), by simp, by simp; omega, by simp; omega⟩

theorem cover_three (np a b c p : Nat) (h : region [(0, a + b + c)] np p) :
    region [(0, a), (np * a, b), (np * a + np * b, c)] np p := by
  rw [region_one, Nat.mul_add, Nat.mul_add] at h
  unfold region
  by_cases h1 : p < np * a
  · exact ⟨(0, a), by simp, by simp, by simpa using h1⟩
  · by_cases h2 : p < np * a + np * b
    · exact ⟨(np * a, b), by simp, by simp; omega, by simp; omega⟩
    · exact ⟨(np * a + np * b, c), by simp, by simp; omega, by simp; omega⟩

theorem cover_four (np a b c d p : Nat) (h : region [(0, a + b + c + d)] np p) :
    region [(0, a), (np * a, b), (np * a + np * b, c), (np * a + np * b + np * c, d)] np p := by
  rw [region_one, Nat.mul_add, Nat.mul_add, Nat.mul_add] at h
  unfold region
  by_cases h1 : p < np * a
  · exact ⟨(0, a), by simp, by simp, by simpa using h1⟩
  · by_cases h2 : p < np * a + np * b
    · exact ⟨(np * a, b), by simp, by simp; omega, by simp; omega⟩
    · by_cases h3 : p < np * a + np * b + np * c
      · exact ⟨(np * a + np * b, c), by simp, by simp; omega, by simp; omega⟩
      · exact ⟨(np * a + np * b + np * c, d), by simp, by simp; omega, by simp; omega⟩

/-- A cell below the end of the last sub-block lies in one of the sub-blocks. -/
theorem sub_block_of_cell (np : Nat) (seg : List Nat) (m p : Nat)
    (hp : p < np * seg_base seg m) :
    ∃ j, j < m ∧ np * seg_base seg j ≤ p ∧ p < np * seg_base seg j + np * seg.getD j 0 := by
  induction m with
  | zero => simp [seg_base] at hp
  | succ m ih =>
    rw [seg_base_succ, Nat.mul_add] at hp
    by_cases h : p < np * seg_base seg m
    · obtain ⟨j, hj, h1, h2⟩ := ih h
      exact ⟨j, by omega, h1, h2⟩
    · exact ⟨m, by omega, by omega, hp⟩

theorem cover_ptrs (np : Nat) (seg : List Nat) (cnt : Nat) (hc : 1 ≤ cnt) (p : Nat)
    (h : region [(0, seg_base seg cnt)] np p) :
    region ((List.range cnt).map fun i => ((mgga_ptrs np seg cnt).getD i 0, seg.getD i 0))
      np p := by
  rw [region_one] at h
  obtain ⟨j, hj, h1, h2⟩ := sub_block_of_cell np seg cnt p h
  refine ⟨((mgga_ptrs np seg cnt).getD j 0, seg.getD j 0),
    List.mem_map.mpr ⟨j, List.mem_range.mpr hj, rfl⟩, ?_, ?_⟩
  · rw [mgga_ptrs_getD np seg cnt j hc hj]; exact h1
  · rw [mgga_ptrs_getD np seg cnt j hc hj]; exact h2

theorem lda_totals (spin : Int) :
    seg_base (merge_vseg spin) 1 = (lda_seg spin).getD 1 0
      ∧ seg_base (merge_fseg spin) 1 = (lda_seg spin).getD 2 0
      ∧ seg_base (merge_kseg spin) 1 = (lda_seg spin).getD 3 0 := by
  by_cases hs : spin = XC_POLARIZED
  · subst hs; decide
  · simp only [merge_vseg, merge_fseg, merge_kseg, lda_seg, if_neg hs]; decide

theorem gga_totals (spin : Int) :
    seg_base (merge_vseg spin) 2 = (gga_vseg spin).getD 0 0 + (gga_vseg spin).getD 1 0
      ∧ seg_base (merge_fseg spin) 3
          = (gga_fseg spin).getD 0 0 + (gga_fseg spin).getD 1 0 + (gga_fseg spin).getD 2 0
      ∧ seg_base (merge_kseg spin) 4
          = (gga_kseg spin).getD 0 0 + (gga_kseg spin).getD 1 0 + (gga_kseg spin).getD 2 0
            + (gga_kseg spin).getD 3 0 := by
  by_cases hs : spin = XC_POLARIZED
  · subst hs; decide
  · simp only [merge_vseg, merge_fseg, merge_kseg, gga_vseg, gga_fseg, gga_kseg, if_neg hs]
    decide

theorem mgga_totals (spin : Int) :
    seg_base (merge_vseg spin) 4 = seg_base (mgga_vseg spin) 4
      ∧ seg_base (merge_fseg spin) 10 = seg_base (mgga_fseg spin) 10 := by
  by_cases hs : spin = XC_POLARIZED
  · subst hs; decide
  · simp only [merge_vseg, merge_fseg, mgga_vseg, mgga_fseg, if_neg hs]
    decide

theorem eval_xc_lda_branch [Add α] [Mul α] (lib : xc_library α) (nthreads : Nat)
    (heap : Nat → Nat → α) (func_x : xc_func_type α) (spin : Int) (np : Nat) (rho_u rho_d : Nat → α)
    (b : xc_bufs α) (h : is_lda_family func_x.family) :
    _eval_xc lib nthreads heap func_x spin np rho_u rho_d b
      = .ok (_eval_xc_lda lib nthreads heap func_x spin np rho_u rho_d b) := by
  unfold _eval_xc
  rcases h with h | h <;> rw [h] <;> rfl

theorem eval_xc_gga_branch [Add α] [Mul α] (lib : xc_library α) (nthreads : Nat)
    (heap : Nat → Nat → α) (func_x : xc_func_type α) (spin : Int) (np : Nat) (rho_u rho_d : Nat → α)
    (b : xc_bufs α) (h : is_gga_family func_x.family) :
    _eval_xc lib nthreads heap func_x spin np rho_u rho_d b
      = .ok (_eval_xc_gga lib nthreads heap func_x spin np rho_u rho_d b) := by
  unfold _eval_xc
  rcases h with h | h <;> rw [h] <;> rfl

theorem merge_segtot_lda (type : Int) (h : is_lda_family type) : merge_segtot type = (1, 1, 1) := by
  rcases h with h | h <;> subst h <;> rfl

theorem merge_segtot_gga (type : Int) (h : is_gga_family type) : merge_segtot type = (2, 3, 4) := by
  rcases h with h | h <;> subst h <;> rfl

theorem merge_segtot_mgga (type : Int) (h : is_mgga_family type) :
    merge_segtot type = (4, 10, 0) := by
  rcases h with h | h <;> subst h <;> rfl

/-- Two runs of an evaluator from scratch buffers with the same `NULL` pattern both succeed,
and leave buffers that hold the same values in every cell `merge_xc` reads for the family:
the first `np` cells of `ex` and the first `np * (total of the family's sub-blocks)` cells of
each buffer that is present. -/
theorem eval_xc_agree [Add α] [Mul α] (lib : xc_library α) (nthreads : Nat)
    (heap : Nat → Nat → α) (func_x : xc_func_type α) (spin : Int) (np : Nat)
    (rho_u rho_d : Nat → α) (v f k : Bool) (b1 b2 : xc_bufs α)
    (hsup : supported_family func_x.family)
    (h1 : b1.vxc.isSome = v ∧ b1.fxc.isSome = f ∧ b1.kxc.isSome = k)
    (h2 : b2.vxc.isSome = v ∧ b2.fxc.isSome = f ∧ b2.kxc.isSome = k) :
    ∃ r1 r2, _eval_xc lib nthreads heap func_x spin np rho_u rho_d b1 = .ok r1
      ∧ _eval_xc lib nthreads heap func_x spin np rho_u rho_d b2 = .ok r2
      ∧ bufs_agree [(0, 1)]
          [(0, seg_base (merge_vseg spin) (merge_segtot func_x.family).1)]
          [(0, seg_base (merge_fseg spin) (merge_segtot func_x.family).2.1)]
          [(0, seg_base (merge_kseg spin) (merge_segtot func_x.family).2.2)] v f k np r1 r2 := by
  rcases hsup with hfam | hfam | hfam
  · refine ⟨_, _, eval_xc_lda_branch lib nthreads heap func_x spin np rho_u rho_d b1 hfam,
      eval_xc_lda_branch lib nthreads heap func_x spin np rho_u rho_d b2 hfam, ?_⟩
    rw [merge_segtot_lda _ hfam]
    obtain ⟨e1, e2, e3⟩ := lda_totals spin
    simp only [e1, e2, e3]
    unfold _eval_xc_lda
    exact chunked_rel (fun m => bufs_agree _ _ _ _ v f k m) _
      (fun start n c1 c2 h => lda_call_step lib func_x _ _ v f k start n c1 c2 h)
      nthreads np b1 b2 (bufs_agree_zero _ _ _ _ v f k b1 b2 h1 h2)
  · refine ⟨_, _, eval_xc_gga_branch lib nthreads heap func_x spin np rho_u rho_d b1 hfam,
      eval_xc_gga_branch lib nthreads heap func_x spin np rho_u rho_d b2 hfam, ?_⟩
    rw [merge_segtot_gga _ hfam]
    obtain ⟨e1, e2, e3⟩ := gga_totals spin
    simp only [e1, e2, e3]
    unfold _eval_xc_gga
    refine bufs_agree_mono
      (chunked_rel (fun m => bufs_agree _ _ _ _ v f k m) _
        (fun start n c1 c2 h => gga_call_step lib func_x _ _ _ _ np _ _ v f k start n c1 c2 h)
        nthreads np b1 b2 (bufs_agree_zero _ _ _ _ v f k b1 b2 h1 h2))
      (fun p hp => hp) (fun p hp => cover_two np _ _ p hp)
      (fun p hp => cover_three np _ _ _ p hp) (fun p hp => cover_four np _ _ _ _ p hp)
  · refine ⟨_, _, eval_xc_mgga_branch lib nthreads heap func_x spin np rho_u rho_d b1 hfam,
      eval_xc_mgga_branch lib nthreads heap func_x spin np rho_u rho_d b2 hfam, ?_⟩
    rw [merge_segtot_mgga _ hfam]
    obtain ⟨e1, e2⟩ := mgga_totals spin
    simp only [e1, e2]
    unfold _eval_xc_mgga
    refine bufs_agree_mono
      (chunked_rel (fun m => bufs_agree _ _ _ _ v f k m) _
        (fun start n c1 c2 h =>
          mgga_call_step lib func_x _ _ _ np _ _ _ _ v f k start n c1 c2 h)
        nthreads np b1 b2 (bufs_agree_zero _ _ _ _ v f k b1 b2 h1 h2))
      (fun p hp => hp) (fun p hp => cover_ptrs np _ 4 (by omega) p hp)
      (fun p hp => cover_ptrs np _ 10 (by omega) p hp)
      (fun p hp => by
        rw [region_one] at hp
        simp [seg_base] at hp)

end EvalAgree

section MergeCongr

variable {α : Type} [Add α] [Mul α]

/-- `axpy` reads only the first `np * nsrc` cells of `src`. -/
theorem axpy_congr (dst s1 s2 : Nat → α) (fac : α) (np : Nat) (ndst : Int) (nsrc : Nat)
    (h : agree_on (fun p => p < np * nsrc) s1 s2) :
    axpy dst s1 fac np ndst nsrc = axpy dst s2 fac np ndst nsrc := by
  funext p
  rw [axpy_apply, axpy_apply]
  by_cases hp : p < nsrc * np
  · rw [if_pos hp, if_pos hp]
    have hnp : 0 < np := by
      rcases Nat.eq_zero_or_pos np with h0 | h0
      · subst h0; simp at hp
      · exact h0
    have hi : p % np < np := Nat.mod_lt _ hnp
    have hj : p / np < nsrc := (Nat.div_lt_iff_lt_mul hnp).2 hp
    have hidx : (p % np) * nsrc + p / np < np * nsrc := by
      calc (p % np) * nsrc + p / np < (p % np) * nsrc + nsrc := by omega
        _ = (p % np + 1) * nsrc := by ring
        _ ≤ np * nsrc := Nat.mul_le_mul_right _ hi
    rw [h _ hidx]
  · rw [if_neg hp, if_neg hp]

theorem merge_order_step_congr (b1 b2 : Nat → α) (fac : α) (np : Nat) (ndst : Int)
    (seg : List Nat) (N : Nat) (h : agree_on (fun p => p < N) b1 b2)
    (st : (Nat → α) × Nat × Nat) (i : Nat) (hN : st.2.2 + np * seg.getD i 0 ≤ N) :
    merge_order_step b1 fac np ndst seg st i = merge_order_step b2 fac np ndst seg st i := by
  unfold merge_order_step
  rw [axpy_congr _ (ptr_add b1 st.2.2) (ptr_add b2 st.2.2)]
  intro q hq
  unfold ptr_add
  exact h _ (by omega)

/-- A loop of `merge_xc` reads only the first `np * (total size of the sub-blocks)` cells of
its buffer. -/
theorem merge_order_congr (dst b1 b2 : Nat → α) (fac : α) (np : Nat) (ndst : Int)
    (seg : List Nat) (segtot offset : Nat)
    (h : agree_on (fun p => p < np * seg_base seg segtot) b1 b2) :
    merge_order dst b1 fac np ndst seg segtot offset
      = merge_order dst b2 fac np ndst seg segtot offset := by
  unfold merge_order
  have key : ∀ m, m ≤ segtot →
      (List.range m).foldl (merge_order_step b1 fac np ndst seg) (dst, offset, 0)
        = (List.range m).foldl (merge_order_step b2 fac np ndst seg) (dst, offset, 0) := by
    intro m
    induction m with
    | zero => intro _; rfl
    | succ m ih =>
      intro hm
      rw [merge_order_fold_succ, merge_order_fold_succ, ih (by omega)]
      apply merge_order_step_congr b1 b2 fac np ndst seg _ h
      have hoff := merge_order_fold_offsets b2 fac np ndst seg dst offset 0 m
      have hb : ((List.range m).foldl (merge_order_step b2 fac np ndst seg)
          (dst, offset, 0)).2.2 = 0 + np * seg_base seg m := by rw [hoff]
      rw [hb, Nat.zero_add, ← Nat.mul_add, ← seg_base_succ]
      exact Nat.mul_le_mul_left _ (seg_base_mono seg hm)
  rw [key segtot (le_refl _)]

theorem merge_order_opt_congr (dst : Nat → α) (o1 o2 : Option (Nat → α)) (present : Bool)
    (fac : α) (np : Nat) (ndst : Int) (seg : List Nat) (segtot offset : Nat)
    (h : opt_agree (region [(0, seg_base seg segtot)] np) present o1 o2) :
    merge_order_opt dst o1 fac np ndst seg segtot offset
      = merge_order_opt dst o2 fac np ndst seg segtot offset := by
  obtain ⟨h1, h2, h3⟩ := h
  cases o1 with
  | none =>
    cases o2 with
    | none => rfl
    | some y =>
      simp only [Option.isSome_none, Option.isSome_some] at h1 h2
      rw [← h1] at h2
      exact absurd h2 (by decide)
  | some x =>
    cases o2 with
    | none =>
      simp only [Option.isSome_none, Option.isSome_some] at h1 h2
      rw [← h1] at h2
      exact absurd h2 (by decide)
    | some y =>
      simp only [merge_order_opt]
      apply merge_order_congr
      intro p hp
      exact h3 x y rfl rfl p ((region_one _ _ _).2 hp)

/-- `merge_xc` gives the same tensor for two sets of buffers that agree in the cells it
reads. -/
theorem merge_xc_congr (dst : Nat → α) (r1 r2 : xc_bufs α) (v f k : Bool) (fac : α) (np : Nat)
    (ndst nvar spin type : Int)
    (h : bufs_agree [(0, 1)]
      [(0, seg_base (merge_vseg spin) (merge_segtot type).1)]
      [(0, seg_base (merge_fseg spin) (merge_segtot type).2.1)]
      [(0, seg_base (merge_kseg spin) (merge_segtot type).2.2)] v f k np r1 r2) :
    merge_xc dst r1.ex r1.vxc r1.fxc r1.kxc fac np ndst nvar spin type
      = merge_xc dst r2.ex r2.vxc r2.fxc r2.kxc fac np ndst nvar spin type := by
  obtain ⟨he, hv, hf, hk⟩ := h
  simp only [merge_xc]
  rw [axpy_congr dst r1.ex r2.ex fac np ndst 1 (fun p hp => he p ((region_one _ _ _).2 hp)),
    merge_order_opt_congr _ r1.vxc r2.vxc v _ _ _ _ _ _ hv,
    merge_order_opt_congr _ r1.fxc r2.fxc f _ _ _ _ _ _ hf,
    merge_order_opt_congr _ r1.kxc r2.kxc k _ _ _ _ _ _ hk]

end MergeCongr

section MergeAdd

variable {α : Type} [CommRing α]

theorem axpy_additive (d src : Nat → α) (fac : α) (np : Nat) (ndst : Int) (nsrc p : Nat) :
    axpy d src fac np ndst nsrc p = d p + fac * axpy (fun _ => 0) src 1 np ndst nsrc p := by
  rw [axpy_apply, axpy_apply]
  split <;> ring

theorem merge_order_fold_additive (buf : Nat → α) (fac : α) (np : Nat) (ndst : Int)
    (seg : List Nat) (d : Nat → α) (offset m p : Nat) :
    ((List.range m).foldl (merge_order_step buf fac np ndst seg) (d, offset, 0)).1 p
      = d p + fac * ((List.range m).foldl (merge_order_step buf 1 np ndst seg)
          (fun _ => 0, offset, 0)).1 p := by
  induction m with
  | zero => simp
  | succ m ih =>
    rw [merge_order_fold_succ, merge_order_fold_succ]
    have ho1 := merge_order_fold_offsets buf fac np ndst seg d offset 0 m
    have ho2 := merge_order_fold_offsets buf 1 np ndst seg (fun _ => 0) offset 0 m
    generalize (List.range m).foldl (merge_order_step buf fac np ndst seg) (d, offset, 0)
      = S1 at ih ho1
    generalize (List.range m).foldl (merge_order_step buf 1 np ndst seg) (fun _ => 0, offset, 0)
      = S2 at ih ho2
    obtain ⟨D1, o1, c1⟩ := S1
    obtain ⟨D2, o2, c2⟩ := S2
    simp only [Prod.mk.injEq] at ho1 ho2
    obtain ⟨ha, hb⟩ := ho1
    obtain ⟨hc, hd⟩ := ho2
    subst ha hb hc hd
    simp only at ih
    rw [merge_order_step_apply, merge_order_step_apply, ih]
    split <;> ring

theorem merge_order_opt_additive (d : Nat → α) (buf : Option (Nat → α)) (fac : α) (np : Nat)
    (ndst : Int) (seg : List Nat) (segtot offset p : Nat) :
    merge_order_opt d buf fac np ndst seg segtot offset p
      = d p + fac * merge_order_opt (fun _ => 0) buf 1 np ndst seg segtot offset p := by
  cases buf with
  | none => simp [merge_order_opt]
  | some b =>
    simp only [merge_order_opt, merge_order]
    exact merge_order_fold_additive b fac np ndst seg d offset segtot p

/-- `merge_xc` adds to each cell of the tensor `fac` times what it adds, with weight `1`, to a
zeroed tensor. -/
theorem merge_xc_additive (d ebuf : Nat → α) (vbuf fbuf kbuf : Option (Nat → α)) (fac : α)
    (np : Nat) (ndst nvar spin type : Int) (p : Nat) :
    merge_xc d ebuf vbuf fbuf kbuf fac np ndst nvar spin type p
      = d p + fac * merge_xc (fun _ => 0) ebuf vbuf fbuf kbuf 1 np ndst nvar spin type p := by
  simp only [merge_xc]
  rw [merge_order_opt_additive, merge_order_opt_additive _ fbuf,
    merge_order_opt_additive _ vbuf, axpy_additive]
  conv_rhs =>
    rw [merge_order_opt_additive _ kbuf 1, merge_order_opt_additive _ fbuf 1,
      merge_order_opt_additive _ vbuf 1]
  ring

end MergeAdd

section LoopSum

variable {α : Type} [CommRing α] [DecidableEq α]

/-- The loop of `LIBXC_eval_xc` over functionals of supported families returns, and has then
added to every cell of the output, for each functional, its weight times what the functional
alone, with weight `1`, adds to a zeroed tensor from the scratch buffers `b0`. -/
theorem eval_loop_sum (lib : xc_library α) (nthreads : Nat) (heap : Nat → Nat → α) (spin : Int)
    (np : Nat) (rho_u rho_d : Nat → α) (outlen nvar : Int) (v f k : Bool) (b0 : xc_bufs α)
    (hb0 : b0.vxc.isSome = v ∧ b0.fxc.isSome = f ∧ b0.kxc.isSome = k)
    (fns : List (xc_term α))
    (hfns : ∀ t ∈ fns, ∃ g, lib.xc_func_init t.fn_id spin = some g ∧ supported_family g.family)
    (b : xc_bufs α) (hb : b.vxc.isSome = v ∧ b.fxc.isSome = f ∧ b.kxc.isSome = k)
    (out : Nat → α) :
    (eval_loop lib nthreads heap spin np rho_u rho_d outlen nvar fns b out).1 = .returned
      ∧ ∀ p, (eval_loop lib nthreads heap spin np rho_u rho_d outlen nvar fns b out).2 p
          = out p + (fns.map fun t => t.fac *
              (eval_loop lib nthreads heap spin np rho_u rho_d outlen nvar
                [⟨t.fn_id, 1, t.omega⟩] b0 (fun _ => 0)).2 p).sum := by
  induction fns generalizing b out with
  | nil =>
    refine ⟨rfl, fun p => ?_⟩
    simp [eval_loop]
  | cons t rest ih =>
    obtain ⟨g, hinit, hsup⟩ := hfns t (List.mem_cons_self _ _)
    have hsup2 : supported_family (set_omega g t.omega).family := by
      rw [set_omega_family]; exact hsup
    obtain ⟨r, r0, hr, hr0, hag⟩ := eval_xc_agree lib nthreads heap (set_omega g t.omega) spin np
      rho_u rho_d v f k b b0 hsup2 hb hb0
    have hrp : r.vxc.isSome = v ∧ r.fxc.isSome = f ∧ r.kxc.isSome = k :=
      ⟨hag.2.1.1, hag.2.2.1.1, hag.2.2.2.1⟩
    have hstep : eval_loop lib nthreads heap spin np rho_u rho_d outlen nvar (t :: rest) b out
        = eval_loop lib nthreads heap spin np rho_u rho_d outlen nvar rest r
            (merge_xc out r.ex r.vxc r.fxc r.kxc t.fac np outlen nvar spin
              (set_omega g t.omega).family) := by
      rw [eval_loop]
      simp only [hinit, hr]
    have hone : eval_loop lib nthreads heap spin np rho_u rho_d outlen nvar
        [⟨t.fn_id, 1, t.omega⟩] b0 (fun _ => 0)
        = (.returned, merge_xc (fun _ => 0) r0.ex r0.vxc r0.fxc r0.kxc 1 np outlen nvar spin
            (set_omega g t.omega).family) := by
      rw [eval_loop]
      simp only [hinit, hr0, eval_loop]
    obtain ⟨ih1, ih2⟩ := ih (fun t ht => hfns t (List.mem_cons_of_mem _ ht)) r hrp
      (merge_xc out r.ex r.vxc r.fxc r.kxc t.fac np outlen nvar spin
        (set_omega g t.omega).family)
    rw [hstep]
    refine ⟨ih1, fun p => ?_⟩
    rw [ih2 p, List.map_cons, List.sum_cons, hone,
      merge_xc_congr out r r0 v f k t.fac np outlen nvar spin _ hag, merge_xc_additive]
    ring

end LoopSum

section InputFamily

variable {α : Type}

theorem input_length_loop_same_family (lib : xc_library α) (spin fam : Int)
    (fns : List (xc_term α))
    (hfam : ∀ t ∈ fns, ∃ g, lib.xc_func_init t.fn_id spin = some g ∧ g.family = fam)
    (nvar : Int) (h0 : 0 ≤ nvar) :
    input_length_loop lib spin fns nvar
      = .ok (if fns.isEmpty then nvar else max nvar (variable_count spin fam)) := by
  induction fns generalizing nvar with
  | nil => simp [input_length_loop]
  | cons t rest ih =>
    obtain ⟨g, hinit, hg⟩ := hfam t (List.mem_cons_self _ _)
    unfold input_length_loop
    simp only [hinit]
    rw [ih (fun t ht => hfam t (List.mem_cons_of_mem _ ht)) _
      (by rw [input_length_step_eq_max _ _ _ h0]; exact le_trans h0 (le_max_left _ _)),
      hg, input_length_step_eq_max _ _ _ h0]
    simp only [List.isEmpty_cons, Bool.false_eq_true, if_false]
    split
    · rfl
    · rw [max_assoc, max_self]

/-- For a non-empty list of functionals of one family, `LIBXC_input_length` is the variable
count of that family. -/
theorem input_length_same_family (lib : xc_library α) (spin fam : Int) (fns : List (xc_term α))
    (hfam : ∀ t ∈ fns, ∃ g, lib.xc_func_init t.fn_id spin = some g ∧ g.family = fam)
    (hne : fns ≠ []) :
    LIBXC_input_length lib fns spin = .ok (input_length_step spin fam 0) := by
  unfold LIBXC_input_length
  rw [input_length_loop_same_family lib spin fam fns hfam 0 (le_refl _),
    if_neg (by simpa using hne), input_length_step_eq_max _ _ _ (le_refl _)]

theorem supported_of_step_ne_zero (spin fam : Int) (h : input_length_step spin fam 0 ≠ 0) :
    supported_family fam := by
  by_contra hns
  unfold supported_family is_lda_family is_gga_family is_mgga_family at hns
  push_neg at hns
  obtain ⟨⟨a, b⟩, ⟨c, d⟩, ⟨e, f⟩⟩ := hns
  apply h
  simp [input_length_step, a, b, c, d, e, f]

end InputFamily

section FamilySum

variable {α : Type} [CommRing α] [DecidableEq α]

/-- The run of `LIBXC_eval_xc` on a non-empty list of functionals of one family, with
`deriv ≤ 3`. -/
theorem eval_xc_same_family (lib : xc_library α) (nthreads : Nat) (heap : Nat → Nat → α)
    (fns : List (xc_term α)) (spin deriv : Int) (np : Nat) (rho_u rho_d out : Nat → α)
    (fam : Int)
    (hfam : ∀ t ∈ fns, ∃ g, lib.xc_func_init t.fn_id spin = some g ∧ g.family = fam)
    (hne : fns ≠ []) (hd : ¬ deriv > 3) :
    LIBXC_eval_xc lib nthreads heap fns spin deriv np rho_u rho_d out
      = if input_length_step spin fam 0 = 0 then (.returned, out)
        else
          eval_loop lib nthreads heap spin np rho_u rho_d
            (xc_output_length (input_length_step spin fam 0) deriv)
            (input_length_step spin fam 0) fns
            { ex := heap 0
              vxc := if deriv > 0 then some (heap 1) else none
              fxc := if deriv > 1 then some (heap 2) else none
              kxc := if deriv > 2 then some (heap 3) else none } out := by
  unfold LIBXC_eval_xc
  rw [if_neg hd, input_length_same_family lib spin fam fns hfam hne]

/-- The output of `LIBXC_eval_xc` on a list of functionals of one family: every cell holds its
initial value plus, for each functional, its weight times the cell of the tensor that the
functional produces alone, with weight `1`, from a zeroed output. -/
theorem eval_xc_family_sum (lib : xc_library α) (nthreads : Nat) (heap : Nat → Nat → α)
    (fns : List (xc_term α)) (spin deriv : Int) (np : Nat) (rho_u rho_d out : Nat → α)
    (fam : Int)
    (hfam : ∀ t ∈ fns, ∃ g, lib.xc_func_init t.fn_id spin = some g ∧ g.family = fam) :
    (LIBXC_eval_xc lib nthreads heap fns spin deriv np rho_u rho_d out).1
        = (if deriv > 3 then xc_exit.assert_failed else xc_exit.returned)
      ∧ ∀ p, (LIBXC_eval_xc lib nthreads heap fns spin deriv np rho_u rho_d out).2 p
          = out p + (fns.map fun t => t.fac *
              (LIBXC_eval_xc lib nthreads heap [⟨t.fn_id, 1, t.omega⟩] spin deriv np rho_u rho_d
                (fun _ => 0)).2 p).sum := by
  have hsingle : ∀ t ∈ fns, ∀ u ∈ [(⟨t.fn_id, 1, t.omega⟩ : xc_term α)],
      ∃ g, lib.xc_func_init u.fn_id spin = some g ∧ g.family = fam := by
    intro t ht u hu
    rw [List.mem_singleton] at hu
    subst hu
    exact hfam t ht
  by_cases hd : deriv > 3
  · rw [if_pos hd]
    have hall : ∀ (l : List (xc_term α)) (o : Nat → α),
        LIBXC_eval_xc lib nthreads heap l spin deriv np rho_u rho_d o
          = (.assert_failed, o) := by
      intro l o
      unfold LIBXC_eval_xc
      rw [if_pos hd]
    refine ⟨by rw [hall], fun p => ?_⟩
    simp only [hall]
    simp
  · rw [if_neg hd]
    cases hfns : fns with
    | nil =>
      refine ⟨?_, fun p => ?_⟩
      · simp [LIBXC_eval_xc, hd, LIBXC_input_length, input_length_loop]
      · simp [LIBXC_eval_xc, hd, LIBXC_input_length, input_length_loop]
    | cons t0 rest =>
      rw [← hfns]
      have hne : fns ≠ [] := by rw [hfns]; exact List.cons_ne_nil _ _
      rw [eval_xc_same_family lib nthreads heap fns spin deriv np rho_u rho_d out fam hfam hne
        hd]
      have hterm : ∀ t ∈ fns,
          LIBXC_eval_xc lib nthreads heap [⟨t.fn_id, 1, t.omega⟩] spin deriv np rho_u rho_d
            (fun _ => 0)
          = if input_length_step spin fam 0 = 0 then (.returned, fun _ => 0)
            else
              eval_loop lib nthreads heap spin np rho_u rho_d
                (xc_output_length (input_length_step spin fam 0) deriv)
                (input_length_step spin fam 0) [⟨t.fn_id, 1, t.omega⟩]
                { ex := heap 0
                  vxc := if deriv > 0 then some (heap 1) else none
                  fxc := if deriv > 1 then some (heap 2) else none
                  kxc := if deriv > 2 then some (heap 3) else none } (fun _ => 0) :=
        fun t ht => eval_xc_same_family lib nthreads heap _ spin deriv np rho_u rho_d _ fam
          (hsingle t ht) (List.cons_ne_nil _ _) hd
      by_cases hc : input_length_step spin fam 0 = 0
      · rw [if_pos hc]
        refine ⟨rfl, fun p => ?_⟩
        have hz : (fns.map fun t => t.fac *
            (LIBXC_eval_xc lib nthreads heap [⟨t.fn_id, 1, t.omega⟩] spin deriv np rho_u rho_d
              (fun _ => 0)).2 p) = fns.map fun _ => (0 : α) := by
          apply List.map_congr_left
          intro t ht
          rw [hterm t ht, if_pos hc]
          simp
        rw [hz]
        simp
      · rw [if_neg hc]
        have hsup := supported_of_step_ne_zero spin fam hc
        have hpat : ∀ (c : Int) (x : Nat → α),
            (if deriv > c then some x else none).isSome = decide (deriv > c) := by
          intro c x
          by_cases h : deriv > c <;> simp [h]
        obtain ⟨s1, s2⟩ := eval_loop_sum lib nthreads heap spin np rho_u rho_d
          (xc_output_length (input_length_step spin fam 0) deriv)
          (input_length_step spin fam 0) (decide (deriv > 0)) (decide (deriv > 1))
          (decide (deriv > 2))
          { ex := heap 0
            vxc := if deriv > 0 then some (heap 1) else none
            fxc := if deriv > 1 then some (heap 2) else none
            kxc := if deriv > 2 then some (heap 3) else none }
          ⟨hpat 0 _, hpat 1 _, hpat 2 _⟩ fns
          (fun t ht => by
            obtain ⟨g, hg, hgf⟩ := hfam t ht
            exact ⟨g, hg, by rw [hgf]; exact hsup⟩)
          { ex := heap 0
            vxc := if deriv > 0 then some (heap 1) else none
            fxc := if deriv > 1 then some (heap 2) else none
            kxc := if deriv > 2 then some (heap 3) else none }
          ⟨hpat 0 _, hpat 1 _, hpat 2 _⟩ out
        refine ⟨s1, fun p => ?_⟩
        rw [s2 p]
        congr 1
        congr 1
        apply List.map_congr_left
        intro t ht
        rw [hterm t ht, if_neg hc]

end FamilySum

section ClaimsAccumulate

variable {α : Type}

/-- C11: over a commutative ring of scalars, for two functionals that the library knows and
that belong to the same family, with any weights and range-separation parameters, and the same
spin mode, `deriv`, `np`, density record and initial output tensor, `LIBXC_eval_xc` on the list
`[t1, t2]` and on the list `[t2, t1]` ends the same way with the same output tensor. -/
theorem eval_xc_order_independent [CommRing α] [DecidableEq α] (lib : xc_library α)
    (nthreads : Nat) (heap : Nat → Nat → α) (t1 t2 : xc_term α) (spin deriv : Int) (np : Nat)
    (rho_u rho_d output : Nat → α) (g1 g2 : xc_func_type α)
    (h1 : lib.xc_func_init t1.fn_id spin = some g1)
    (h2 : lib.xc_func_init t2.fn_id spin = some g2) (hfam : g1.family = g2.family) :
    LIBXC_eval_xc lib nthreads heap [t1, t2] spin deriv np rho_u rho_d output
      = LIBXC_eval_xc lib nthreads heap [t2, t1] spin deriv np rho_u rho_d output := by
  have hl : ∀ t ∈ [t1, t2],
      ∃ g, lib.xc_func_init t.fn_id spin = some g ∧ g.family = g2.family := by
    intro t ht
    simp only [List.mem_cons, List.mem_singleton, List.not_mem_nil, or_false] at ht
    rcases ht with rfl | rfl
    · exact ⟨g1, h1, hfam⟩
    · exact ⟨g2, h2, rfl⟩
  have hr : ∀ t ∈ [t2, t1],
      ∃ g, lib.xc_func_init t.fn_id spin = some g ∧ g.family = g2.family := by
    intro t ht
    simp only [List.mem_cons, List.mem_singleton, List.not_mem_nil, or_false] at ht
    rcases ht with rfl | rfl
    · exact ⟨g2, h2, rfl⟩
    · exact ⟨g1, h1, hfam⟩
  obtain ⟨a1, a2⟩ := eval_xc_family_sum lib nthreads heap [t1, t2] spin deriv np rho_u rho_d
    output g2.family hl
  obtain ⟨b1, b2⟩ := eval_xc_family_sum lib nthreads heap [t2, t1] spin deriv np rho_u rho_d
    output g2.family hr
  apply Prod.ext
  · rw [a1, b1]
  · funext p
    rw [a2 p, b2 p]
    simp only [List.map_cons, List.map_nil, List.sum_cons, List.sum_nil]
    ring

/-- The statement of `eval_xc_order_independent` for the range-separated hybrid `402` of the
sample library taken twice, with weights `2` and `3` and range-separation parameters `0` and
`5`, on three unpolarized points with `deriv = 1` and two threads. -/
theorem eval_xc_order_independent_witness :
    LIBXC_eval_xc demo_library 2 (fun _ _ => 0) [⟨402, 2, 0⟩, ⟨402, 3, 5⟩] XC_UNPOLARIZED 1 3
        (fun p : Nat => (p : Int)) (fun p : Nat => (p : Int)) (fun p : Nat => (p : Int))
      = LIBXC_eval_xc demo_library 2 (fun _ _ => 0) [⟨402, 3, 5⟩, ⟨402, 2, 0⟩] XC_UNPOLARIZED 1 3
        (fun p : Nat => (p : Int)) (fun p : Nat => (p : Int)) (fun p : Nat => (p : Int)) :=
  eval_xc_order_independent demo_library 2 (fun _ _ => 0) ⟨402, 2, 0⟩ ⟨402, 3, 5⟩
    XC_UNPOLARIZED 1 3 (fun p : Nat => (p : Int)) (fun p : Nat => (p : Int))
    (fun p : Nat => (p : Int))
    (.mk 402 XC_FAMILY_HYB_GGA 0 XC_UNPOLARIZED 3 [.mk 0 XC_FAMILY_GGA 0 XC_UNPOLARIZED 3 []])
    (.mk 402 XC_FAMILY_HYB_GGA 0 XC_UNPOLARIZED 3 [.mk 0 XC_FAMILY_GGA 0 XC_UNPOLARIZED 3 []])
    rfl rfl rfl

/-- C12: over a commutative ring of scalars, for every list of functionals that the library
knows and that all belong to one family, with any weights, `LIBXC_eval_xc` started from a
zeroed output returns normally when `deriv ≤ 3`, and every cell of the tensor it leaves is the
sum over the list of the weight of a functional times the same cell of the tensor that this
functional produces when evaluated alone with weight `1` from a zeroed output (same spin mode,
`deriv`, `np` and density record); for a list of two functionals the cell is
`w1 * E1 + w2 * E2`. -/
theorem eval_xc_weighted_sum [CommRing α] [DecidableEq α] (lib : xc_library α)
    (nthreads : Nat) (heap : Nat → Nat → α) (fns : List (xc_term α)) (spin deriv : Int)
    (np : Nat) (rho_u rho_d : Nat → α) (fam : Int)
    (hfam : ∀ t ∈ fns, ∃ g, lib.xc_func_init t.fn_id spin = some g ∧ g.family = fam) :
    (deriv ≤ 3 →
        (LIBXC_eval_xc lib nthreads heap fns spin deriv np rho_u rho_d (fun _ => 0)).1
          = xc_exit.returned)
      ∧ (∀ p, (LIBXC_eval_xc lib nthreads heap fns spin deriv np rho_u rho_d (fun _ => 0)).2 p
          = (fns.map fun t => t.fac *
              (LIBXC_eval_xc lib nthreads heap [⟨t.fn_id, 1, t.omega⟩] spin deriv np rho_u rho_d
                (fun _ => 0)).2 p).sum)
      ∧ (∀ t1 t2, fns = [t1, t2] →
          ∀ p, (LIBXC_eval_xc lib nthreads heap fns spin deriv np rho_u rho_d (fun _ => 0)).2 p
            = t1.fac * (LIBXC_eval_xc lib nthreads heap [⟨t1.fn_id, 1, t1.omega⟩] spin deriv np
                  rho_u rho_d (fun _ => 0)).2 p
              + t2.fac * (LIBXC_eval_xc lib nthreads heap [⟨t2.fn_id, 1, t2.omega⟩] spin deriv np
                  rho_u rho_d (fun _ => 0)).2 p) := by
  obtain ⟨a1, a2⟩ := eval_xc_family_sum lib nthreads heap fns spin deriv np rho_u rho_d
    (fun _ => 0) fam hfam
  have hsum : ∀ p,
      (LIBXC_eval_xc lib nthreads heap fns spin deriv np rho_u rho_d (fun _ => 0)).2 p
        = (fns.map fun t => t.fac *
            (LIBXC_eval_xc lib nthreads heap [⟨t.fn_id, 1, t.omega⟩] spin deriv np rho_u rho_d
              (fun _ => 0)).2 p).sum := by
    intro p
    rw [a2 p, zero_add]
  refine ⟨fun hd => ?_, hsum, ?_⟩
  · rw [a1, if_neg (by omega)]
  · intro t1 t2 h p
    rw [hsum p, h]
    simp only [List.map_cons, List.map_nil, List.sum_cons, List.sum_nil, add_zero]

/-- The statement of `eval_xc_weighted_sum` for the range-separated hybrid `402` of the sample
library taken with weight `4` and range-separation parameter `0` and with weight `1` and
range-separation parameter `5`, `deriv = 1`, three unpolarized points and two threads: every
cell holds `4 * E1 + 1 * E2`. -/
theorem eval_xc_weighted_sum_witness :
    (∀ t ∈ [(⟨402, 4, 0⟩ : xc_term Int), ⟨402, 1, 5⟩],
        ∃ g, demo_library.xc_func_init t.fn_id XC_UNPOLARIZED = some g
          ∧ g.family = XC_FAMILY_HYB_GGA)
      ∧ ∀ p, (LIBXC_eval_xc demo_library 2 (fun _ _ => 0) [⟨402, 4, 0⟩, ⟨402, 1, 5⟩]
            XC_UNPOLARIZED 1 3 (fun p : Nat => (p : Int)) (fun p : Nat => (p : Int))
            (fun _ => 0)).2 p
          = 4 * (LIBXC_eval_xc demo_library 2 (fun _ _ => 0) [⟨402, 1, 0⟩] XC_UNPOLARIZED 1 3
                (fun p : Nat => (p : Int)) (fun p : Nat => (p : Int)) (fun _ => 0)).2 p
            + 1 * (LIBXC_eval_xc demo_library 2 (fun _ _ => 0) [⟨402, 1, 5⟩] XC_UNPOLARIZED 1 3
                (fun p : Nat => (p : Int)) (fun p : Nat => (p : Int)) (fun _ => 0)).2 p :=
  have hfam : ∀ t ∈ [(⟨402, 4, 0⟩ : xc_term Int), ⟨402, 1, 5⟩],
      ∃ g, demo_library.xc_func_init t.fn_id XC_UNPOLARIZED = some g
        ∧ g.family = XC_FAMILY_HYB_GGA := by
    intro t ht
    simp only [List.mem_cons, List.mem_singleton, List.not_mem_nil, or_false] at ht
    rcases ht with rfl | rfl <;> exact ⟨_, rfl, rfl⟩
  ⟨hfam,
    (eval_xc_weighted_sum demo_library 2 (fun _ _ => 0) [⟨402, 4, 0⟩, ⟨402, 1, 5⟩]
      XC_UNPOLARIZED 1 3 (fun p : Nat => (p : Int)) (fun p : Nat => (p : Int))
      XC_FAMILY_HYB_GGA hfam).2.2 ⟨402, 4, 0⟩ ⟨402, 1, 5⟩ rfl⟩

end ClaimsAccumulate

section Builders

variable {α : Type}

/-- Closed form of the interleaving loop. -/
theorem build_interleaved_apply (np : Nat) (a b heap : Nat → α) (p : Nat) :
    build_interleaved np a b heap p
      = if p < np * 2 then (if p % 2 = 0 then a (p / 2) else b (p / 2)) else heap p := by
  unfold build_interleaved
  induction np with
  | zero => simp
  | succ n ih =>
    rw [List.range_succ, List.foldl_append]
    simp only [List.foldl_cons, List.foldl_nil, Function.update_apply]
    rw [ih]
    split_ifs
    all_goals first | rfl | (exfalso; omega) | (congr 1; omega)

/-- Closed form of the polarized `sigma` loop. -/
theorem build_sigma_polarized_apply [Add α] [Mul α] (np : Nat) (rho_u rho_d heap : Nat → α)
    (p : Nat) :
    build_sigma_polarized np rho_u rho_d heap p
      = if p < np * 3 then
          (if p % 3 = 0 then
            rho_u (np + p / 3) * rho_u (np + p / 3)
              + rho_u (np * 2 + p / 3) * rho_u (np * 2 + p / 3)
              + rho_u (np * 3 + p / 3) * rho_u (np * 3 + p / 3)
          else if p % 3 = 1 then
            rho_u (np + p / 3) * rho_d (np + p / 3)
              + rho_u (np * 2 + p / 3) * rho_d (np * 2 + p / 3)
              + rho_u (np * 3 + p / 3) * rho_d (np * 3 + p / 3)
          else
            rho_d (np + p / 3) * rho_d (np + p / 3)
              + rho_d (np * 2 + p / 3) * rho_d (np * 2 + p / 3)
              + rho_d (np * 3 + p / 3) * rho_d (np * 3 + p / 3))
        else heap p := by
  unfold build_sigma_polarized
  simp only [ptr_add]
  generalize np * 2 = n2
  generalize hn3 : np * 3 = n3
  have key : ∀ m, (List.range m).foldl
      (fun s i =>
        Function.update
          (Function.update
            (Function.update s (i * 3 + 0)
              (rho_u (np + i) * rho_u (np + i) + rho_u (n2 + i) * rho_u (n2 + i)
                + rho_u (n3 + i) * rho_u (n3 + i)))
            (i * 3 + 1)
            (rho_u (np + i) * rho_d (np + i) + rho_u (n2 + i) * rho_d (n2 + i)
              + rho_u (n3 + i) * rho_d (n3 + i)))
          (i * 3 + 2)
          (rho_d (np + i) * rho_d (np + i) + rho_d (n2 + i) * rho_d (n2 + i)
            + rho_d (n3 + i) * rho_d (n3 + i)))
      heap p
      = if p < m * 3 then
          (if p % 3 = 0 then
            rho_u (np + p / 3) * rho_u (np + p / 3) + rho_u (n2 + p / 3) * rho_u (n2 + p / 3)
              + rho_u (n3 + p / 3) * rho_u (n3 + p / 3)
          else if p % 3 = 1 then
            rho_u (np + p / 3) * rho_d (np + p / 3) + rho_u (n2 + p / 3) * rho_d (n2 + p / 3)
              + rho_u (n3 + p / 3) * rho_d (n3 + p / 3)
          else
            rho_d (np + p / 3) * rho_d (np + p / 3) + rho_d (n2 + p / 3) * rho_d (n2 + p / 3)
              + rho_d (n3 + p / 3) * rho_d (n3 + p / 3))
        else heap p := by
    intro m
    induction m with
    | zero => simp
    | succ n ih =>
      rw [List.range_succ, List.foldl_append]
      simp only [List.foldl_cons, List.foldl_nil, Function.update_apply]
      rw [ih]
      have hdiv : ∀ r, p = n * 3 + r → r < 3 → p / 3 = n := by intro r h1 h2; omega
      split_ifs
      all_goals first
        | rfl
        | (exfalso; omega)
        | (rw [hdiv 0 (by omega) (by omega)])
        | (rw [hdiv 1 (by omega) (by omega)])
        | (rw [hdiv 2 (by omega) (by omega)])
  have h := key np
  rw [hn3] at h
  exact h

/-- Closed form of the unpolarized `sigma` loop. -/
theorem build_sigma_unpolarized_apply [Add α] [Mul α] (np : Nat) (rho_u heap : Nat → α)
    (p : Nat) :
    build_sigma_unpolarized np rho_u heap p
      = if p < np then
          rho_u (np + p) * rho_u (np + p) + rho_u (np * 2 + p) * rho_u (np * 2 + p)
            + rho_u (np * 3 + p) * rho_u (np * 3 + p)
        else heap p := by
  unfold build_sigma_unpolarized
  simp only [ptr_add]
  generalize np * 2 = n2
  generalize np * 3 = n3
  have key : ∀ m, (List.range m).foldl
      (fun s i =>
        Function.update s i
          (rho_u (np + i) * rho_u (np + i) + rho_u (n2 + i) * rho_u (n2 + i)
            + rho_u (n3 + i) * rho_u (n3 + i)))
      heap p
      = if p < m then
          rho_u (np + p) * rho_u (np + p) + rho_u (n2 + p) * rho_u (n2 + p)
            + rho_u (n3 + p) * rho_u (n3 + p)
        else heap p := by
    intro m
    induction m with
    | zero => simp
    | succ n ih =>
      rw [List.range_succ, List.foldl_append]
      simp only [List.foldl_cons, List.foldl_nil, Function.update_apply]
      rw [ih]
      split_ifs
      all_goals first | rfl | (exfalso; omega) | (subst_vars; rfl)
  exact key np

end Builders

section BuilderLemmas

variable {α : Type}

theorem build_interleaved_even (np : Nat) (a b heap : Nat → α) (i : Nat) (hi : i < np) :
    build_interleaved np a b heap (2 * i) = a i := by
  rw [build_interleaved_apply, if_pos (by omega), if_pos (by omega)]
  congr 1
  omega

theorem build_interleaved_odd (np : Nat) (a b heap : Nat → α) (i : Nat) (hi : i < np) :
    build_interleaved np a b heap (2 * i + 1) = b i := by
  rw [build_interleaved_apply, if_pos (by omega), if_neg (by omega)]
  congr 1
  omega

theorem build_sigma_polarized_uu [Add α] [Mul α] (np : Nat) (rho_u rho_d heap : Nat → α)
    (i : Nat) (hi : i < np) :
    build_sigma_polarized np rho_u rho_d heap (3 * i)
      = rho_u (np + i) * rho_u (np + i) + rho_u (2 * np + i) * rho_u (2 * np + i)
        + rho_u (3 * np + i) * rho_u (3 * np + i) := by
  rw [build_sigma_polarized_apply, if_pos (by omega), if_pos (by omega),
    show 3 * i / 3 = i by omega, Nat.mul_comm np 2, Nat.mul_comm np 3]

theorem build_sigma_polarized_ud [Add α] [Mul α] (np : Nat) (rho_u rho_d heap : Nat → α)
    (i : Nat) (hi : i < np) :
    build_sigma_polarized np rho_u rho_d heap (3 * i + 1)
      = rho_u (np + i) * rho_d (np + i) + rho_u (2 * np + i) * rho_d (2 * np + i)
        + rho_u (3 * np + i) * rho_d (3 * np + i) := by
  rw [build_sigma_polarized_apply, if_pos (by omega), if_neg (by omega), if_pos (by omega),
    show (3 * i + 1) / 3 = i by omega, Nat.mul_comm np 2, Nat.mul_comm np 3]

theorem build_sigma_polarized_dd [Add α] [Mul α] (np : Nat) (rho_u rho_d heap : Nat → α)
    (i : Nat) (hi : i < np) :
    build_sigma_polarized np rho_u rho_d heap (3 * i + 2)
      = rho_d (np + i) * rho_d (np + i) + rho_d (2 * np + i) * rho_d (2 * np + i)
        + rho_d (3 * np + i) * rho_d (3 * np + i) := by
  rw [build_sigma_polarized_apply, if_pos (by omega), if_neg (by omega), if_neg (by omega),
    show (3 * i + 2) / 3 = i by omega, Nat.mul_comm np 2, Nat.mul_comm np 3]

theorem build_sigma_unpolarized_uu [Add α] [Mul α] (np : Nat) (rho_u heap : Nat → α)
    (i : Nat) (hi : i < np) :
    build_sigma_unpolarized np rho_u heap i
      = rho_u (np + i) * rho_u (np + i) + rho_u (2 * np + i) * rho_u (2 * np + i)
        + rho_u (3 * np + i) * rho_u (3 * np + i) := by
  rw [build_sigma_unpolarized_apply, if_pos hi, Nat.mul_comm np 2, Nat.mul_comm np 3]

theorem ptr_add_mul (view : Nat → α) (np c i : Nat) :
    ptr_add view (np * c) i = view (c * np + i) := by
  unfold ptr_add
  rw [Nat.mul_comm]

end BuilderLemmas

section ClaimsBuilders

variable {α : Type}

/-- C21: `_eval_xc_gga` and `_eval_xc_mgga` hand to the kernels the arrays `rho`, `sigma`
(and `lapl`, `tau`) of the variable builders.  In polarized mode, for every point `i < np`:
`rho[2i] = rho_u[i]`, `rho[2i+1] = rho_d[i]`, `sigma[3i] = gu(i).gu(i)`,
`sigma[3i+1] = gu(i).gd(i)`, `sigma[3i+2] = gd(i).gd(i)` with
`gu(i) = (rho_u[np+i], rho_u[2np+i], rho_u[3np+i])` and `gd` likewise from `rho_d`, and for
the meta-GGA builder `lapl[2i] = rho_u[4np+i]`, `lapl[2i+1] = rho_d[4np+i]`,
`tau[2i] = rho_u[5np+i]`, `tau[2i+1] = rho_d[5np+i]`.  In unpolarized mode `rho` is `rho_u` and
`sigma[i] = gu(i).gu(i)`.  The two builders produce the same `rho` and `sigma`. -/
theorem builders_closed_form [Add α] [Mul α] (lib : xc_library α) (nthreads : Nat)
    (heap : Nat → Nat → α) (func_x : xc_func_type α) (spin : Int) (np : Nat)
    (rho_u rho_d : Nat → α) (b : xc_bufs α) :
    (_eval_xc_gga lib nthreads heap func_x spin np rho_u rho_d b
        = chunked nthreads np
            (gga_call lib func_x (gga_seg spin) (gga_vseg spin) (gga_fseg spin) (gga_kseg spin)
              np (gga_rho heap spin np rho_u rho_d) (gga_sigma heap spin np rho_u rho_d)) b)
      ∧ (_eval_xc_mgga lib nthreads heap func_x spin np rho_u rho_d b
        = chunked nthreads np
            (mgga_call lib func_x (mgga_seg spin) (mgga_vseg spin) (mgga_fseg spin) np
              (mgga_rho heap spin np rho_u rho_d) (mgga_sigma heap spin np rho_u rho_d)
              (mgga_lapl func_x heap spin np rho_u rho_d)
              (mgga_tau func_x heap spin np rho_u rho_d)) b)
      ∧ (spin = XC_POLARIZED → ∀ i, i < np →
          gga_rho heap spin np rho_u rho_d (2 * i) = rho_u i
          ∧ gga_rho heap spin np rho_u rho_d (2 * i + 1) = rho_d i
          ∧ gga_sigma heap spin np rho_u rho_d (3 * i)
              = rho_u (np + i) * rho_u (np + i) + rho_u (2 * np + i) * rho_u (2 * np + i)
                + rho_u (3 * np + i) * rho_u (3 * np + i)
          ∧ gga_sigma heap spin np rho_u rho_d (3 * i + 1)
              = rho_u (np + i) * rho_d (np + i) + rho_u (2 * np + i) * rho_d (2 * np + i)
                + rho_u (3 * np + i) * rho_d (3 * np + i)
          ∧ gga_sigma heap spin np rho_u rho_d (3 * i + 2)
              = rho_d (np + i) * rho_d (np + i) + rho_d (2 * np + i) * rho_d (2 * np + i)
                + rho_d (3 * np + i) * rho_d (3 * np + i)
          ∧ mgga_lapl func_x heap spin np rho_u rho_d (2 * i) = rho_u (4 * np + i)
          ∧ mgga_lapl func_x heap spin np rho_u rho_d (2 * i + 1) = rho_d (4 * np + i)
          ∧ mgga_tau func_x heap spin np rho_u rho_d (2 * i) = rho_u (5 * np + i)
          ∧ mgga_tau func_x heap spin np rho_u rho_d (2 * i + 1) = rho_d (5 * np + i))
      ∧ (spin ≠ XC_POLARIZED →
          gga_rho heap spin np rho_u rho_d = rho_u
          ∧ (∀ i, i < np →
              gga_sigma heap spin np rho_u rho_d i
                = rho_u (np + i) * rho_u (np + i) + rho_u (2 * np + i) * rho_u (2 * np + i)
                  + rho_u (3 * np + i) * rho_u (3 * np + i))
          ∧ (∀ i, mgga_lapl func_x heap spin np rho_u rho_d i = rho_u (4 * np + i))
          ∧ (∀ i, mgga_tau func_x heap spin np rho_u rho_d i = rho_u (5 * np + i)))
      ∧ mgga_rho heap spin np rho_u rho_d = gga_rho heap spin np rho_u rho_d
      ∧ mgga_sigma heap spin np rho_u rho_d = gga_sigma heap spin np rho_u rho_d := by
  refine ⟨rfl, rfl, ?_, ?_, rfl, rfl⟩
  · intro hs i hi
    simp only [gga_rho, gga_sigma, mgga_lapl, mgga_tau, if_pos hs]
    refine ⟨build_interleaved_even _ _ _ _ i hi, build_interleaved_odd _ _ _ _ i hi,
      build_sigma_polarized_uu _ _ _ _ i hi, build_sigma_polarized_ud _ _ _ _ i hi,
      build_sigma_polarized_dd _ _ _ _ i hi, ?_, ?_, ?_, ?_⟩
    · rw [build_interleaved_even _ _ _ _ i hi, ptr_add_mul]
    · rw [build_interleaved_odd _ _ _ _ i hi, ptr_add_mul]
    · rw [build_interleaved_even _ _ _ _ i hi, ptr_add_mul]
    · rw [build_interleaved_odd _ _ _ _ i hi, ptr_add_mul]
  · intro hs
    simp only [gga_rho, gga_sigma, mgga_lapl, mgga_tau, if_neg hs]
    exact ⟨trivial, fun i hi => build_sigma_unpolarized_uu _ _ _ i hi,
      fun i => ptr_add_mul _ _ _ _, fun i => ptr_add_mul _ _ _ _⟩

/-- The statement of `builders_closed_form` in polarized mode for two points of the record
`rho_u[p] = p`, `rho_d[p] = 100 + p`, at point `1`. -/
theorem builders_closed_form_witness :
    gga_rho (fun _ _ => (0 : Int)) XC_POLARIZED 2 (fun p : Nat => (p : Int))
        (fun p : Nat => (100 + p : Int)) (2 * 1) = 1
      ∧ gga_rho (fun _ _ => (0 : Int)) XC_POLARIZED 2 (fun p : Nat => (p : Int))
        (fun p : Nat => (100 + p : Int)) (2 * 1 + 1) = 101
      ∧ gga_sigma (fun _ _ => (0 : Int)) XC_POLARIZED 2 (fun p : Nat => (p : Int))
        (fun p : Nat => (100 + p : Int)) (3 * 1) = 3 * 3 + 5 * 5 + 7 * 7 :=
  have h := (builders_closed_form demo_library 1 (fun _ _ => (0 : Int))
    (.mk 202 XC_FAMILY_MGGA 0 XC_POLARIZED 0 []) XC_POLARIZED 2 (fun p : Nat => (p : Int))
    (fun p : Nat => (100 + p : Int)) ⟨fun _ => 0, none, none, none⟩).2.2.1 rfl 1 (by decide)
  ⟨h.1, h.2.1, h.2.2.1⟩

/-- C29: over an ordered field, for every record and every point `i < np`, the polarized
`sigma` of the GGA and meta-GGA builders satisfies `sigma[3i] ≥ 0`, `sigma[3i+2] ≥ 0` and
`sigma[3i+1]^2 ≤ sigma[3i] * sigma[3i+2]`; swapping `rho_u` and `rho_d` swaps `sigma[3i]` with
`sigma[3i+2]` and leaves `sigma[3i+1]` unchanged; and the unpolarized `sigma[i]` is the
polarized `sigma[3i]` of the same `rho_u`. -/
theorem sigma_cauchy_schwarz [LinearOrderedField α] (heap : Nat → Nat → α) (np : Nat)
    (rho_u rho_d : Nat → α) (i : Nat) (hi : i < np) :
    0 ≤ gga_sigma heap XC_POLARIZED np rho_u rho_d (3 * i)
      ∧ 0 ≤ gga_sigma heap XC_POLARIZED np rho_u rho_d (3 * i + 2)
      ∧ gga_sigma heap XC_POLARIZED np rho_u rho_d (3 * i + 1) ^ 2
          ≤ gga_sigma heap XC_POLARIZED np rho_u rho_d (3 * i)
            * gga_sigma heap XC_POLARIZED np rho_u rho_d (3 * i + 2)
      ∧ gga_sigma heap XC_POLARIZED np rho_d rho_u (3 * i)
          = gga_sigma heap XC_POLARIZED np rho_u rho_d (3 * i + 2)
      ∧ gga_sigma heap XC_POLARIZED np rho_d rho_u (3 * i + 2)
          = gga_sigma heap XC_POLARIZED np rho_u rho_d (3 * i)
      ∧ gga_sigma heap XC_POLARIZED np rho_d rho_u (3 * i + 1)
          = gga_sigma heap XC_POLARIZED np rho_u rho_d (3 * i + 1)
      ∧ gga_sigma heap XC_UNPOLARIZED np rho_u rho_d i
          = gga_sigma heap XC_POLARIZED np rho_u rho_d (3 * i)
      ∧ mgga_sigma heap XC_POLARIZED np rho_u rho_d = gga_sigma heap XC_POLARIZED np rho_u rho_d
      ∧ mgga_sigma heap XC_UNPOLARIZED np rho_u rho_d
          = gga_sigma heap XC_UNPOLARIZED np rho_u rho_d := by
  have hne : ¬ XC_UNPOLARIZED = XC_POLARIZED := by decide
  simp only [gga_sigma, if_true, if_neg hne, build_sigma_polarized_uu _ _ _ _ i hi,
    build_sigma_polarized_ud _ _ _ _ i hi, build_sigma_polarized_dd _ _ _ _ i hi,
    build_sigma_unpolarized_uu _ _ _ i hi]
  generalize rho_u (np + i) = a1
  generalize rho_u (2 * np + i) = a2
  generalize rho_u (3 * np + i) = a3
  generalize rho_d (np + i) = b1
  generalize rho_d (2 * np + i) = b2
  generalize rho_d (3 * np + i) = b3
  refine ⟨?_, ?_, ?_, ?_, ?_, ?_, ?_, ?_, ?_⟩
  · nlinarith [mul_self_nonneg a1, mul_self_nonneg a2, mul_self_nonneg a3]
  · nlinarith [mul_self_nonneg b1, mul_self_nonneg b2, mul_self_nonneg b3]
  · nlinarith [sq_nonneg (a1 * b2 - a2 * b1), sq_nonneg (a1 * b3 - a3 * b1),
      sq_nonneg (a2 * b3 - a3 * b2)]
  all_goals first | trivial | rfl | ring

/-- The statement of `sigma_cauchy_schwarz` over the rationals for two points of the record
`rho_u[p] = p`, `rho_d[p] = 1 - p`, at point `1`. -/
theorem sigma_cauchy_schwarz_witness :
    0 ≤ gga_sigma (fun _ _ => (0 : ℚ)) XC_POLARIZED 2 (fun p : Nat => (p : ℚ))
        (fun p : Nat => (1 - p : ℚ)) (3 * 1)
      ∧ gga_sigma (fun _ _ => (0 : ℚ)) XC_POLARIZED 2 (fun p : Nat => (p : ℚ))
          (fun p : Nat => (1 - p : ℚ)) (3 * 1 + 1) ^ 2
        ≤ gga_sigma (fun _ _ => (0 : ℚ)) XC_POLARIZED 2 (fun p : Nat => (p : ℚ))
            (fun p : Nat => (1 - p : ℚ)) (3 * 1)
          * gga_sigma (fun _ _ => (0 : ℚ)) XC_POLARIZED 2 (fun p : Nat => (p : ℚ))
            (fun p : Nat => (1 - p : ℚ)) (3 * 1 + 2) :=
  have h := sigma_cauchy_schwarz (fun _ _ => (0 : ℚ)) 2 (fun p : Nat => (p : ℚ))
    (fun p : Nat => (1 - p : ℚ)) 1 (by decide)
  ⟨h.1, h.2.2.1⟩

end ClaimsBuilders

section ClaimsTrailingSlots

variable {α : Type}

/-- C22 (as stated, refuted): for the polarized meta-GGA functional `202` of the sample library,
whose flags are `0`, and one point, two records that agree in the density and gradient slots
(indices `0..3`) and differ in the Laplacian slot (index `4`) and the kinetic slot (index `5`)
give different arrays `lapl` and `tau`, also in unpolarized mode, and a different output of
`LIBXC_eval_xc`: the builder reads the trailing slots. -/
theorem mgga_builder_reads_trailing_slots :
    (xc_func_type.mk 202 XC_FAMILY_MGGA 0 XC_POLARIZED (0 : Int) []).flags = 0
      ∧ (∀ p, p < 4 * 1 → (fun q : Nat => if q = 4 ∨ q = 5 then (7 : Int) else 0) p
          = (fun _ : Nat => (0 : Int)) p)
      ∧ mgga_lapl (.mk 202 XC_FAMILY_MGGA 0 XC_POLARIZED (0 : Int) []) (fun _ _ => 0) XC_POLARIZED 1
          (fun q : Nat => if q = 4 ∨ q = 5 then (7 : Int) else 0) (fun _ => 0) 0 = 7
      ∧ mgga_lapl (.mk 202 XC_FAMILY_MGGA 0 XC_POLARIZED (0 : Int) []) (fun _ _ => 0) XC_POLARIZED 1
          (fun _ => 0) (fun _ => 0) 0 = 0
      ∧ mgga_tau (.mk 202 XC_FAMILY_MGGA 0 XC_POLARIZED (0 : Int) []) (fun _ _ => 0) XC_POLARIZED 1
          (fun q : Nat => if q = 4 ∨ q = 5 then (7 : Int) else 0) (fun _ => 0) 0 = 7
      ∧ mgga_tau (.mk 202 XC_FAMILY_MGGA 0 XC_POLARIZED (0 : Int) []) (fun _ _ => 0) XC_POLARIZED 1
          (fun _ => 0) (fun _ => 0) 0 = 0
      ∧ mgga_lapl (.mk 202 XC_FAMILY_MGGA 0 XC_UNPOLARIZED (0 : Int) []) (fun _ _ => 0)
          XC_UNPOLARIZED 1 (fun q : Nat => if q = 4 ∨ q = 5 then (7 : Int) else 0) (fun _ => 0) 0
          = 7
      ∧ mgga_lapl (.mk 202 XC_FAMILY_MGGA 0 XC_UNPOLARIZED (0 : Int) []) (fun _ _ => 0)
          XC_UNPOLARIZED 1 (fun _ => 0) (fun _ => 0) 0 = 0
      ∧ (LIBXC_eval_xc demo_library 1 (fun _ _ => 0) [⟨202, 1, 0⟩] XC_POLARIZED 0 1
          (fun q : Nat => if q = 4 ∨ q = 5 then (7 : Int) else 0) (fun _ => 0) (fun _ => 0)).2 0
          = 14
      ∧ (LIBXC_eval_xc demo_library 1 (fun _ _ => 0) [⟨202, 1, 0⟩] XC_POLARIZED 0 1
          (fun _ => 0) (fun _ => 0) (fun _ => 0)).2 0 = 0 := by
  refine ⟨rfl, ?_, by decide, by decide, by decide, by decide, by decide, by decide, by decide,
    by decide⟩
  intro p hp
  have h4 : ¬ (p = 4 ∨ p = 5) := by omega
  simp only [if_neg h4]

/-- C22 (amended): for every meta-GGA functional, whatever its flags, and in both spin modes,
the arrays `rho` and `sigma` that `_eval_xc_mgga` builds are taken from the density and
gradient slots only: two records that agree below index `4 * np` give the same `rho` and
`sigma` at every point.  The arrays `lapl` and `tau` are always taken from the Laplacian and
kinetic slots: in polarized mode `lapl[2i] = rho_u[4np+i]`, `lapl[2i+1] = rho_d[4np+i]`,
`tau[2i] = rho_u[5np+i]`, `tau[2i+1] = rho_d[5np+i]`, in unpolarized mode
`lapl = rho_u + 4 * np` and `tau = rho_u + 5 * np`. -/
theorem mgga_builder_slots [Add α] [Mul α] (func_x : xc_func_type α) (heap : Nat → Nat → α)
    (spin : Int) (np : Nat) (rho_u rho_d rho_u2 rho_d2 : Nat → α)
    (hu : ∀ p, p < 4 * np → rho_u p = rho_u2 p) (hd : ∀ p, p < 4 * np → rho_d p = rho_d2 p) :
    (spin = XC_POLARIZED → ∀ i, i < np →
        (mgga_rho heap spin np rho_u rho_d (2 * i) = mgga_rho heap spin np rho_u2 rho_d2 (2 * i)
          ∧ mgga_rho heap spin np rho_u rho_d (2 * i + 1)
              = mgga_rho heap spin np rho_u2 rho_d2 (2 * i + 1)
          ∧ mgga_sigma heap spin np rho_u rho_d (3 * i)
              = mgga_sigma heap spin np rho_u2 rho_d2 (3 * i)
          ∧ mgga_sigma heap spin np rho_u rho_d (3 * i + 1)
              = mgga_sigma heap spin np rho_u2 rho_d2 (3 * i + 1)
          ∧ mgga_sigma heap spin np rho_u rho_d (3 * i + 2)
              = mgga_sigma heap spin np rho_u2 rho_d2 (3 * i + 2))
        ∧ mgga_lapl func_x heap spin np rho_u rho_d (2 * i) = rho_u (4 * np + i)
        ∧ mgga_lapl func_x heap spin np rho_u rho_d (2 * i + 1) = rho_d (4 * np + i)
        ∧ mgga_tau func_x heap spin np rho_u rho_d (2 * i) = rho_u (5 * np + i)
        ∧ mgga_tau func_x heap spin np rho_u rho_d (2 * i + 1) = rho_d (5 * np + i))
      ∧ (spin ≠ XC_POLARIZED →
          (∀ i, i < np →
            mgga_rho heap spin np rho_u rho_d i = mgga_rho heap spin np rho_u2 rho_d2 i
            ∧ mgga_sigma heap spin np rho_u rho_d i = mgga_sigma heap spin np rho_u2 rho_d2 i)
          ∧ (∀ i, mgga_lapl func_x heap spin np rho_u rho_d i = rho_u (4 * np + i))
          ∧ (∀ i, mgga_tau func_x heap spin np rho_u rho_d i = rho_u (5 * np + i))) := by
  constructor
  · intro hs i hi
    simp only [mgga_rho, mgga_sigma, mgga_lapl, mgga_tau, if_pos hs]
    rw [build_interleaved_even _ _ _ _ i hi, build_interleaved_even _ _ _ _ i hi,
      build_interleaved_odd _ _ _ _ i hi, build_interleaved_odd _ _ _ _ i hi,
      build_sigma_polarized_uu _ _ _ _ i hi, build_sigma_polarized_uu _ _ _ _ i hi,
      build_sigma_polarized_ud _ _ _ _ i hi, build_sigma_polarized_ud _ _ _ _ i hi,
      build_sigma_polarized_dd _ _ _ _ i hi, build_sigma_polarized_dd _ _ _ _ i hi,
      build_interleaved_even _ _ _ _ i hi, build_interleaved_odd _ _ _ _ i hi,
      build_interleaved_even _ _ _ _ i hi, build_interleaved_odd _ _ _ _ i hi]
    rw [hu i (by omega), hd i (by omega), hu (np + i) (by omega), hu (2 * np + i) (by omega),
      hu (3 * np + i) (by omega), hd (np + i) (by omega), hd (2 * np + i) (by omega),
      hd (3 * np + i) (by omega)]
    exact ⟨⟨rfl, rfl, rfl, rfl, rfl⟩, ptr_add_mul _ _ _ _, ptr_add_mul _ _ _ _,
      ptr_add_mul _ _ _ _, ptr_add_mul _ _ _ _⟩
  · intro hs
    simp only [mgga_rho, mgga_sigma, mgga_lapl, mgga_tau, if_neg hs]
    refine ⟨fun i hi => ⟨hu i (by omega), ?_⟩, fun i => ptr_add_mul _ _ _ _,
      fun i => ptr_add_mul _ _ _ _⟩
    rw [build_sigma_unpolarized_uu _ _ _ i hi, build_sigma_unpolarized_uu _ _ _ i hi,
      hu (np + i) (by omega), hu (2 * np + i) (by omega), hu (3 * np + i) (by omega)]

/-- The statement of `mgga_builder_slots` for the two one-point records of the refutation: they
give the same `rho` at point `0`, and `lapl[0]` is slot `4` of `rho_u`. -/
theorem mgga_builder_slots_witness :
    mgga_rho (fun _ _ => (0 : Int)) XC_POLARIZED 1
        (fun q : Nat => if q = 4 ∨ q = 5 then (7 : Int) else 0) (fun _ => 0) (2 * 0)
      = mgga_rho (fun _ _ => (0 : Int)) XC_POLARIZED 1 (fun _ => 0) (fun _ => 0) (2 * 0)
      ∧ mgga_lapl (.mk 202 XC_FAMILY_MGGA 0 XC_POLARIZED (0 : Int) []) (fun _ _ => 0)
          XC_POLARIZED 1 (fun q : Nat => if q = 4 ∨ q = 5 then (7 : Int) else 0) (fun _ => 0)
          (2 * 0)
        = (fun q : Nat => if q = 4 ∨ q = 5 then (7 : Int) else 0) (4 * 1 + 0) :=
  have h := (mgga_builder_slots (.mk 202 XC_FAMILY_MGGA 0 XC_POLARIZED (0 : Int) [])
    (fun _ _ => (0 : Int)) XC_POLARIZED 1
    (fun q : Nat => if q = 4 ∨ q = 5 then (7 : Int) else 0) (fun _ => 0) (fun _ => 0)
    (fun _ => 0)
    (fun p hp => by
      have h4 : ¬ (p = 4 ∨ p = 5) := by omega
      simp only [if_neg h4])
    (fun _ _ => rfl)).1 rfl 0 (by decide)
  ⟨h.1.1, h.2.1⟩

end ClaimsTrailingSlots

section OmegaBasics

variable {α : Type}

theorem func_aux_mk (n f fl sp : Int) (om : α) (aux : List (xc_func_type α)) :
    (xc_func_type.mk n f fl sp om aux).func_aux = aux := rfl

end OmegaBasics

section OmegaLemmas

variable {α : Type} [Zero α] [DecidableEq α]

/-- The range-separation step with a non-zero override, field by field. -/
theorem set_omega_ne_zero (n f fl sp : Int) (om : α) (aux : List (xc_func_type α)) (w : α)
    (hw : w ≠ 0) :
    set_omega (.mk n f fl sp om aux) w
      = .mk n f fl sp (if om ≠ 0 then w else om)
          (aux.map fun a => if a.cam_omega ≠ 0 then a.set_cam_omega w else a) := by
  unfold set_omega
  rw [if_pos hw]
  by_cases h : om ≠ 0
  · simp only [xc_func_type.cam_omega, if_pos h, xc_func_type.set_cam_omega,
      xc_func_type.set_func_aux, xc_func_type.func_aux]
  · simp only [xc_func_type.cam_omega, if_neg h, xc_func_type.set_func_aux,
      xc_func_type.func_aux]

theorem set_omega_zero (func : xc_func_type α) : set_omega func 0 = func := by
  unfold set_omega
  rw [if_neg (by simp)]

/-- The update of one auxiliary, applied twice, is the update applied once. -/
theorem aux_update_twice (w : α) (hw : w ≠ 0) (a : xc_func_type α) :
    (fun a : xc_func_type α => if a.cam_omega ≠ 0 then a.set_cam_omega w else a)
        ((fun a : xc_func_type α => if a.cam_omega ≠ 0 then a.set_cam_omega w else a) a)
      = (fun a : xc_func_type α => if a.cam_omega ≠ 0 then a.set_cam_omega w else a) a := by
  obtain ⟨n, f, fl, sp, om, aux⟩ := a
  by_cases h : om ≠ 0
  · simp only [xc_func_type.cam_omega, if_pos h, xc_func_type.set_cam_omega, if_pos hw]
  · simp only [xc_func_type.cam_omega, if_neg h]

/-- The update of one auxiliary, field by field. -/
theorem aux_update_fields (w : α) (a : xc_func_type α) :
    (if a.cam_omega ≠ 0 then a.set_cam_omega w else a).cam_omega
        = (if a.cam_omega ≠ 0 then w else 0)
      ∧ (if a.cam_omega ≠ 0 then a.set_cam_omega w else a).number = a.number
      ∧ (if a.cam_omega ≠ 0 then a.set_cam_omega w else a).family = a.family
      ∧ (if a.cam_omega ≠ 0 then a.set_cam_omega w else a).flags = a.flags
      ∧ (if a.cam_omega ≠ 0 then a.set_cam_omega w else a).nspin = a.nspin
      ∧ (if a.cam_omega ≠ 0 then a.set_cam_omega w else a).func_aux = a.func_aux := by
  obtain ⟨n, f, fl, sp, om, aux⟩ := a
  by_cases h : om ≠ 0
  · simp only [xc_func_type.cam_omega, if_pos h, xc_func_type.set_cam_omega,
      xc_func_type.number, xc_func_type.family, xc_func_type.flags, xc_func_type.nspin,
      xc_func_type.func_aux, and_self]
  · simp only [xc_func_type.cam_omega, if_neg h, xc_func_type.number,
      xc_func_type.family, xc_func_type.flags, xc_func_type.nspin,
      xc_func_type.func_aux, and_self, and_true]
    exact not_not.mp h

end OmegaLemmas

section ClaimsOmega

variable {α : Type}

/-- C23: the range-separation step of `LIBXC_eval_xc` leaves the functional unchanged when the
override `w` is `0`.  When `w ≠ 0` the top-level `cam_omega` becomes `w` if it was non-zero and
stays `0` otherwise, and, whatever the top-level value, the auxiliary list keeps its length
and each auxiliary of the list gets `cam_omega = w` if its own value was non-zero and keeps
`0` otherwise.  The fields `number`, `family`, `flags`, `nspin` of the functional and of each
auxiliary of its list, and the auxiliaries of each auxiliary, are unchanged, and applying the
step twice with the same `w` is applying it once. -/
theorem set_omega_spec [Zero α] [DecidableEq α] (func : xc_func_type α) (w : α) :
    (w = 0 → set_omega func w = func)
      ∧ (w ≠ 0 →
          (set_omega func w).cam_omega = (if func.cam_omega ≠ 0 then w else 0)
          ∧ (set_omega func w).func_aux.length = func.func_aux.length
          ∧ ∀ j (hj : j < func.func_aux.length) (hj2 : j < (set_omega func w).func_aux.length),
              ((set_omega func w).func_aux.get ⟨j, hj2⟩).cam_omega
                  = (if (func.func_aux.get ⟨j, hj⟩).cam_omega ≠ 0 then w else 0)
                ∧ ((set_omega func w).func_aux.get ⟨j, hj2⟩).number
                    = (func.func_aux.get ⟨j, hj⟩).number
                ∧ ((set_omega func w).func_aux.get ⟨j, hj2⟩).family
                    = (func.func_aux.get ⟨j, hj⟩).family
                ∧ ((set_omega func w).func_aux.get ⟨j, hj2⟩).flags
                    = (func.func_aux.get ⟨j, hj⟩).flags
                ∧ ((set_omega func w).func_aux.get ⟨j, hj2⟩).nspin
                    = (func.func_aux.get ⟨j, hj⟩).nspin
                ∧ ((set_omega func w).func_aux.get ⟨j, hj2⟩).func_aux
                    = (func.func_aux.get ⟨j, hj⟩).func_aux)
      ∧ ((set_omega func w).number = func.number ∧ (set_omega func w).family = func.family
          ∧ (set_omega func w).flags = func.flags ∧ (set_omega func w).nspin = func.nspin)
      ∧ set_omega (set_omega func w) w = set_omega func w := by
  by_cases hw : w = 0
  · subst hw
    refine ⟨fun _ => set_omega_zero func, fun h => absurd rfl h, ?_, ?_⟩
    · rw [set_omega_zero]
      exact ⟨rfl, rfl, rfl, rfl⟩
    · rw [set_omega_zero]
  · obtain ⟨n, f, fl, sp, om, aux⟩ := func
    have hw2 : w ≠ 0 := hw
    refine ⟨fun h => absurd h hw, fun _ => ?_, ?_, ?_⟩
    · rw [set_omega_ne_zero n f fl sp om aux w hw2]
      refine ⟨?_, ?_, ?_⟩
      · simp only [xc_func_type.cam_omega]
        by_cases h : om ≠ 0
        · rw [if_pos h, if_pos h]
        · rw [if_neg h, if_neg h]
          exact not_not.mp h
      · simp only [xc_func_type.func_aux, List.length_map]
      · intro j hj hj2
        simp only [func_aux_mk, List.get_eq_getElem, List.getElem_map]
        exact aux_update_fields w _
    · rw [set_omega_ne_zero n f fl sp om aux w hw2]
      exact ⟨rfl, rfl, rfl, rfl⟩
    · rw [set_omega_ne_zero n f fl sp om aux w hw2, set_omega_ne_zero _ _ _ _ _ _ w hw2,
        List.map_map]
      congr 1
      · by_cases h : om ≠ 0
        · rw [if_pos h, if_pos hw2]
        · rw [if_neg h, if_neg h]
      · apply List.map_congr_left
        intro a _
        exact aux_update_twice w hw2 a

/-- The statement of `set_omega_spec` for the range-separated hybrid `402` of the sample
library (top-level `cam_omega = 3`) and the override `5`. -/
theorem set_omega_spec_witness :
    (set_omega (xc_func_type.mk 402 XC_FAMILY_HYB_GGA 0 1 (3 : Int)
        [.mk 0 XC_FAMILY_GGA 0 1 3 []]) 5).cam_omega
      = (if (xc_func_type.mk 402 XC_FAMILY_HYB_GGA 0 1 (3 : Int)
          [.mk 0 XC_FAMILY_GGA 0 1 3 []]).cam_omega ≠ 0 then 5 else 0) :=
  ((set_omega_spec (xc_func_type.mk 402 XC_FAMILY_HYB_GGA 0 1 (3 : Int)
    [.mk 0 XC_FAMILY_GGA 0 1 3 []]) 5).2.1 (by decide)).1

/-- C24 (the code at the failing input): for a functional with `cam_omega = 3` whose only
auxiliary (`cam_omega = 3`) has itself one auxiliary with `cam_omega = 3`, the
range-separation step with override `5` sets the top-level value and the value of the
auxiliary to `5` and leaves the value of the auxiliary of the auxiliary at `3`. -/
theorem set_omega_depth_two :
    (set_omega (xc_func_type.mk 402 XC_FAMILY_HYB_GGA 0 1 (3 : Int)
        [.mk 10 XC_FAMILY_GGA 0 1 3 [.mk 11 XC_FAMILY_GGA 0 1 3 []]]) 5).cam_omega = 5
      ∧ (set_omega (xc_func_type.mk 402 XC_FAMILY_HYB_GGA 0 1 (3 : Int)
          [.mk 10 XC_FAMILY_GGA 0 1 3 [.mk 11 XC_FAMILY_GGA 0 1 3 []]]) 5).func_aux.map
            (fun a => a.cam_omega) = [5]
      ∧ (set_omega (xc_func_type.mk 402 XC_FAMILY_HYB_GGA 0 1 (3 : Int)
          [.mk 10 XC_FAMILY_GGA 0 1 3 [.mk 11 XC_FAMILY_GGA 0 1 3 []]]) 5).func_aux.map
            (fun a => a.func_aux.map fun c => c.cam_omega) = [[3]] := by
  decide

end ClaimsOmega

section OutputLengthExact

/-- The running value of the loop of `xc_output_length` after `i` of its `nvar` steps is the
result of the loop with `i` steps. -/
theorem xc_output_length_running (nvar deriv i : Nat) (hi : i ≤ nvar) :
    ((List.range ((nvar : Int).toNat)).take i).foldl
        (fun (len : Int) (k : Nat) =>
          (len * ((deriv : Int) + ((k : Int) + 1))).tdiv ((k : Int) + 1)) 1
      = xc_output_length i deriv := by
  unfold xc_output_length
  rw [Int.toNat_ofNat, Int.toNat_ofNat, List.take_range, Nat.min_eq_left hi]

/-- The product formed in step `i + 1` of the loop is a multiple of `i + 1`. -/
theorem xc_output_length_step_dvd (deriv i : Nat) :
    (((i + 1 : Nat) : Int)) ∣ xc_output_length i deriv * ((deriv : Int) + ((i : Int) + 1)) := by
  rw [xc_output_length_choose]
  have h := Nat.succ_mul_choose_eq (deriv + i) i
  refine ⟨((deriv + i + 1).choose (i + 1) : Int), ?_⟩
  have h2 : (((deriv + i).choose i : Nat) : Int) * ((deriv : Int) + ((i : Int) + 1))
      = (((deriv + i).succ * (deriv + i).choose i : Nat) : Int) := by
    push_cast
    ring
  rw [h2, h]
  push_cast
  ring

/-- For at most `9` variables and order at most `3`, the products of the loop are at most
`1980`. -/
theorem xc_output_length_step_le (deriv i : Nat) (hi : i < 9) (hd : deriv ≤ 3) :
    0 ≤ xc_output_length i deriv * ((deriv : Int) + ((i : Int) + 1))
      ∧ xc_output_length i deriv * ((deriv : Int) + ((i : Int) + 1)) ≤ 1980 := by
  interval_cases i <;> interval_cases deriv <;> decide

end OutputLengthExact

section ClaimsOutputLengthExact

/-- C26: in `xc_output_length`, for every `nvar ≥ 0` and `deriv ≥ 0`, the running value after
step `i` (`i ≤ nvar`) is `C(deriv+i, i)`, the product `len * (deriv + i)` formed in step `i`
is a multiple of `i`, so the division `len /= i` is exact, and the result is
`C(nvar+deriv, nvar)`; for `nvar ≤ 9` and `deriv ≤ 3` every product lies in `0..1980`, the
value `1980` being reached in step `9` with `deriv = 3`, and the 32-bit computation gives the
same result. -/
theorem xc_output_length_exact (nvar deriv : Nat) :
    (∀ i, i ≤ nvar →
        ((List.range ((nvar : Int).toNat)).take i).foldl
            (fun (len : Int) (k : Nat) =>
              (len * ((deriv : Int) + ((k : Int) + 1))).tdiv ((k : Int) + 1)) 1
          = (((deriv + i).choose i : Nat) : Int))
      ∧ (∀ i, i < nvar →
          (((i + 1 : Nat) : Int))
              ∣ (((deriv + i).choose i : Nat) : Int) * ((deriv : Int) + ((i : Int) + 1))
          ∧ ((((deriv + i).choose i : Nat) : Int) * ((deriv : Int) + ((i : Int) + 1))).tdiv
                ((i : Int) + 1)
              = (((deriv + (i + 1)).choose (i + 1) : Nat) : Int))
      ∧ xc_output_length nvar deriv = (((nvar + deriv).choose nvar : Nat) : Int)
      ∧ (nvar ≤ 9 → deriv ≤ 3 →
          (∀ i, i < nvar →
            0 ≤ (((deriv + i).choose i : Nat) : Int) * ((deriv : Int) + ((i : Int) + 1))
            ∧ (((deriv + i).choose i : Nat) : Int) * ((deriv : Int) + ((i : Int) + 1)) ≤ 1980)
          ∧ xc_output_length_int32 nvar deriv = some (xc_output_length nvar deriv))
      ∧ (((3 + 8).choose 8 : Nat) : Int) * (((3 : Nat) : Int) + (((8 : Nat) : Int) + 1)) = 1980 := by
  refine ⟨?_, ?_, ?_, ?_, by decide⟩
  · intro i hi
    rw [xc_output_length_running nvar deriv i hi, xc_output_length_choose]
  · intro i _
    have hdvd := xc_output_length_step_dvd deriv i
    rw [xc_output_length_choose] at hdvd
    refine ⟨hdvd, ?_⟩
    have hsucc := xc_output_length_choose (i + 1) deriv
    unfold xc_output_length at hsucc
    rw [Int.toNat_ofNat, List.range_succ, List.foldl_append] at hsucc
    have hprev := xc_output_length_choose i deriv
    unfold xc_output_length at hprev
    rw [Int.toNat_ofNat] at hprev
    simp only [List.foldl_cons, List.foldl_nil] at hsucc
    rw [hprev] at hsucc
    exact hsucc
  · rw [xc_output_length_choose, Nat.add_comm]
  · intro hn hd
    refine ⟨fun i hi => ?_, xc_output_length_int32_eq nvar deriv hn hd⟩
    have h := xc_output_length_step_le deriv i (by omega) hd
    rw [xc_output_length_choose] at h
    exact h

/-- The statement of `xc_output_length_exact` for `nvar = 9`, `deriv = 3`: the last product is
at most `1980` and the 32-bit loop returns `xc_output_length(9, 3)`. -/
theorem xc_output_length_exact_witness :
    (((3 + 8).choose 8 : Nat) : Int) * (((3 : Nat) : Int) + (((8 : Nat) : Int) + 1)) ≤ 1980
      ∧ xc_output_length_int32 ((9 : Nat) : Int) ((3 : Nat) : Int)
          = some (xc_output_length ((9 : Nat) : Int) ((3 : Nat) : Int)) :=
  have h := (xc_output_length_exact 9 3).2.2.2.1 (by decide) (by decide)
  ⟨(h.1 8 (by decide)).2, h.2⟩

end ClaimsOutputLengthExact

section ClaimsNegativeDeriv

/-- C27 (the code at the failing input): `deriv = -1` passes the only range check
(`deriv <= 3`), `xc_output_length(1, -1)` is `0` and `xc_output_length(1, -2)` is `-1`; the
call of `LIBXC_eval_xc` with the unpolarized LDA functional `1` of the sample library,
`deriv = -1` and one point returns normally and has added the energy to `output[0]`, which is
assigned by the energy pass of `merge_xc`, although `np * xc_output_length(nvar, deriv)` is
`0`. -/
theorem eval_xc_negative_deriv :
    ((-1 : Int) ≤ 3)
      ∧ xc_output_length 1 (-1) = 0 ∧ xc_output_length 1 (-2) = -1
      ∧ LIBXC_input_length demo_library [⟨1, 1, 0⟩] XC_UNPOLARIZED = .ok 1
      ∧ (LIBXC_eval_xc demo_library 1 (fun _ _ => 0) [⟨1, 1, 0⟩] XC_UNPOLARIZED (-1) 1
          (fun _ => 5) (fun _ => 0) (fun _ => 0)).1 = xc_exit.returned
      ∧ (LIBXC_eval_xc demo_library 1 (fun _ _ => 0) [⟨1, 1, 0⟩] XC_UNPOLARIZED (-1) 1
          (fun _ => 5) (fun _ => 0) (fun _ => 0)).2 0 = 5
      ∧ 0 ∈ merge_xc_writes false false false 1 1 XC_UNPOLARIZED XC_FAMILY_LDA 0
      ∧ ¬ ((0 : Int) < 1 * xc_output_length 1 (-1)) := by
  refine ⟨by decide, by decide, by decide, rfl, by decide, by decide, by decide, by decide⟩

end ClaimsNegativeDeriv

section ClaimsQueries

variable {α : Type}

/-- C28 (the code at the failing input): for the functional `177` of the family
`XC_FAMILY_HYB_LDA`, `LIBXC_is_lda` returns `0` (as do `LIBXC_is_gga` and
`LIBXC_is_meta_gga`), while `_eval_xc` takes the LDA path for it and `LIBXC_input_length`
counts it as an LDA functional. -/
theorem is_lda_misses_hyb_lda (nthreads : Nat) (heap : Nat → Nat → Int) (spin : Int) (np : Nat)
    (rho_u rho_d : Nat → Int) (b : xc_bufs Int) :
    demo_library_hyb_lda.xc_func_init 177 spin = some (.mk 177 XC_FAMILY_HYB_LDA 0 spin 0 [])
      ∧ LIBXC_is_lda demo_library_hyb_lda 177 = .ok 0
      ∧ LIBXC_is_gga demo_library_hyb_lda 177 = .ok 0
      ∧ LIBXC_is_meta_gga demo_library_hyb_lda 177 = .ok 0
      ∧ _eval_xc demo_library_hyb_lda nthreads heap (.mk 177 XC_FAMILY_HYB_LDA 0 spin 0 []) spin
          np rho_u rho_d b
        = .ok (_eval_xc_lda demo_library_hyb_lda nthreads heap
            (.mk 177 XC_FAMILY_HYB_LDA 0 spin 0 []) spin np rho_u rho_d b)
      ∧ LIBXC_input_length demo_library_hyb_lda [⟨177, 1, 0⟩] XC_UNPOLARIZED = .ok 1
      ∧ LIBXC_is_lda demo_library_hyb_lda 1 = .ok 1 := by
  refine ⟨rfl, rfl, rfl, rfl, ?_, rfl, rfl⟩
  exact eval_xc_lda_branch _ _ _ _ _ _ _ _ _ (Or.inr rfl)

end ClaimsQueries

section ClaimsContract

/-- C30 (the code at the failing input): with `comp = 1` and `natm = 2` the accumulation
buffer of `contract_vhf_dm` has `2` entries, and the loops of a shell pair on atom `1` write
`buf[1*3+0] = buf[3]`, outside the buffer; with `comp = 4` the pairs `(iatm, ic) = (0, 3)` and
`(1, 0)` use the same entry `3`.  With `comp = 3` the same shell pair stays inside the
buffer. -/
theorem contract_vhf_dm_index_out_of_range :
    (vhf_buffer 1 2 : List Int).length = 1 * 2
      ∧ 1 < 2 ∧ 0 < 1 ∧ ¬ (1 * 3 + 0 < 1 * 2)
      ∧ contract_shell_pair 1 1 1 (fun _ _ => (1 : Int)) (vhf_buffer 1 2) = none
      ∧ (0 * 3 + 3 = 1 * 3 + 0 ∧ (0, 3) ≠ (1, 0))
      ∧ contract_shell_pair 4 0 1 (fun ic _ => ((10 + ic : Nat) : Int)) (vhf_buffer 4 2)
          = some [10, 11, 12, 13, 0, 0, 0, 0]
      ∧ contract_shell_pair 4 1 1 (fun ic _ => ((10 + ic : Nat) : Int)) (vhf_buffer 4 2)
          = some [0, 0, 0, 10, 11, 12, 13, 0]
      ∧ contract_shell_pair 3 1 1 (fun ic _ => ((10 + ic : Nat) : Int)) (vhf_buffer 3 2)
          = some [0, 0, 0, 10, 11, 12] := by
  decide

end ClaimsContract

section NullBuffers

variable {α : Type}

/-- The parallel region keeps a property of the buffers that every kernel invocation keeps. -/
theorem chunked_keeps (P : xc_bufs α → Prop) (call : Nat → Nat → xc_bufs α → xc_bufs α)
    (hstep : ∀ start n b, P b → P (call start n b)) (nthreads np : Nat) (b : xc_bufs α)
    (h : P b) : P (chunked nthreads np call b) :=
  chunked_rel (fun _ b1 _ => P b1) call (fun start n b1 _ h1 => hstep start n b1 h1)
    nthreads np b b h

end NullBuffers

section NullEffects

variable {α : Type}

theorem lda_call_null (lib : xc_library α) (func_x : xc_func_type α) (seg : List Nat)
    (rho : Nat → α) (start n : Nat) (b : xc_bufs α) :
    (b.vxc = none → (lda_call lib func_x seg rho start n b).vxc = none)
      ∧ (b.fxc = none → (lda_call lib func_x seg rho start n b).fxc = none)
      ∧ (b.kxc = none → (lda_call lib func_x seg rho start n b).kxc = none) := by
  refine ⟨fun h => ?_, fun h => ?_, fun h => ?_⟩ <;> simp [lda_call, h]

theorem gga_call_null (lib : xc_library α) (func_x : xc_func_type α)
    (seg vseg fseg kseg : List Nat) (np : Nat) (rho sigma : Nat → α) (start n : Nat)
    (b : xc_bufs α) :
    (b.vxc = none → (gga_call lib func_x seg vseg fseg kseg np rho sigma start n b).vxc = none)
      ∧ (b.fxc = none →
          (gga_call lib func_x seg vseg fseg kseg np rho sigma start n b).fxc = none)
      ∧ (b.kxc = none →
          (gga_call lib func_x seg vseg fseg kseg np rho sigma start n b).kxc = none) := by
  refine ⟨fun h => ?_, fun h => ?_, fun h => ?_⟩ <;> simp [gga_call, h]

theorem mgga_call_null (lib : xc_library α) (func_x : xc_func_type α)
    (seg vseg fseg : List Nat) (np : Nat) (rho sigma lapl tau : Nat → α) (start n : Nat)
    (b : xc_bufs α) :
    (b.vxc = none →
        (mgga_call lib func_x seg vseg fseg np rho sigma lapl tau start n b).vxc = none)
      ∧ (b.fxc = none →
          (mgga_call lib func_x seg vseg fseg np rho sigma lapl tau start n b).fxc = none)
      ∧ (b.kxc = none →
          (mgga_call lib func_x seg vseg fseg np rho sigma lapl tau start n b).kxc = none) := by
  refine ⟨fun h => ?_, fun h => ?_, fun h => ?_⟩ <;> simp [mgga_call, h]

/-- A buffer that is `NULL` on entry is `NULL` after each of the three evaluators. -/
theorem evaluators_null [Add α] [Mul α] (lib : xc_library α) (nthreads : Nat)
    (heap : Nat → Nat → α) (func_x : xc_func_type α) (spin : Int) (np : Nat)
    (rho_u rho_d : Nat → α) (b : xc_bufs α) (sel : xc_bufs α → Option (Nat → α))
    (hsel : sel = xc_bufs.vxc ∨ sel = xc_bufs.fxc ∨ sel = xc_bufs.kxc) (h : sel b = none) :
    sel (_eval_xc_lda lib nthreads heap func_x spin np rho_u rho_d b) = none
      ∧ sel (_eval_xc_gga lib nthreads heap func_x spin np rho_u rho_d b) = none
      ∧ sel (_eval_xc_mgga lib nthreads heap func_x spin np rho_u rho_d b) = none := by
  refine ⟨?_, ?_, ?_⟩
  · unfold _eval_xc_lda
    refine chunked_keeps (fun c => sel c = none) _ (fun start n c hc => ?_) nthreads np b h
    have hn := lda_call_null lib func_x (lda_seg spin)
      (if spin = XC_POLARIZED then build_interleaved np rho_u rho_d (heap 4) else rho_u)
      start n c
    rcases hsel with rfl | rfl | rfl
    · exact hn.1 hc
    · exact hn.2.1 hc
    · exact hn.2.2 hc
  · unfold _eval_xc_gga
    refine chunked_keeps (fun c => sel c = none) _ (fun start n c hc => ?_) nthreads np b h
    have hn := gga_call_null lib func_x (gga_seg spin) (gga_vseg spin) (gga_fseg spin)
      (gga_kseg spin) np
      (if spin = XC_POLARIZED then build_interleaved np rho_u rho_d (heap 4) else rho_u)
      (if spin = XC_POLARIZED then build_sigma_polarized np rho_u rho_d (heap 5)
        else build_sigma_unpolarized np rho_u (heap 5))
      start n c
    rcases hsel with rfl | rfl | rfl
    · exact hn.1 hc
    · exact hn.2.1 hc
    · exact hn.2.2 hc
  · unfold _eval_xc_mgga
    refine chunked_keeps (fun c => sel c = none) _ (fun start n c hc => ?_) nthreads np b h
    have hn := mgga_call_null lib func_x (mgga_seg spin) (mgga_vseg spin) (mgga_fseg spin) np
      (if spin = XC_POLARIZED then build_interleaved np rho_u rho_d (heap 4) else rho_u)
      (if spin = XC_POLARIZED then build_sigma_polarized np rho_u rho_d (heap 5)
        else build_sigma_unpolarized np rho_u (heap 5))
      (if spin = XC_POLARIZED then
          build_interleaved np (ptr_add rho_u (np * 4)) (ptr_add rho_d (np * 4)) (heap 6)
        else ptr_add rho_u (np * 4))
      (if spin = XC_POLARIZED then
          build_interleaved np (ptr_add rho_u (np * 5)) (ptr_add rho_d (np * 5)) (heap 7)
        else ptr_add rho_u (np * 5))
      start n c
    rcases hsel with rfl | rfl | rfl
    · exact hn.1 hc
    · exact hn.2.1 hc
    · exact hn.2.2 hc

end NullEffects

section ChunkedState

variable {σ : Type}

/-- The parallel region of the evaluators is `chunked_state` on the scratch buffers. -/
theorem chunked_eq_chunked_state {α : Type} (nthreads np : Nat)
    (call : Nat → Nat → xc_bufs α → xc_bufs α) (b : xc_bufs α) :
    chunked nthreads np call b = chunked_state nthreads np call b := rfl

/-- The parallel region keeps a property of the state that every kernel invocation on points
inside `[0, np)` keeps. -/
theorem chunked_state_keeps (P : σ → Prop) (call : Nat → Nat → σ → σ) (nthreads np : Nat)
    (hstep : ∀ start n s, start + n ≤ np → P s → P (call start n s)) (s : σ) (h : P s) :
    P (chunked_state nthreads np call s) := by
  have hle := chunk_blocks_le nthreads np
  unfold chunk_blk_size chunk_nblk at hle
  unfold chunked_state
  simp only []
  generalize (if np < nthreads then 1 else nthreads) = nblk at hle ⊢
  generalize np / nblk = blk at hle ⊢
  have hfold : ∀ k, k ≤ nblk →
      P ((List.range k).foldl (fun s iblk => call (iblk * blk) blk s) s) := by
    intro k
    induction k with
    | zero => intro _; exact h
    | succ k ih =>
      intro hk
      rw [List.range_succ, List.foldl_append]
      simp only [List.foldl_cons, List.foldl_nil]
      refine hstep (k * blk) blk _ ?_ (ih (by omega))
      calc k * blk + blk = (k + 1) * blk := by ring
        _ ≤ nblk * blk := Nat.mul_le_mul_right _ hk
        _ ≤ np := hle
  by_cases hres : np - nblk * blk > 0
  · rw [if_pos hres]
    exact hstep _ _ _ (by omega) (hfold nblk (le_refl _))
  · rw [if_neg hres]
    exact hfold nblk (le_refl _)

/-- A log to which every kernel invocation appends one entry holds, after the parallel
region, one entry for each equal-size block, in order, and one for the remainder block if
there is one. -/
theorem chunked_state_log {β : Type} (g : σ → List β) (h : Nat → β) (call : Nat → Nat → σ → σ)
    (hstep : ∀ start n s, g (call start n s) = g s ++ [h start]) (nthreads np : Nat) (s : σ) :
    g (chunked_state nthreads np call s)
      = g s ++ (List.range (chunk_nblk nthreads np)).map
            (fun iblk => h (iblk * chunk_blk_size nthreads np))
          ++ (if np - chunk_nblk nthreads np * chunk_blk_size nthreads np > 0
              then [h (chunk_nblk nthreads np * chunk_blk_size nthreads np)] else []) := by
  unfold chunk_blk_size chunk_nblk chunked_state
  simp only []
  generalize (if np < nthreads then 1 else nthreads) = nblk
  generalize np / nblk = blk
  have hfold : ∀ k,
      g ((List.range k).foldl (fun s iblk => call (iblk * blk) blk s) s)
        = g s ++ (List.range k).map (fun iblk => h (iblk * blk)) := by
    intro k
    induction k with
    | zero => simp
    | succ k ih =>
      rw [List.range_succ, List.foldl_append]
      simp only [List.foldl_cons, List.foldl_nil]
      rw [hstep, ih, List.map_append, List.append_assoc]
      rfl
  by_cases hres : np - nblk * blk > 0
  · rw [if_pos hres, if_pos hres, hstep, hfold]
  · rw [if_neg hres, if_neg hres, hfold, List.append_nil]

end ChunkedState

section KernelStore

variable {α : Type}

/-- Through pointers that are all `NULL` the kernel writes nothing. -/
theorem kernel_store_null (mem : Nat → α) (ptrs seg : List Nat) (n : Nat) (arr : Nat → Nat → α)
    (h : ∀ q ∈ ptrs, q = NULL) : kernel_store mem ptrs seg n arr = mem := by
  unfold kernel_store
  have key : ∀ m, (List.range m).foldl
      (fun mem j =>
        if ptrs.getD j 0 ≠ NULL then store_block mem (ptrs.getD j 0) (n * seg.getD j 0) (arr j)
        else mem) mem = mem := by
    intro m
    induction m with
    | zero => rfl
    | succ m ih =>
      rw [List.range_succ, List.foldl_append, ih]
      simp only [List.foldl_cons, List.foldl_nil]
      have hq : ptrs.getD m 0 = NULL := by
        by_cases hm : m < ptrs.length
        · rw [List.getD_eq_getElem _ _ hm]
          exact h _ (List.getElem_mem _)
        · rw [List.getD_eq_default _ _ (by omega)]
          rfl
      rw [if_neg (by rw [hq]; exact fun hne => hne rfl)]
  exact key _

/-- A cell outside every interval the kernel writes keeps its value. -/
theorem kernel_store_frame (mem : Nat → α) (ptrs seg : List Nat) (n : Nat)
    (arr : Nat → Nat → α) (p : Nat)
    (h : ∀ j, j < ptrs.length → ptrs.getD j 0 ≠ NULL →
      ¬ (ptrs.getD j 0 ≤ p ∧ p < ptrs.getD j 0 + n * seg.getD j 0)) :
    kernel_store mem ptrs seg n arr p = mem p := by
  unfold kernel_store
  have key : ∀ m, m ≤ ptrs.length → (List.range m).foldl
      (fun mem j =>
        if ptrs.getD j 0 ≠ NULL then store_block mem (ptrs.getD j 0) (n * seg.getD j 0) (arr j)
        else mem) mem p = mem p := by
    intro m
    induction m with
    | zero => intro _; rfl
    | succ m ih =>
      intro hm
      rw [List.range_succ, List.foldl_append]
      simp only [List.foldl_cons, List.foldl_nil]
      by_cases hq : ptrs.getD m 0 ≠ NULL
      · rw [if_pos hq]
        unfold store_block
        rw [if_neg (h m (by omega) hq)]
        exact ih (by omega)
      · rw [if_neg hq]
        exact ih (by omega)
  exact key _ (le_refl _)

theorem ptr_array_eq (buffer np : Nat) (seg : List Nat) (m : Nat) :
    (List.range m).foldl (fun v i => v ++ [v.getD i 0 + np * seg.getD i 0]) [buffer]
      = (List.range (m + 1)).map fun j => buffer + np * seg_base seg j := by
  induction m with
  | zero => simp [seg_base, List.range_succ]
  | succ m ih =>
    rw [List.range_succ, List.foldl_append, ih]
    simp only [List.foldl_cons, List.foldl_nil]
    rw [List.range_succ (m + 1), List.map_append]
    congr 1
    simp only [List.map_cons, List.map_nil, List.cons.injEq, and_true]
    have hget : ((List.range (m + 1)).map fun j => buffer + np * seg_base seg j).getD m 0
        = buffer + np * seg_base seg m := by
      rw [List.getD_eq_getElem _ _ (by simp)]
      simp
    rw [hget, seg_base_succ, Nat.mul_add, Nat.add_assoc]

/-- Entry `j` of the pointer array of a buffer is the buffer plus `np` times the number of
components before sub-array `j`. -/
theorem ptr_array_getD (buffer np : Nat) (seg : List Nat) (n j : Nat) (hn : 1 ≤ n) (hj : j < n) :
    (ptr_array buffer np seg n).getD j 0 = buffer + np * seg_base seg j := by
  unfold ptr_array
  rw [ptr_array_eq, List.getD_eq_getElem _ _ (by simp; omega)]
  simp

/-- The pointers of one order at an invocation on points inside `[0, np)` stay inside the
buffer of the order: a cell outside `[buffer, buffer + np * (total components))` keeps its
value. -/
theorem order_store_frame (mem : Nat → α) (buffer np : Nat) (seg : List Nat) (cnt start n : Nat)
    (arr : Nat → Nat → α) (p : Nat) (hcnt : 1 ≤ cnt) (hsn : start + n ≤ np)
    (hp : ¬ (buffer ≤ p ∧ p < buffer + np * seg_base seg cnt)) :
    kernel_store mem
        ((List.range cnt).map fun i => (ptr_array buffer np seg cnt).getD i 0
          + start * seg.getD i 0) seg n arr p = mem p := by
  apply kernel_store_frame
  intro j hj _
  simp only [List.length_map, List.length_range] at hj
  rw [List.getD_eq_getElem _ _ (by simpa using hj)]
  simp only [List.getElem_map, List.getElem_range]
  rw [ptr_array_getD buffer np seg cnt j hcnt hj]
  have h1 := seg_base_mono seg (show j + 1 ≤ cnt from hj)
  rw [seg_base_succ] at h1
  have h2 : np * (seg_base seg j + seg.getD j 0) ≤ np * seg_base seg cnt :=
    Nat.mul_le_mul_left _ h1
  rw [Nat.mul_add] at h2
  have h3 : start * seg.getD j 0 + n * seg.getD j 0 ≤ np * seg.getD j 0 := by
    rw [← Nat.add_mul]
    exact Nat.mul_le_mul_right _ hsn
  omega

end KernelStore

section InvokeStep

variable {α : Type}

/-- One order at one invocation: a cell outside the buffer keeps its value, whether the buffer
is `NULL` (all pointers of the order `NULL`) or not (pointers inside the buffer). -/
theorem order_step_frame (mem : Nat → α) (buffer np : Nat) (seg : List Nat) (cnt start n : Nat)
    (arr : Nat → Nat → α) (p : Nat) (old new : List Nat)
    (hnew : new = if buffer ≠ NULL then
        (List.range cnt).map (fun i => (ptr_array buffer np seg cnt).getD i 0
          + start * seg.getD i 0)
      else old)
    (hold : buffer = NULL → ∀ q ∈ old, q = NULL) (hcnt : buffer ≠ NULL → 1 ≤ cnt)
    (hsn : start + n ≤ np)
    (hp : buffer = NULL ∨ ¬ (buffer ≤ p ∧ p < buffer + np * seg_base seg cnt)) :
    kernel_store mem new seg n arr p = mem p := by
  by_cases hb : buffer = NULL
  · rw [hnew, if_neg (not_not.mpr hb), kernel_store_null _ _ _ _ _ (hold hb)]
  · rw [hnew, if_pos hb]
    rcases hp with h | h
    · exact absurd h hb
    · exact order_store_frame mem buffer np seg cnt start n arr p (hcnt hb) hsn h

/-- The invariant of the parallel region of an evaluator is kept by a kernel invocation on
points inside `[0, np)`: the local pointers and the logged pointers of a `NULL` buffer are
`NULL`, the pointer lists keep their lengths, and memory outside `[ex, ex + np)` and outside
the buffers that are not `NULL` is as at the start. -/
theorem invoke_step (ex vxc fxc kxc np : Nat) (vseg fseg kseg : List Nat) (cv cf ck : Nat)
    (mem0 : Nat → α) (st st2 : ptr_state α) (start n : Nat)
    (zk av af ak : Nat → Nat → α)
    (hpv : st2.pv = if vxc ≠ NULL then
        (List.range cv).map (fun i => (ptr_array vxc np vseg cv).getD i 0
          + start * vseg.getD i 0)
      else st.pv)
    (hpf : st2.pf = if fxc ≠ NULL then
        (List.range cf).map (fun i => (ptr_array fxc np fseg cf).getD i 0
          + start * fseg.getD i 0)
      else st.pf)
    (hpk : st2.pk = if kxc ≠ NULL then
        (List.range ck).map (fun i => (ptr_array kxc np kseg ck).getD i 0
          + start * kseg.getD i 0)
      else st.pk)
    (hmem : st2.mem = kernel_store (kernel_store (kernel_store
        (kernel_store st.mem [ex + start] [1] n zk) st2.pv vseg n av) st2.pf fseg n af)
        st2.pk kseg n ak)
    (hcalls : st2.calls = st.calls ++ [⟨ex + start, st2.pv, st2.pf, st2.pk⟩])
    (hcv : vxc ≠ NULL → 1 ≤ cv) (hcf : fxc ≠ NULL → 1 ≤ cf) (hck : kxc ≠ NULL → 1 ≤ ck)
    (hsn : start + n ≤ np)
    (hinv : ((vxc = NULL → ∀ q ∈ st.pv, q = NULL) ∧ (fxc = NULL → ∀ q ∈ st.pf, q = NULL)
          ∧ (kxc = NULL → ∀ q ∈ st.pk, q = NULL))
        ∧ (st.pv.length = cv ∧ st.pf.length = cf ∧ st.pk.length = ck)
        ∧ (∀ c ∈ st.calls,
            ((vxc = NULL → ∀ q ∈ c.pv, q = NULL) ∧ (fxc = NULL → ∀ q ∈ c.pf, q = NULL)
              ∧ (kxc = NULL → ∀ q ∈ c.pk, q = NULL))
            ∧ (c.pv.length = cv ∧ c.pf.length = cf ∧ c.pk.length = ck))
        ∧ (∀ p, ¬ (ex ≤ p ∧ p < ex + np) →
            (vxc = NULL ∨ ¬ (vxc ≤ p ∧ p < vxc + np * seg_base vseg cv)) →
            (fxc = NULL ∨ ¬ (fxc ≤ p ∧ p < fxc + np * seg_base fseg cf)) →
            (kxc = NULL ∨ ¬ (kxc ≤ p ∧ p < kxc + np * seg_base kseg ck)) →
            st.mem p = mem0 p)) :
    ((vxc = NULL → ∀ q ∈ st2.pv, q = NULL) ∧ (fxc = NULL → ∀ q ∈ st2.pf, q = NULL)
          ∧ (kxc = NULL → ∀ q ∈ st2.pk, q = NULL))
        ∧ (st2.pv.length = cv ∧ st2.pf.length = cf ∧ st2.pk.length = ck)
        ∧ (∀ c ∈ st2.calls,
            ((vxc = NULL → ∀ q ∈ c.pv, q = NULL) ∧ (fxc = NULL → ∀ q ∈ c.pf, q = NULL)
              ∧ (kxc = NULL → ∀ q ∈ c.pk, q = NULL))
            ∧ (c.pv.length = cv ∧ c.pf.length = cf ∧ c.pk.length = ck))
        ∧ (∀ p, ¬ (ex ≤ p ∧ p < ex + np) →
            (vxc = NULL ∨ ¬ (vxc ≤ p ∧ p < vxc + np * seg_base vseg cv)) →
            (fxc = NULL ∨ ¬ (fxc ≤ p ∧ p < fxc + np * seg_base fseg cf)) →
            (kxc = NULL ∨ ¬ (kxc ≤ p ∧ p < kxc + np * seg_base kseg ck)) →
            st2.mem p = mem0 p) := by
  obtain ⟨⟨nv, nf, nk⟩, ⟨lv, lf, lk⟩, hc, hm⟩ := hinv
  have nv2 : vxc = NULL → ∀ q ∈ st2.pv, q = NULL := by
    intro h; rw [hpv, if_neg (not_not.mpr h)]; exact nv h
  have nf2 : fxc = NULL → ∀ q ∈ st2.pf, q = NULL := by
    intro h; rw [hpf, if_neg (not_not.mpr h)]; exact nf h
  have nk2 : kxc = NULL → ∀ q ∈ st2.pk, q = NULL := by
    intro h; rw [hpk, if_neg (not_not.mpr h)]; exact nk h
  have lv2 : st2.pv.length = cv := by
    rw [hpv]; split
    · simp
    · exact lv
  have lf2 : st2.pf.length = cf := by
    rw [hpf]; split
    · simp
    · exact lf
  have lk2 : st2.pk.length = ck := by
    rw [hpk]; split
    · simp
    · exact lk
  refine ⟨⟨nv2, nf2, nk2⟩, ⟨lv2, lf2, lk2⟩, ?_, ?_⟩
  · intro c hcmem
    rw [hcalls, List.mem_append, List.mem_singleton] at hcmem
    rcases hcmem with h | h
    · exact hc c h
    · subst h
      exact ⟨⟨nv2, nf2, nk2⟩, ⟨lv2, lf2, lk2⟩⟩
  · intro p hex hv hf hk
    rw [hmem,
      order_step_frame _ kxc np kseg ck start n ak p st.pk st2.pk hpk nk hck hsn hk,
      order_step_frame _ fxc np fseg cf start n af p st.pf st2.pf hpf nf hcf hsn hf,
      order_step_frame _ vxc np vseg cv start n av p st.pv st2.pv hpv nv hcv hsn hv,
      kernel_store_frame]
    · exact hm p hex hv hf hk
    · intro j hj _
      simp only [List.length_singleton, Nat.lt_one_iff] at hj
      subst hj
      simp only [List.getD_cons_zero]
      omega

end InvokeStep

section EvaluatorInvariants

variable {α : Type}

theorem lda_ptr_inv (lib : xc_library α) (nthreads : Nat) (heap : Nat → Nat → α)
    (func_x : xc_func_type α) (spin : Int) (np : Nat) (rho_u rho_d : Nat → α)
    (ex vxc fxc kxc : Nat) (mem : Nat → α) :
    (∀ c ∈ (_eval_xc_lda_ptr lib nthreads heap func_x spin np rho_u rho_d ex vxc fxc kxc
          mem).calls,
        ((vxc = NULL → ∀ q ∈ c.pv, q = NULL) ∧ (fxc = NULL → ∀ q ∈ c.pf, q = NULL)
          ∧ (kxc = NULL → ∀ q ∈ c.pk, q = NULL))
        ∧ (c.pv.length = 1 ∧ c.pf.length = 1 ∧ c.pk.length = 1))
      ∧ (∀ p, ¬ (ex ≤ p ∧ p < ex + np) →
          (vxc = NULL ∨ ¬ (vxc ≤ p ∧ p < vxc + np * seg_base [(lda_seg spin).getD 1 0] 1)) →
          (fxc = NULL ∨ ¬ (fxc ≤ p ∧ p < fxc + np * seg_base [(lda_seg spin).getD 2 0] 1)) →
          (kxc = NULL ∨ ¬ (kxc ≤ p ∧ p < kxc + np * seg_base [(lda_seg spin).getD 3 0] 1)) →
          (_eval_xc_lda_ptr lib nthreads heap func_x spin np rho_u rho_d ex vxc fxc kxc
            mem).mem p = mem p) := by
  unfold _eval_xc_lda_ptr
  simp only []
  refine (chunked_state_keeps
    (fun st : ptr_state α =>
      ((vxc = NULL → ∀ q ∈ st.pv, q = NULL) ∧ (fxc = NULL → ∀ q ∈ st.pf, q = NULL)
          ∧ (kxc = NULL → ∀ q ∈ st.pk, q = NULL))
        ∧ (st.pv.length = 1 ∧ st.pf.length = 1 ∧ st.pk.length = 1)
        ∧ (∀ c ∈ st.calls,
            ((vxc = NULL → ∀ q ∈ c.pv, q = NULL) ∧ (fxc = NULL → ∀ q ∈ c.pf, q = NULL)
              ∧ (kxc = NULL → ∀ q ∈ c.pk, q = NULL))
            ∧ (c.pv.length = 1 ∧ c.pf.length = 1 ∧ c.pk.length = 1))
        ∧ (∀ p, ¬ (ex ≤ p ∧ p < ex + np) →
            (vxc = NULL ∨ ¬ (vxc ≤ p ∧ p < vxc + np * seg_base [(lda_seg spin).getD 1 0] 1)) →
            (fxc = NULL ∨ ¬ (fxc ≤ p ∧ p < fxc + np * seg_base [(lda_seg spin).getD 2 0] 1)) →
            (kxc = NULL ∨ ¬ (kxc ≤ p ∧ p < kxc + np * seg_base [(lda_seg spin).getD 3 0] 1)) →
            st.mem p = mem p))
    _ nthreads np ?_ _ ?_).2.2
  · intro start n st hsn hinv
    exact invoke_step ex vxc fxc kxc np [(lda_seg spin).getD 1 0] [(lda_seg spin).getD 2 0]
      [(lda_seg spin).getD 3 0] 1 1 1 mem st _ start n _ _ _ _ rfl rfl rfl rfl rfl
      (fun _ => le_refl _) (fun _ => le_refl _) (fun _ => le_refl _) hsn hinv
  · refine ⟨⟨fun _ q hq => ?_, fun _ q hq => ?_, fun _ q hq => ?_⟩, ⟨rfl, rfl, rfl⟩,
      fun c hc => absurd hc (List.not_mem_nil c), fun p _ _ _ _ => rfl⟩
    all_goals
      simp only [List.mem_singleton] at hq
      exact hq

theorem lda_ptr_log (lib : xc_library α) (nthreads : Nat) (heap : Nat → Nat → α)
    (func_x : xc_func_type α) (spin : Int) (np : Nat) (rho_u rho_d : Nat → α)
    (ex vxc fxc kxc : Nat) (mem : Nat → α) :
    (_eval_xc_lda_ptr lib nthreads heap func_x spin np rho_u rho_d ex vxc fxc kxc
        mem).calls.map kernel_args.pex
      = (List.range (chunk_nblk nthreads np)).map
            (fun iblk => ex + iblk * chunk_blk_size nthreads np)
          ++ (if np - chunk_nblk nthreads np * chunk_blk_size nthreads np > 0
              then [ex + chunk_nblk nthreads np * chunk_blk_size nthreads np] else []) := by
  unfold _eval_xc_lda_ptr
  simp only []
  rw [chunked_state_log (fun st : ptr_state α => st.calls.map kernel_args.pex)
    (fun start => ex + start) _ (fun start n st => by simp [lda_invoke])]
  simp

theorem gga_invoke_pv (vxc np : Nat) (vseg : List Nat) (start : Nat) (old : List Nat) :
    (if vxc ≠ NULL then
        (List.range 2).map fun i =>
          [vxc, if vxc ≠ NULL then vxc + np * vseg.getD 0 0 else NULL].getD i 0
            + start * vseg.getD i 0
      else old)
      = if vxc ≠ NULL then
          (List.range 2).map (fun i => (ptr_array vxc np vseg 2).getD i 0
            + start * vseg.getD i 0)
        else old := by
  by_cases h : vxc ≠ NULL
  · simp [h, ptr_array, List.range_succ]
  · rw [if_neg h, if_neg h]

theorem gga_invoke_pf (fxc np : Nat) (fseg : List Nat) (start : Nat) (old : List Nat) :
    (if fxc ≠ NULL then
        (List.range 3).map fun i =>
          [fxc, if fxc ≠ NULL then fxc + np * fseg.getD 0 0 else NULL,
            if fxc ≠ NULL then
              (if fxc ≠ NULL then fxc + np * fseg.getD 0 0 else NULL) + np * fseg.getD 1 0
            else NULL].getD i 0
            + start * fseg.getD i 0
      else old)
      = if fxc ≠ NULL then
          (List.range 3).map (fun i => (ptr_array fxc np fseg 3).getD i 0
            + start * fseg.getD i 0)
        else old := by
  by_cases h : fxc ≠ NULL
  · simp [h, ptr_array, List.range_succ]
  · rw [if_neg h, if_neg h]

theorem gga_invoke_pk (kxc np : Nat) (kseg : List Nat) (start : Nat) (old : List Nat) :
    (if kxc ≠ NULL then
        (List.range 4).map fun i =>
          [kxc, if kxc ≠ NULL then kxc + np * kseg.getD 0 0 else NULL,
            if kxc ≠ NULL then
              (if kxc ≠ NULL then kxc + np * kseg.getD 0 0 else NULL) + np * kseg.getD 1 0
            else NULL,
            if kxc ≠ NULL then
              (if kxc ≠ NULL then
                (if kxc ≠ NULL then kxc + np * kseg.getD 0 0 else NULL) + np * kseg.getD 1 0
              else NULL) + np * kseg.getD 2 0
            else NULL].getD i 0
            + start * kseg.getD i 0
      else old)
      = if kxc ≠ NULL then
          (List.range 4).map (fun i => (ptr_array kxc np kseg 4).getD i 0
            + start * kseg.getD i 0)
        else old := by
  by_cases h : kxc ≠ NULL
  · simp [h, ptr_array, List.range_succ]
  · rw [if_neg h, if_neg h]

theorem gga_ptr_inv [Add α] [Mul α] (lib : xc_library α) (nthreads : Nat)
    (heap : Nat → Nat → α) (func_x : xc_func_type α) (spin : Int) (np : Nat)
    (rho_u rho_d : Nat → α) (ex vxc fxc kxc : Nat) (mem : Nat → α) :
    (∀ c ∈ (_eval_xc_gga_ptr lib nthreads heap func_x spin np rho_u rho_d ex vxc fxc kxc
          mem).calls,
        ((vxc = NULL → ∀ q ∈ c.pv, q = NULL) ∧ (fxc = NULL → ∀ q ∈ c.pf, q = NULL)
          ∧ (kxc = NULL → ∀ q ∈ c.pk, q = NULL))
        ∧ (c.pv.length = 2 ∧ c.pf.length = 3 ∧ c.pk.length = 4))
      ∧ (∀ p, ¬ (ex ≤ p ∧ p < ex + np) →
          (vxc = NULL ∨ ¬ (vxc ≤ p ∧ p < vxc + np * seg_base (gga_vseg spin) 2)) →
          (fxc = NULL ∨ ¬ (fxc ≤ p ∧ p < fxc + np * seg_base (gga_fseg spin) 3)) →
          (kxc = NULL ∨ ¬ (kxc ≤ p ∧ p < kxc + np * seg_base (gga_kseg spin) 4)) →
          (_eval_xc_gga_ptr lib nthreads heap func_x spin np rho_u rho_d ex vxc fxc kxc
            mem).mem p = mem p) := by
  unfold _eval_xc_gga_ptr
  simp only []
  refine (chunked_state_keeps
    (fun st : ptr_state α =>
      ((vxc = NULL → ∀ q ∈ st.pv, q = NULL) ∧ (fxc = NULL → ∀ q ∈ st.pf, q = NULL)
          ∧ (kxc = NULL → ∀ q ∈ st.pk, q = NULL))
        ∧ (st.pv.length = 2 ∧ st.pf.length = 3 ∧ st.pk.length = 4)
        ∧ (∀ c ∈ st.calls,
            ((vxc = NULL → ∀ q ∈ c.pv, q = NULL) ∧ (fxc = NULL → ∀ q ∈ c.pf, q = NULL)
              ∧ (kxc = NULL → ∀ q ∈ c.pk, q = NULL))
            ∧ (c.pv.length = 2 ∧ c.pf.length = 3 ∧ c.pk.length = 4))
        ∧ (∀ p, ¬ (ex ≤ p ∧ p < ex + np) →
            (vxc = NULL ∨ ¬ (vxc ≤ p ∧ p < vxc + np * seg_base (gga_vseg spin) 2)) →
            (fxc = NULL ∨ ¬ (fxc ≤ p ∧ p < fxc + np * seg_base (gga_fseg spin) 3)) →
            (kxc = NULL ∨ ¬ (kxc ≤ p ∧ p < kxc + np * seg_base (gga_kseg spin) 4)) →
            st.mem p = mem p))
    _ nthreads np ?_ _ ?_).2.2
  · intro start n st hsn hinv
    exact invoke_step ex vxc fxc kxc np (gga_vseg spin) (gga_fseg spin) (gga_kseg spin) 2 3 4
      mem st _ start n _ _ _ _ (gga_invoke_pv vxc np _ start st.pv)
      (gga_invoke_pf fxc np _ start st.pf) (gga_invoke_pk kxc np _ start st.pk) rfl rfl
      (fun _ => by omega) (fun _ => by omega) (fun _ => by omega) hsn hinv
  · refine ⟨⟨fun _ q hq => ?_, fun _ q hq => ?_, fun _ q hq => ?_⟩, ⟨rfl, rfl, rfl⟩,
      fun c hc => absurd hc (List.not_mem_nil c), fun p _ _ _ _ => rfl⟩
    all_goals
      simp only [List.mem_cons, List.mem_singleton, List.not_mem_nil, or_false, or_self] at hq
      exact hq

theorem gga_ptr_log [Add α] [Mul α] (lib : xc_library α) (nthreads : Nat)
    (heap : Nat → Nat → α) (func_x : xc_func_type α) (spin : Int) (np : Nat)
    (rho_u rho_d : Nat → α) (ex vxc fxc kxc : Nat) (mem : Nat → α) :
    (_eval_xc_gga_ptr lib nthreads heap func_x spin np rho_u rho_d ex vxc fxc kxc
        mem).calls.map kernel_args.pex
      = (List.range (chunk_nblk nthreads np)).map
            (fun iblk => ex + iblk * chunk_blk_size nthreads np)
          ++ (if np - chunk_nblk nthreads np * chunk_blk_size nthreads np > 0
              then [ex + chunk_nblk nthreads np * chunk_blk_size nthreads np] else []) := by
  unfold _eval_xc_gga_ptr
  simp only []
  rw [chunked_state_log (fun st : ptr_state α => st.calls.map kernel_args.pex)
    (fun start => ex + start) _ (fun start n st => by simp [gga_invoke])]
  simp

theorem mgga_invoke_ptrs (buffer np : Nat) (seg : List Nat) (cnt start : Nat)
    (uninit old : List Nat) :
    (if buffer ≠ NULL then
        (List.range cnt).map fun i =>
          (if buffer ≠ NULL then ptr_array buffer np seg cnt else uninit).getD i 0
            + start * seg.getD i 0
      else old)
      = if buffer ≠ NULL then
          (List.range cnt).map (fun i => (ptr_array buffer np seg cnt).getD i 0
            + start * seg.getD i 0)
        else old := by
  by_cases h : buffer ≠ NULL
  · simp only [if_pos h]
  · rw [if_neg h, if_neg h]

theorem mgga_ptr_inv [Add α] [Mul α] (lib : xc_library α) (nthreads : Nat)
    (heap : Nat → Nat → α) (func_x : xc_func_type α) (spin : Int) (np : Nat)
    (rho_u rho_d : Nat → α) (ex vxc fxc kxc : Nat) (v_uninit f_uninit : List Nat)
    (mem : Nat → α) :
    (∀ c ∈ (_eval_xc_mgga_ptr lib nthreads heap func_x spin np rho_u rho_d ex vxc fxc kxc
          v_uninit f_uninit mem).calls,
        ((vxc = NULL → ∀ q ∈ c.pv, q = NULL) ∧ (fxc = NULL → ∀ q ∈ c.pf, q = NULL)
          ∧ c.pk = [])
        ∧ (c.pv.length = 4 ∧ c.pf.length = 10))
      ∧ (∀ p, ¬ (ex ≤ p ∧ p < ex + np) →
          (vxc = NULL ∨ ¬ (vxc ≤ p ∧ p < vxc + np * seg_base (mgga_vseg spin) 4)) →
          (fxc = NULL ∨ ¬ (fxc ≤ p ∧ p < fxc + np * seg_base (mgga_fseg spin) 10)) →
          (_eval_xc_mgga_ptr lib nthreads heap func_x spin np rho_u rho_d ex vxc fxc kxc
            v_uninit f_uninit mem).mem p = mem p) := by
  have key := chunked_state_keeps
    (fun st : ptr_state α =>
      ((vxc = NULL → ∀ q ∈ st.pv, q = NULL) ∧ (fxc = NULL → ∀ q ∈ st.pf, q = NULL)
          ∧ (NULL = NULL → ∀ q ∈ st.pk, q = NULL))
        ∧ (st.pv.length = 4 ∧ st.pf.length = 10 ∧ st.pk.length = 0)
        ∧ (∀ c ∈ st.calls,
            ((vxc = NULL → ∀ q ∈ c.pv, q = NULL) ∧ (fxc = NULL → ∀ q ∈ c.pf, q = NULL)
              ∧ (NULL = NULL → ∀ q ∈ c.pk, q = NULL))
            ∧ (c.pv.length = 4 ∧ c.pf.length = 10 ∧ c.pk.length = 0))
        ∧ (∀ p, ¬ (ex ≤ p ∧ p < ex + np) →
            (vxc = NULL ∨ ¬ (vxc ≤ p ∧ p < vxc + np * seg_base (mgga_vseg spin) 4)) →
            (fxc = NULL ∨ ¬ (fxc ≤ p ∧ p < fxc + np * seg_base (mgga_fseg spin) 10)) →
            (NULL = NULL ∨ ¬ (NULL ≤ p ∧ p < NULL + np * seg_base [] 0)) →
            st.mem p = mem p))
    (mgga_invoke lib func_x (mgga_seg spin) (mgga_vseg spin) (mgga_fseg spin)
      (mgga_rho heap spin np rho_u rho_d) (mgga_sigma heap spin np rho_u rho_d)
      (mgga_lapl func_x heap spin np rho_u rho_d) (mgga_tau func_x heap spin np rho_u rho_d)
      ex vxc fxc (if vxc ≠ NULL then ptr_array vxc np (mgga_vseg spin) 4 else v_uninit)
      (if fxc ≠ NULL then ptr_array fxc np (mgga_fseg spin) 10 else f_uninit))
    nthreads np
    (by
      intro start n st hsn hinv
      have hpk0 : st.pk = [] := List.length_eq_zero.mp hinv.2.1.2.2
      refine invoke_step ex vxc fxc NULL np (mgga_vseg spin) (mgga_fseg spin) [] 4 10 0
        mem st _ start n
        (fun _ => (lib.xc_mgga func_x n
          (ptr_add (mgga_rho heap spin np rho_u rho_d) (start * (mgga_seg spin).getD 0 0))
          (ptr_add (mgga_sigma heap spin np rho_u rho_d) (start * (mgga_seg spin).getD 1 0))
          (ptr_add (mgga_lapl func_x heap spin np rho_u rho_d)
            (start * (mgga_seg spin).getD 2 0))
          (ptr_add (mgga_tau func_x heap spin np rho_u rho_d)
            (start * (mgga_seg spin).getD 3 0))).zk)
        (lib.xc_mgga func_x n
          (ptr_add (mgga_rho heap spin np rho_u rho_d) (start * (mgga_seg spin).getD 0 0))
          (ptr_add (mgga_sigma heap spin np rho_u rho_d) (start * (mgga_seg spin).getD 1 0))
          (ptr_add (mgga_lapl func_x heap spin np rho_u rho_d)
            (start * (mgga_seg spin).getD 2 0))
          (ptr_add (mgga_tau func_x heap spin np rho_u rho_d)
            (start * (mgga_seg spin).getD 3 0))).v
        (lib.xc_mgga func_x n
          (ptr_add (mgga_rho heap spin np rho_u rho_d) (start * (mgga_seg spin).getD 0 0))
          (ptr_add (mgga_sigma heap spin np rho_u rho_d) (start * (mgga_seg spin).getD 1 0))
          (ptr_add (mgga_lapl func_x heap spin np rho_u rho_d)
            (start * (mgga_seg spin).getD 2 0))
          (ptr_add (mgga_tau func_x heap spin np rho_u rho_d)
            (start * (mgga_seg spin).getD 3 0))).f
        (fun _ _ => mem 0)
        (mgga_invoke_ptrs vxc np _ 4 start v_uninit st.pv)
        (mgga_invoke_ptrs fxc np _ 10 start f_uninit st.pf)
        (if_neg (fun h => h rfl)).symm ?_ ?_
        (fun _ => by omega) (fun _ => by omega) (fun h => absurd rfl h) hsn hinv
      · show _ = kernel_store _ st.pk [] n _
        rw [hpk0]
        rfl
      · show _ = st.calls ++ [⟨_, _, _, st.pk⟩]
        rw [hpk0]
        rfl)
    { mem := mem, pv := (List.range 4).map fun _ => NULL,
      pf := (List.range 10).map fun _ => NULL, pk := [], calls := [] }
    (by
      refine ⟨⟨fun _ q hq => ?_, fun _ q hq => ?_,
          fun _ q hq => absurd hq (List.not_mem_nil q)⟩,
        ⟨rfl, rfl, rfl⟩, fun c hc => absurd hc (List.not_mem_nil c), fun p _ _ _ _ => rfl⟩
      all_goals
        simp only [List.mem_map] at hq
        obtain ⟨_, _, rfl⟩ := hq
        rfl)
  refine ⟨fun c hc => ?_, fun p h1 h2 h3 => key.2.2.2 p h1 h2 h3 (Or.inl rfl)⟩
  obtain ⟨⟨n1, n2, _⟩, l1, l2, l3⟩ := key.2.2.1 c hc
  exact ⟨⟨n1, n2, List.length_eq_zero.mp l3⟩, l1, l2⟩

theorem mgga_ptr_log [Add α] [Mul α] (lib : xc_library α) (nthreads : Nat)
    (heap : Nat → Nat → α) (func_x : xc_func_type α) (spin : Int) (np : Nat)
    (rho_u rho_d : Nat → α) (ex vxc fxc kxc : Nat) (v_uninit f_uninit : List Nat)
    (mem : Nat → α) :
    (_eval_xc_mgga_ptr lib nthreads heap func_x spin np rho_u rho_d ex vxc fxc kxc
        v_uninit f_uninit mem).calls.map kernel_args.pex
      = (List.range (chunk_nblk nthreads np)).map
            (fun iblk => ex + iblk * chunk_blk_size nthreads np)
          ++ (if np - chunk_nblk nthreads np * chunk_blk_size nthreads np > 0
              then [ex + chunk_nblk nthreads np * chunk_blk_size nthreads np] else []) := by
  unfold _eval_xc_mgga_ptr
  simp only []
  rw [chunked_state_log (fun st : ptr_state α => st.calls.map kernel_args.pex)
    (fun start => ex + start) _ (fun start n st => by simp [mgga_invoke])]
  simp

end EvaluatorInvariants

section Views

variable {α : Type}

/-- A relation between a run of the parallel region on one state and a run on another that
every kernel invocation on points inside `[0, np)` keeps, holds after the region. -/
theorem chunked_state_rel {σ τ : Type} (Rel : σ → τ → Prop) (call1 : Nat → Nat → σ → σ)
    (call2 : Nat → Nat → τ → τ) (nthreads np : Nat)
    (hstep : ∀ start n s t, start + n ≤ np → Rel s t →
      Rel (call1 start n s) (call2 start n t))
    (s : σ) (t : τ) (h : Rel s t) :
    Rel (chunked_state nthreads np call1 s) (chunked_state nthreads np call2 t) := by
  have hle := chunk_blocks_le nthreads np
  unfold chunk_blk_size chunk_nblk at hle
  unfold chunked_state
  simp only []
  generalize (if np < nthreads then 1 else nthreads) = nblk at hle ⊢
  generalize np / nblk = blk at hle ⊢
  have hfold : ∀ k, k ≤ nblk →
      Rel ((List.range k).foldl (fun s iblk => call1 (iblk * blk) blk s) s)
        ((List.range k).foldl (fun t iblk => call2 (iblk * blk) blk t) t) := by
    intro k
    induction k with
    | zero => intro _; exact h
    | succ k ih =>
      intro hk
      rw [List.range_succ, List.foldl_append, List.foldl_append]
      simp only [List.foldl_cons, List.foldl_nil]
      refine hstep (k * blk) blk _ _ ?_ (ih (by omega))
      calc k * blk + blk = (k + 1) * blk := by ring
        _ ≤ nblk * blk := Nat.mul_le_mul_right _ hk
        _ ≤ np := hle
  by_cases hres : np - nblk * blk > 0
  · rw [if_pos hres, if_pos hres]
    exact hstep _ _ _ _ (by omega) (hfold nblk (le_refl _))
  · rw [if_neg hres, if_neg hres]
    exact hfold nblk (le_refl _)

/-- Seen from a buffer that is not `NULL`, the kernel's writes through pointers into the
buffer are the writes at the offsets of the pointers. -/
theorem kernel_store_view (m r : Nat → α) (buffer : Nat) (offs seg : List Nat) (n : Nat)
    (arr : Nat → Nat → α) (N : Nat) (hb : buffer ≠ NULL)
    (hagree : ∀ p, p < N → m (buffer + p) = r p) (p : Nat) (hp : p < N) :
    kernel_store m (offs.map fun o => buffer + o) seg n arr (buffer + p)
      = (List.range offs.length).foldl
          (fun buf j => store_block buf (offs.getD j 0) (n * seg.getD j 0) (arr j)) r p := by
  unfold kernel_store
  rw [List.length_map]
  have key : ∀ k, k ≤ offs.length → ∀ q, q < N →
      (List.range k).foldl
          (fun mem j =>
            if (offs.map fun o => buffer + o).getD j 0 ≠ NULL then
              store_block mem ((offs.map fun o => buffer + o).getD j 0) (n * seg.getD j 0)
                (arr j)
            else mem) m (buffer + q)
        = (List.range k).foldl
            (fun buf j => store_block buf (offs.getD j 0) (n * seg.getD j 0) (arr j)) r q := by
    intro k
    induction k with
    | zero => intro _ q hq; exact hagree q hq
    | succ k ih =>
      intro hk q hq
      rw [List.range_succ, List.foldl_append, List.foldl_append]
      simp only [List.foldl_cons, List.foldl_nil]
      have hget : (offs.map fun o => buffer + o).getD k 0 = buffer + offs.getD k 0 := by
        rw [List.getD_eq_getElem _ _ (by simpa using hk), List.getD_eq_getElem _ _ hk]
        simp
      have hne : buffer + offs.getD k 0 ≠ NULL := by
        unfold NULL at hb ⊢
        omega
      rw [hget, if_pos hne]
      unfold store_block
      by_cases hc : offs.getD k 0 ≤ q ∧ q < offs.getD k 0 + n * seg.getD k 0
      · rw [if_pos hc, if_pos (by omega)]
        congr 1
        omega
      · rw [if_neg hc, if_neg (by omega)]
        exact ih (by omega) q hq
  exact key _ (le_refl _) p hp

/-- The pointers of an invocation are the buffer plus the offsets
`np * B_j + start * s_j`. -/
theorem ptr_list_eq (buffer np : Nat) (seg : List Nat) (cnt start : Nat) (hcnt : 1 ≤ cnt) :
    (List.range cnt).map (fun i => (ptr_array buffer np seg cnt).getD i 0
        + start * seg.getD i 0)
      = ((List.range cnt).map fun i => np * seg_base seg i + start * seg.getD i 0).map
          fun o => buffer + o := by
  rw [List.map_map]
  apply List.map_congr_left
  intro i hi
  rw [List.mem_range] at hi
  simp only [Function.comp]
  rw [ptr_array_getD buffer np seg cnt i hcnt hi, Nat.add_assoc]

end Views

section Views2

variable {α : Type}

/-- One order at one invocation, seen from a buffer that is not `NULL`: the kernel's writes
through the pointers of the order are the writes at the offsets
`np * B_j + start * s_j` of the buffer. -/
theorem order_step_view (m r : Nat → α) (buffer np : Nat) (seg : List Nat)
    (cnt start n : Nat) (arr : Nat → Nat → α) (old new : List Nat)
    (hnew : new = if buffer ≠ NULL then
        (List.range cnt).map (fun i => (ptr_array buffer np seg cnt).getD i 0
          + start * seg.getD i 0)
      else old)
    (hb : buffer ≠ NULL) (hcnt : 1 ≤ cnt) (N : Nat)
    (hagree : ∀ p, p < N → m (buffer + p) = r p) (p : Nat) (hp : p < N) :
    kernel_store m new seg n arr (buffer + p)
      = (List.range cnt).foldl
          (fun buf j => store_block buf (np * seg_base seg j + start * seg.getD j 0)
            (n * seg.getD j 0) (arr j)) r p := by
  rw [hnew, if_pos hb, ptr_list_eq buffer np seg cnt start hcnt,
    kernel_store_view m r buffer _ seg n arr N hb hagree p hp]
  simp only [List.length_map, List.length_range]
  refine congrFun ?_ p
  apply List.foldl_ext
  intro buf j hj
  rw [List.mem_range] at hj
  rw [List.getD_eq_getElem _ _ (by simpa using hj)]
  simp only [List.getElem_map, List.getElem_range]

end Views2

section Views3

variable {α : Type}

/-- The kernel's writes of `zk` through `pex = ex + start`, seen from `ex`. -/
theorem pex_store_view (m : Nat → α) (e : Nat → α) (ex np start n : Nat)
    (zk : Nat → Nat → α) (hex : ex ≠ NULL)
    (hagree : ∀ p, p < np → m (ex + p) = e p) (p : Nat) (hp : p < np) :
    kernel_store m [ex + start] [1] n zk (ex + p) = store_block e start n (zk 0) p := by
  have h := kernel_store_view m e ex [start] [1] n zk np hex hagree p hp
  simp only [List.map_cons, List.map_nil] at h
  rw [h]
  simp [List.range_succ]

/-- The kernel's writes of `zk` through `pex = ex + start` stay inside `[ex, ex + np)`. -/
theorem pex_store_frame (m : Nat → α) (ex np start n : Nat) (zk : Nat → Nat → α)
    (hsn : start + n ≤ np) (p : Nat) (hp : ¬ (ex ≤ p ∧ p < ex + np)) :
    kernel_store m [ex + start] [1] n zk p = m p := by
  apply kernel_store_frame
  intro j hj _
  simp only [List.length_singleton, Nat.lt_one_iff] at hj
  subst hj
  simp only [List.getD_cons_zero]
  omega

end Views3

section Views4

variable {α : Type}

/-- One kernel invocation on points inside `[0, np)` keeps the correspondence between the
buffers of the evaluator and the memory behind the pointers `ex`, `vxc`, `fxc`, `kxc`, when
`ex` is not `NULL` and the buffers do not overlap: a `NULL` pointer goes with a `NULL`
buffer, and a buffer that is not `NULL` holds what memory holds from its pointer on. -/
theorem views_step (ex vxc fxc kxc np : Nat) (vseg fseg kseg : List Nat) (cv cf ck : Nat)
    (st st2 : ptr_state α) (e e2 : Nat → α) (bv bv2 bf bf2 bk bk2 : Option (Nat → α))
    (start n : Nat) (zk av af ak : Nat → Nat → α)
    (hex : ex ≠ NULL)
    (hpv : st2.pv = if vxc ≠ NULL then
        (List.range cv).map (fun i => (ptr_array vxc np vseg cv).getD i 0
          + start * vseg.getD i 0)
      else st.pv)
    (hpf : st2.pf = if fxc ≠ NULL then
        (List.range cf).map (fun i => (ptr_array fxc np fseg cf).getD i 0
          + start * fseg.getD i 0)
      else st.pf)
    (hpk : st2.pk = if kxc ≠ NULL then
        (List.range ck).map (fun i => (ptr_array kxc np kseg ck).getD i 0
          + start * kseg.getD i 0)
      else st.pk)
    (hmem : st2.mem = kernel_store (kernel_store (kernel_store
        (kernel_store st.mem [ex + start] [1] n zk) st2.pv vseg n av) st2.pf fseg n af)
        st2.pk kseg n ak)
    (he2 : e2 = store_block e start n (zk 0))
    (hv2 : bv2 = bv.map fun r => (List.range cv).foldl
        (fun buf j => store_block buf (np * seg_base vseg j + start * vseg.getD j 0)
          (n * vseg.getD j 0) (av j)) r)
    (hf2 : bf2 = bf.map fun r => (List.range cf).foldl
        (fun buf j => store_block buf (np * seg_base fseg j + start * fseg.getD j 0)
          (n * fseg.getD j 0) (af j)) r)
    (hk2 : bk2 = bk.map fun r => (List.range ck).foldl
        (fun buf j => store_block buf (np * seg_base kseg j + start * kseg.getD j 0)
          (n * kseg.getD j 0) (ak j)) r)
    (hcv : vxc ≠ NULL → 1 ≤ cv) (hcf : fxc ≠ NULL → 1 ≤ cf) (hck : kxc ≠ NULL → 1 ≤ ck)
    (hsn : start + n ≤ np)
    (hnull : (vxc = NULL → ∀ q ∈ st.pv, q = NULL) ∧ (fxc = NULL → ∀ q ∈ st.pf, q = NULL)
      ∧ (kxc = NULL → ∀ q ∈ st.pk, q = NULL))
    (hEV : vxc ≠ NULL → ∀ p, ex ≤ p ∧ p < ex + np →
      ¬ (vxc ≤ p ∧ p < vxc + np * seg_base vseg cv))
    (hEF : fxc ≠ NULL → ∀ p, ex ≤ p ∧ p < ex + np →
      ¬ (fxc ≤ p ∧ p < fxc + np * seg_base fseg cf))
    (hEK : kxc ≠ NULL → ∀ p, ex ≤ p ∧ p < ex + np →
      ¬ (kxc ≤ p ∧ p < kxc + np * seg_base kseg ck))
    (hVF : vxc ≠ NULL → fxc ≠ NULL → ∀ p, vxc ≤ p ∧ p < vxc + np * seg_base vseg cv →
      ¬ (fxc ≤ p ∧ p < fxc + np * seg_base fseg cf))
    (hVK : vxc ≠ NULL → kxc ≠ NULL → ∀ p, vxc ≤ p ∧ p < vxc + np * seg_base vseg cv →
      ¬ (kxc ≤ p ∧ p < kxc + np * seg_base kseg ck))
    (hFK : fxc ≠ NULL → kxc ≠ NULL → ∀ p, fxc ≤ p ∧ p < fxc + np * seg_base fseg cf →
      ¬ (kxc ≤ p ∧ p < kxc + np * seg_base kseg ck))
    (hview : (∀ p, p < np → st.mem (ex + p) = e p)
      ∧ ((vxc = NULL → bv = none) ∧ (vxc ≠ NULL → ∃ r, bv = some r
          ∧ ∀ p, p < np * seg_base vseg cv → st.mem (vxc + p) = r p))
      ∧ ((fxc = NULL → bf = none) ∧ (fxc ≠ NULL → ∃ r, bf = some r
          ∧ ∀ p, p < np * seg_base fseg cf → st.mem (fxc + p) = r p))
      ∧ ((kxc = NULL → bk = none) ∧ (kxc ≠ NULL → ∃ r, bk = some r
          ∧ ∀ p, p < np * seg_base kseg ck → st.mem (kxc + p) = r p))) :
    (∀ p, p < np → st2.mem (ex + p) = e2 p)
      ∧ ((vxc = NULL → bv2 = none) ∧ (vxc ≠ NULL → ∃ r, bv2 = some r
          ∧ ∀ p, p < np * seg_base vseg cv → st2.mem (vxc + p) = r p))
      ∧ ((fxc = NULL → bf2 = none) ∧ (fxc ≠ NULL → ∃ r, bf2 = some r
          ∧ ∀ p, p < np * seg_base fseg cf → st2.mem (fxc + p) = r p))
      ∧ ((kxc = NULL → bk2 = none) ∧ (kxc ≠ NULL → ∃ r, bk2 = some r
          ∧ ∀ p, p < np * seg_base kseg ck → st2.mem (kxc + p) = r p)) := by
  obtain ⟨nv, nf, nk⟩ := hnull
  obtain ⟨vwE, ⟨vwVn, vwV⟩, ⟨vwFn, vwF⟩, ⟨vwKn, vwK⟩⟩ := hview
  have fV : ∀ (m : Nat → α) p,
      (vxc = NULL ∨ ¬ (vxc ≤ p ∧ p < vxc + np * seg_base vseg cv)) →
      kernel_store m st2.pv vseg n av p = m p := fun m p h =>
    order_step_frame m vxc np vseg cv start n av p st.pv st2.pv hpv nv hcv hsn h
  have fF : ∀ (m : Nat → α) p,
      (fxc = NULL ∨ ¬ (fxc ≤ p ∧ p < fxc + np * seg_base fseg cf)) →
      kernel_store m st2.pf fseg n af p = m p := fun m p h =>
    order_step_frame m fxc np fseg cf start n af p st.pf st2.pf hpf nf hcf hsn h
  have fK : ∀ (m : Nat → α) p,
      (kxc = NULL ∨ ¬ (kxc ≤ p ∧ p < kxc + np * seg_base kseg ck)) →
      kernel_store m st2.pk kseg n ak p = m p := fun m p h =>
    order_step_frame m kxc np kseg ck start n ak p st.pk st2.pk hpk nk hck hsn h
  have fE : ∀ (m : Nat → α) p, ¬ (ex ≤ p ∧ p < ex + np) →
      kernel_store m [ex + start] [1] n zk p = m p := fun m p h =>
    pex_store_frame m ex np start n zk hsn p h
  have dEV : ∀ p, ex ≤ p ∧ p < ex + np →
      (vxc = NULL ∨ ¬ (vxc ≤ p ∧ p < vxc + np * seg_base vseg cv)) := by
    intro p hp
    by_cases h : vxc = NULL
    · exact Or.inl h
    · exact Or.inr (hEV h p hp)
  have dEF : ∀ p, ex ≤ p ∧ p < ex + np →
      (fxc = NULL ∨ ¬ (fxc ≤ p ∧ p < fxc + np * seg_base fseg cf)) := by
    intro p hp
    by_cases h : fxc = NULL
    · exact Or.inl h
    · exact Or.inr (hEF h p hp)
  have dEK : ∀ p, ex ≤ p ∧ p < ex + np →
      (kxc = NULL ∨ ¬ (kxc ≤ p ∧ p < kxc + np * seg_base kseg ck)) := by
    intro p hp
    by_cases h : kxc = NULL
    · exact Or.inl h
    · exact Or.inr (hEK h p hp)
  refine ⟨?_, ⟨?_, ?_⟩, ⟨?_, ?_⟩, ⟨?_, ?_⟩⟩
  · intro p hp
    have hin : ex ≤ ex + p ∧ ex + p < ex + np := ⟨by omega, by omega⟩
    rw [hmem, fK _ _ (dEK _ hin), fF _ _ (dEF _ hin), fV _ _ (dEV _ hin), he2]
    exact pex_store_view st.mem e ex np start n zk hex vwE p hp
  · intro h; rw [hv2, vwVn h]; rfl
  · intro hb
    obtain ⟨r, hr, hag⟩ := vwV hb
    refine ⟨_, by rw [hv2, hr]; rfl, ?_⟩
    intro p hp
    have hin : vxc ≤ vxc + p ∧ vxc + p < vxc + np * seg_base vseg cv := ⟨by omega, by omega⟩
    have hK : kxc = NULL ∨ ¬ (kxc ≤ vxc + p ∧ vxc + p < kxc + np * seg_base kseg ck) := by
      by_cases h : kxc = NULL
      · exact Or.inl h
      · exact Or.inr (hVK hb h _ hin)
    have hF : fxc = NULL ∨ ¬ (fxc ≤ vxc + p ∧ vxc + p < fxc + np * seg_base fseg cf) := by
      by_cases h : fxc = NULL
      · exact Or.inl h
      · exact Or.inr (hVF hb h _ hin)
    rw [hmem, fK _ _ hK, fF _ _ hF]
    refine order_step_view _ r vxc np vseg cv start n av st.pv st2.pv hpv hb (hcv hb) _ ?_ p hp
    intro q hq
    rw [fE _ _ (fun h => hEV hb _ h ⟨by omega, by omega⟩)]
    exact hag q hq
  · intro h; rw [hf2, vwFn h]; rfl
  · intro hb
    obtain ⟨r, hr, hag⟩ := vwF hb
    refine ⟨_, by rw [hf2, hr]; rfl, ?_⟩
    intro p hp
    have hin : fxc ≤ fxc + p ∧ fxc + p < fxc + np * seg_base fseg cf := ⟨by omega, by omega⟩
    have hK : kxc = NULL ∨ ¬ (kxc ≤ fxc + p ∧ fxc + p < kxc + np * seg_base kseg ck) := by
      by_cases h : kxc = NULL
      · exact Or.inl h
      · exact Or.inr (hFK hb h _ hin)
    rw [hmem, fK _ _ hK]
    refine order_step_view _ r fxc np fseg cf start n af st.pf st2.pf hpf hb (hcf hb) _ ?_ p hp
    intro q hq
    have hinq : fxc ≤ fxc + q ∧ fxc + q < fxc + np * seg_base fseg cf := ⟨by omega, by omega⟩
    have hV : vxc = NULL ∨ ¬ (vxc ≤ fxc + q ∧ fxc + q < vxc + np * seg_base vseg cv) := by
      by_cases h : vxc = NULL
      · exact Or.inl h
      · exact Or.inr (fun hv => hVF h hb _ hv hinq)
    rw [fV _ _ hV, fE _ _ (fun h => hEF hb _ h hinq)]
    exact hag q hq
  · intro h; rw [hk2, vwKn h]; rfl
  · intro hb
    obtain ⟨r, hr, hag⟩ := vwK hb
    refine ⟨_, by rw [hk2, hr]; rfl, ?_⟩
    intro p hp
    rw [hmem]
    refine order_step_view _ r kxc np kseg ck start n ak st.pk st2.pk hpk hb (hck hb) _ ?_ p hp
    intro q hq
    have hinq : kxc ≤ kxc + q ∧ kxc + q < kxc + np * seg_base kseg ck := ⟨by omega, by omega⟩
    have hF : fxc = NULL ∨ ¬ (fxc ≤ kxc + q ∧ kxc + q < fxc + np * seg_base fseg cf) := by
      by_cases h : fxc = NULL
      · exact Or.inl h
      · exact Or.inr (fun hf => hFK h hb _ hf hinq)
    have hV : vxc = NULL ∨ ¬ (vxc ≤ kxc + q ∧ kxc + q < vxc + np * seg_base vseg cv) := by
      by_cases h : vxc = NULL
      · exact Or.inl h
      · exact Or.inr (fun hv => hVK h hb _ hv hinq)
    rw [fF _ _ hF, fV _ _ hV, fE _ _ (fun h => hEK hb _ h hinq)]
    exact hag q hq

end Views4

section Refinement

variable {α : Type}

/-- The buffers behind the pointers hold what memory holds. -/
theorem bufs_at_holds (mem : Nat → α) (p len : Nat) : holds_at mem p len (buffer_at mem p) := by
  unfold holds_at buffer_at
  refine ⟨fun h => if_neg (not_not.mpr h), fun h => ⟨ptr_add mem p, if_pos h, fun _ _ => rfl⟩⟩

/-- The evaluator `_eval_xc_lda` on the buffers behind the pointers computes what
`_eval_xc_lda_ptr` leaves in memory: when `ex` is not `NULL` and the buffers do not overlap,
`ex` and every derivative buffer that is not `NULL` hold, on their extents, the values of
memory behind the pointers, and a `NULL` pointer goes with a `NULL` buffer. -/
theorem lda_ptr_refines (lib : xc_library α) (nthreads : Nat) (heap : Nat → Nat → α)
    (func_x : xc_func_type α) (spin : Int) (np : Nat) (rho_u rho_d : Nat → α)
    (ex vxc fxc kxc : Nat) (mem : Nat → α) (hex : ex ≠ NULL)
    (hEV : vxc ≠ NULL → ∀ p, ex ≤ p ∧ p < ex + np →
      ¬ (vxc ≤ p ∧ p < vxc + np * seg_base [(lda_seg spin).getD 1 0] 1))
    (hEF : fxc ≠ NULL → ∀ p, ex ≤ p ∧ p < ex + np →
      ¬ (fxc ≤ p ∧ p < fxc + np * seg_base [(lda_seg spin).getD 2 0] 1))
    (hEK : kxc ≠ NULL → ∀ p, ex ≤ p ∧ p < ex + np →
      ¬ (kxc ≤ p ∧ p < kxc + np * seg_base [(lda_seg spin).getD 3 0] 1))
    (hVF : vxc ≠ NULL → fxc ≠ NULL →
      ∀ p, vxc ≤ p ∧ p < vxc + np * seg_base [(lda_seg spin).getD 1 0] 1 →
      ¬ (fxc ≤ p ∧ p < fxc + np * seg_base [(lda_seg spin).getD 2 0] 1))
    (hVK : vxc ≠ NULL → kxc ≠ NULL →
      ∀ p, vxc ≤ p ∧ p < vxc + np * seg_base [(lda_seg spin).getD 1 0] 1 →
      ¬ (kxc ≤ p ∧ p < kxc + np * seg_base [(lda_seg spin).getD 3 0] 1))
    (hFK : fxc ≠ NULL → kxc ≠ NULL →
      ∀ p, fxc ≤ p ∧ p < fxc + np * seg_base [(lda_seg spin).getD 2 0] 1 →
      ¬ (kxc ≤ p ∧ p < kxc + np * seg_base [(lda_seg spin).getD 3 0] 1)) :
    (∀ p, p < np →
        (_eval_xc_lda_ptr lib nthreads heap func_x spin np rho_u rho_d ex vxc fxc kxc
          mem).mem (ex + p)
        = (_eval_xc_lda lib nthreads heap func_x spin np rho_u rho_d
            (bufs_at mem ex vxc fxc kxc)).ex p)
      ∧ holds_at (_eval_xc_lda_ptr lib nthreads heap func_x spin np rho_u rho_d ex vxc fxc kxc
            mem).mem vxc (np * seg_base [(lda_seg spin).getD 1 0] 1)
          (_eval_xc_lda lib nthreads heap func_x spin np rho_u rho_d
            (bufs_at mem ex vxc fxc kxc)).vxc
      ∧ holds_at (_eval_xc_lda_ptr lib nthreads heap func_x spin np rho_u rho_d ex vxc fxc kxc
            mem).mem fxc (np * seg_base [(lda_seg spin).getD 2 0] 1)
          (_eval_xc_lda lib nthreads heap func_x spin np rho_u rho_d
            (bufs_at mem ex vxc fxc kxc)).fxc
      ∧ holds_at (_eval_xc_lda_ptr lib nthreads heap func_x spin np rho_u rho_d ex vxc fxc kxc
            mem).mem kxc (np * seg_base [(lda_seg spin).getD 3 0] 1)
          (_eval_xc_lda lib nthreads heap func_x spin np rho_u rho_d
            (bufs_at mem ex vxc fxc kxc)).kxc := by
  unfold _eval_xc_lda_ptr _eval_xc_lda
  simp only []
  rw [chunked_eq_chunked_state]
  refine (chunked_state_rel
    (fun (b : xc_bufs α) (st : ptr_state α) =>
      (((vxc = NULL → ∀ q ∈ st.pv, q = NULL) ∧ (fxc = NULL → ∀ q ∈ st.pf, q = NULL)
          ∧ (kxc = NULL → ∀ q ∈ st.pk, q = NULL))
        ∧ (st.pv.length = 1 ∧ st.pf.length = 1 ∧ st.pk.length = 1)
        ∧ (∀ c ∈ st.calls,
            ((vxc = NULL → ∀ q ∈ c.pv, q = NULL) ∧ (fxc = NULL → ∀ q ∈ c.pf, q = NULL)
              ∧ (kxc = NULL → ∀ q ∈ c.pk, q = NULL))
            ∧ (c.pv.length = 1 ∧ c.pf.length = 1 ∧ c.pk.length = 1))
        ∧ (∀ p, ¬ (ex ≤ p ∧ p < ex + np) →
            (vxc = NULL ∨ ¬ (vxc ≤ p ∧ p < vxc + np * seg_base [(lda_seg spin).getD 1 0] 1)) →
            (fxc = NULL ∨ ¬ (fxc ≤ p ∧ p < fxc + np * seg_base [(lda_seg spin).getD 2 0] 1)) →
            (kxc = NULL ∨ ¬ (kxc ≤ p ∧ p < kxc + np * seg_base [(lda_seg spin).getD 3 0] 1)) →
            st.mem p = mem p))
      ∧ ((∀ p, p < np → st.mem (ex + p) = b.ex p)
        ∧ holds_at st.mem vxc (np * seg_base [(lda_seg spin).getD 1 0] 1) b.vxc
        ∧ holds_at st.mem fxc (np * seg_base [(lda_seg spin).getD 2 0] 1) b.fxc
        ∧ holds_at st.mem kxc (np * seg_base [(lda_seg spin).getD 3 0] 1) b.kxc))
    _ _ nthreads np ?_ _ _ ?_).2
  · intro start n b st hsn hrel
    obtain ⟨hinv, hview⟩ := hrel
    refine ⟨invoke_step ex vxc fxc kxc np [(lda_seg spin).getD 1 0] [(lda_seg spin).getD 2 0]
      [(lda_seg spin).getD 3 0] 1 1 1 mem st _ start n _ _ _ _ rfl rfl rfl rfl rfl
      (fun _ => le_refl _) (fun _ => le_refl _) (fun _ => le_refl _) hsn hinv, ?_⟩
    refine views_step ex vxc fxc kxc np [(lda_seg spin).getD 1 0] [(lda_seg spin).getD 2 0]
      [(lda_seg spin).getD 3 0] 1 1 1 st _ b.ex _ b.vxc _ b.fxc _ b.kxc _ start n
      (fun _ => _) _ _ _ hex rfl rfl rfl rfl rfl ?_ ?_ ?_
      (fun _ => le_refl _) (fun _ => le_refl _) (fun _ => le_refl _) hsn hinv.1
      hEV hEF hEK hVF hVK hFK hview
    all_goals
      show Option.map _ _ = Option.map _ _
      congr 1
      funext r
      simp [seg_base, List.range_succ]
  · refine ⟨⟨⟨fun _ q hq => ?_, fun _ q hq => ?_, fun _ q hq => ?_⟩, ⟨rfl, rfl, rfl⟩,
      fun c hc => absurd hc (List.not_mem_nil c), fun p _ _ _ _ => rfl⟩,
      fun _ _ => rfl, bufs_at_holds _ _ _, bufs_at_holds _ _ _, bufs_at_holds _ _ _⟩
    all_goals
      simp only [List.mem_singleton] at hq
      exact hq

end Refinement

section Refinement2

variable {α : Type}

/-- The evaluator `_eval_xc_gga` on the buffers behind the pointers computes what
`_eval_xc_gga_ptr` leaves in memory: when `ex` is not `NULL` and the buffers do not overlap,
`ex` and every derivative buffer that is not `NULL` hold, on their extents, the values of
memory behind the pointers, and a `NULL` pointer goes with a `NULL` buffer. -/
theorem gga_ptr_refines [Add α] [Mul α] (lib : xc_library α) (nthreads : Nat)
    (heap : Nat → Nat → α) (func_x : xc_func_type α) (spin : Int) (np : Nat)
    (rho_u rho_d : Nat → α) (ex vxc fxc kxc : Nat) (mem : Nat → α) (hex : ex ≠ NULL)
    (hEV : vxc ≠ NULL → ∀ p, ex ≤ p ∧ p < ex + np →
      ¬ (vxc ≤ p ∧ p < vxc + np * seg_base (gga_vseg spin) 2))
    (hEF : fxc ≠ NULL → ∀ p, ex ≤ p ∧ p < ex + np →
      ¬ (fxc ≤ p ∧ p < fxc + np * seg_base (gga_fseg spin) 3))
    (hEK : kxc ≠ NULL → ∀ p, ex ≤ p ∧ p < ex + np →
      ¬ (kxc ≤ p ∧ p < kxc + np * seg_base (gga_kseg spin) 4))
    (hVF : vxc ≠ NULL → fxc ≠ NULL →
      ∀ p, vxc ≤ p ∧ p < vxc + np * seg_base (gga_vseg spin) 2 →
      ¬ (fxc ≤ p ∧ p < fxc + np * seg_base (gga_fseg spin) 3))
    (hVK : vxc ≠ NULL → kxc ≠ NULL →
      ∀ p, vxc ≤ p ∧ p < vxc + np * seg_base (gga_vseg spin) 2 →
      ¬ (kxc ≤ p ∧ p < kxc + np * seg_base (gga_kseg spin) 4))
    (hFK : fxc ≠ NULL → kxc ≠ NULL →
      ∀ p, fxc ≤ p ∧ p < fxc + np * seg_base (gga_fseg spin) 3 →
      ¬ (kxc ≤ p ∧ p < kxc + np * seg_base (gga_kseg spin) 4)) :
    (∀ p, p < np →
        (_eval_xc_gga_ptr lib nthreads heap func_x spin np rho_u rho_d ex vxc fxc kxc
          mem).mem (ex + p)
        = (_eval_xc_gga lib nthreads heap func_x spin np rho_u rho_d
            (bufs_at mem ex vxc fxc kxc)).ex p)
      ∧ holds_at (_eval_xc_gga_ptr lib nthreads heap func_x spin np rho_u rho_d ex vxc fxc kxc
            mem).mem vxc (np * seg_base (gga_vseg spin) 2)
          (_eval_xc_gga lib nthreads heap func_x spin np rho_u rho_d
            (bufs_at mem ex vxc fxc kxc)).vxc
      ∧ holds_at (_eval_xc_gga_ptr lib nthreads heap func_x spin np rho_u rho_d ex vxc fxc kxc
            mem).mem fxc (np * seg_base (gga_fseg spin) 3)
          (_eval_xc_gga lib nthreads heap func_x spin np rho_u rho_d
            (bufs_at mem ex vxc fxc kxc)).fxc
      ∧ holds_at (_eval_xc_gga_ptr lib nthreads heap func_x spin np rho_u rho_d ex vxc fxc kxc
            mem).mem kxc (np * seg_base (gga_kseg spin) 4)
          (_eval_xc_gga lib nthreads heap func_x spin np rho_u rho_d
            (bufs_at mem ex vxc fxc kxc)).kxc := by
  unfold _eval_xc_gga_ptr _eval_xc_gga
  simp only []
  rw [chunked_eq_chunked_state]
  refine (chunked_state_rel
    (fun (b : xc_bufs α) (st : ptr_state α) =>
      (((vxc = NULL → ∀ q ∈ st.pv, q = NULL) ∧ (fxc = NULL → ∀ q ∈ st.pf, q = NULL)
          ∧ (kxc = NULL → ∀ q ∈ st.pk, q = NULL))
        ∧ (st.pv.length = 2 ∧ st.pf.length = 3 ∧ st.pk.length = 4)
        ∧ (∀ c ∈ st.calls,
            ((vxc = NULL → ∀ q ∈ c.pv, q = NULL) ∧ (fxc = NULL → ∀ q ∈ c.pf, q = NULL)
              ∧ (kxc = NULL → ∀ q ∈ c.pk, q = NULL))
            ∧ (c.pv.length = 2 ∧ c.pf.length = 3 ∧ c.pk.length = 4))
        ∧ (∀ p, ¬ (ex ≤ p ∧ p < ex + np) →
            (vxc = NULL ∨ ¬ (vxc ≤ p ∧ p < vxc + np * seg_base (gga_vseg spin) 2)) →
            (fxc = NULL ∨ ¬ (fxc ≤ p ∧ p < fxc + np * seg_base (gga_fseg spin) 3)) →
            (kxc = NULL ∨ ¬ (kxc ≤ p ∧ p < kxc + np * seg_base (gga_kseg spin) 4)) →
            st.mem p = mem p))
      ∧ ((∀ p, p < np → st.mem (ex + p) = b.ex p)
        ∧ holds_at st.mem vxc (np * seg_base (gga_vseg spin) 2) b.vxc
        ∧ holds_at st.mem fxc (np * seg_base (gga_fseg spin) 3) b.fxc
        ∧ holds_at st.mem kxc (np * seg_base (gga_kseg spin) 4) b.kxc))
    _ _ nthreads np ?_ _ _ ?_).2
  · intro start n b st hsn hrel
    obtain ⟨hinv, hview⟩ := hrel
    refine ⟨invoke_step ex vxc fxc kxc np (gga_vseg spin) (gga_fseg spin) (gga_kseg spin) 2 3 4
      mem st _ start n _ _ _ _ (gga_invoke_pv vxc np _ start st.pv)
      (gga_invoke_pf fxc np _ start st.pf) (gga_invoke_pk kxc np _ start st.pk) rfl rfl
      (fun _ => by omega) (fun _ => by omega) (fun _ => by omega) hsn hinv, ?_⟩
    refine views_step ex vxc fxc kxc np (gga_vseg spin) (gga_fseg spin) (gga_kseg spin) 2 3 4
      st _ b.ex _ b.vxc _ b.fxc _ b.kxc _ start n
      (fun _ => _) _ _ _ hex (gga_invoke_pv vxc np _ start st.pv)
      (gga_invoke_pf fxc np _ start st.pf) (gga_invoke_pk kxc np _ start st.pk) rfl rfl
      ?_ ?_ ?_
      (fun _ => by omega) (fun _ => by omega) (fun _ => by omega) hsn hinv.1
      hEV hEF hEK hVF hVK hFK hview
    all_goals
      show Option.map _ _ = Option.map _ _
      congr 1
      funext r
      simp [seg_base, List.range_succ, Nat.mul_add, Nat.add_assoc, gga_rho, gga_sigma]
  · refine ⟨⟨⟨fun _ q hq => ?_, fun _ q hq => ?_, fun _ q hq => ?_⟩, ⟨rfl, rfl, rfl⟩,
      fun c hc => absurd hc (List.not_mem_nil c), fun p _ _ _ _ => rfl⟩,
      fun _ _ => rfl, bufs_at_holds _ _ _, bufs_at_holds _ _ _, bufs_at_holds _ _ _⟩
    all_goals
      simp only [List.mem_cons, List.mem_singleton, List.not_mem_nil, or_false, or_self] at hq
      exact hq

end Refinement2

section Refinement3

variable {α : Type}

/-- The writes of one order of `_eval_xc_mgga` are the writes at the offsets
`np * B_j + start * s_j`. -/
theorem mgga_store_eq (r : Nat → α) (np : Nat) (seg : List Nat) (cnt : Nat)
    (arr : Nat → Nat → α) (start n : Nat) (hcnt : 1 ≤ cnt) :
    mgga_store r (mgga_ptrs np seg cnt) seg cnt arr start n
      = (List.range cnt).foldl
          (fun buf j => store_block buf (np * seg_base seg j + start * seg.getD j 0)
            (n * seg.getD j 0) (arr j)) r := by
  unfold mgga_store
  apply List.foldl_ext
  intro buf j hj
  rw [List.mem_range] at hj
  rw [mgga_ptrs_getD np seg cnt j hcnt hj]

/-- The evaluator `_eval_xc_mgga` on the buffers behind the pointers computes what
`_eval_xc_mgga_ptr` leaves in memory: when `ex` is not `NULL` and the buffers do not overlap,
`ex`, `vxc` and `fxc` hold, on their extents, the values of memory behind the pointers, a
`NULL` pointer goes with a `NULL` buffer, and `kxc` is the buffer it was. -/
theorem mgga_ptr_refines [Add α] [Mul α] (lib : xc_library α) (nthreads : Nat)
    (heap : Nat → Nat → α) (func_x : xc_func_type α) (spin : Int) (np : Nat)
    (rho_u rho_d : Nat → α) (ex vxc fxc kxc : Nat) (v_uninit f_uninit : List Nat)
    (mem : Nat → α) (hex : ex ≠ NULL)
    (hEV : vxc ≠ NULL → ∀ p, ex ≤ p ∧ p < ex + np →
      ¬ (vxc ≤ p ∧ p < vxc + np * seg_base (mgga_vseg spin) 4))
    (hEF : fxc ≠ NULL → ∀ p, ex ≤ p ∧ p < ex + np →
      ¬ (fxc ≤ p ∧ p < fxc + np * seg_base (mgga_fseg spin) 10))
    (hVF : vxc ≠ NULL → fxc ≠ NULL →
      ∀ p, vxc ≤ p ∧ p < vxc + np * seg_base (mgga_vseg spin) 4 →
      ¬ (fxc ≤ p ∧ p < fxc + np * seg_base (mgga_fseg spin) 10)) :
    (∀ p, p < np →
        (_eval_xc_mgga_ptr lib nthreads heap func_x spin np rho_u rho_d ex vxc fxc kxc
          v_uninit f_uninit mem).mem (ex + p)
        = (_eval_xc_mgga lib nthreads heap func_x spin np rho_u rho_d
            (bufs_at mem ex vxc fxc kxc)).ex p)
      ∧ holds_at (_eval_xc_mgga_ptr lib nthreads heap func_x spin np rho_u rho_d ex vxc fxc
            kxc v_uninit f_uninit mem).mem vxc (np * seg_base (mgga_vseg spin) 4)
          (_eval_xc_mgga lib nthreads heap func_x spin np rho_u rho_d
            (bufs_at mem ex vxc fxc kxc)).vxc
      ∧ holds_at (_eval_xc_mgga_ptr lib nthreads heap func_x spin np rho_u rho_d ex vxc fxc
            kxc v_uninit f_uninit mem).mem fxc (np * seg_base (mgga_fseg spin) 10)
          (_eval_xc_mgga lib nthreads heap func_x spin np rho_u rho_d
            (bufs_at mem ex vxc fxc kxc)).fxc
      ∧ (_eval_xc_mgga lib nthreads heap func_x spin np rho_u rho_d
            (bufs_at mem ex vxc fxc kxc)).kxc = buffer_at mem kxc := by
  have key := chunked_state_rel
    (fun (b : xc_bufs α) (st : ptr_state α) =>
      (((vxc = NULL → ∀ q ∈ st.pv, q = NULL) ∧ (fxc = NULL → ∀ q ∈ st.pf, q = NULL)
          ∧ (NULL = NULL → ∀ q ∈ st.pk, q = NULL))
        ∧ (st.pv.length = 4 ∧ st.pf.length = 10 ∧ st.pk.length = 0)
        ∧ (∀ c ∈ st.calls,
            ((vxc = NULL → ∀ q ∈ c.pv, q = NULL) ∧ (fxc = NULL → ∀ q ∈ c.pf, q = NULL)
              ∧ (NULL = NULL → ∀ q ∈ c.pk, q = NULL))
            ∧ (c.pv.length = 4 ∧ c.pf.length = 10 ∧ c.pk.length = 0))
        ∧ (∀ p, ¬ (ex ≤ p ∧ p < ex + np) →
            (vxc = NULL ∨ ¬ (vxc ≤ p ∧ p < vxc + np * seg_base (mgga_vseg spin) 4)) →
            (fxc = NULL ∨ ¬ (fxc ≤ p ∧ p < fxc + np * seg_base (mgga_fseg spin) 10)) →
            (NULL = NULL ∨ ¬ (NULL ≤ p ∧ p < NULL + np * seg_base [] 0)) →
            st.mem p = mem p))
      ∧ ((∀ p, p < np → st.mem (ex + p) = b.ex p)
        ∧ holds_at st.mem vxc (np * seg_base (mgga_vseg spin) 4) b.vxc
        ∧ holds_at st.mem fxc (np * seg_base (mgga_fseg spin) 10) b.fxc
        ∧ b.kxc = buffer_at mem kxc))
    (mgga_call lib func_x (mgga_seg spin) (mgga_vseg spin) (mgga_fseg spin) np
      (mgga_rho heap spin np rho_u rho_d) (mgga_sigma heap spin np rho_u rho_d)
      (mgga_lapl func_x heap spin np rho_u rho_d) (mgga_tau func_x heap spin np rho_u rho_d))
    (mgga_invoke lib func_x (mgga_seg spin) (mgga_vseg spin) (mgga_fseg spin)
      (mgga_rho heap spin np rho_u rho_d) (mgga_sigma heap spin np rho_u rho_d)
      (mgga_lapl func_x heap spin np rho_u rho_d) (mgga_tau func_x heap spin np rho_u rho_d)
      ex vxc fxc (if vxc ≠ NULL then ptr_array vxc np (mgga_vseg spin) 4 else v_uninit)
      (if fxc ≠ NULL then ptr_array fxc np (mgga_fseg spin) 10 else f_uninit))
    nthreads np
    (by
      intro start n b st hsn hrel
      obtain ⟨hinv, hvE, hvV, hvF, hvK⟩ := hrel
      have hpk0 : st.pk = [] := List.length_eq_zero.mp hinv.2.1.2.2
      have main : ∀ (st2 : ptr_state α) (out : xc_out α),
          st2 = mgga_invoke lib func_x (mgga_seg spin) (mgga_vseg spin) (mgga_fseg spin)
            (mgga_rho heap spin np rho_u rho_d) (mgga_sigma heap spin np rho_u rho_d)
            (mgga_lapl func_x heap spin np rho_u rho_d)
            (mgga_tau func_x heap spin np rho_u rho_d)
            ex vxc fxc (if vxc ≠ NULL then ptr_array vxc np (mgga_vseg spin) 4 else v_uninit)
            (if fxc ≠ NULL then ptr_array fxc np (mgga_fseg spin) 10 else f_uninit)
            start n st →
          out = lib.xc_mgga func_x n
            (ptr_add (mgga_rho heap spin np rho_u rho_d) (start * (mgga_seg spin).getD 0 0))
            (ptr_add (mgga_sigma heap spin np rho_u rho_d) (start * (mgga_seg spin).getD 1 0))
            (ptr_add (mgga_lapl func_x heap spin np rho_u rho_d)
              (start * (mgga_seg spin).getD 2 0))
            (ptr_add (mgga_tau func_x heap spin np rho_u rho_d)
              (start * (mgga_seg spin).getD 3 0)) →
          (st2.pv = if vxc ≠ NULL then
              (List.range 4).map (fun i => (ptr_array vxc np (mgga_vseg spin) 4).getD i 0
                + start * (mgga_vseg spin).getD i 0)
            else st.pv)
          ∧ (st2.pf = if fxc ≠ NULL then
              (List.range 10).map (fun i => (ptr_array fxc np (mgga_fseg spin) 10).getD i 0
                + start * (mgga_fseg spin).getD i 0)
            else st.pf)
          ∧ (st2.pk = if NULL ≠ NULL then
              (List.range 0).map (fun i => (ptr_array NULL np [] 0).getD i 0
                + start * ([] : List Nat).getD i 0)
            else st.pk)
          ∧ (st2.mem = kernel_store (kernel_store (kernel_store
              (kernel_store st.mem [ex + start] [1] n (fun _ => out.zk))
                st2.pv (mgga_vseg spin) n out.v) st2.pf (mgga_fseg spin) n out.f)
                st2.pk [] n (fun _ _ => mem 0))
          ∧ (st2.calls = st.calls ++ [⟨ex + start, st2.pv, st2.pf, st2.pk⟩])
          ∧ (mgga_call lib func_x (mgga_seg spin) (mgga_vseg spin) (mgga_fseg spin) np
              (mgga_rho heap spin np rho_u rho_d) (mgga_sigma heap spin np rho_u rho_d)
              (mgga_lapl func_x heap spin np rho_u rho_d)
              (mgga_tau func_x heap spin np rho_u rho_d) start n b)
            = { ex := store_block b.ex start n out.zk
                vxc := b.vxc.map fun r =>
                  mgga_store r (mgga_ptrs np (mgga_vseg spin) 4) (mgga_vseg spin) 4 out.v
                    start n
                fxc := b.fxc.map fun r =>
                  mgga_store r (mgga_ptrs np (mgga_fseg spin) 10) (mgga_fseg spin) 10 out.f
                    start n
                kxc := b.kxc } := by
        intro st2 out hst2 hout
        subst hst2 hout
        refine ⟨mgga_invoke_ptrs vxc np _ 4 start v_uninit st.pv,
          mgga_invoke_ptrs fxc np _ 10 start f_uninit st.pf,
          (if_neg (fun h => h rfl)).symm, ?_, ?_, rfl⟩
        · show _ = kernel_store _ st.pk [] n _
          rw [hpk0]
          rfl
        · show _ = st.calls ++ [⟨_, _, _, st.pk⟩]
          rw [hpk0]
          rfl
      obtain ⟨hpv, hpf, hpk, hmem0, hcalls0, hcall⟩ := main _ _ rfl rfl
      rw [hcall]
      refine ⟨invoke_step ex vxc fxc NULL np (mgga_vseg spin) (mgga_fseg spin) [] 4 10 0
        mem st _ start n _ _ _ _ hpv hpf hpk hmem0 hcalls0
        (fun _ => by omega) (fun _ => by omega) (fun h => absurd rfl h) hsn hinv, ?_⟩
      have hv := views_step ex vxc fxc NULL np (mgga_vseg spin) (mgga_fseg spin) [] 4 10 0
        st _ b.ex _ b.vxc _ b.fxc _ none none start n _ _ _ _ hex hpv hpf hpk hmem0 rfl
        (congrArg (fun g => b.vxc.map g) (funext fun r =>
          mgga_store_eq r np (mgga_vseg spin) 4 _ start n (by omega)))
        (congrArg (fun g => b.fxc.map g) (funext fun r =>
          mgga_store_eq r np (mgga_fseg spin) 10 _ start n (by omega)))
        rfl
        (fun _ => by omega) (fun _ => by omega) (fun h => absurd rfl h) hsn hinv.1
        hEV hEF (fun h => absurd rfl h) hVF (fun _ h => absurd rfl h)
        (fun _ h => absurd rfl h)
        ⟨hvE, hvV, hvF, fun _ => rfl, fun h => absurd rfl h⟩
      exact ⟨hv.1, hv.2.1, hv.2.2.1, hvK⟩)
    (bufs_at mem ex vxc fxc kxc)
    { mem := mem, pv := (List.range 4).map fun _ => NULL,
      pf := (List.range 10).map fun _ => NULL, pk := [], calls := [] }
    (by
      refine ⟨⟨⟨fun _ q hq => ?_, fun _ q hq => ?_,
          fun _ q hq => absurd hq (List.not_mem_nil q)⟩, ⟨rfl, rfl, rfl⟩,
        fun c hc => absurd hc (List.not_mem_nil c), fun p _ _ _ _ => rfl⟩,
        fun _ _ => rfl, bufs_at_holds _ _ _, bufs_at_holds _ _ _, rfl⟩
      all_goals
        simp only [List.mem_map, List.mem_range] at hq
        obtain ⟨_, _, h⟩ := hq
        exact h.symm)
  exact key.2

end Refinement3

/-- A sample run of `_eval_xc_gga_ptr` in polarized mode on three points with two threads,
`ex` at address `1`, `fxc` at address `100`, `vxc` and `kxc` being `NULL`: the pointer
arguments of the three kernel invocations.  The second-order pointers advance through the
sub-arrays `v2rho2` (from `100`), `v2rhosigma` (from `109`) and `v2sigma2` (from `127`); the
first-order and third-order pointers are `NULL`. -/
theorem gga_ptr_sample_calls :
    (_eval_xc_gga_ptr demo_library 2 (fun _ _ => 0) (.mk 101 XC_FAMILY_GGA 0 XC_POLARIZED 0 [])
        XC_POLARIZED 3 (fun p : Nat => (p : Int)) (fun p : Nat => (p : Int)) 1 NULL 100 NULL
        (fun _ => 0)).calls
      = [⟨1, [0, 0], [100, 109, 127], [0, 0, 0, 0]⟩,
         ⟨2, [0, 0], [103, 115, 133], [0, 0, 0, 0]⟩,
         ⟨3, [0, 0], [106, 121, 139], [0, 0, 0, 0]⟩] := by
  rfl

section ClaimsNull

variable {α : Type}

/-- C25: for each chunked evaluator, with the output buffers as pointers into memory
(`_eval_xc_lda_ptr`, `_eval_xc_gga_ptr`, `_eval_xc_mgga_ptr`), every `np` and every worker
count: the kernel is invoked once per equal-size block and once more for the remainder block
when that is not empty (the logged `pex` arguments); whenever the caller passes `NULL` for
`vxc`, `fxc` or `kxc`, every one of these invocations receives `NULL` for every pointer of that
order (`pvxc`, `pfxc`, `pkxc` for LDA; `pvxc, pvsigma`, `pfxc, pv2rhosigma, pv2sigma2`,
`pkxc, pv3rho2sigma, pv3rhosigma2, pv3sigma3` for GGA; `pv[0..4)`, `pf[0..10)` for MGGA, whose
kernel has no third-order argument); and after the evaluator every memory cell outside
`[ex, ex + np)` and outside the buffers that are not `NULL` holds the value it held before, so
nothing is written for an order whose buffer is `NULL`. -/
theorem null_buffers_receive_null [Add α] [Mul α] (lib : xc_library α) (nthreads : Nat)
    (heap : Nat → Nat → α) (func_x : xc_func_type α) (spin : Int) (np : Nat)
    (rho_u rho_d : Nat → α) (ex vxc fxc kxc : Nat) (v_uninit f_uninit : List Nat)
    (mem : Nat → α) :
    ((_eval_xc_lda_ptr lib nthreads heap func_x spin np rho_u rho_d ex vxc fxc kxc
          mem).calls.map kernel_args.pex
        = (List.range (chunk_nblk nthreads np)).map
              (fun iblk => ex + iblk * chunk_blk_size nthreads np)
            ++ (if np - chunk_nblk nthreads np * chunk_blk_size nthreads np > 0
                then [ex + chunk_nblk nthreads np * chunk_blk_size nthreads np] else [])
      ∧ (∀ c ∈ (_eval_xc_lda_ptr lib nthreads heap func_x spin np rho_u rho_d ex vxc fxc kxc
            mem).calls,
          ((vxc = NULL → ∀ q ∈ c.pv, q = NULL) ∧ (fxc = NULL → ∀ q ∈ c.pf, q = NULL)
            ∧ (kxc = NULL → ∀ q ∈ c.pk, q = NULL))
          ∧ (c.pv.length = 1 ∧ c.pf.length = 1 ∧ c.pk.length = 1))
      ∧ (∀ p, ¬ (ex ≤ p ∧ p < ex + np) →
          (vxc = NULL ∨ ¬ (vxc ≤ p ∧ p < vxc + np * seg_base [(lda_seg spin).getD 1 0] 1)) →
          (fxc = NULL ∨ ¬ (fxc ≤ p ∧ p < fxc + np * seg_base [(lda_seg spin).getD 2 0] 1)) →
          (kxc = NULL ∨ ¬ (kxc ≤ p ∧ p < kxc + np * seg_base [(lda_seg spin).getD 3 0] 1)) →
          (_eval_xc_lda_ptr lib nthreads heap func_x spin np rho_u rho_d ex vxc fxc kxc
            mem).mem p = mem p))
    ∧ ((_eval_xc_gga_ptr lib nthreads heap func_x spin np rho_u rho_d ex vxc fxc kxc
          mem).calls.map kernel_args.pex
        = (List.range (chunk_nblk nthreads np)).map
              (fun iblk => ex + iblk * chunk_blk_size nthreads np)
            ++ (if np - chunk_nblk nthreads np * chunk_blk_size nthreads np > 0
                then [ex + chunk_nblk nthreads np * chunk_blk_size nthreads np] else [])
      ∧ (∀ c ∈ (_eval_xc_gga_ptr lib nthreads heap func_x spin np rho_u rho_d ex vxc fxc kxc
            mem).calls,
          ((vxc = NULL → ∀ q ∈ c.pv, q = NULL) ∧ (fxc = NULL → ∀ q ∈ c.pf, q = NULL)
            ∧ (kxc = NULL → ∀ q ∈ c.pk, q = NULL))
          ∧ (c.pv.length = 2 ∧ c.pf.length = 3 ∧ c.pk.length = 4))
      ∧ (∀ p, ¬ (ex ≤ p ∧ p < ex + np) →
          (vxc = NULL ∨ ¬ (vxc ≤ p ∧ p < vxc + np * seg_base (gga_vseg spin) 2)) →
          (fxc = NULL ∨ ¬ (fxc ≤ p ∧ p < fxc + np * seg_base (gga_fseg spin) 3)) →
          (kxc = NULL ∨ ¬ (kxc ≤ p ∧ p < kxc + np * seg_base (gga_kseg spin) 4)) →
          (_eval_xc_gga_ptr lib nthreads heap func_x spin np rho_u rho_d ex vxc fxc kxc
            mem).mem p = mem p))
    ∧ ((_eval_xc_mgga_ptr lib nthreads heap func_x spin np rho_u rho_d ex vxc fxc kxc
          v_uninit f_uninit mem).calls.map kernel_args.pex
        = (List.range (chunk_nblk nthreads np)).map
              (fun iblk => ex + iblk * chunk_blk_size nthreads np)
            ++ (if np - chunk_nblk nthreads np * chunk_blk_size nthreads np > 0
                then [ex + chunk_nblk nthreads np * chunk_blk_size nthreads np] else [])
      ∧ (∀ c ∈ (_eval_xc_mgga_ptr lib nthreads heap func_x spin np rho_u rho_d ex vxc fxc kxc
            v_uninit f_uninit mem).calls,
          ((vxc = NULL → ∀ q ∈ c.pv, q = NULL) ∧ (fxc = NULL → ∀ q ∈ c.pf, q = NULL)
            ∧ c.pk = [])
          ∧ (c.pv.length = 4 ∧ c.pf.length = 10))
      ∧ (∀ p, ¬ (ex ≤ p ∧ p < ex + np) →
          (vxc = NULL ∨ ¬ (vxc ≤ p ∧ p < vxc + np * seg_base (mgga_vseg spin) 4)) →
          (fxc = NULL ∨ ¬ (fxc ≤ p ∧ p < fxc + np * seg_base (mgga_fseg spin) 10)) →
          (_eval_xc_mgga_ptr lib nthreads heap func_x spin np rho_u rho_d ex vxc fxc kxc
            v_uninit f_uninit mem).mem p = mem p)) :=
  ⟨⟨lda_ptr_log lib nthreads heap func_x spin np rho_u rho_d ex vxc fxc kxc mem,
      lda_ptr_inv lib nthreads heap func_x spin np rho_u rho_d ex vxc fxc kxc mem⟩,
    ⟨gga_ptr_log lib nthreads heap func_x spin np rho_u rho_d ex vxc fxc kxc mem,
      gga_ptr_inv lib nthreads heap func_x spin np rho_u rho_d ex vxc fxc kxc mem⟩,
    ⟨mgga_ptr_log lib nthreads heap func_x spin np rho_u rho_d ex vxc fxc kxc v_uninit
        f_uninit mem,
      mgga_ptr_inv lib nthreads heap func_x spin np rho_u rho_d ex vxc fxc kxc v_uninit
        f_uninit mem⟩⟩

/-- Witness of C25: `_eval_xc_gga_ptr` in polarized mode with the sample library on three
points with two threads, `ex` at address `1`, `fxc` at address `100`, `vxc` and `kxc` being
`NULL`: the kernel is invoked with `pex = 1, 2, 3` (two blocks of one point and the
remainder), every first-order pointer of every invocation is `NULL`, and cell `50` keeps its
value. -/
theorem null_buffers_receive_null_witness :
    (_eval_xc_gga_ptr demo_library 2 (fun _ _ => 0) (.mk 101 XC_FAMILY_GGA 0 XC_POLARIZED 0 [])
        XC_POLARIZED 3 (fun p : Nat => (p : Int)) (fun p : Nat => (p : Int)) 1 NULL 100 NULL
        (fun _ => 0)).calls.map kernel_args.pex = [1, 2, 3]
      ∧ (∀ c ∈ (_eval_xc_gga_ptr demo_library 2 (fun _ _ => 0)
          (.mk 101 XC_FAMILY_GGA 0 XC_POLARIZED 0 [])
          XC_POLARIZED 3 (fun p : Nat => (p : Int)) (fun p : Nat => (p : Int)) 1 NULL 100 NULL
          (fun _ => 0)).calls, ∀ q ∈ c.pv, q = NULL)
      ∧ (_eval_xc_gga_ptr demo_library 2 (fun _ _ => 0)
          (.mk 101 XC_FAMILY_GGA 0 XC_POLARIZED 0 [])
          XC_POLARIZED 3 (fun p : Nat => (p : Int)) (fun p : Nat => (p : Int)) 1 NULL 100 NULL
          (fun _ => 0)).mem 50 = 0 :=
  have h := (null_buffers_receive_null demo_library 2 (fun _ _ => 0)
    (.mk 101 XC_FAMILY_GGA 0 XC_POLARIZED 0 []) XC_POLARIZED 3 (fun p : Nat => (p : Int))
    (fun p : Nat => (p : Int)) 1 NULL 100 NULL [] [] (fun _ => 0)).2.1
  ⟨h.1, fun c hc => (h.2.1 c hc).1.1 rfl,
    h.2.2 50 (fun h => absurd h.2 (by decide)) (Or.inl rfl)
      (Or.inr (fun h => absurd h.1 (by decide))) (Or.inl rfl)⟩

end ClaimsNull

end Libxc
